import Mathlib

/-!
# MaxScale core: packet codec, shared-state propagator, routing worker

A shallow embedding of parts of `server/core/modutil.cc`,
`maxutils/maxbase/include/maxbase/gcupdater.hh` and `server/core/routingworker.cc`,
followed by theorems about the embedded functions.

Conventions.
* A byte is a `Nat`; where the source relies on the width of a machine integer the
  truncation is written out (`% 2 ^ 32`, `% 256`).
* A `GWBUF*` is a chain of segments, `List (List Nat)`; the empty chain is the null
  pointer, the head of the chain is the segment the pointer designates and the tail
  is `buffer->next`.
-/

set_option linter.unusedVariables false

namespace MaxScale

/-! ## Definitions -/

/-! ### Buffers and byte order -/

/-- A chain of buffer segments; `[]` is the null pointer. -/
abbrev GWBUF := List (List Nat)

/-- `GWBUF_LENGTH(b)`: the length of the segment `b` points to. -/
def GWBUF_LENGTH (b : GWBUF) : Nat :=
  match b with
  | [] => 0
  | seg :: _ => seg.length

/-- `gwbuf_length(b)`: the length of the whole chain (buffer.cc is not among the sources;
this is the documented meaning of the call). -/
def gwbuf_length (b : GWBUF) : Nat := b.flatten.length

/-- `gwbuf_copy_data(b, offset, bytes, dest)`: the bytes copied into `dest`; the C function
returns their number, which is smaller than `bytes` when the chain ends early
(buffer.cc is not among the sources; this is the documented meaning of the call). -/
def gwbuf_copy_data (b : GWBUF) (offset bytes : Nat) : List Nat :=
  (b.flatten.drop offset).take bytes

/-- `mariadb::get_byte3`, declared in mysql.hh: the integer stored lsb-first in three bytes. -/
def gw_mysql_get_byte3 (p : List Nat) : Nat :=
  p.getD 0 0 + p.getD 1 0 * 256 + p.getD 2 0 * 65536

/-- `mariadb::get_byte2`, declared in mysql.hh: the integer stored lsb-first in two bytes. -/
def gw_mysql_get_byte2 (p : List Nat) : Nat :=
  p.getD 0 0 + p.getD 1 0 * 256

/-- The value of type `int` left by a computation whose mathematical result is `x`: `x`
itself when it is in the range of `int`, otherwise `x` modulo `2 ^ 32` in that range. This is
what a narrowing conversion to `int` gives; signed arithmetic that leaves the range is
undefined, and the theorems that depend on such a sum assume that it stays in range. -/
def to_int (x : Int) : Int := (x + 2 ^ 31) % 2 ^ 32 - 2 ^ 31

def MYSQL_HEADER_LEN : Nat := 4
def MYSQL_EOF_PACKET_LEN : Nat := 9
def MYSQL_OK_PACKET_MIN_LEN : Nat := 11
def GW_MYSQL_MAX_PACKET_LEN : Nat := 0xffffff
def MYSQL_REPLY_ERR : Nat := 0xff
def MYSQL_REPLY_OK : Nat := 0x00
def MYSQL_REPLY_EOF : Nat := 0xfe

/-! ### `get_complete_packets_length` and `modutil_get_complete_packets` -/

/-- The inner loop of `get_complete_packets_length`:
`while (read_len >= buflen && buffer) { read_len -= buflen; buffer = buffer->next;
buflen = buffer ? GWBUF_LENGTH(buffer) : 0; }`.
Returns `(read_len, buflen, buffer)` at loop exit. -/
def skip_buffers : Nat → Nat → GWBUF → Nat × Nat × GWBUF
  | read_len, buflen, [] => (read_len, buflen, [])
  | read_len, buflen, seg :: next =>
    if read_len ≥ buflen then
      skip_buffers (read_len - buflen) (GWBUF_LENGTH next % 2 ^ 32) next
    else
      (read_len, buflen, seg :: next)

/-- The outer loop of `get_complete_packets_length`, one unit of fuel per iteration;
`none` when the fuel is used up before the loop ends. The state is the C function's:
`buffer`, `offset`, `total` and the 32-bit `buflen`. -/
def get_complete_packets_loop : Nat → GWBUF → Nat → Nat → Nat → Option Nat
  | 0, _, _, _, _ => none
  | fuel + 1, buffer, offset, total, buflen =>
    if buffer ≠ [] ∧ (gwbuf_copy_data buffer offset 3).length = 3 then
      let len := (gw_mysql_get_byte3 (gwbuf_copy_data buffer offset 3) + MYSQL_HEADER_LEN) % 2 ^ 32
      if len < buflen then
        get_complete_packets_loop fuel buffer (offset + len) (total + len) (buflen - len)
      else
        match skip_buffers len buflen buffer with
        | (read_len, buflen', buffer') =>
          if read_len = 0 ∨ (buffer' ≠ [] ∧ read_len < buflen') then
            get_complete_packets_loop fuel buffer' read_len (total + len) (buflen' - read_len)
          else
            some total
    else
      some total

/-- `get_complete_packets_length(buffer)`. Every iteration of the outer loop either
advances `offset` by at least one byte inside a segment or drops a segment, so
`gwbuf_length + number of segments + 1` iterations are enough. -/
def get_complete_packets_length (buffer : GWBUF) : Option Nat :=
  get_complete_packets_loop (gwbuf_length buffer + buffer.length + 1) buffer 0 0
    (GWBUF_LENGTH buffer % 2 ^ 32)

/-- `modutil_get_complete_packets(p_readbuf)`: the pair (returned chain of complete packets,
`*p_readbuf` afterwards), both given by their bytes, the null pointer being `[]`.
`gwbuf_split(p_readbuf, total)` cuts the chain after `total` bytes. -/
def modutil_get_complete_packets (readbuf : GWBUF) : Option (List Nat × List Nat) :=
  if readbuf = [] ∨ gwbuf_length readbuf < 3 then
    some ([], readbuf.flatten)
  else
    match get_complete_packets_length readbuf with
    | none => none
    | some total =>
      if gwbuf_length readbuf = total then
        some (readbuf.flatten, [])
      else if total > 0 then
        some (readbuf.flatten.take total, readbuf.flatten.drop total)
      else
        some ([], readbuf.flatten)

/-- A well-formed MySQL packet: three length bytes, a sequence byte, and exactly as many
payload bytes as the length bytes say. -/
def WellFormedPacket (p : List Nat) : Prop :=
  (∀ x ∈ p, x < 256) ∧ 4 ≤ p.length ∧ p.length = gw_mysql_get_byte3 p + 4

instance (p : List Nat) : Decidable (WellFormedPacket p) := by
  unfold WellFormedPacket; infer_instance

/-- A tail that is not a complete packet: fewer than three bytes, or fewer bytes than
its header announces. -/
def IncompleteTail (t : List Nat) : Prop :=
  (∀ x ∈ t, x < 256) ∧ (t.length < 3 ∨ t.length < gw_mysql_get_byte3 t + 4)

instance (t : List Nat) : Decidable (IncompleteTail t) := by
  unfold IncompleteTail; infer_instance

/-! ### `modutil_create_mysql_err_msg` -/

/-- `mariadb::set_byte2(buf, v)`, declared in mysql.hh with a `uint16_t` argument: the two
low-order bytes of `v`, lsb first. -/
def gw_mysql_set_byte2 (v : Nat) : List Nat := [v % 256, v / 256 % 256]

/-- `mariadb::set_byte3(buf, v)`, declared in mysql.hh: the three low-order bytes of `v`,
lsb first. -/
def gw_mysql_set_byte3 (v : Nat) : List Nat := [v % 256, v / 256 % 256, v / 65536 % 256]

/-- `modutil_create_mysql_err_msg(packet_number, affected_rows, merrno, statemsg, msg)`.
A `const char*` is `none` for the null pointer and otherwise the bytes before the
terminating NUL. The result is the content of the allocated buffer, `none` for `NULL`
(allocation failure is not modelled). Of `statemsg` exactly five bytes are copied; when
the string is shorter the model reads zeros after it. -/
def modutil_create_mysql_err_msg (packet_number : Int) (affected_rows : Int) (merrno : Int)
    (statemsg msg : Option (List Nat)) : Option (List Nat) :=
  match statemsg, msg with
  | some mysql_state, some mysql_error_msg =>
    let mysql_errno : Nat := (merrno % 2 ^ 32).toNat
    let field_count : Nat := 0xff
    let mysql_err := gw_mysql_set_byte2 mysql_errno
    let mysql_statemsg := 0x23 :: (mysql_state ++ [0, 0, 0, 0, 0]).take 5
    let mysql_payload_size := (1 + 2 + 6 + mysql_error_msg.length) % 2 ^ 32
    let mysql_packet_header :=
      gw_mysql_set_byte3 mysql_payload_size ++ [(packet_number % 256).toNat]
    some (mysql_packet_header ++ [field_count] ++ mysql_err ++ mysql_statemsg ++ mysql_error_msg)
  | _, _ => none

/-! ### `modutil_count_signal_packets` -/

/-- Server status flag `SERVER_MORE_RESULTS_EXIST` of the MySQL protocol (its defining header
is not among the sources; no theorem below depends on the value). -/
def SERVER_MORE_RESULTS_EXIST : Nat := 8

/-- Server status flag `SERVER_PS_OUT_PARAMS` of the MySQL protocol (its defining header is
not among the sources; no theorem below depends on the value). -/
def SERVER_PS_OUT_PARAMS : Nat := 4096

/-- The local enumerator `SKIP_NEXT` of `modutil_count_signal_packets`. -/
def SKIP_NEXT : Nat := 0x1

/-- The local enumerator `PS_OUT_PARAM` of `modutil_count_signal_packets`. -/
def PS_OUT_PARAM : Nat := 0x2

/-- The caller's `modutil_state`; its single field is a `uint8_t`. -/
structure modutil_state where
  state : Nat
  deriving DecidableEq, Repr

/-- The local variables of `modutil_count_signal_packets` that live across loop iterations. -/
structure CountVars where
  reply : GWBUF
  len : Nat
  offset : Nat
  eof : Int
  more : Bool
  only_ok : Bool
  num_packets : Nat
  internal_state : Nat
  deriving DecidableEq, Repr

/-- What a call of `modutil_count_signal_packets` leaves behind: the returned count,
`*more_out` and the caller's `modutil_state` (`none` when the pointer is null). -/
structure CountResult where
  ret : Int
  more_out : Bool
  state : Option modutil_state
  deriving DecidableEq, Repr

/-- Outcome of one loop iteration: an early `return`, or the variables for the next one. -/
inductive CountStep where
  | ret (r : Int) (more_out : Bool)
  | next (v : CountVars)
  deriving DecidableEq, Repr

/-- The tail of the loop body: `offset += pktlen;` followed by the move to the next segment
`if (offset >= GWBUF_LENGTH(reply) && reply->next) { len -= ...; offset -= ...; reply = reply->next; }`. -/
def count_signal_advance (pktlen : Nat) (v : CountVars) : CountVars :=
  let offset := v.offset + pktlen
  if offset ≥ GWBUF_LENGTH v.reply ∧ v.reply.tail ≠ [] then
    { v with len := v.len - GWBUF_LENGTH v.reply,
             offset := offset - GWBUF_LENGTH v.reply,
             reply := v.reply.tail }
  else
    { v with offset := offset }

/-- One iteration of the `while (offset < len)` loop of `modutil_count_signal_packets`.
`leint_bytes` is `mxq::leint_bytes` (not among the sources): the size of the length-encoded
integer that starts the given bytes. Bytes that the stream does not contain are read as 0
(the C arrays are uninitialised there), so the model follows the code only where the bytes
read lie in the stream: at packets with at least one payload byte and, in the OK branch,
under `OkReadable`. The test `(eof + n_found) % 2 == 0` only asks whether the sum is even,
which the wrap of an `int` does not change; `eof` stays below `len / 9`. -/
def count_signal_step (leint_bytes : List Nat → Nat) (n_found : Int) (v : CountVars) :
    CountStep :=
  let header := gwbuf_copy_data v.reply v.offset (MYSQL_HEADER_LEN + 1)
  let payloadlen := gw_mysql_get_byte3 header
  let pktlen := (payloadlen + MYSQL_HEADER_LEN) % 2 ^ 32
  let v := { v with num_packets := v.num_packets + 1 }
  if payloadlen = GW_MYSQL_MAX_PACKET_LEN then
    .next (count_signal_advance pktlen
      { v with only_ok := false, internal_state := v.internal_state ||| SKIP_NEXT })
  else if v.internal_state &&& SKIP_NEXT ≠ 0 then
    .next (count_signal_advance pktlen
      { v with only_ok := false, internal_state := v.internal_state &&& (0xff - SKIP_NEXT) })
  else
    let command := header.getD 4 0
    if command = MYSQL_REPLY_ERR then
      .ret 2 false
    else if command = MYSQL_REPLY_EOF ∧ pktlen = MYSQL_EOF_PACKET_LEN then
      let status := gwbuf_copy_data v.reply (v.offset + MYSQL_HEADER_LEN + 1 + 2) 2
      let more := decide (gw_mysql_get_byte2 status &&& SERVER_MORE_RESULTS_EXIST ≠ 0)
      let v := { v with eof := v.eof + 1, only_ok := false, more := more }
      if gw_mysql_get_byte2 status &&& SERVER_PS_OUT_PARAMS ≠ 0 then
        .next (count_signal_advance pktlen
          { v with internal_state := v.internal_state ||| PS_OUT_PARAM })
      else if v.internal_state &&& PS_OUT_PARAM ≠ 0 then
        .next (count_signal_advance pktlen
          { v with more := true, internal_state := v.internal_state &&& (0xff - PS_OUT_PARAM) })
      else
        .next (count_signal_advance pktlen v)
    else if command = MYSQL_REPLY_OK ∧ pktlen ≥ MYSQL_OK_PACKET_MIN_LEN
        ∧ (v.eof + n_found) % 2 = 0 then
      let data := gwbuf_copy_data v.reply (v.offset + MYSQL_HEADER_LEN + 1) (payloadlen - 1)
      let ptr := leint_bytes data
      let ptr := ptr + leint_bytes (data.drop ptr)
      let status := (data.drop ptr).take 2
      .next (count_signal_advance pktlen
        { v with more := decide (gw_mysql_get_byte2 status &&& SERVER_MORE_RESULTS_EXIST ≠ 0) })
    else
      .next (count_signal_advance pktlen { v with only_ok := false })

/-- The code after the loop of `modutil_count_signal_packets`. `err`, `eof`, `n_found` and
`total` are of type `int`. -/
def count_signal_finish (n_found : Int) (state : Option modutil_state) (v : CountVars) :
    CountResult :=
  let err : Int := 0
  let total := to_int (err + v.eof + n_found)
  let state := state.map (fun _ => ({ state := v.internal_state } : modutil_state))
  let total := if v.only_ok ∧ ¬ v.more ∧ v.num_packets > 1 then 2 else total
  { ret := total, more_out := v.more, state := state }

/-- The `while (offset < len)` loop of `modutil_count_signal_packets`, one unit of fuel per
iteration; `none` when the fuel is used up before the loop ends. An early `return 2` leaves
the caller's state as it was. -/
def count_signal_loop (leint_bytes : List Nat → Nat) (n_found : Int)
    (state : Option modutil_state) : Nat → CountVars → Option CountResult
  | 0, v =>
    if v.offset < v.len then none else some (count_signal_finish n_found state v)
  | fuel + 1, v =>
    if v.offset < v.len then
      match count_signal_step leint_bytes n_found v with
      | .ret r more_out => some { ret := r, more_out := more_out, state := state }
      | .next v' => count_signal_loop leint_bytes n_found state fuel v'
    else
      some (count_signal_finish n_found state v)

/-- The initialiser `uint8_t internal_state = state ? state->state : 0`. -/
def incoming_state (state : Option modutil_state) : Nat :=
  match state with
  | some s => s.state % 256
  | none => 0

/-- `modutil_count_signal_packets(reply, n_found, more_out, state)`. A packet of a byte
stream takes at least four bytes, so `len` iterations are enough. -/
def modutil_count_signal_packets (leint_bytes : List Nat → Nat) (reply : GWBUF)
    (n_found : Int) (state : Option modutil_state) : Option CountResult :=
  let len := gwbuf_length reply % 2 ^ 32
  let internal_state := incoming_state state
  count_signal_loop leint_bytes n_found state len
    { reply := reply, len := len, offset := 0, eof := 0, more := false, only_ok := true,
      num_packets := 0, internal_state := internal_state }

/-- A complete packet of ordinary size that `modutil_count_signal_packets` classifies neither
as ERR nor as OK: at least one payload byte, a payload length other than `0xFFFFFF`, a first
payload byte other than `0xFF`, and not (first payload byte `0x00` with at least 11 bytes). -/
def PlainPacket (p : List Nat) : Prop :=
  WellFormedPacket p ∧ 5 ≤ p.length ∧ gw_mysql_get_byte3 p ≠ GW_MYSQL_MAX_PACKET_LEN ∧
  p.getD 4 0 ≠ MYSQL_REPLY_ERR ∧
  ¬ (p.getD 4 0 = MYSQL_REPLY_OK ∧ MYSQL_OK_PACKET_MIN_LEN ≤ p.length)

instance (p : List Nat) : Decidable (PlainPacket p) := by
  unfold PlainPacket; infer_instance

/-- An EOF packet: first payload byte `0xFE` in a packet of 9 bytes. -/
def IsEofPacket (p : List Nat) : Prop :=
  p.getD 4 0 = MYSQL_REPLY_EOF ∧ p.length = MYSQL_EOF_PACKET_LEN

instance (p : List Nat) : Decidable (IsEofPacket p) := by
  unfold IsEofPacket; infer_instance

/-- The two-byte server status of an EOF packet (bytes 7 and 8). -/
def eof_status (p : List Nat) : Nat := gw_mysql_get_byte2 (p.drop 7)

/-! ### Canonicalisation: `maxscale::get_canonical` -/

/-- `::isspace` in the "C" locale, as tabulated by the `LUT` `is_space`. -/
def is_space (c : Nat) : Bool := c == 32 || (9 ≤ c && c ≤ 13)

/-- `::isdigit`, as tabulated by the `LUT` `is_digit`. -/
def is_digit (c : Nat) : Bool := 48 ≤ c && c ≤ 57

/-- `::isalpha` in the "C" locale, as tabulated by the `LUT` `is_alpha`. -/
def is_alpha (c : Nat) : Bool := (65 ≤ c && c ≤ 90) || (97 ≤ c && c ≤ 122)

/-- `::isalnum` in the "C" locale, as tabulated by the `LUT` `is_alnum`. -/
def is_alnum (c : Nat) : Bool := is_alpha c || is_digit c

/-- `::isxdigit`, as tabulated by the `LUT` `is_xdigit`. -/
def is_xdigit (c : Nat) : Bool :=
  is_digit c || (65 ≤ c && c ≤ 70) || (97 ≤ c && c ≤ 102)

/-- The `LUT` `is_special`: digits, whitespace, the two quotes, the backtick, the hash sign,
the minus sign, the slash and the backslash. -/
def is_special (c : Nat) : Bool :=
  is_digit c || is_space c || c == 34 || c == 39 || c == 96 || c == 35 || c == 45 || c == 47
    || c == 92

/-- `is_next(it, end, str)`: the bytes from `it` on start with `str`. -/
def is_next : List Nat → List Nat → Bool
  | _, [] => true
  | [], _ :: _ => false
  | x :: it, s :: str => x == s && is_next it str

/-- The loop of `probe_number` after `it++`. The list holds the bytes from the iterator to the
end (the second equation is the case `it + 1 == end`), `pos` is the distance of the iterator
from the first digit and `second` that of `rval.second`. The result is
`(rval.first, distance of rval.second from the first digit)`. -/
def probe_number_loop : List Nat → Bool → Bool → Nat → Nat → Bool × Nat
  | [], _, _, _, second => (true, second)
  | [c], is_hex, allow_hex, pos, second =>
    if is_digit c || (allow_hex && is_xdigit c) then
      probe_number_loop [] is_hex allow_hex (pos + 1) pos
    else if is_hex && (c == 120 || c == 88) then
      probe_number_loop [] false true (pos + 1) pos
    else if c == 101 then
      (false, second)
    else if c == 46 then
      probe_number_loop [] is_hex allow_hex (pos + 1) pos
    else
      (!is_alpha c, second)
  | c :: n :: rest, is_hex, allow_hex, pos, second =>
    if is_digit c || (allow_hex && is_xdigit c) then
      probe_number_loop (n :: rest) is_hex allow_hex (pos + 1) pos
    else if is_hex && (c == 120 || c == 88) then
      probe_number_loop (n :: rest) false true (pos + 1) pos
    else if c == 101 then
      if !is_digit n && n != 45 then (false, second)
      else if n == 45 then probe_number_loop rest is_hex allow_hex (pos + 2) (pos + 1)
      else probe_number_loop (n :: rest) is_hex allow_hex (pos + 1) pos
    else if c == 46 then
      if !is_digit n then (false, second)
      else probe_number_loop (n :: rest) is_hex allow_hex (pos + 1) pos
    else
      (!is_alpha c, second)

/-- `probe_number(it, end)` for the bytes `c :: rest` at `it`: whether a number starts here and
the distance from `it` to its last byte. -/
def probe_number (c : Nat) (rest : List Nat) : Bool × Nat :=
  probe_number_loop rest (c == 48) false 1 0

/-- The loop of `is_negation`, walking `str[j]` for `j = i - 1` down to `0`; `acc` is the
written part of `str` in reverse order. -/
def is_negation_scan : List Nat → Bool → Bool
  | [], rval => rval
  | x :: acc, rval => if !is_space x then x != 63 else is_negation_scan acc rval

/-- `is_negation(str, i)`; `acc` holds `str[0..i)` in reverse order. -/
def is_negation (acc : List Nat) : Bool :=
  match acc with
  | [] => false
  | x :: _ => if x == 45 then is_negation_scan acc true else false

/-- `find_char(it, end, c)`: the bytes from the returned iterator to the end (`[]` when it
returns `end`). -/
def find_char : List Nat → Nat → List Nat
  | [], _ => []
  | x :: it, c =>
    if x == 92 then
      match it with
      | [] => []
      | _ :: it' => find_char it' c
    else if x == c then x :: it
    else find_char it c

/-- The loop that skips a non-executable comment, `while (it != end) { if (is_next(it, end,
"*/")) { ++it; break; } ++it; }`: the bytes from `it` on when the loop is left. -/
def skip_block_comment : List Nat → List Nat
  | [] => []
  | x :: it => if is_next (x :: it) [42, 47] then it else skip_block_comment it

/-- The loop that skips an end-of-line comment: the bytes from `it` on when the loop is left. -/
def skip_line_comment : List Nat → List Nat
  | [] => []
  | x :: it =>
    if x == 10 then x :: it
    else if x == 13 then (if is_next (x :: it) [13, 10] then it else x :: it)
    else skip_line_comment it

/-- The test `i == 0 || (!is_alnum(rval[i - 1]) && rval[i - 1] != '_')` of `get_canonical`;
`acc` is the written part `rval[0..i)` in reverse order. -/
def not_in_word (acc : List Nat) : Bool :=
  match acc with
  | [] => true
  | l :: _ => !is_alnum l && l != 95

/-- One iteration of the `for (; it != end; ++it)` loop of `get_canonical` at the byte `c`
followed by `rest`; `acc` is the written part `rval[0..i)` in reverse order, so its head is
`rval[i - 1]`. The result is the written part afterwards together with the bytes that follow
the iterator after `++it`, or `none` for a `break`. -/
def canonical_step (c : Nat) (rest acc : List Nat) : Option (List Nat) × List Nat :=
  if !is_special c then
    (some rest, c :: acc)
  else if c == 92 then
    match rest with
    | [] => (none, c :: acc)
    | d :: rest' => (some rest', d :: c :: acc)
  else if is_space c then
    match acc with
    | [] => (some rest, acc)
    | l :: _ => if is_space l then (some rest, acc) else (some rest, 32 :: acc)
  else if c == 47 && is_next (c :: rest) [47, 42] then
    match rest.drop 1 with
    | [] => (none, acc)
    | s :: _ =>
      if s != 33 && s != 77 then
        match skip_block_comment (c :: rest) with
        | [] => (none, acc)
        | _ :: it => (some it, acc)
      else
        (some rest, c :: acc)
  else if (c == 35 || c == 45) && (is_next (c :: rest) [35, 32] || is_next (c :: rest) [45, 45, 32]) then
    match skip_line_comment (c :: rest) with
    | [] => (none, acc)
    | _ :: it => (some it, acc)
  else if is_digit c && not_in_word acc then
    match probe_number c rest with
    | (true, second) =>
      (some (rest.drop second), 63 :: (if is_negation acc then acc.drop 1 else acc))
    | (false, _) => (some rest, acc)
  else if c == 39 || c == 34 then
    match find_char rest c with
    | [] => (none, acc)
    | _ :: it => (some it, 63 :: acc)
  else if c == 96 then
    match find_char rest 96 with
    | [] => (none, acc)
    | q :: it =>
      (some it, 96 :: ((c :: rest).take ((c :: rest).length - (q :: it).length)).reverse ++ acc)
  else
    (some rest, c :: acc)

/-- The `for` loop of `get_canonical`, one unit of fuel per iteration. Every iteration
consumes at least one byte, so a fuel equal to the number of remaining bytes is never used up
before the input is. -/
def canonical_loop : Nat → List Nat → List Nat → List Nat
  | 0, _, acc => acc
  | _ + 1, [], acc => acc
  | fuel + 1, c :: rest, acc =>
    match canonical_step c rest acc with
    | (none, acc') => acc'
    | (some it, acc') => canonical_loop fuel it acc'

/-- The body of `maxscale::get_canonical` on the SQL text: the loop, the removal of trailing
whitespace and `rval.resize(i)`. -/
def get_canonical_sql (sql : List Nat) : List Nat :=
  ((canonical_loop sql.length sql []).dropWhile is_space).reverse

/-- `maxscale::get_canonical(querybuf)` for a contiguous buffer: the SQL text starts after
the packet header and the command byte. -/
def get_canonical (querybuf : List Nat) : List Nat :=
  get_canonical_sql (querybuf.drop (MYSQL_HEADER_LEN + 1))

/-- The bytes of a string literal. -/
def bytes (s : String) : List Nat := s.toList.map Char.toNat

/-- A `COM_QUERY` packet (command byte 3, sequence number 0) with the SQL text `sql`. -/
def com_query (sql : List Nat) : List Nat :=
  [(sql.length + 1) % 256, (sql.length + 1) / 256 % 256, (sql.length + 1) / 65536 % 256, 0, 3]
    ++ sql

/-- The loop of `get_canonical` with exactly as much fuel as there are bytes left. -/
def canonical_run (it acc : List Nat) : List Nat := canonical_loop it.length it acc

/-- The shapes of the written part of `rval` (in reverse order, last byte first), built up the
way the loop of `get_canonical` writes: an ordinary byte; a backslash with the byte after it;
a blank after a byte that is not whitespace; a digit after an alphanumeric byte or an
underscore; one of `/`, `#`, `-`; a backtick-quoted identifier. -/
inductive Written : List Nat → Prop
  | nil : Written []
  | normal (c : Nat) (acc : List Nat) : is_special c = false → Written acc → Written (c :: acc)
  | escape (c : Nat) (acc : List Nat) : Written acc → Written (c :: 92 :: acc)
  | space (l : Nat) (acc : List Nat) : is_space l = false → Written (l :: acc) →
      Written (32 :: l :: acc)
  | digit (c l : Nat) (acc : List Nat) : is_digit c = true → (is_alnum l || l == 95) = true →
      Written (l :: acc) → Written (c :: l :: acc)
  | other (c : Nat) (acc : List Nat) : (c = 47 ∨ c = 35 ∨ c = 45) → Written acc →
      Written (c :: acc)
  | quoted (body acc : List Nat) : (∀ t, find_char (body ++ 96 :: t) 96 = 96 :: t) →
      Written acc → Written (96 :: (body.reverse ++ 96 :: acc))

/-- What the loop of `get_canonical` can leave in `rval`: a `Written` sequence, possibly
followed by the backslash that ends the query. -/
def WrittenOrCut (r : List Nat) : Prop :=
  Written r ∨ ∃ acc, r = 92 :: acc ∧ Written acc

/-! ### The shared-state propagator: `maxbase::GCUpdater` -/

/-- `SD::InternalUpdate`: an update together with the timestamp its producer drew from the
shared generator (`int64_t`, counted from 0). -/
structure InternalUpdate (U : Type) where
  update : U
  tstamp : Int
  deriving DecidableEq, Repr

/-- The order `std::sort` is called with in `GCUpdater::run`: by timestamp. -/
def InternalUpdate.le {U : Type} (lhs rhs : InternalUpdate U) : Prop := lhs.tstamp ≤ rhs.tstamp

instance {U : Type} : DecidableRel (@InternalUpdate.le U) :=
  fun a b => inferInstanceAs (Decidable (a.tstamp ≤ b.tstamp))

instance {U : Type} : IsTotal (InternalUpdate U) InternalUpdate.le :=
  ⟨fun a b => Int.le_total a.tstamp b.tstamp⟩

instance {U : Type} : IsTrans (InternalUpdate U) InternalUpdate.le :=
  ⟨fun _ _ _ h1 h2 => Int.le_trans h1 h2⟩

/-- The members of `GCUpdater` that decide which updates reach `make_updates` and in which
order. -/
structure GCUpdater (U : Type) where
  m_order_updates : Bool
  m_leftover_queue : List (InternalUpdate U)
  m_expected_tstamp : Int

/-- The search for a missing timestamp in `GCUpdater::run`,
`while (ind != sz && m_expected_tstamp == m_local_queue[ind].tstamp) { ++m_expected_tstamp;
++ind; }`, on the part of the queue from `ind` on: the final `(m_expected_tstamp, ind)`,
with `ind` counted from the start of that part. -/
def find_discontinuity {U : Type} (expected : Int) : List (InternalUpdate U) → Int × Nat
  | [] => (expected, 0)
  | u :: queue =>
    if expected = u.tstamp then
      ((find_discontinuity (expected + 1) queue).1, (find_discontinuity (expected + 1) queue).2 + 1)
    else
      (expected, 0)

/-- One iteration of the `while (m_running)` loop of `GCUpdater::run`, as far as the queues go.
`swap_queues` are the queues that the calls of `get_updates` in `read_clients` handed over
during the iteration, in the order in which they were appended to `m_local_queue`. The result
is the updater afterwards and the queue passed to `make_updates`, `none` when the iteration
ends in `continue`. `std::sort` is modelled by a sort by timestamp (for equal timestamps the
standard leaves the order open). Copying, publishing and garbage collection do not touch the
queues and are left out. -/
def GCUpdater.tick {U : Type} (g : GCUpdater U) (swap_queues : List (List (InternalUpdate U))) :
    GCUpdater U × Option (List (InternalUpdate U)) :=
  let local_queue := (if g.m_order_updates then g.m_leftover_queue else []) ++ swap_queues.flatten
  let leftover := if g.m_order_updates then [] else g.m_leftover_queue
  if local_queue.isEmpty then
    ({ g with m_leftover_queue := leftover }, none)
  else if g.m_order_updates then
    let sorted := local_queue.insertionSort InternalUpdate.le
    let found := find_discontinuity g.m_expected_tstamp sorted
    let g' := { g with m_leftover_queue := leftover ++ sorted.drop found.2,
                       m_expected_tstamp := found.1 }
    if (sorted.take found.2).isEmpty then (g', none) else (g', some (sorted.take found.2))
  else
    ({ g with m_leftover_queue := leftover }, some local_queue)

/-- Successive iterations of the loop: the updater at the end and the queues passed to
`make_updates`, in order. -/
def GCUpdater.run {U : Type} (g : GCUpdater U) :
    List (List (List (InternalUpdate U))) → GCUpdater U × List (List (InternalUpdate U))
  | [] => (g, [])
  | swap_queues :: ticks =>
    match g.tick swap_queues with
    | (g', none) => GCUpdater.run g' ticks
    | (g', some batch) => ((GCUpdater.run g' ticks).1, batch :: (GCUpdater.run g' ticks).2)

/-- The timestamps `first, first + 1, ..., first + n - 1`. -/
def consecutive (first : Int) (n : Nat) : List Int := (List.range n).map (fun (k : Nat) => first + (k : Int))

/-! ### Routing worker threads: `this_unit` and `RoutingWorker::adjust_threads` -/

/-- The members of a `RoutingWorker` that the thread bookkeeping depends on: the two state
flags and the number of sessions in the session registry `m_sessions`. -/
structure RoutingWorker where
  m_listening : Bool
  m_routing : Bool
  m_sessions : Nat
  deriving DecidableEq, Repr

/-- Modelled from the spec: `routingworker.hh` is not among the sources. A worker is active
(listening and routing), draining (routing, not listening) or inactive (neither), the three
states `add_stats` reports; the constructor clears both flags and `create` only calls
`set_listening(true)`, so that call makes the worker routing as well. -/
def RoutingWorker.set_listening (w : RoutingWorker) (b : Bool) : RoutingWorker :=
  { w with m_listening := b, m_routing := w.m_routing || b }

/-- Modelled from the spec: the worker stops routing. -/
def RoutingWorker.clear_routing (w : RoutingWorker) : RoutingWorker :=
  { w with m_routing := false }

/-- Modelled from the spec: neither listening nor routing. -/
def RoutingWorker.is_inactive (w : RoutingWorker) : Bool :=
  !w.m_listening && !w.m_routing

/-- Modelled from the spec: a draining worker whose session registry has become empty. -/
def RoutingWorker.can_deactivate (w : RoutingWorker) : Bool :=
  !w.m_listening && w.m_routing && w.m_sessions == 0

/-- `RoutingWorker::create`: a new worker, polling the shared descriptor. -/
def RoutingWorker.create : RoutingWorker :=
  RoutingWorker.set_listening ⟨false, false, 0⟩ true

/-- The thread variables of `this_unit`, with the created workers `ppWorkers[0 .. nCreated)`.
`deactivated` is not a member of the source's class: it holds, in posting order, the indices
of the workers whose `deactivate()` has posted its function to the main worker and whose
function has not run yet. -/
structure ThisUnit where
  nMax : Int
  nCreated : Int
  nRunning : Int
  nDesired : Int
  ppWorkers : List RoutingWorker
  deactivated : List Nat

/-- Apply `f` to `ppWorkers[i]`. -/
def ThisUnit.update_worker (u : ThisUnit) (i : Nat) (f : RoutingWorker → RoutingWorker) :
    ThisUnit :=
  match u.ppWorkers[i]? with
  | some w => { u with ppWorkers := u.ppWorkers.set i (f w) }
  | none => u

/-- `RoutingWorker::init` followed by `RoutingWorker::start_workers` with every thread
starting: `threadcount` workers are created and `nRunning` and `nDesired` are set to
`nCreated`. -/
def start_workers (nMax : Int) (threadcount : Nat) : ThisUnit :=
  { nMax := nMax, nCreated := threadcount, nRunning := threadcount, nDesired := threadcount,
    ppWorkers := List.replicate threadcount RoutingWorker.create, deactivated := [] }

/-- `RoutingWorker::deactivate` of worker `i`, up to the posting of its function:
`clear_routing()` and the entry in the main worker's queue. -/
def deactivate (u : ThisUnit) (i : Nat) : ThisUnit :=
  { u.update_worker i RoutingWorker.clear_routing with deactivated := u.deactivated ++ [i] }

/-- The loop `while (i > 0)` in the function posted by `deactivate`, entered with the
already decremented `i` and `n`: the final `n`. -/
def remove_inactive (ppWorkers : List RoutingWorker) : Nat → Int → Int
  | 0, n => n
  | i + 1, n =>
    match ppWorkers[i + 1]? with
    | some w => if w.is_inactive then remove_inactive ppWorkers i (n - 1) else n
    | none => n

/-- The function that `deactivate` of worker `i` posts to the main worker. -/
def deactivate_on_main (u : ThisUnit) (i : Nat) : ThisUnit :=
  match u.ppWorkers[i]? with
  | some w =>
    if w.is_inactive then
      if (i : Int) = u.nRunning - 1 then
        { u with nRunning := remove_inactive u.ppWorkers (i - 1) (u.nRunning - 1) }
      else u
    else u
  | none => u

/-- The main worker runs the next posted function, if there is one. -/
def main_execute (u : ThisUnit) : ThisUnit :=
  match u.deactivated with
  | [] => u
  | i :: rest => deactivate_on_main { u with deactivated := rest } i

/-- The function `decrease_threads` calls on worker `i` once `stop_listening` succeeded. -/
def stop_worker (u : ThisUnit) (i : Nat) : ThisUnit :=
  let u1 := u.update_worker i (fun w => w.set_listening false)
  match u1.ppWorkers[i]? with
  | some w => if w.can_deactivate then deactivate u1 i else u1
  | none => u1

/-- The loop `for (; i >= nAfter; --i)` of `decrease_threads` with `k` iterations left, that
is at `i = nAfter + k - 1`; `ok i` is what `stop_listening` reports on worker `i`. The result
is the state and `i + 1` at the end of the loop. -/
def stop_workers (ok : Nat → Bool) (nAfter : Nat) : Nat → ThisUnit → ThisUnit × Nat
  | 0, u => (u, nAfter)
  | k + 1, u =>
    if ok (nAfter + k) then stop_workers ok nAfter k (stop_worker u (nAfter + k))
    else (u, nAfter + k + 1)

/-- `RoutingWorker::decrease_threads`. -/
def decrease_threads (ok : Nat → Bool) (u : ThisUnit) (n : Int) : ThisUnit × Bool :=
  let nBefore := u.nRunning
  let nAfter := nBefore - n
  let r := stop_workers ok nAfter.toNat n.toNat u
  ({ r.1 with nDesired := r.2 }, decide ((r.2 : Int) ≠ nBefore))

/-- The loop of `activate_threads` with `k` iterations left at index `i`; `ok i` is what
`start_listening` reports on worker `i`. The result is the state and the final `i`. -/
def start_workers_from (ok : Nat → Bool) : Nat → Nat → ThisUnit → ThisUnit × Nat
  | 0, i, u => (u, i)
  | k + 1, i, u =>
    if ok i then
      start_workers_from ok k (i + 1) (u.update_worker i (fun w => w.set_listening true))
    else (u, i)

/-- `RoutingWorker::activate_threads`: the state and the number of activated threads. -/
def activate_threads (ok : Nat → Bool) (u : ThisUnit) (n : Int) : ThisUnit × Int :=
  let nBefore := u.nRunning
  let r := start_workers_from ok n.toNat nBefore.toNat u
  ({ r.1 with nRunning := r.2, nDesired := r.2 }, (r.2 : Int) - nBefore)

/-- The loop of `create_threads` with `k` iterations left at index `i`; `ok i` tells whether
worker `i` could be created, started and given its user caches and listeners. -/
def create_workers_from (ok : Nat → Bool) : Nat → Nat → ThisUnit → ThisUnit × Nat
  | 0, i, u => (u, i)
  | k + 1, i, u =>
    if ok i then
      create_workers_from ok k (i + 1)
        { u with ppWorkers := u.ppWorkers ++ [RoutingWorker.create] }
    else (u, i)

/-- `RoutingWorker::create_threads`. -/
def create_threads (ok : Nat → Bool) (u : ThisUnit) (n : Int) : ThisUnit × Bool :=
  let nBefore := u.nCreated
  let r := create_workers_from ok n.toNat nBefore.toNat u
  ({ r.1 with nCreated := r.2, nRunning := r.2, nDesired := r.2 },
    decide ((r.2 : Int) ≠ nBefore))

/-- `RoutingWorker::increase_threads`. -/
def increase_threads (ok : Nat → Bool) (u : ThisUnit) (nDelta : Int) : ThisUnit × Bool :=
  let nAvailable := u.nCreated - u.nRunning
  if 0 < nAvailable then
    let n := min nDelta nAvailable
    let r := activate_threads ok u n
    if n = r.2 then
      if nDelta - n ≠ 0 then create_threads ok r.1 (nDelta - n) else (r.1, true)
    else (r.1, false)
  else if nDelta ≠ 0 then create_threads ok u nDelta
  else (u, true)

/-- `RoutingWorker::adjust_threads`; `ok i` is the outcome of the listener operation (or of
the creation) performed on worker `i` during the call. -/
def adjust_threads (ok : Nat → Bool) (u : ThisUnit) (nCount : Int) : ThisUnit × Bool :=
  if nCount < 1 then (u, false)
  else if nCount > u.nMax then (u, false)
  else if nCount < u.nRunning then decrease_threads ok u (u.nRunning - nCount)
  else if nCount > u.nRunning then increase_threads ok u (nCount - u.nRunning)
  else (u, true)

/-- `RoutingWorker::register_session` on worker `i`. -/
def register_session (u : ThisUnit) (i : Nat) : ThisUnit :=
  u.update_worker i (fun w => { w with m_sessions := w.m_sessions + 1 })

/-- `RoutingWorker::deregister_session` on worker `i`: when a session was removed and the
worker can deactivate, it does. -/
def deregister_session (u : ThisUnit) (i : Nat) : ThisUnit :=
  match u.ppWorkers[i]? with
  | some w =>
    if w.m_sessions = 0 then u
    else
      let w1 := { w with m_sessions := w.m_sessions - 1 }
      let u1 := { u with ppWorkers := u.ppWorkers.set i w1 }
      if w1.can_deactivate then deactivate u1 i else u1
  | none => u

/-- `RoutingWorker::pick_worker` at the value `counter` of `index_generator`: the index of
the worker it returns (`uint32_t` arithmetic). -/
def pick_worker (u : ThisUnit) (counter : Nat) : Nat :=
  (counter % 2 ^ 32) % (u.nDesired.toNat % 2 ^ 32)

/-- What happens to the worker threads. A session is created on a worker that polls the
listening sockets itself or that `pick_worker` can return. -/
inductive WorkerEvent where
  | adjust (nCount : Int) (ok : Nat → Bool)
  | session_created (i : Nat)
  | session_closed (i : Nat)
  | execute

/-- The effect of one event. -/
def WorkerEvent.apply (u : ThisUnit) : WorkerEvent → ThisUnit
  | .adjust nCount ok => (adjust_threads ok u nCount).1
  | .session_created i =>
    match u.ppWorkers[i]? with
    | some w => if w.m_listening || decide ((i : Int) < u.nDesired) then register_session u i else u
    | none => u
  | .session_closed i => deregister_session u i
  | .execute => main_execute u

/-- The state after a sequence of events. -/
def run_workers (u : ThisUnit) (events : List WorkerEvent) : ThisUnit :=
  events.foldl WorkerEvent.apply u

/-- Whether the event is a call of `adjust_threads`. -/
def WorkerEvent.is_adjust : WorkerEvent → Bool
  | .adjust _ _ => true
  | _ => false

/-- Four created workers of which workers 2 and 3 have been told to stop listening, with
`a0`, `a1`, `s2`, `s3` sessions: workers 0 and 1 are active, workers 2 and 3 route exactly
as long as they have a session, and only they can await the main worker. -/
def Reduced (u : ThisUnit) (a0 a1 s2 s3 : Nat) : Prop :=
  u.ppWorkers = [⟨true, true, a0⟩, ⟨true, true, a1⟩,
                 ⟨false, decide (0 < s2), s2⟩, ⟨false, decide (0 < s3), s3⟩]
  ∧ u.nCreated = 4 ∧ u.nDesired = 2
  ∧ (u.deactivated = [] ∨ u.deactivated = [2] ∨ u.deactivated = [3]
      ∨ u.deactivated = [2, 3] ∨ u.deactivated = [3, 2])
  ∧ (2 ∈ u.deactivated → s2 = 0) ∧ (3 ∈ u.deactivated → s3 = 0)
  ∧ ((0 < s3 ∨ 3 ∈ u.deactivated) → u.nRunning = 4)
  ∧ (s3 = 0 → 3 ∉ u.deactivated →
      (0 < s2 → u.nRunning = 3)
      ∧ (s2 = 0 → u.nRunning = 2 ∨ (2 ∈ u.deactivated ∧ u.nRunning = 3)))

/-- Four started workers, all active, with `s0`, `s1`, `s2`, `s3` sessions:
`nCreated = nRunning = nDesired = 4`. -/
def four_workers (nMax : Int) (s0 s1 s2 s3 : Nat) : ThisUnit :=
  ⟨nMax, 4, 4, 4, [⟨true, true, s0⟩, ⟨true, true, s1⟩, ⟨true, true, s2⟩, ⟨true, true, s3⟩], []⟩

/-! ### Backend connections of a routing worker: the connection pools -/

/-- `ConnPoolEntry`: a pooled connection (named by its address) and the time at which it
entered the pool. -/
structure ConnPoolEntry where
  m_pConn : Nat
  m_created : Int
  deriving DecidableEq, Repr

/-- `ConnectionPoolStats`, without `curr_size`, which `stats()` computes from the contents. -/
structure ConnectionPoolStats where
  max_size : Nat
  times_found : Nat
  times_empty : Nat
  deriving DecidableEq, Repr

/-- `RoutingWorker::ConnectionPool`. `m_contents` is a map keyed by the connection; its
entries are listed in the order in which the map is iterated. -/
structure ConnectionPool where
  m_contents : List ConnPoolEntry
  m_capacity : Int
  m_stats : ConnectionPoolStats
  deriving DecidableEq, Repr

/-- `ConnectionPool::set_capacity(int global_capacity)`: the local capacity is the global
one divided by `nCreated` (integer division of C++ on two values of type `int`). -/
def ConnectionPool.set_capacity (pool : ConnectionPool) (global_capacity nCreated : Int) :
    ConnectionPool :=
  { pool with m_capacity := Int.tdiv global_capacity nCreated }

/-- The constructor of `ConnectionPool`. -/
def ConnectionPool.create (global_capacity nCreated : Int) : ConnectionPool :=
  ConnectionPool.set_capacity ⟨[], 0, ⟨0, 0, 0⟩⟩ global_capacity nCreated

/-- `ConnectionPool::has_space`. -/
def ConnectionPool.has_space (pool : ConnectionPool) : Bool :=
  decide ((pool.m_contents.length : Int) < pool.m_capacity)

/-- `m_contents.emplace`: nothing happens when the key is already there, otherwise the
entry is put at its place in key order. -/
def emplace (entry : ConnPoolEntry) (contents : List ConnPoolEntry) : List ConnPoolEntry :=
  if entry.m_pConn ∈ contents.map (·.m_pConn) then contents
  else contents.filter (fun e => e.m_pConn < entry.m_pConn) ++ entry
    :: contents.filter (fun e => !decide (e.m_pConn < entry.m_pConn))

/-- `ConnectionPool::add_connection`, at time `now`. -/
def ConnectionPool.add_connection (pool : ConnectionPool) (conn : Nat) (now : Int) :
    ConnectionPool :=
  { pool with
    m_contents := emplace ⟨conn, now⟩ pool.m_contents
    m_stats := { pool.m_stats with
      max_size := max pool.m_stats.max_size (emplace ⟨conn, now⟩ pool.m_contents).length } }

/-- The loop of `ConnectionPool::get_connection` from position `pos` on: the final
`best_reuse` and the position of `best` (`none` for `m_contents.end()`). `can_reuse` gives
the reuse quality each connection reports for the session; `OPTIMAL_REUSE` is the constant
of `mxs::BackendConnection`. -/
def get_connection_scan (can_reuse : Nat → Nat) (OPTIMAL_REUSE : Nat) :
    List ConnPoolEntry → Nat → Nat → Option Nat → Nat × Option Nat
  | [], _, best_reuse, best => (best_reuse, best)
  | entry :: rest, pos, best_reuse, best =>
    if can_reuse entry.m_pConn > best_reuse then
      if can_reuse entry.m_pConn = OPTIMAL_REUSE then (can_reuse entry.m_pConn, some pos)
      else get_connection_scan can_reuse OPTIMAL_REUSE rest (pos + 1)
        (can_reuse entry.m_pConn) (some pos)
    else get_connection_scan can_reuse OPTIMAL_REUSE rest (pos + 1) best_reuse best

/-- `ConnectionPool::get_connection`: the reuse quality, the connection (`none` for
`nullptr`) and the pool afterwards. -/
def ConnectionPool.get_connection (pool : ConnectionPool) (can_reuse : Nat → Nat)
    (REUSE_NOT_POSSIBLE OPTIMAL_REUSE : Nat) : Nat × Option Nat × ConnectionPool :=
  match get_connection_scan can_reuse OPTIMAL_REUSE pool.m_contents 0 REUSE_NOT_POSSIBLE none with
  | (best_reuse, some pos) =>
    (best_reuse, (pool.m_contents[pos]?).map (·.m_pConn),
      { pool with
        m_contents := pool.m_contents.eraseIdx pos
        m_stats := { pool.m_stats with times_found := pool.m_stats.times_found + 1 } })
  | (best_reuse, none) =>
    (best_reuse, none,
      { pool with m_stats := { pool.m_stats with times_empty := pool.m_stats.times_empty + 1 } })

/-- The counters of a server's statistics that connection handling uses. -/
structure ServerStats where
  n_current_conns : Int
  n_conn_intents : Int
  deriving DecidableEq, Repr

/-- The members of `RoutingWorker` that hold backend connections: the regular book-keeping
`m_dcbs` (a set, listed without repetition), the pools by server (`m_pool_group`, listed in
the order in which they were created) and the zombie queue; with them the statistics of the
servers. -/
structure WorkerConns where
  m_dcbs : List Nat
  m_pool_group : List (Nat × ConnectionPool)
  m_zombies : List Nat
  stats : Nat → ServerStats

/-- `m_dcbs.insert`. -/
def dcbs_insert (pDcb : Nat) (dcbs : List Nat) : List Nat :=
  if pDcb ∈ dcbs then dcbs else pDcb :: dcbs

/-- `m_dcbs.erase` of the element `pDcb`. -/
def dcbs_erase (pDcb : Nat) (dcbs : List Nat) : List Nat :=
  dcbs.filter (fun d => d != pDcb)

/-- `m_pool_group.find(pServer)`. -/
def WorkerConns.find_pool (w : WorkerConns) (server : Nat) : Option ConnectionPool :=
  (w.m_pool_group.find? (fun kv => kv.1 == server)).map (·.2)

/-- Assignment through the iterator `m_pool_group.find(pServer)` gives. -/
def WorkerConns.set_pool (w : WorkerConns) (server : Nat) (pool : ConnectionPool) :
    WorkerConns :=
  { w with m_pool_group := w.m_pool_group.map (fun kv => if kv.1 = server then (server, pool) else kv) }

/-- `stats().remove_connection()` of `server`, `n` times. -/
def WorkerConns.remove_connections (w : WorkerConns) (server : Nat) (n : Nat) : WorkerConns :=
  { w with
    stats := Function.update w.stats server
      ⟨(w.stats server).n_current_conns - n, (w.stats server).n_conn_intents⟩ }

/-- `RoutingWorker::close_pooled_dcb`: the DCB is put back into the regular book-keeping
and closed, which puts it in the zombie queue; `server_of` is `pDcb->server()`. -/
def close_pooled_dcb (server_of : Nat → Nat) (w : WorkerConns) (pDcb : Nat) : WorkerConns :=
  WorkerConns.remove_connections
    { w with m_dcbs := dcbs_insert pDcb w.m_dcbs, m_zombies := w.m_zombies ++ [pDcb] }
    (server_of pDcb) 1

/-- What `move_to_conn_pool` asks of the DCB, its connection and its session. -/
structure DcbState where
  polling : Bool
  hanged_up : Bool
  established : Bool
  can_pool_backends : Bool
  deriving DecidableEq, Repr

/-- `RoutingWorker::move_to_conn_pool` at time `now`; `persistpoolmax` and `is_running` are
those of the server of the DCB, `nCreated` is the number of created workers. The
`long global_pool_cap` is passed to the constructor of `ConnectionPool`, whose parameter is
an `int`. -/
def move_to_conn_pool (server_of : Nat → Nat) (w : WorkerConns) (pDcb : Nat) (dcb : DcbState)
    (persistpoolmax : Int) (is_running : Bool) (nCreated now : Int) : WorkerConns × Bool :=
  if 0 < persistpoolmax then
    if dcb.polling && !dcb.hanged_up && dcb.established && dcb.can_pool_backends && is_running then
      let w1 : WorkerConns :=
        match w.find_pool (server_of pDcb) with
        | some _ => w
        | none =>
          { w with m_pool_group :=
              w.m_pool_group ++
                [(server_of pDcb, ConnectionPool.create (to_int persistpoolmax) nCreated)] }
      match w1.find_pool (server_of pDcb) with
      | some pool =>
        if pool.has_space then
          ({ w1.set_pool (server_of pDcb) (pool.add_connection pDcb now) with
              m_dcbs := dcbs_erase pDcb w1.m_dcbs }, true)
        else (w1, false)
      | none => (w1, false)
    else (w, false)
  else (w, false)

/-- The loop `while (!found_conn)` of `pool_get_connection` on the pool of the server, with
the candidates closed so far: the pool, the closed candidates and the connection found.
`reuse c q` tells whether `c->reuse(...)` succeeds at quality `q`. The loop ends within
one round per pooled connection and one more; `none` stands for a loop still running when
`fuel` rounds are over. -/
def pool_get_loop (can_reuse : Nat → Nat) (reuse : Nat → Nat → Bool)
    (REUSE_NOT_POSSIBLE OPTIMAL_REUSE : Nat) :
    Nat → ConnectionPool → List Nat → Option (ConnectionPool × List Nat × Option Nat)
  | 0, _, _ => none
  | fuel + 1, pool, closed =>
    match pool.get_connection can_reuse REUSE_NOT_POSSIBLE OPTIMAL_REUSE with
    | (_, none, pool1) => some (pool1, closed, none)
    | (q, some candidate, pool1) =>
      if reuse candidate q then some (pool1, closed, some candidate)
      else pool_get_loop can_reuse reuse REUSE_NOT_POSSIBLE OPTIMAL_REUSE fuel pool1
        (closed ++ [candidate])

/-- `RoutingWorker::pool_get_connection` for `server`: a candidate whose reuse fails is
closed (zombie queue, `remove_connection`) without entering `m_dcbs`; the connection found
is put back into `m_dcbs`. -/
def pool_get_connection (w : WorkerConns) (server : Nat) (can_reuse : Nat → Nat)
    (reuse : Nat → Nat → Bool) (REUSE_NOT_POSSIBLE OPTIMAL_REUSE : Nat) :
    Option (WorkerConns × Option Nat) :=
  match w.find_pool server with
  | none => some (w, none)
  | some pool =>
    match pool_get_loop can_reuse reuse REUSE_NOT_POSSIBLE OPTIMAL_REUSE
        (pool.m_contents.length + 1) pool [] with
    | none => none
    | some (pool1, closed, found) =>
      let w1 := WorkerConns.remove_connections
        { w.set_pool server pool1 with m_zombies := w.m_zombies ++ closed } server closed.length
      match found with
      | some conn => some ({ w1 with m_dcbs := dcbs_insert conn w1.m_dcbs }, some conn)
      | none => some (w1, none)

/-- `RoutingWorker::evict_dcb`, through `ConnectionPool::remove_and_close`: the entry of the
connection is erased from the pool of its server and the DCB is closed. -/
def evict_dcb (server_of : Nat → Nat) (w : WorkerConns) (pDcb : Nat) : WorkerConns :=
  match w.find_pool (server_of pDcb) with
  | some pool =>
    close_pooled_dcb server_of
      (w.set_pool (server_of pDcb)
        { pool with m_contents := pool.m_contents.filter (fun e => e.m_pConn != pDcb) })
      pDcb
  | none => w

/-- The two passes of `ConnectionPool::close_expired` over `m_contents` at time `now`: the
pool afterwards and `expired_conns`. -/
def ConnectionPool.close_expired (pool : ConnectionPool) (hanged_up : Nat → Bool)
    (max_age now : Int) : ConnectionPool × List Nat :=
  let is_expired := fun (e : ConnPoolEntry) =>
    hanged_up e.m_pConn || decide (now - e.m_created > max_age)
  let expired := pool.m_contents.filter is_expired
  let kept := pool.m_contents.filter (fun e => !is_expired e)
  let over_cap_conns : Int := (kept.length : Int) - pool.m_capacity
  if 0 < over_cap_conns then
    ({ pool with m_contents := kept.drop over_cap_conns.toNat },
      (expired ++ kept.take over_cap_conns.toNat).map (·.m_pConn))
  else ({ pool with m_contents := kept }, expired.map (·.m_pConn))

/-- `ConnectionPool::close_all`: the emptied pool and the connections to close. -/
def ConnectionPool.close_all (pool : ConnectionPool) : ConnectionPool × List Nat :=
  ({ pool with m_contents := [] }, pool.m_contents.map (·.m_pConn))

/-- The body of the loop of `RoutingWorker::pool_close_expired` for one pool. -/
def pool_close_expired_one (server_of : Nat → Nat) (is_down hanged_up : Nat → Bool)
    (persistmaxtime : Nat → Int) (now : Int) (w : WorkerConns) (server : Nat) : WorkerConns :=
  match w.find_pool server with
  | some pool =>
    let r := if is_down server then pool.close_all
             else pool.close_expired hanged_up (persistmaxtime server) now
    r.2.foldl (close_pooled_dcb server_of) (w.set_pool server r.1)
  | none => w

/-- `RoutingWorker::pool_close_expired` at time `now`. -/
def pool_close_expired (server_of : Nat → Nat) (is_down hanged_up : Nat → Bool)
    (persistmaxtime : Nat → Int) (now : Int) (w : WorkerConns) : WorkerConns :=
  (w.m_pool_group.map (·.1)).foldl
    (pool_close_expired_one server_of is_down hanged_up persistmaxtime now) w

/-- `RoutingWorker::ConnectionResult`. -/
structure ConnectionResult where
  conn_limit_reached : Bool
  conn : Option Nat
  deriving DecidableEq, Repr

/-- What `get_backend_connection` asks of the server. -/
structure ServerState where
  persistent_conns_enabled : Bool
  is_running : Bool
  max_routing_connections : Int
  deriving DecidableEq, Repr

/-- `stats.add_conn_intent()`: the counter is incremented; the value returned is the
incremented one when `returns_new` holds and the earlier one otherwise (the function is
defined outside the sources, so both are provided for). -/
def add_conn_intent (stats : ServerStats) (returns_new : Bool) : ServerStats × Int :=
  ({ stats with n_conn_intents := stats.n_conn_intents + 1 },
    if returns_new then stats.n_conn_intents + 1 else stats.n_conn_intents)

/-- `stats.remove_conn_intent()`. -/
def remove_conn_intent (stats : ServerStats) : ServerStats :=
  { stats with n_conn_intents := stats.n_conn_intents - 1 }

/-- `stats.add_connection()`. -/
def add_connection (stats : ServerStats) : ServerStats :=
  { stats with n_current_conns := stats.n_current_conns + 1 }

/-- The first part of `get_backend_connection`: the pool is consulted when persistent
connections are enabled and the server is running. -/
def pool_lookup (w : WorkerConns) (server : Nat) (srv : ServerState) (can_reuse : Nat → Nat)
    (reuse : Nat → Nat → Bool) (REUSE_NOT_POSSIBLE OPTIMAL_REUSE : Nat) :
    Option (WorkerConns × Option Nat) :=
  if srv.persistent_conns_enabled && srv.is_running then
    pool_get_connection w server can_reuse reuse REUSE_NOT_POSSIBLE OPTIMAL_REUSE
  else some (w, none)

/-- The second part of `get_backend_connection`, after the pool gave no connection: the
statistics of the server afterwards, the result, and the number of calls of
`create_backend_connection`, whose outcome is `create` (`none` for `nullptr`). The new DCB
is registered with the worker by its constructor, not here. -/
def connect_new (stats : ServerStats) (srv : ServerState) (create : Option Nat)
    (returns_new : Bool) : ServerStats × ConnectionResult × Nat :=
  if 0 < srv.max_routing_connections then
    if stats.n_current_conns + stats.n_conn_intents ≥ srv.max_routing_connections then
      (stats, ⟨true, none⟩, 0)
    else
      let r := add_conn_intent stats returns_new
      if r.2 + r.1.n_current_conns ≤ srv.max_routing_connections then
        match create with
        | some new_conn => (remove_conn_intent (add_connection r.1), ⟨false, some new_conn⟩, 1)
        | none => (remove_conn_intent r.1, ⟨false, none⟩, 1)
      else (remove_conn_intent r.1, ⟨true, none⟩, 0)
  else
    match create with
    | some new_conn => (add_connection stats, ⟨false, some new_conn⟩, 1)
    | none => (stats, ⟨false, none⟩, 1)

/-- `RoutingWorker::get_backend_connection` for `server`: the worker afterwards, the
result, and the number of calls of `create_backend_connection`. -/
def get_backend_connection (w : WorkerConns) (server : Nat) (srv : ServerState)
    (can_reuse : Nat → Nat) (reuse : Nat → Nat → Bool) (REUSE_NOT_POSSIBLE OPTIMAL_REUSE : Nat)
    (create : Option Nat) (returns_new : Bool) :
    Option (WorkerConns × ConnectionResult × Nat) :=
  match pool_lookup w server srv can_reuse reuse REUSE_NOT_POSSIBLE OPTIMAL_REUSE with
  | none => none
  | some (w1, some pool_conn) => some (w1, ⟨false, some pool_conn⟩, 0)
  | some (w1, none) =>
    let r := connect_new (w1.stats server) srv create returns_new
    some ({ w1 with stats := Function.update w1.stats server r.1 }, r.2.1, r.2.2)

/-- What the connections of a worker go through. `close_pooled` is the call of
`close_pooled_dcb` by a caller that has released the entry of the connection, as all its
callers do, and `add` is `RoutingWorker::add` for a newly created DCB: neither has an effect
on a connection that is in a pool. `remove` is `RoutingWorker::remove`. -/
inductive PoolEvent where
  | move (pDcb : Nat) (dcb : DcbState) (persistpoolmax : Int) (is_running : Bool)
      (nCreated now : Int)
  | get (server : Nat) (can_reuse : Nat → Nat) (reuse : Nat → Nat → Bool)
      (REUSE_NOT_POSSIBLE OPTIMAL_REUSE : Nat)
  | evict (pDcb : Nat)
  | close_pooled (pDcb : Nat)
  | close_expired (is_down hanged_up : Nat → Bool) (persistmaxtime : Nat → Int) (now : Int)
  | add (pDcb : Nat)
  | remove (pDcb : Nat)

/-- The connections that are in a pool. -/
def WorkerConns.pooled (w : WorkerConns) : List Nat :=
  (w.m_pool_group.map (fun kv => kv.2.m_contents.map (·.m_pConn))).flatten

/-- The effect of one event. -/
def PoolEvent.apply (server_of : Nat → Nat) (w : WorkerConns) : PoolEvent → WorkerConns
  | .move pDcb dcb persistpoolmax is_running nCreated now =>
    (move_to_conn_pool server_of w pDcb dcb persistpoolmax is_running nCreated now).1
  | .get server can_reuse reuse REUSE_NOT_POSSIBLE OPTIMAL_REUSE =>
    match pool_get_connection w server can_reuse reuse REUSE_NOT_POSSIBLE OPTIMAL_REUSE with
    | some r => r.1
    | none => w
  | .evict pDcb => evict_dcb server_of w pDcb
  | .close_pooled pDcb => if pDcb ∈ w.pooled then w else close_pooled_dcb server_of w pDcb
  | .close_expired is_down hanged_up persistmaxtime now =>
    pool_close_expired server_of is_down hanged_up persistmaxtime now w
  | .add pDcb => if pDcb ∈ w.pooled then w else { w with m_dcbs := dcbs_insert pDcb w.m_dcbs }
  | .remove pDcb => { w with m_dcbs := dcbs_erase pDcb w.m_dcbs }

/-- The state after a sequence of events. -/
def run_pools (server_of : Nat → Nat) (w : WorkerConns) (events : List PoolEvent) :
    WorkerConns :=
  events.foldl (PoolEvent.apply server_of) w

/-- One pool is in order: no connection is in it twice, every connection in it is one to
the server of the pool and none is in the regular book-keeping `dcbs`. -/
def PoolOk (server_of : Nat → Nat) (dcbs : List Nat) (server : Nat) (pool : ConnectionPool) :
    Prop :=
  (pool.m_contents.map (·.m_pConn)).Nodup
  ∧ ∀ e ∈ pool.m_contents, server_of e.m_pConn = server ∧ e.m_pConn ∉ dcbs

/-- The pools are in order: one pool per server, each in order. -/
def PoolsOk (server_of : Nat → Nat) (group : List (Nat × ConnectionPool)) (dcbs : List Nat) :
    Prop :=
  (group.map (·.1)).Nodup ∧ ∀ kv ∈ group, PoolOk server_of dcbs kv.1 kv.2

/-! ### Endpoints waiting for a connection: `RoutingWorker::fail_timed_out_endpoints` -/

/-- A `ServerEndpoint` in a wait queue: its identity, the time at which it began to wait
and the `multiplex_timeout` of its session. -/
structure ServerEndpoint where
  id : Nat
  conn_wait_start : Int
  multiplex_timeout : Int
  deriving DecidableEq, Repr

/-- The test `now - ep->conn_wait_start() > ep->session()->multiplex_timeout()`. -/
def ServerEndpoint.timed_out (now : Int) (ep : ServerEndpoint) : Bool :=
  decide (now - ep.conn_wait_start > ep.multiplex_timeout)

/-- The inner loop of `fail_timed_out_endpoints` on one queue: the endpoints for which
`handle_timed_out_continue` is called, in order, and the queue that is left. -/
def fail_front (now : Int) : List ServerEndpoint → List ServerEndpoint × List ServerEndpoint
  | [] => ([], [])
  | ep :: rest =>
    if ep.timed_out now then ((ep :: (fail_front now rest).1), (fail_front now rest).2)
    else ([], ep :: rest)

/-- `RoutingWorker::fail_timed_out_endpoints` at time `now` on `m_eps_waiting_for_conn`
(the queues by server): the map afterwards, from which emptied queues are erased, and the
endpoints for which `handle_timed_out_continue` was called, in order. -/
def fail_timed_out_endpoints (now : Int) :
    List (Nat × List ServerEndpoint) → List (Nat × List ServerEndpoint) × List ServerEndpoint
  | [] => ([], [])
  | (server, ep_deq) :: rest =>
    (if (fail_front now ep_deq).2.isEmpty then (fail_timed_out_endpoints now rest).1
      else (server, (fail_front now ep_deq).2) :: (fail_timed_out_endpoints now rest).1,
     (fail_front now ep_deq).1 ++ (fail_timed_out_endpoints now rest).2)

/-! ### Worker-local storage: `IndexedStorage::clear` -/

/-- `IndexedStorage`: per key the stored pointer, its deleter and its sizer; `none` is a
null pointer. A pointer and a deleter are named by their addresses, a sizer is given by the
size it reports. -/
structure IndexedStorage where
  m_local_data : List (Option Nat)
  m_data_deleters : List (Option Nat)
  m_data_sizers : List (Option (Nat → Nat))

/-- The statement `if (pData && sizer) rv += sizer(pData)` on the `size_t` `rv`. -/
def add_size (rv : Nat) : Option Nat → Option (Nat → Nat) → Nat
  | some p, some size => (rv + size p % 2 ^ 64) % 2 ^ 64
  | _, _ => rv

/-- The statement `if (pData && deleter) deleter(pData)` at `key`, on the list of the calls
made so far, each recorded as key, deleter and pointer. -/
def call_deleter (calls : List (Nat × Nat × Nat)) (key : Nat) :
    Option Nat → Option Nat → List (Nat × Nat × Nat)
  | some p, some d => calls ++ [(key, d, p)]
  | _, _ => calls

/-- The loop of `IndexedStorage::clear` from `key` on, over the rest of the three vectors,
with the value of `rv` and the calls of deleters made so far: the final `rv` and the
calls. -/
def clear_slots : Nat → List (Option Nat) → List (Option Nat) → List (Option (Nat → Nat)) →
    Nat → List (Nat × Nat × Nat) → Nat × List (Nat × Nat × Nat)
  | key, pData :: data, deleter :: deleters, sizer :: sizers, rv, calls =>
    clear_slots (key + 1) data deleters sizers (add_size rv pData sizer)
      (call_deleter calls key pData deleter)
  | _, _, _, _, rv, calls => (rv, calls)

/-- `IndexedStorage::clear`: the storage afterwards, the value returned and the calls of
deleters in the order in which they were made. -/
def IndexedStorage.clear (s : IndexedStorage) : IndexedStorage × Nat × List (Nat × Nat × Nat) :=
  (⟨[], [], []⟩, clear_slots 0 s.m_local_data s.m_data_deleters s.m_data_sizers 0 [])

/-- The size a slot reports: that of its sizer on its pointer when both are there. -/
def slot_size : Option Nat → Option (Nat → Nat) → Nat
  | some p, some size => size p % 2 ^ 64
  | _, _ => 0

/-- Texts of whitespace and comments only, with the comments in the forms the loop of
`get_canonical` takes for comments: a whitespace byte; a block comment, slash and star,
a body, star and slash, where the body contains no star followed by a slash and does not
begin with `!`, `M` or a slash; an end-of-line comment that begins with hash and blank or
with two minus signs and a blank and runs, without a line feed or carriage return in it, to
a line feed, to a carriage return followed by a line feed, or to the end of the text. -/
inductive OnlyComments : List Nat → Prop
  | nil : OnlyComments []
  | space (c : Nat) (t : List Nat) : is_space c = true → OnlyComments t → OnlyComments (c :: t)
  | block (body t : List Nat) : (∀ s ∈ body.head?, s ≠ 33 ∧ s ≠ 77 ∧ s ≠ 47) →
      ¬ [42, 47] <:+: body → OnlyComments t →
      OnlyComments (47 :: 42 :: (body ++ 42 :: 47 :: t))
  | line (opener body eol t : List Nat) : (opener = [35, 32] ∨ opener = [45, 45, 32]) →
      10 ∉ body → 13 ∉ body → (eol = [10] ∨ eol = [13, 10] ∨ (eol = [] ∧ t = [])) →
      OnlyComments t → OnlyComments (opener ++ (body ++ (eol ++ t)))

/-! ### The main worker: housekeeping tasks and rebalancing -/

/-- `MainWorker::Task` without the function and its argument: the name, the frequency in
seconds, the time at which the task is next due and the id of its delayed call. -/
structure Task where
  name : String
  frequency : Int
  nextdue : Int
  id : Nat
  deriving DecidableEq, Repr

/-- The members of `MainWorker` that the housekeeping tasks and the rebalancing use.
`m_tasks_by_name` is a map from names to tasks, listed with one entry per task;
`m_last_rebalancing` is in milliseconds. -/
structure MainWorker where
  m_tasks_by_name : List Task
  m_rebalancing_dc : Nat
  m_force_rebalancing : Bool
  m_last_rebalancing : Int
  deriving DecidableEq, Repr

/-- `m_tasks_by_name.find(name)`. -/
def MainWorker.find_task (m : MainWorker) (name : String) : Option Task :=
  m.m_tasks_by_name.find? (fun t => t.name == name)

/-- The function that `MainWorker::add_task` executes: `insert` adds the task unless the
name is taken, and the delayed call, whose id is `id`, is recorded in the task that the
name then maps to. `nextdue` is the due time the constructor of `Task` computes. -/
def MainWorker.add_task (m : MainWorker) (name : String) (frequency nextdue : Int) (id : Nat) :
    MainWorker :=
  let tasks := if m.find_task name = none then m.m_tasks_by_name ++ [⟨name, frequency, nextdue, 0⟩]
               else m.m_tasks_by_name
  { m with m_tasks_by_name := tasks.map (fun t => if t.name = name then { t with id := id } else t) }

/-- The function that `MainWorker::remove_task` executes. -/
def MainWorker.remove_task (m : MainWorker) (name : String) : MainWorker :=
  { m with m_tasks_by_name := m.m_tasks_by_name.filter (fun t => t.name != name) }

/-- `MainWorker::call_task` for the task registered under `name`, at time `now` (seconds);
`execute` tells whether the action is `EXECUTE` and `call_again` is what the task function
returns. The result is the worker afterwards and the value returned. -/
def MainWorker.call_task (m : MainWorker) (execute : Bool) (name : String) (call_again : Bool)
    (now : Int) : MainWorker × Bool :=
  if execute then
    if call_again then
      ({ m with
          m_tasks_by_name := m.m_tasks_by_name.map
            (fun t => if t.name = name then { t with nextdue := now + t.frequency } else t) },
        true)
    else (m.remove_task name, false)
  else (m, false)

/-- `MainWorker::balance_workers` with the action `EXECUTE` at time `now` (milliseconds),
for the configured `rebalance_period` `period`; `balanced` is what
`RoutingWorker::balance_workers` returns when it is invoked. The result is the worker
afterwards, the value returned, and whether `RoutingWorker::balance_workers` was invoked. -/
def MainWorker.balance_workers (m : MainWorker) (period now : Int) (balanced : Bool) :
    MainWorker × Bool × Bool :=
  if period ≠ 0 then
    if m.m_force_rebalancing || decide (now - m.m_last_rebalancing ≥ period) then
      ({ m with m_force_rebalancing := balanced, m_last_rebalancing := now }, true, true)
    else ({ m with m_last_rebalancing := now }, true, false)
  else ({ m with m_rebalancing_dc := 0 }, false, false)

/-- What happens to the task registry. -/
inductive TaskEvent where
  | add (name : String) (frequency nextdue : Int) (id : Nat)
  | remove (name : String)
  | call (execute : Bool) (name : String) (call_again : Bool) (now : Int)

/-- The effect of one event. -/
def TaskEvent.apply (m : MainWorker) : TaskEvent → MainWorker
  | .add name frequency nextdue id => m.add_task name frequency nextdue id
  | .remove name => m.remove_task name
  | .call execute name call_again now => (m.call_task execute name call_again now).1

/-- The main worker after a sequence of events. -/
def run_tasks (m : MainWorker) (events : List TaskEvent) : MainWorker :=
  events.foldl TaskEvent.apply m

/-- Successive executions of `MainWorker::balance_workers`, the first `gap` milliseconds
after `start` and each `gap` milliseconds after the one before, with
`RoutingWorker::balance_workers` never reporting a move: the worker afterwards and, for
each execution in order, whether `RoutingWorker::balance_workers` was invoked. -/
def balance_every (period gap : Int) : Nat → MainWorker → Int → MainWorker × List Bool
  | 0, m, _ => (m, [])
  | n + 1, m, start =>
    ((balance_every period gap n (m.balance_workers period (start + gap) false).1
        (start + gap)).1,
      (m.balance_workers period (start + gap) false).2.2
        :: (balance_every period gap n (m.balance_workers period (start + gap) false).1
          (start + gap)).2)

/-! ### The mirror router: `MirrorSession` -/

/-- A backend of a mirror session: whether it is in use and how many results it still
owes (`is_waiting_result()` holds when there is one). -/
structure MyBackend where
  in_use : Bool
  waiting : Nat
  deriving DecidableEq, Repr

/-- The members of `MirrorSession` that the routing uses. A packet is named by a number,
`none` is an empty buffer, and `m_main` is the position of the main backend in
`m_backends`. The last three fields are not members of the class: they record, in order,
the queries for which `routeQuery` wrote to the backends, the successful writes as backend
and packet, and the packets passed on to the client. -/
structure MirrorSession where
  m_backends : List MyBackend
  m_main : Nat
  m_responses : Int
  m_queue : List Nat
  m_last_chunk : Option Nat
  routed : List Nat
  written : List (Nat × Nat)
  to_client : List (Option Nat)
  deriving DecidableEq, Repr

/-- The loop over `m_backends` in `routeQuery` from the backend at position `i` on;
`write_ok i` is what `a->write` returns on backend `i`. The result is the backends
afterwards, whether the main backend was written to, the number added to `m_responses`
and the successful writes. -/
def write_backends (packet : Nat) (expecting_response : Bool) (write_ok : Nat → Bool)
    (m_main : Nat) : Nat → List MyBackend → List MyBackend × Bool × Int × List (Nat × Nat)
  | _, [] => ([], false, 0, [])
  | i, a :: rest =>
    if a.in_use && write_ok i then
      ((if expecting_response then { a with waiting := a.waiting + 1 } else a)
          :: (write_backends packet expecting_response write_ok m_main (i + 1) rest).1,
        decide (i = m_main)
          || (write_backends packet expecting_response write_ok m_main (i + 1) rest).2.1,
        (if expecting_response then 1 else 0)
          + (write_backends packet expecting_response write_ok m_main (i + 1) rest).2.2.1,
        (i, packet)
          :: (write_backends packet expecting_response write_ok m_main (i + 1) rest).2.2.2)
    else
      (a :: (write_backends packet expecting_response write_ok m_main (i + 1) rest).1,
        (write_backends packet expecting_response write_ok m_main (i + 1) rest).2.1,
        (write_backends packet expecting_response write_ok m_main (i + 1) rest).2.2.1,
        (write_backends packet expecting_response write_ok m_main (i + 1) rest).2.2.2)

/-- `MirrorSession::routeQuery`; `will_respond` tells whether a packet gets a response and
`write_ok packet i` whether the write of the packet to backend `i` succeeds. -/
def MirrorSession.routeQuery (s : MirrorSession) (will_respond : Nat → Bool)
    (write_ok : Nat → Nat → Bool) (packet : Nat) : MirrorSession × Bool :=
  if s.m_responses ≠ 0 then ({ s with m_queue := s.m_queue ++ [packet] }, true)
  else
    let r := write_backends packet (will_respond packet) (write_ok packet) s.m_main 0 s.m_backends
    ({ s with
        m_backends := r.1
        m_responses := s.m_responses + r.2.2.1
        routed := s.routed ++ [packet]
        written := s.written ++ r.2.2.2 },
      r.2.1)

/-- The loop of `MirrorSession::route_queued_queries`, one unit of fuel per round; `none`
stands for a loop that still runs when the fuel is used up. -/
def route_queued_loop (will_respond : Nat → Bool) (write_ok : Nat → Nat → Bool) :
    Nat → MirrorSession → Option MirrorSession
  | fuel, s =>
    match s.m_queue with
    | [] => some s
    | query :: rest =>
      if s.m_responses = 0 then
        match fuel with
        | 0 => none
        | fuel + 1 =>
          if ({ s with m_queue := rest }.routeQuery will_respond write_ok query).2 then
            route_queued_loop will_respond write_ok fuel
              ({ s with m_queue := rest }.routeQuery will_respond write_ok query).1
          else some ({ s with m_queue := rest }.routeQuery will_respond write_ok query).1
      else some s

/-- `MirrorSession::route_queued_queries`: every round takes a query from the queue, so as
many rounds as there are queued queries suffice. -/
def MirrorSession.route_queued_queries (s : MirrorSession) (will_respond : Nat → Bool)
    (write_ok : Nat → Nat → Bool) : Option MirrorSession :=
  route_queued_loop will_respond write_ok s.m_queue.length s

/-- `MirrorSession::finalize_reply`. -/
def MirrorSession.finalize_reply (s : MirrorSession) (will_respond : Nat → Bool)
    (write_ok : Nat → Nat → Bool) : Option MirrorSession :=
  MirrorSession.route_queued_queries
    { s with to_client := s.to_client ++ [s.m_last_chunk], m_last_chunk := none }
    will_respond write_ok

/-- `backend->ack_write()` on the backend at position `i`. -/
def ack_write (backends : List MyBackend) (i : Nat) : List MyBackend :=
  match backends[i]? with
  | some a => backends.set i { a with waiting := a.waiting - 1 }
  | none => backends

/-- `MirrorSession::clientReply` for the packet `packet` of backend `backend`; `complete`
is `reply.is_complete()`. -/
def MirrorSession.clientReply (s : MirrorSession) (will_respond : Nat → Bool)
    (write_ok : Nat → Nat → Bool) (packet : Nat) (backend : Nat) (complete : Bool) :
    Option MirrorSession :=
  if complete then
    let s1 : MirrorSession :=
      { s with
        m_backends := ack_write s.m_backends backend
        m_responses := s.m_responses - 1
        m_last_chunk := if backend = s.m_main then some packet else s.m_last_chunk }
    if s1.m_responses = 0 then s1.finalize_reply will_respond write_ok
    else some s1
  else if backend = s.m_main then some { s with to_client := s.to_client ++ [some packet] }
  else some s

/-- `MirrorSession::handleError` for the backend at position `backend`, as far as the
session's own state goes; `backend->close()` leaves the backend out of use, owing
nothing. -/
def MirrorSession.handleError (s : MirrorSession) (will_respond : Nat → Bool)
    (write_ok : Nat → Nat → Bool) (backend : Nat) : Option MirrorSession :=
  let close := fun (t : MirrorSession) =>
    { t with m_backends := t.m_backends.set backend ⟨false, 0⟩ }
  match s.m_backends[backend]? with
  | some a =>
    if 0 < a.waiting then
      if s.m_responses - 1 = 0 ∧ backend ≠ s.m_main then
        (MirrorSession.finalize_reply { s with m_responses := s.m_responses - 1 }
          will_respond write_ok).map close
      else some (close { s with m_responses := s.m_responses - 1 })
    else some (close s)
  | none => some s

/-- What happens to a mirror session. -/
inductive MirrorEvent where
  | query (packet : Nat)
  | reply (packet : Nat) (backend : Nat) (complete : Bool)
  | error (backend : Nat)
  deriving DecidableEq, Repr

/-- The effect of one event; `none` only if a loop did not come to its end. -/
def MirrorEvent.apply (will_respond : Nat → Bool) (write_ok : Nat → Nat → Bool)
    (s : MirrorSession) : MirrorEvent → Option MirrorSession
  | .query packet => some (s.routeQuery will_respond write_ok packet).1
  | .reply packet backend complete => s.clientReply will_respond write_ok packet backend complete
  | .error backend => s.handleError will_respond write_ok backend

/-- The session after a sequence of events. -/
def run_mirror (will_respond : Nat → Bool) (write_ok : Nat → Nat → Bool) :
    MirrorSession → List MirrorEvent → Option MirrorSession
  | s, [] => some s
  | s, e :: events =>
    match e.apply will_respond write_ok s with
    | some s1 => run_mirror will_respond write_ok s1 events
    | none => none

/-- The packets of the client queries among the events, in order. -/
def arrived : List MirrorEvent → List Nat
  | [] => []
  | .query packet :: events => packet :: arrived events
  | _ :: events => arrived events

/-- A new session with the given backends, all in use: nothing written, nothing owed. -/
def MirrorSession.create (n_backends m_main : Nat) : MirrorSession :=
  ⟨List.replicate n_backends ⟨true, 0⟩, m_main, 0, [], none, [], [], []⟩

/-- The order of the session's records: the successful writes follow the order in which
the queries were routed (each query is written at most once to each backend). -/
def WrittenInOrder (s : MirrorSession) : Prop :=
  (s.written.map (·.2)).Sublist
    (s.routed.map (fun p => List.replicate s.m_backends.length p)).flatten

/-- The main backend is among the backends and in use. -/
def MainInUse (s : MirrorSession) : Prop :=
  (s.m_backends.map (·.in_use))[s.m_main]? = some true

/-- What holds of a mirror session whose main backend is `m_main`, after the client
queries `arrivals`: the queries routed and the queries queued are, in this order, the
queries that arrived; queries are queued only while responses are awaited; the main backend
is in use; the writes are in the order of routing. -/
def MirrorInv (s : MirrorSession) (m_main : Nat) (arrivals : List Nat) : Prop :=
  s.routed ++ s.m_queue = arrivals ∧ (s.m_queue ≠ [] → s.m_responses ≠ 0)
  ∧ s.m_main = m_main ∧ MainInUse s ∧ WrittenInOrder s

/-- The server status that the OK branch of `modutil_count_signal_packets` reads from the
packet `p`: `data` is the payload after its first byte, `ptr` skips two length-encoded
integers, and the two bytes found there are the status. It is what the code reads when
`OkReadable` holds for `p`. -/
def ok_status (leint_bytes : List Nat → Nat) (p : List Nat) : Nat :=
  let data := p.drop (MYSQL_HEADER_LEN + 1)
  let ptr := leint_bytes data
  let ptr := ptr + leint_bytes (data.drop ptr)
  gw_mysql_get_byte2 ((data.drop ptr).take 2)

/-- A complete packet of ordinary size with a first payload byte other than `0xFF`: a packet
that `modutil_count_signal_packets` classifies, when it is not a continuation, without
returning at once. -/
def SignalPacket (p : List Nat) : Prop :=
  WellFormedPacket p ∧ 5 ≤ p.length ∧ gw_mysql_get_byte3 p ≠ GW_MYSQL_MAX_PACKET_LEN ∧
  p.getD 4 0 ≠ MYSQL_REPLY_ERR

instance (p : List Nat) : Decidable (SignalPacket p) := by
  unfold SignalPacket; infer_instance

/-- An OK packet: first payload byte `0x00` in a packet of at least 11 bytes. -/
def IsOkPacket (p : List Nat) : Prop :=
  p.getD 4 0 = MYSQL_REPLY_OK ∧ MYSQL_OK_PACKET_MIN_LEN ≤ p.length

instance (p : List Nat) : Decidable (IsOkPacket p) := by
  unfold IsOkPacket; infer_instance

/-- A complete packet whose payload length is `0xFFFFFF`. -/
def MaxPacket (p : List Nat) : Prop :=
  WellFormedPacket p ∧ gw_mysql_get_byte3 p = GW_MYSQL_MAX_PACKET_LEN

instance (p : List Nat) : Decidable (MaxPacket p) := by
  unfold MaxPacket; infer_instance

/-- The OK branch of `modutil_count_signal_packets` is well defined for the packet `p`: the
array `data` of `payloadlen - 1` bytes, which is on the stack, has at most 65535 bytes, and
the two bytes of the status, read behind two length-encoded integers, lie inside it. Outside
these bounds the code reads beyond the array or needs more stack than a thread may have. -/
def OkReadable (leint_bytes : List Nat → Nat) (p : List Nat) : Prop :=
  (p.drop (MYSQL_HEADER_LEN + 1)).length ≤ 0xFFFF
  ∧ leint_bytes (p.drop (MYSQL_HEADER_LEN + 1))
      + leint_bytes ((p.drop (MYSQL_HEADER_LEN + 1)).drop
          (leint_bytes (p.drop (MYSQL_HEADER_LEN + 1))))
      + 2 ≤ (p.drop (MYSQL_HEADER_LEN + 1)).length

instance (leint_bytes : List Nat → Nat) (p : List Nat) : Decidable (OkReadable leint_bytes p) := by
  unfold OkReadable; infer_instance

/-- A packet of ordinary size that the loop of `modutil_count_signal_packets` inspects and
passes without counting it and without returning: not an ERR and not an EOF packet. `even`
tells whether `eof + n_found` is even where the packet is met; an OK packet met at an even
count is read as such, which is admitted only with `ok_allowed` and when the OK branch is
well defined for it. -/
def PassedPacket (leint_bytes : List Nat → Nat) (ok_allowed even : Bool) (p : List Nat) : Prop :=
  SignalPacket p ∧ ¬ IsEofPacket p
  ∧ (IsOkPacket p → even = true → ok_allowed = true ∧ OkReadable leint_bytes p)

instance (leint_bytes : List Nat → Nat) (ok_allowed even : Bool) (p : List Nat) :
    Decidable (PassedPacket leint_bytes ok_allowed even p) := by
  unfold PassedPacket; infer_instance

/-- The packets are passed by the loop of `modutil_count_signal_packets` without an ERR or
EOF packet being inspected: each of them is a packet with payload length `0xFFFFFF`, or the
complete packet that follows one (met with a continuation pending, `skip`), or a
`PassedPacket`. The result tells whether a continuation is pending behind the packets; it
is `none` when the packets are not of this kind. -/
def passes (leint_bytes : List Nat → Nat) (ok_allowed even : Bool) :
    Bool → List (List Nat) → Option Bool
  | skip, [] => some skip
  | skip, p :: D =>
    if MaxPacket p then passes leint_bytes ok_allowed even true D
    else if skip then
      if WellFormedPacket p then passes leint_bytes ok_allowed even false D else none
    else if PassedPacket leint_bytes ok_allowed even p then
      passes leint_bytes ok_allowed even false D
    else none

/-! ### Leading whitespace and comments: `modutil_MySQL_bypass_whitespace` -/

/-- The inner loop of `modutil_MySQL_bypass_whitespace` that looks for the end of a block
comment, entered after `i += 2`: the bytes from `i` on when the loop is left. -/
def skip_c_comment : List Nat → List Nat
  | [] => []
  | c :: rest =>
    if c == 42 then
      match rest with
      | [] => []
      | d :: rest' => if d == 47 then rest' else skip_c_comment (d :: rest')
    else
      skip_c_comment rest

/-- The loop `while ((i != end) && (*i != '\n')) { ++i; }` followed by
`if (i != end) { ++i; }`: the bytes from `i` on afterwards. -/
def skip_to_newline : List Nat → List Nat
  | [] => []
  | c :: rest => if c == 10 then rest else skip_to_newline rest

/-- Outcome of one iteration of the outer loop of `modutil_MySQL_bypass_whitespace`: the
loop goes on, or it is left by `break`; in both cases with the bytes from `i` on. -/
inductive BypassStep where
  | next (i : List Nat)
  | stop (i : List Nat)
  deriving DecidableEq, Repr

/-- One iteration of the outer `while (i != end)` loop of `modutil_MySQL_bypass_whitespace`
at the byte `c` followed by `rest`. -/
def bypass_whitespace_step (c : Nat) (rest : List Nat) : BypassStep :=
  if is_space c then
    .next rest
  else if c == 47 then
    match rest with
    | 42 :: r => .next (skip_c_comment r)
    | _ => .stop (c :: rest)
  else if c == 45 then
    match rest with
    | 45 :: s :: r => if is_space s then .next (skip_to_newline r) else .stop (c :: rest)
    | _ => .stop (c :: rest)
  else if c == 35 then
    .stop (skip_to_newline rest)
  else
    .stop (c :: rest)

/-- The outer loop of `modutil_MySQL_bypass_whitespace`, one unit of fuel per iteration:
the bytes from the returned pointer on, `none` when the fuel is used up before the loop
ends. -/
def bypass_whitespace_loop : Nat → List Nat → Option (List Nat)
  | _, [] => some []
  | 0, _ :: _ => none
  | fuel + 1, c :: rest =>
    match bypass_whitespace_step c rest with
    | .next i => bypass_whitespace_loop fuel i
    | .stop i => some i

/-- `modutil_MySQL_bypass_whitespace(sql, len)`: the returned pointer as its distance from
`sql`. Every iteration of the outer loop moves `i` forward, so `len` iterations are
enough. -/
def modutil_MySQL_bypass_whitespace (sql : List Nat) : Option Nat :=
  (bypass_whitespace_loop sql.length sql).map (fun i => sql.length - i.length)

/-- The text starts a comment: a block comment, two minus signs and a whitespace byte, or a
hash sign. -/
def begins_comment : List Nat → Bool
  | 47 :: 42 :: _ => true
  | 45 :: 45 :: s :: _ => is_space s
  | 35 :: _ => true
  | _ => false

/-! ### `maxscale::extract_error` -/

/-- `GWBUF_DATA(b)`: the bytes of the segment `b` points to. -/
def GWBUF_DATA (b : GWBUF) : List Nat :=
  match b with
  | [] => []
  | seg :: _ => seg

/-- Modelled from the spec: `MYSQL_IS_ERROR_PACKET(header)`, whose defining header is not
among the sources. The specification discriminates an ERR packet by its first payload byte
`0xFF`, the byte that `MYSQL_GET_COMMAND` reads. -/
def MYSQL_IS_ERROR_PACKET (header : List Nat) : Bool := header.getD 4 0 == MYSQL_REPLY_ERR

/-- `extract_error_state(pBuffer, &pState, &nState)`: the distance of `*ppState` from
`pBuffer` and `*pnState`. A byte that the buffer does not contain is read as 0. -/
def extract_error_state (pBuffer : List Nat) : Nat × Nat :=
  (MYSQL_HEADER_LEN + 1 + 2, if pBuffer.getD (MYSQL_HEADER_LEN + 1 + 2) 0 == 0x23 then 6 else 0)

/-- `extract_error_message(pBuffer, &pMessage, &nMessage)`: the distance of `*ppMessage` from
`pBuffer` and `*pnMessage`, which is a `uint16_t`: the assignment and the `-= 6` are taken
modulo `2 ^ 16`. A byte that the buffer does not contain is read as 0. -/
def extract_error_message (pBuffer : List Nat) : Nat × Nat :=
  let packet_len : Int := (MYSQL_HEADER_LEN : Int) + (gw_mysql_get_byte3 pBuffer : Int)
  let pMessage := MYSQL_HEADER_LEN + 1 + 2
  let nMessage : Int := (packet_len - MYSQL_HEADER_LEN - 1 - 2) % 2 ^ 16
  if pBuffer.getD pMessage 0 == 0x23 then
    (pMessage + 6, ((nMessage - 6) % 2 ^ 16).toNat)
  else
    (pMessage, nMessage.toNat)

/-- `maxscale::extract_error(buffer)`: the bytes of the returned string. `replybuf` receives
the first `replylen` bytes of the chain, fewer when the chain is shorter, and the two strings
are cut where `replybuf` ends: the model follows the code only for packets in which the state
and the message lie inside `replybuf`, beyond which the code reads what the model does not
have. -/
def extract_error (buffer : GWBUF) : List Nat :=
  if MYSQL_IS_ERROR_PACKET (GWBUF_DATA buffer) then
    let replylen := gw_mysql_get_byte3 (GWBUF_DATA buffer) + MYSQL_HEADER_LEN
    let replybuf := gwbuf_copy_data buffer 0 replylen
    let state := extract_error_state replybuf
    let message := extract_error_message replybuf
    let err := (replybuf.drop state.1).take state.2
    let msg := (replybuf.drop message.1).take message.2
    if err.isEmpty then msg else err ++ [58, 32] ++ msg
  else
    []

/-! ### Canonicalisation with checked reads -/

/-- What can go wrong in an execution with `mxb_assert` enabled: a read of a byte that is
not inside the input, or an assertion whose condition is false. -/
inductive Fault where
  | out_of_bounds
  | assertion_failed
  deriving DecidableEq, Repr

/-- The outcome of a checked execution: a result, or the first fault. -/
inductive Checked (α : Type) where
  | ok (a : α)
  | fault (f : Fault)
  deriving DecidableEq, Repr

/-- The loop of `probe_number` as in `probe_number_loop`, with its reads and its
`mxb_assert` checked. The list holds the bytes from `it` to `end`. The tests
`next_it == end || ...` and `next_it != end && ...` read `*next_it` only when `next_it` is
not `end`; `mxb_assert(is_digit(*next_it))` after the test for a period reads `*next_it` in
every case, which is outside the input when the period is the last byte. -/
def probe_number_loop_checked : List Nat → Bool → Bool → Nat → Nat → Checked (Bool × Nat)
  | [], _, _, _, second => .ok (true, second)
  | [c], is_hex, allow_hex, pos, second =>
    if is_digit c || (allow_hex && is_xdigit c) then
      probe_number_loop_checked [] is_hex allow_hex (pos + 1) pos
    else if is_hex && (c == 120 || c == 88) then
      probe_number_loop_checked [] false true (pos + 1) pos
    else if c == 101 then
      .ok (false, second)
    else if c == 46 then
      .fault .out_of_bounds
    else
      .ok (!is_alpha c, second)
  | c :: n :: rest, is_hex, allow_hex, pos, second =>
    if is_digit c || (allow_hex && is_xdigit c) then
      probe_number_loop_checked (n :: rest) is_hex allow_hex (pos + 1) pos
    else if is_hex && (c == 120 || c == 88) then
      probe_number_loop_checked (n :: rest) false true (pos + 1) pos
    else if c == 101 then
      if !is_digit n && n != 45 then .ok (false, second)
      else if n == 45 then probe_number_loop_checked rest is_hex allow_hex (pos + 2) (pos + 1)
      else probe_number_loop_checked (n :: rest) is_hex allow_hex (pos + 1) pos
    else if c == 46 then
      if !is_digit n then .ok (false, second)
      else if is_digit n then probe_number_loop_checked (n :: rest) is_hex allow_hex (pos + 1) pos
      else .fault .assertion_failed
    else
      .ok (!is_alpha c, second)

/-- `probe_number(it, end)` for the bytes `c :: rest` at `it`, with the two assertions at its
start, `it != end` and `is_digit(*it)`, and the loop checked. -/
def probe_number_checked (c : Nat) (rest : List Nat) : Checked (Bool × Nat) :=
  if is_digit c then probe_number_loop_checked rest (c == 48) false 1 0
  else .fault .assertion_failed

/-- One iteration of the loop of `get_canonical` with the call of `probe_number` checked.
The call is reached exactly when `*it` is a digit that does not continue a word: the
branches before it are taken for a byte that is not special, a backslash, whitespace, a
slash, a hash sign or a minus sign, none of which is a digit. -/
def canonical_step_checked (c : Nat) (rest acc : List Nat) :
    Checked (Option (List Nat) × List Nat) :=
  if is_digit c && not_in_word acc then
    match probe_number_checked c rest with
    | .fault f => .fault f
    | .ok _ => .ok (canonical_step c rest acc)
  else
    .ok (canonical_step c rest acc)

/-- The `for` loop of `get_canonical` with the call of `probe_number` checked, one unit of
fuel per iteration. -/
def canonical_loop_checked : Nat → List Nat → List Nat → Checked (List Nat)
  | 0, _, acc => .ok acc
  | _ + 1, [], acc => .ok acc
  | fuel + 1, c :: rest, acc =>
    match canonical_step_checked c rest acc with
    | .fault f => .fault f
    | .ok (none, acc') => .ok acc'
    | .ok (some it, acc') => canonical_loop_checked fuel it acc'

/-- `maxscale::get_canonical(querybuf)` with the call of `probe_number` checked. -/
def get_canonical_checked (querybuf : List Nat) : Checked (List Nat) :=
  match canonical_loop_checked (querybuf.drop (MYSQL_HEADER_LEN + 1)).length
      (querybuf.drop (MYSQL_HEADER_LEN + 1)) [] with
  | .fault f => .fault f
  | .ok rval => .ok (rval.dropWhile is_space).reverse

/-- The test that sends the loop of `get_canonical`, at the byte `c` followed by `rest`, into
a branch that removes a comment: `*it == '/' && is_next(it, end, "/*")` with `comment_start`
at the end of the text (the loop is left there) or at a byte other than `!` and `M`, or
`(*it == '#' || *it == '-') && (is_next(it, end, "# ") || is_next(it, end, "-- "))`. The loop
reaches these tests only at a special byte that is neither a backslash nor whitespace, which
the three bytes `/`, `#` and `-` are. -/
def comment_start (c : Nat) (rest : List Nat) : Bool :=
  (c == 47 && is_next (c :: rest) [47, 42] &&
    (match rest.drop 1 with
     | [] => true
     | s :: _ => s != 33 && s != 77))
  || ((c == 35 || c == 45) && (is_next (c :: rest) [35, 32] || is_next (c :: rest) [45, 45, 32]))

/-- Whether the loop of `get_canonical`, followed iteration by iteration as in
`canonical_loop`, comes to an iteration that takes a branch removing a comment. -/
def comment_met : Nat → List Nat → List Nat → Bool
  | 0, _, _ => false
  | _ + 1, [], _ => false
  | fuel + 1, c :: rest, acc =>
    if comment_start c rest then true
    else
      match canonical_step c rest acc with
      | (none, _) => false
      | (some it, acc') => comment_met fuel it acc'

/-- The loop of `get_canonical` from the bytes `it` with `acc` written, with as much fuel as
there are bytes left, takes a branch removing a comment. -/
def comment_run (it acc : List Nat) : Bool := comment_met it.length it acc

/-- A pass of `get_canonical` over the SQL text `sql` removes a comment: one of its
iterations takes the branch of a block comment that is not executable or that of an
end-of-line comment. -/
def removes_comment (sql : List Nat) : Bool := comment_run sql []

/-! ## Theorems -/

/-! ### Values of type `int` -/

theorem to_int_of_range (x : Int) (hlo : -2 ^ 31 ≤ x) (hhi : x < 2 ^ 31) : to_int x = x := by
  unfold to_int
  omega

/-! ### Packet framing -/

theorem gw_mysql_get_byte3_take (l : List Nat) :
    gw_mysql_get_byte3 (l.take 3) = gw_mysql_get_byte3 l := by
  rcases l with _ | ⟨a, _ | ⟨b, _ | ⟨c, l⟩⟩⟩ <;> simp [gw_mysql_get_byte3]

theorem gwbuf_copy_data_single (pre rest : List Nat) (n : Nat) :
    gwbuf_copy_data [pre ++ rest] pre.length n = rest.take n := by
  simp [gwbuf_copy_data]

theorem WellFormedPacket.ne_nil {p : List Nat} (h : WellFormedPacket p) : p ≠ [] := by
  intro hp
  have := h.2.1
  simp [hp] at this

theorem flatten_eq_nil_of_wf {ps : List (List Nat)} (h : ∀ p ∈ ps, WellFormedPacket p)
    (he : ps.flatten = []) : ps = [] := by
  cases ps with
  | nil => rfl
  | cons p ps =>
    exfalso
    have hp := (h p (by simp)).2.1
    have : (p ++ ps.flatten).length = 0 := by
      rw [← List.flatten_cons, he]; rfl
    simp at this
    simp [this.1] at hp

theorem get_complete_packets_loop_packets (pkts : List (List Nat)) :
    ∀ (t pre : List Nat) (tot fuel : Nat),
      (∀ p ∈ pkts, WellFormedPacket p) → IncompleteTail t →
      (pre ++ pkts.flatten ++ t).length < 2 ^ 32 →
      pkts.length + 2 ≤ fuel →
      get_complete_packets_loop fuel [pre ++ (pkts.flatten ++ t)] pre.length tot
        (pkts.flatten ++ t).length = some (tot + pkts.flatten.length) := by
  induction pkts with
  | nil =>
    intro t pre tot fuel _ ht hlen hfuel
    obtain ⟨fuel, rfl⟩ : ∃ f, fuel = f + 1 := ⟨fuel - 1, by omega⟩
    simp only [List.flatten_nil, List.nil_append, List.length_nil, Nat.add_zero]
    unfold get_complete_packets_loop
    rw [gwbuf_copy_data_single]
    by_cases h3 : t.length < 3
    · have : ¬ (t.take 3).length = 3 := by simp; omega
      rw [if_neg (fun h => this h.2)]
    · have h3' : (t.take 3).length = 3 := by simp; omega
      have hinc : t.length < gw_mysql_get_byte3 t + 4 := by
        rcases ht.2 with h | h
        · exact absurd h h3
        · exact h
      simp only [List.flatten_nil, List.nil_append, List.append_assoc, List.length_append] at hlen
      have hb : gw_mysql_get_byte3 t < 2 ^ 24 := by
        rcases t with _ | ⟨a, _ | ⟨b, _ | ⟨c, l⟩⟩⟩
        · simp at h3
        · simp at h3
        · simp at h3
        · have ha := ht.1 a (by simp)
          have hb := ht.1 b (by simp)
          have hc := ht.1 c (by simp)
          simp [gw_mysql_get_byte3]
          omega
      have hmod : (gw_mysql_get_byte3 t + 4) % 2 ^ 32 = gw_mysql_get_byte3 t + 4 := by
        apply Nat.mod_eq_of_lt; omega
      simp only [h3', gw_mysql_get_byte3_take, MYSQL_HEADER_LEN, hmod]
      have hnl : ¬ (gw_mysql_get_byte3 t + 4 < t.length) := by omega
      simp only [ne_eq, List.cons_ne_self, not_false_eq_true, and_self, if_true, hnl, if_false,
        reduceCtorEq]
      have hs : skip_buffers (gw_mysql_get_byte3 t + 4) t.length [pre ++ t]
          = (gw_mysql_get_byte3 t + 4 - t.length, 0, []) := by
        unfold skip_buffers
        have : gw_mysql_get_byte3 t + 4 ≥ t.length := by omega
        simp [this, skip_buffers, GWBUF_LENGTH]
      rw [hs]
      have : ¬ (gw_mysql_get_byte3 t + 4 - t.length = 0) := by omega
      simp [this]
  | cons p ps ih =>
    intro t pre tot fuel hwf ht hlen hfuel
    obtain ⟨fuel, rfl⟩ : ∃ f, fuel = f + 1 := ⟨fuel - 1, by omega⟩
    have hp := hwf p (by simp)
    have hps : ∀ q ∈ ps, WellFormedPacket q := fun q hq => hwf q (by simp [hq])
    simp only [List.flatten_cons, List.append_assoc, List.length_append] at hlen ⊢
    unfold get_complete_packets_loop
    rw [gwbuf_copy_data_single]
    have h3' : ((p ++ (ps.flatten ++ t)).take 3).length = 3 := by
      have := hp.2.1
      simp; omega
    have htake : (p ++ (ps.flatten ++ t)).take 3 = p.take 3 := by
      have := hp.2.1
      rw [List.take_append_of_le_length (by omega)]
    have hmod : (gw_mysql_get_byte3 p + 4) % 2 ^ 32 = p.length := by
      rw [← hp.2.2]; apply Nat.mod_eq_of_lt; omega
    have h3p : (p.take 3).length = 3 := htake ▸ h3'
    simp only [h3', htake, gw_mysql_get_byte3_take, MYSQL_HEADER_LEN, hmod]
    simp only [ne_eq, List.cons_ne_self, not_false_eq_true, and_self, if_true, reduceCtorEq]
    by_cases hrest : ps.flatten ++ t = []
    · have ht' : t = [] := (List.append_eq_nil.mp hrest).2
      have hps' : ps = [] := flatten_eq_nil_of_wf hps (List.append_eq_nil.mp hrest).1
      subst ht' hps'
      simp only [List.flatten_nil, List.append_nil, List.length_nil, Nat.add_zero,
        Nat.lt_irrefl, if_false]
      have hs : skip_buffers p.length p.length [pre ++ p] = (0, 0, []) := by
        unfold skip_buffers
        simp [skip_buffers, GWBUF_LENGTH]
      rw [hs]
      obtain ⟨fuel, rfl⟩ : ∃ f, fuel = f + 1 := ⟨fuel - 1, by simp at hfuel; omega⟩
      simp only [true_or, if_true]
      unfold get_complete_packets_loop
      simp only [ne_eq, not_true_eq_false, false_and, if_false, h3p, and_self, if_true]
    · have hpos : 0 < (ps.flatten ++ t).length := List.length_pos.mpr hrest
      simp only [List.length_append] at hpos
      have hlt : p.length < p.length + (ps.flatten.length + t.length) := by omega
      simp only [hlt, if_true]
      have := ih t (pre ++ p) (tot + p.length) fuel hps ht
        (by simp only [List.append_assoc, List.length_append]; omega)
        (by simp at hfuel ⊢; omega)
      simp only [List.append_assoc, List.length_append] at this
      rw [Nat.add_sub_cancel_left]
      rw [this, Nat.add_assoc]
      simp only [h3p, and_self, if_true]

theorem length_le_flatten_of_wf (ps : List (List Nat)) (h : ∀ p ∈ ps, WellFormedPacket p) :
    4 * ps.length ≤ ps.flatten.length := by
  induction ps with
  | nil => simp
  | cons p ps ih =>
    have hp := (h p (by simp)).2.1
    have := ih (fun q hq => h q (by simp [hq]))
    simp only [List.length_cons, List.flatten_cons, List.length_append]
    omega

/-- C1. Packet framing: a contiguous buffer holding the well-formed packets `pkts` followed
by an incomplete tail `t` is split into exactly the bytes of the packets and exactly `t`. -/
theorem modutil_get_complete_packets_frames (pkts : List (List Nat)) (t : List Nat)
    (hwf : ∀ p ∈ pkts, WellFormedPacket p) (ht : IncompleteTail t)
    (hlen : (pkts.flatten ++ t).length < 2 ^ 32) :
    modutil_get_complete_packets [pkts.flatten ++ t] = some (pkts.flatten, t) := by
  have h4 := length_le_flatten_of_wf pkts hwf
  unfold modutil_get_complete_packets
  simp only [reduceCtorEq, false_or, gwbuf_length, List.flatten_cons, List.flatten_nil,
    List.append_nil]
  by_cases h3 : (pkts.flatten ++ t).length < 3
  · have hp : pkts = [] := by
      cases pkts with
      | nil => rfl
      | cons p ps => simp only [List.length_append, List.length_cons] at h3 h4; omega
    subst hp
    simp only [List.flatten_nil, List.nil_append] at h3 ⊢
    rw [if_pos h3]
  · rw [if_neg h3]
    have hloop := get_complete_packets_loop_packets pkts t [] 0
      ((pkts.flatten ++ t).length + 1 + 1) hwf ht (by simpa using hlen)
      (by simp only [List.length_append]; omega)
    simp only [List.nil_append, List.length_nil, Nat.zero_add] at hloop
    have hlenth : get_complete_packets_length [pkts.flatten ++ t] = some pkts.flatten.length := by
      unfold get_complete_packets_length
      simp only [gwbuf_length, List.flatten_cons, List.flatten_nil, List.append_nil,
        List.length_singleton, GWBUF_LENGTH]
      rw [Nat.mod_eq_of_lt hlen]
      exact hloop
    rw [hlenth]
    simp only []
    by_cases ht0 : t = []
    · subst ht0
      simp
    · have hne : ¬ (pkts.flatten ++ t).length = pkts.flatten.length := by
        have := List.length_pos.mpr ht0
        simp only [List.length_append]; omega
      rw [if_neg hne]
      by_cases hz : pkts.flatten.length > 0
      · rw [if_pos hz]
        simp
      · rw [if_neg hz]
        have : pkts.flatten = [] := List.length_eq_zero.mp (by omega)
        simp [this]

/-- The framing scenario of the specification: `01 00 00 00 01 | 05 00 00 00 03 53 45 4c 31 |
03 00 00 00` is split after the first 14 bytes. -/
theorem modutil_get_complete_packets_frames_scenario :
    (∀ p ∈ [[0x01, 0, 0, 0, 0x01], [0x05, 0, 0, 0, 0x03, 0x53, 0x45, 0x4c, 0x31]],
        WellFormedPacket p) ∧
    IncompleteTail [0x03, 0, 0, 0] ∧
    modutil_get_complete_packets
      [[0x01, 0, 0, 0, 0x01, 0x05, 0, 0, 0, 0x03, 0x53, 0x45, 0x4c, 0x31, 0x03, 0, 0, 0]]
      = some ([0x01, 0, 0, 0, 0x01, 0x05, 0, 0, 0, 0x03, 0x53, 0x45, 0x4c, 0x31],
              [0x03, 0, 0, 0]) :=
  ⟨by decide, by decide,
   modutil_get_complete_packets_frames
     [[0x01, 0, 0, 0, 0x01], [0x05, 0, 0, 0, 0x03, 0x53, 0x45, 0x4c, 0x31]] [0x03, 0, 0, 0]
     (by decide) (by decide) (by decide)⟩

/-! ### The ERR packet -/

/-- C10. The ERR packet built by `modutil_create_mysql_err_msg`: for a five-byte SQLSTATE `s`
and a message `m` with `9 + |m| ≤ 0xFFFFFF` the buffer has `4 + 9 + |m|` bytes, its first three
bytes encode the payload length `1 + 2 + 6 + |m|` lsb first, then come the sequence byte,
`0xFF`, the error number in two bytes lsb first, `#`, the five bytes of `s` and the bytes
of `m`; a null state or a null message yields no packet. -/
theorem modutil_create_mysql_err_msg_layout (packet_number affected_rows merrno : Int)
    (s m : List Nat) (hs : s.length = 5) (hm : 9 + m.length ≤ 0xFFFFFF) :
    (∃ buf, modutil_create_mysql_err_msg packet_number affected_rows merrno (some s) (some m)
          = some buf
        ∧ buf.length = 4 + 9 + m.length
        ∧ gw_mysql_get_byte3 (buf.take 3) = 1 + 2 + 6 + m.length
        ∧ buf.take 3 = [(9 + m.length) % 256, (9 + m.length) / 256 % 256,
                        (9 + m.length) / 65536 % 256]
        ∧ buf.drop 3 = [(packet_number % 256).toNat, 0xFF,
                        (merrno % 2 ^ 32).toNat % 256, (merrno % 2 ^ 32).toNat / 256 % 256,
                        0x23] ++ s ++ m
        ∧ gw_mysql_get_byte2 ((buf.drop 5).take 2) = (merrno % 2 ^ 32).toNat % 65536)
    ∧ (∀ st, modutil_create_mysql_err_msg packet_number affected_rows merrno st none = none)
    ∧ (∀ ms, modutil_create_mysql_err_msg packet_number affected_rows merrno none ms = none) := by
  refine ⟨?_, ?_, ?_⟩
  · have htake : (s ++ [0, 0, 0, 0, 0]).take 5 = s := by
      rw [List.take_append_of_le_length (by omega), List.take_of_length_le (by omega)]
    have hmod : (1 + 2 + 6 + m.length) % 2 ^ 32 = 9 + m.length := by
      rw [Nat.mod_eq_of_lt (by omega)]
    refine ⟨_, rfl, ?_, ?_, ?_, ?_, ?_⟩
    · simp [gw_mysql_set_byte3, gw_mysql_set_byte2, htake, hs]; omega
    · simp only [gw_mysql_set_byte3, hmod]
      simp [gw_mysql_get_byte3]
      omega
    · simp only [gw_mysql_set_byte3, hmod]
      simp
    · simp only [gw_mysql_set_byte3, gw_mysql_set_byte2, htake]
      simp
    · simp only [gw_mysql_set_byte3, gw_mysql_set_byte2]
      simp [gw_mysql_get_byte2]
      omega
  · intro st
    cases st <;> rfl
  · intro ms
    cases ms <;> rfl

/-- An ERR packet with sequence number 1, error 1927 (0x0787), SQLSTATE `08S01` and the
message `Lost`. -/
theorem modutil_create_mysql_err_msg_layout_example :
    [0x30, 0x38, 0x53, 0x30, 0x31].length = 5 ∧ 9 + [0x4c, 0x6f, 0x73, 0x74].length ≤ 0xFFFFFF ∧
    modutil_create_mysql_err_msg 1 0 1927 (some [0x30, 0x38, 0x53, 0x30, 0x31])
        (some [0x4c, 0x6f, 0x73, 0x74])
      = some [13, 0, 0, 1, 0xFF, 0x87, 0x07, 0x23, 0x30, 0x38, 0x53, 0x30, 0x31,
              0x4c, 0x6f, 0x73, 0x74] := by
  refine ⟨by decide, by decide, ?_⟩
  obtain ⟨buf, hb, -, -, ht, hd, -⟩ := (modutil_create_mysql_err_msg_layout 1 0 1927
    [0x30, 0x38, 0x53, 0x30, 0x31] [0x4c, 0x6f, 0x73, 0x74] (by decide) (by decide)).1
  rw [hb, ← List.take_append_drop 3 buf, ht, hd]
  decide

/-! ### Signal packets -/

theorem gw_mysql_get_byte3_take_append (p rest : List Nat) (n : Nat) (h3 : 3 ≤ n)
    (hp : 3 ≤ p.length) :
    gw_mysql_get_byte3 ((p ++ rest).take n) = gw_mysql_get_byte3 p := by
  rcases p with _ | ⟨a, _ | ⟨b, _ | ⟨c, l⟩⟩⟩
  · simp at hp
  · simp at hp
  · simp at hp
  · obtain ⟨k, rfl⟩ : ∃ k, n = k + 3 := ⟨n - 3, by omega⟩
    simp [gw_mysql_get_byte3]

theorem getD_take_append_four (p rest : List Nat) (hp : 5 ≤ p.length) :
    ((p ++ rest).take 5).getD 4 0 = p.getD 4 0 := by
  rcases p with _ | ⟨a, _ | ⟨b, _ | ⟨c, _ | ⟨d, _ | ⟨e, l⟩⟩⟩⟩⟩ <;> simp at hp ⊢

theorem or_and_self_ne_zero (x a : Nat) (ha : a ≠ 0) : (x ||| a) &&& a ≠ 0 := by
  intro h
  obtain ⟨i, hi⟩ := Nat.ne_zero_implies_bit_true ha
  have := congrArg (fun y => Nat.testBit y i) h
  simp [hi] at this

theorem count_signal_advance_single (pktlen : Nat) (b : List Nat) (len offset : Nat) (eof : Int)
    (more only_ok : Bool) (num ist : Nat) :
    count_signal_advance pktlen ⟨[b], len, offset, eof, more, only_ok, num, ist⟩
      = ⟨[b], len, offset + pktlen, eof, more, only_ok, num, ist⟩ := by
  simp [count_signal_advance]

/-- One loop iteration at a well-formed packet of a contiguous stream: either the early
return of the ERR branch, or the offset moves past the packet and `SKIP_NEXT` is set
exactly when the payload length is `0xFFFFFF`. -/
theorem count_signal_step_wf (leint_bytes : List Nat → Nat) (n_found : Int)
    (pre p rest : List Nat) (len : Nat) (eof : Int) (more only_ok : Bool) (num ist : Nat)
    (hp : WellFormedPacket p) (hlen : p.length < 2 ^ 32) :
    count_signal_step leint_bytes n_found
        ⟨[pre ++ (p ++ rest)], len, pre.length, eof, more, only_ok, num, ist⟩ = .ret 2 false
    ∨ ∃ eof' more' only_ok' ist',
        count_signal_step leint_bytes n_found
          ⟨[pre ++ (p ++ rest)], len, pre.length, eof, more, only_ok, num, ist⟩
          = .next ⟨[pre ++ (p ++ rest)], len, pre.length + p.length, eof', more', only_ok',
              num + 1, ist'⟩
        ∧ (ist' &&& SKIP_NEXT ≠ 0 ↔ gw_mysql_get_byte3 p = GW_MYSQL_MAX_PACKET_LEN) := by
  have hpl : (gw_mysql_get_byte3 p + 4) % 2 ^ 32 = p.length := by
    rw [← hp.2.2]; exact Nat.mod_eq_of_lt hlen
  have hhdr : gw_mysql_get_byte3 (gwbuf_copy_data [pre ++ (p ++ rest)] pre.length
      (MYSQL_HEADER_LEN + 1)) = gw_mysql_get_byte3 p := by
    simp only [gwbuf_copy_data, List.flatten_cons, List.flatten_nil, List.append_nil,
      List.drop_left]
    exact gw_mysql_get_byte3_take_append p rest _ (by decide) (by have := hp.2.1; omega)
  unfold count_signal_step
  simp only [MYSQL_HEADER_LEN] at hhdr ⊢
  simp only [hhdr, hpl, count_signal_advance_single]
  by_cases hmax : gw_mysql_get_byte3 p = GW_MYSQL_MAX_PACKET_LEN
  · right
    rw [if_pos hmax]
    refine ⟨_, _, _, _, rfl, ?_⟩
    simp only [hmax, iff_true]
    exact or_and_self_ne_zero ist SKIP_NEXT (by decide)
  · rw [if_neg hmax]
    by_cases hskip : ist &&& SKIP_NEXT ≠ 0
    · right
      rw [if_pos hskip]
      refine ⟨_, _, _, _, rfl, ?_⟩
      simp only [hmax, iff_false, not_not]
      rw [Nat.and_assoc]
      simp [SKIP_NEXT]
    · rw [if_neg hskip]
      have hskip0 : ist &&& SKIP_NEXT = 0 := not_not.mp hskip
      split_ifs
      · left; rfl
      · right
        refine ⟨_, _, _, _, rfl, ?_⟩
        simp only [hmax, iff_false, not_not]
        rw [Nat.and_distrib_right, hskip0]
        simp [PS_OUT_PARAM, SKIP_NEXT]
      · right
        refine ⟨_, _, _, _, rfl, ?_⟩
        simp only [hmax, iff_false, not_not]
        rw [Nat.and_comm, ← Nat.and_assoc, Nat.and_comm SKIP_NEXT, hskip0]
        simp
      · right
        exact ⟨_, _, _, _, rfl, by simp [hmax, hskip0]⟩
      · right
        exact ⟨_, _, _, _, rfl, by simp [hmax, hskip0]⟩
      · right
        exact ⟨_, _, _, _, rfl, by simp [hmax, hskip0]⟩

theorem count_signal_loop_err (leint_bytes : List Nat → Nat) (n_found : Int)
    (state : Option modutil_state) (tail : List Nat) (h5 : 5 ≤ tail.length)
    (herr : tail.getD 4 0 = MYSQL_REPLY_ERR)
    (hnmax : gw_mysql_get_byte3 tail ≠ GW_MYSQL_MAX_PACKET_LEN) (pkts : List (List Nat)) :
    ∀ (pre : List Nat) (fuel : Nat) (eof : Int) (more only_ok : Bool) (num ist : Nat),
      (∀ p ∈ pkts, WellFormedPacket p) →
      (pre ++ (pkts.flatten ++ tail)).length < 2 ^ 32 →
      (pkts = [] → ist &&& SKIP_NEXT = 0) →
      (∀ h : pkts ≠ [], gw_mysql_get_byte3 (pkts.getLast h) ≠ GW_MYSQL_MAX_PACKET_LEN) →
      pkts.length + 1 ≤ fuel →
      count_signal_loop leint_bytes n_found state fuel
        ⟨[pre ++ (pkts.flatten ++ tail)], (pre ++ (pkts.flatten ++ tail)).length, pre.length,
          eof, more, only_ok, num, ist⟩ = some ⟨2, false, state⟩ := by
  induction pkts with
  | nil =>
    intro pre fuel eof more only_ok num ist _ hlen hfirst _ hfuel
    obtain ⟨fuel, rfl⟩ : ∃ f, fuel = f + 1 := ⟨fuel - 1, by omega⟩
    have hskip := hfirst rfl
    simp only [List.flatten_nil, List.nil_append]
    unfold count_signal_loop
    have hlt : pre.length < (pre ++ tail).length := by
      simp only [List.length_append]; omega
    simp only [hlt, if_true]
    have hstep : count_signal_step leint_bytes n_found
        ⟨[pre ++ tail], (pre ++ tail).length, pre.length, eof, more, only_ok, num, ist⟩
        = .ret 2 false := by
      have hhdr : gw_mysql_get_byte3 (gwbuf_copy_data [pre ++ tail] pre.length 5)
          = gw_mysql_get_byte3 tail := by
        simp only [gwbuf_copy_data, List.flatten_cons, List.flatten_nil, List.append_nil,
          List.drop_left]
        have := gw_mysql_get_byte3_take_append tail [] 5 (by decide) (by omega)
        simpa using this
      have hcmd : (gwbuf_copy_data [pre ++ tail] pre.length 5).getD 4 0 = tail.getD 4 0 := by
        simp only [gwbuf_copy_data, List.flatten_cons, List.flatten_nil, List.append_nil,
          List.drop_left]
        simp
      unfold count_signal_step
      simp only [MYSQL_HEADER_LEN]
      simp only [hhdr, hcmd, hnmax, if_false, hskip, ne_eq, not_true_eq_false, herr, if_true]
    rw [hstep]
  | cons p ps ih =>
    intro pre fuel eof more only_ok num ist hwf hlen _ hprev hfuel
    obtain ⟨fuel, rfl⟩ : ∃ f, fuel = f + 1 := ⟨fuel - 1, by omega⟩
    have hp := hwf p (by simp)
    have hps : ∀ q ∈ ps, WellFormedPacket q := fun q hq => hwf q (by simp [hq])
    simp only [List.flatten_cons, List.append_assoc] at hlen ⊢
    have hlen' := hlen
    simp only [List.length_append] at hlen'
    unfold count_signal_loop
    have hlt : pre.length < (pre ++ (p ++ (ps.flatten ++ tail))).length := by
      simp only [List.length_append]; omega
    simp only [hlt, if_true]
    rcases count_signal_step_wf leint_bytes n_found pre p (ps.flatten ++ tail)
        (pre ++ (p ++ (ps.flatten ++ tail))).length eof more only_ok num ist hp (by omega)
      with hret | ⟨eof', more', only_ok', ist', hnext, hbit⟩
    · rw [hret]
    · rw [hnext]
      simp only []
      have := ih (pre ++ p) fuel eof' more' only_ok' (num + 1) ist' hps
        (by simpa only [List.append_assoc] using hlen)
        (by
          intro hnil
          subst hnil
          have h1 := hprev (by simp)
          simp only [List.getLast_singleton] at h1
          by_contra hc
          exact h1 (hbit.mp hc))
        (by
          intro hne
          have h1 := hprev (by simp)
          rwa [List.getLast_cons hne] at h1)
        (by simp only [List.length_cons] at hfuel; omega)
      simp only [List.append_assoc, List.length_append] at this ⊢
      exact this

/-- C9. An ERR packet stops `modutil_count_signal_packets`: when the stream holds, after any
well-formed packets, a packet whose first payload byte is `0xFF` and which is not the
continuation of a packet of payload length `0xFFFFFF`, the call returns 2 with `more_out`
false and leaves the caller's state as it was, whatever `n_found`, the state and the packets
before it. -/
theorem modutil_count_signal_packets_err (leint_bytes : List Nat → Nat)
    (pkts : List (List Nat)) (tail : List Nat) (n_found : Int) (state : Option modutil_state)
    (hwf : ∀ p ∈ pkts, WellFormedPacket p)
    (hlen : (pkts.flatten ++ tail).length < 2 ^ 32)
    (h5 : 5 ≤ tail.length) (herr : tail.getD 4 0 = MYSQL_REPLY_ERR)
    (hnmax : gw_mysql_get_byte3 tail ≠ GW_MYSQL_MAX_PACKET_LEN)
    (hfirst : pkts = [] → incoming_state state &&& SKIP_NEXT = 0)
    (hprev : ∀ h : pkts ≠ [], gw_mysql_get_byte3 (pkts.getLast h) ≠ GW_MYSQL_MAX_PACKET_LEN) :
    modutil_count_signal_packets leint_bytes [pkts.flatten ++ tail] n_found state
      = some ⟨2, false, state⟩ := by
  have h4 := length_le_flatten_of_wf pkts hwf
  unfold modutil_count_signal_packets
  simp only [gwbuf_length, List.flatten_cons, List.flatten_nil, List.append_nil]
  rw [Nat.mod_eq_of_lt hlen]
  have := count_signal_loop_err leint_bytes n_found state tail h5 herr hnmax pkts []
    (pkts.flatten ++ tail).length 0 false true 0 (incoming_state state) hwf
    (by simpa using hlen) hfirst hprev (by simp only [List.length_append]; omega)
  simpa using this

/-- A data packet, then an ERR packet, then an EOF packet, with `n_found = 7` and the
`PS_OUT_PARAM` bit set in the incoming state: the call returns 2, `more_out` is false and
the state is untouched. -/
theorem modutil_count_signal_packets_err_example :
    modutil_count_signal_packets (fun _ => 1)
      [[1, 0, 0, 1, 5, 3, 0, 0, 2, 0xff, 1, 1, 5, 0, 0, 2, 0xfe, 0, 0, 0, 0]] 7 (some ⟨2⟩)
      = some ⟨2, false, some ⟨2⟩⟩ :=
  modutil_count_signal_packets_err (fun _ => 1) [[1, 0, 0, 1, 5]]
    [3, 0, 0, 2, 0xff, 1, 1, 5, 0, 0, 2, 0xfe, 0, 0, 0, 0] 7 (some ⟨2⟩)
    (by decide) (by decide) (by decide) (by decide) (by decide) (by decide) (by decide)

theorem count_signal_loop_done (leint_bytes : List Nat → Nat) (n_found : Int)
    (state : Option modutil_state) (fuel : Nat) (v : CountVars) (h : ¬ v.offset < v.len) :
    count_signal_loop leint_bytes n_found state fuel v
      = some (count_signal_finish n_found state v) := by
  cases fuel <;> simp [count_signal_loop, h]

theorem and_skip_of_ps_or (ist : Nat) (h : ist &&& SKIP_NEXT = 0) :
    (ist ||| PS_OUT_PARAM) &&& SKIP_NEXT = 0 := by
  rw [Nat.and_distrib_right, h]; simp [PS_OUT_PARAM, SKIP_NEXT]

theorem and_skip_of_ps_clear (ist : Nat) (h : ist &&& SKIP_NEXT = 0) :
    (ist &&& (0xff - PS_OUT_PARAM)) &&& SKIP_NEXT = 0 := by
  rw [Nat.and_comm, ← Nat.and_assoc, Nat.and_comm SKIP_NEXT, h]; simp

theorem and_ps_of_ps_clear (ist : Nat) : (ist &&& (0xff - PS_OUT_PARAM)) &&& PS_OUT_PARAM = 0 := by
  have h : (0xff - PS_OUT_PARAM) &&& PS_OUT_PARAM = 0 := by decide
  rw [Nat.and_assoc, h, Nat.and_zero]

/-- The loop at an EOF packet that is not a continuation: the EOF count grows by one and the
`PS_OUT_PARAM` bit is set by a status with `SERVER_PS_OUT_PARAMS`, otherwise consumed. -/
theorem count_signal_loop_eof (leint_bytes : List Nat → Nat) (n_found : Int)
    (state : Option modutil_state) (b pre e rest : List Nat) (hb : b.length < 2 ^ 32)
    (hbe : b = pre ++ (e ++ rest)) (he : PlainPacket e) (heof : IsEofPacket e)
    (fuel : Nat) (eof : Int) (more only_ok : Bool) (num ist : Nat)
    (hskip : ist &&& SKIP_NEXT = 0) (hfuel : 1 ≤ fuel) :
    ∃ more' ist',
      count_signal_loop leint_bytes n_found state fuel
          ⟨[b], b.length, pre.length, eof, more, only_ok, num, ist⟩
        = count_signal_loop leint_bytes n_found state (fuel - 1)
          ⟨[b], b.length, pre.length + e.length, eof + 1, more', false, num + 1, ist'⟩
      ∧ ist' &&& SKIP_NEXT = 0
      ∧ (eof_status e &&& SERVER_PS_OUT_PARAMS ≠ 0 → ist' &&& PS_OUT_PARAM ≠ 0)
      ∧ (eof_status e &&& SERVER_PS_OUT_PARAMS = 0 → ist &&& PS_OUT_PARAM ≠ 0 →
          more' = true ∧ ist' &&& PS_OUT_PARAM = 0)
      ∧ (eof_status e &&& SERVER_PS_OUT_PARAMS = 0 → ist &&& PS_OUT_PARAM = 0 →
          more' = decide (eof_status e &&& SERVER_MORE_RESULTS_EXIST ≠ 0) ∧ ist' = ist) := by
  obtain ⟨fuel, rfl⟩ : ∃ f, fuel = f + 1 := ⟨fuel - 1, by omega⟩
  obtain ⟨hwf, h5, hnmax, hnerr, hnok⟩ := he
  have hblen : b.length = pre.length + (e.length + rest.length) := by
    rw [hbe]; simp only [List.length_append]
  have hpl : (gw_mysql_get_byte3 e + 4) % 2 ^ 32 = e.length := by
    rw [← hwf.2.2]; exact Nat.mod_eq_of_lt (by omega)
  have hhdr : gw_mysql_get_byte3 (gwbuf_copy_data [b] pre.length 5)
      = gw_mysql_get_byte3 e := by
    rw [hbe]
    simp only [gwbuf_copy_data, List.flatten_cons, List.flatten_nil, List.append_nil,
      List.drop_left]
    exact gw_mysql_get_byte3_take_append e _ _ (by decide) (by omega)
  have hcmd : (gwbuf_copy_data [b] pre.length 5).getD 4 0 = e.getD 4 0 := by
    rw [hbe]
    simp only [gwbuf_copy_data, List.flatten_cons, List.flatten_nil, List.append_nil,
      List.drop_left]
    exact getD_take_append_four e _ h5
  have hstat : gw_mysql_get_byte2 (gwbuf_copy_data [b] (pre.length + 4 + 1 + 2) 2)
      = eof_status e := by
    rw [hbe]
    have h9 : e.length = 9 := heof.2
    simp only [gwbuf_copy_data, List.flatten_cons, List.flatten_nil, List.append_nil, eof_status]
    rw [show pre.length + 4 + 1 + 2 = pre.length + 7 by omega, ← List.drop_drop,
      List.drop_left]
    rcases e with _ | ⟨a0, _ | ⟨a1, _ | ⟨a2, _ | ⟨a3, _ | ⟨a4, _ | ⟨a5, _ | ⟨a6, _ | ⟨a7,
      _ | ⟨a8, l⟩⟩⟩⟩⟩⟩⟩⟩⟩ <;> simp at h9
    simp [gw_mysql_get_byte2]
  have hlt : pre.length < b.length := by omega
  rw [count_signal_loop]
  simp only [hlt, if_true]
  unfold count_signal_step
  simp only [MYSQL_HEADER_LEN]
  simp only [hhdr, hcmd, hpl, hstat, count_signal_advance_single, hnmax, if_false, hskip,
    not_true_eq_false, hnerr, Ne]
  have h1 : e.getD 4 0 = MYSQL_REPLY_EOF ∧ e.length = MYSQL_EOF_PACKET_LEN := heof
  rw [if_pos h1]
  simp only [Nat.add_sub_cancel]
  by_cases hps : eof_status e &&& SERVER_PS_OUT_PARAMS = 0
  · rw [if_neg (not_not.mpr hps)]
    by_cases hist : ist &&& PS_OUT_PARAM = 0
    · rw [if_neg (not_not.mpr hist)]
      exact ⟨_, _, rfl, hskip, fun h => absurd hps h, fun _ h => absurd hist h,
        fun _ _ => ⟨rfl, rfl⟩⟩
    · rw [if_pos hist]
      exact ⟨_, _, rfl, and_skip_of_ps_clear ist hskip, fun h => absurd hps h,
        fun _ _ => ⟨rfl, and_ps_of_ps_clear ist⟩, fun _ h => absurd h hist⟩
  · rw [if_pos hps]
    exact ⟨_, _, rfl, and_skip_of_ps_or ist hskip,
      fun _ => or_and_self_ne_zero ist PS_OUT_PARAM (by decide),
      fun h => absurd h hps, fun h => absurd h hps⟩

theorem mod_256_and_skip (x : Nat) : (x % 256) &&& SKIP_NEXT = x &&& SKIP_NEXT := by
  have h : x % 256 = x &&& (2 ^ 8 - 1) := (Nat.and_pow_two_sub_one_eq_mod x 8).symm
  have h2 : (2 ^ 8 - 1) &&& SKIP_NEXT = SKIP_NEXT := by decide
  rw [h, Nat.and_assoc, h2]

theorem mod_256_and_ps (x : Nat) : (x % 256) &&& PS_OUT_PARAM = x &&& PS_OUT_PARAM := by
  have h : x % 256 = x &&& (2 ^ 8 - 1) := (Nat.and_pow_two_sub_one_eq_mod x 8).symm
  have h2 : (2 ^ 8 - 1) &&& PS_OUT_PARAM = PS_OUT_PARAM := by decide
  rw [h, Nat.and_assoc, h2]

theorem modutil_count_signal_packets_single (leint_bytes : List Nat → Nat) (b : List Nat)
    (n_found : Int) (state : Option modutil_state) (hb : b.length < 2 ^ 32) :
    modutil_count_signal_packets leint_bytes [b] n_found state
      = count_signal_loop leint_bytes n_found state b.length
          ⟨[b], b.length, 0, 0, false, true, 0, incoming_state state⟩ := by
  unfold modutil_count_signal_packets
  simp only [gwbuf_length, List.flatten_cons, List.flatten_nil, List.append_nil]
  rw [Nat.mod_eq_of_lt hb]

/-! ### Canonicalisation: the loop consumes its input -/

theorem find_char_length (c : Nat) : ∀ (n : Nat) (l : List Nat), l.length ≤ n →
    (find_char l c).length ≤ l.length := by
  intro n
  induction n with
  | zero =>
    intro l hl
    have : l = [] := List.length_eq_zero.mp (by omega)
    subst this; simp [find_char]
  | succ n ih =>
    intro l hl
    match l with
    | [] => simp [find_char]
    | [x] =>
      simp only [find_char]
      split_ifs <;> simp
    | x :: y :: l' =>
      simp only [find_char]
      have h1 := ih l' (by simp at hl; omega)
      have h2 := ih (y :: l') (by simp at hl ⊢; omega)
      split_ifs
      · simp only [List.length_cons]; omega
      · simp
      · simp only [List.length_cons] at h2 ⊢; omega

theorem find_char_length_le (l : List Nat) (c : Nat) : (find_char l c).length ≤ l.length :=
  find_char_length c l.length l (Nat.le_refl _)

theorem skip_block_comment_length (l : List Nat) : (skip_block_comment l).length ≤ l.length := by
  induction l with
  | nil => simp [skip_block_comment]
  | cons x l ih =>
    simp only [skip_block_comment]
    split_ifs
    · simp
    · simp only [List.length_cons]; omega

theorem skip_line_comment_length (l : List Nat) : (skip_line_comment l).length ≤ l.length := by
  induction l with
  | nil => simp [skip_line_comment]
  | cons x l ih =>
    simp only [skip_line_comment]
    split_ifs
    · simp
    · simp
    · simp
    · simp only [List.length_cons]; omega

theorem canonical_step_length (c : Nat) (rest acc it acc' : List Nat)
    (h : canonical_step c rest acc = (some it, acc')) : it.length ≤ rest.length := by
  have hl1 := skip_block_comment_length (c :: rest)
  have hl2 := skip_line_comment_length (c :: rest)
  have hl3 := find_char_length_le rest c
  have hl4 := find_char_length_le rest 96
  unfold canonical_step at h
  repeat' split at h
  all_goals first
    | (simp only [Prod.mk.injEq, reduceCtorEq, false_and] at h; done)
    | (simp only [Prod.mk.injEq, Option.some.injEq] at h
       obtain ⟨rfl, -⟩ := h
       simp_all
       try omega)

theorem canonical_loop_fuel_succ : ∀ (fuel : Nat) (it acc : List Nat), it.length ≤ fuel →
    canonical_loop (fuel + 1) it acc = canonical_loop fuel it acc := by
  intro fuel
  induction fuel with
  | zero =>
    intro it acc h
    have : it = [] := List.length_eq_zero.mp (by omega)
    subst this; simp [canonical_loop]
  | succ fuel ih =>
    intro it acc h
    match it with
    | [] => simp [canonical_loop]
    | c :: rest =>
      rw [canonical_loop, canonical_loop]
      rcases hs : canonical_step c rest acc with ⟨_ | it', acc'⟩
      · rfl
      · have := canonical_step_length c rest acc it' acc' hs
        simp only [List.length_cons] at h
        exact ih it' acc' (by omega)

/-- More fuel than there are bytes left changes nothing: the fuel of `canonical_loop` is never
used up before the input is. -/
theorem canonical_loop_fuel (it acc : List Nat) : ∀ (fuel : Nat), it.length ≤ fuel →
    canonical_loop fuel it acc = canonical_run it acc := by
  intro fuel h
  obtain ⟨k, rfl⟩ : ∃ k, fuel = it.length + k := ⟨fuel - it.length, by omega⟩
  induction k with
  | zero => rfl
  | succ k ih =>
    rw [← Nat.add_assoc, canonical_loop_fuel_succ _ _ _ (by omega)]
    exact ih (by omega)

theorem canonical_run_nil (acc : List Nat) : canonical_run [] acc = acc := by
  simp [canonical_run, canonical_loop]

theorem canonical_run_cons (c : Nat) (rest acc : List Nat) :
    canonical_run (c :: rest) acc =
      match canonical_step c rest acc with
      | (none, acc') => acc'
      | (some it, acc') => canonical_run it acc' := by
  rw [canonical_run, List.length_cons, canonical_loop]
  rcases hs : canonical_step c rest acc with ⟨_ | it', acc'⟩
  · rfl
  · exact canonical_loop_fuel it' acc' rest.length (canonical_step_length c rest acc it' acc' hs)

theorem get_canonical_sql_eq_run (sql : List Nat) :
    get_canonical_sql sql = ((canonical_run sql []).dropWhile is_space).reverse := rfl

/-! ### Canonicalisation: what the loop writes -/

theorem find_char_cons_of_eq (c : Nat) (t : List Nat) (hc : (c == 92) = false) :
    find_char (c :: t) c = c :: t := by
  cases t <;> simp [find_char, hc]

theorem find_char_cons_of_ne (x c : Nat) (t : List Nat) (h1 : (x == 92) = false)
    (h2 : (x == c) = false) : find_char (x :: t) c = find_char t c := by
  cases t <;> simp [find_char, h1, h2]

theorem find_char_escape (y c : Nat) (t : List Nat) :
    find_char (92 :: y :: t) c = find_char t c := by
  simp [find_char]

theorem find_char_spec (c : Nat) : ∀ (n : Nat) (l : List Nat), l.length ≤ n →
    ∀ (q : Nat) (it : List Nat), find_char l c = q :: it →
      q = c ∧ ∃ body, l = body ++ c :: it ∧ ∀ t, find_char (body ++ c :: t) c = c :: t := by
  intro n
  induction n with
  | zero =>
    intro l hl q it h
    have : l = [] := List.length_eq_zero.mp (by omega)
    subst this; simp [find_char] at h
  | succ n ih =>
    intro l hl q it h
    cases l with
    | nil => simp [find_char] at h
    | cons x l1 =>
      by_cases h1 : (x == 92) = true
      · have hx : x = 92 := by simpa using h1
        subst hx
        cases l1 with
        | nil => simp [find_char] at h
        | cons y l' =>
          rw [find_char_escape] at h
          obtain ⟨hq, body, hb, hcl⟩ := ih l' (by simp at hl; omega) q it h
          refine ⟨hq, 92 :: y :: body, by rw [hb]; rfl, ?_⟩
          intro t
          simp only [List.cons_append]
          rw [find_char_escape]
          exact hcl t
      · have h1' : (x == 92) = false := by simpa using h1
        by_cases h2 : (x == c) = true
        · have hc : x = c := by simpa using h2
          subst hc
          rw [find_char_cons_of_eq x l1 h1'] at h
          simp only [List.cons.injEq] at h
          obtain ⟨rfl, rfl⟩ := h
          refine ⟨rfl, [], rfl, ?_⟩
          intro t
          exact find_char_cons_of_eq x t h1'
        · have h2' : (x == c) = false := by simpa using h2
          rw [find_char_cons_of_ne x c l1 h1' h2'] at h
          obtain ⟨hq, body, hb, hcl⟩ := ih l1 (by simp at hl; omega) q it h
          refine ⟨hq, x :: body, by rw [hb]; rfl, ?_⟩
          intro t
          simp only [List.cons_append]
          rw [find_char_cons_of_ne x c _ h1' h2']
          exact hcl t

theorem written_of_negation (acc : List Nat) (h : Written (45 :: acc)) : Written (63 :: acc) := by
  cases h with
  | normal _ _ hs _ => simp [is_special] at hs
  | escape _ acc' hw => exact Written.escape 63 acc' hw
  | digit _ _ _ hd _ _ => simp [is_digit] at hd
  | other _ _ _ hw => exact Written.normal 63 acc (by decide) hw

theorem canonical_step_written (c : Nat) (rest acc : List Nat) (hw : Written acc) :
    match canonical_step c rest acc with
    | (some _, acc') => Written acc'
    | (none, acc') => WrittenOrCut acc' := by
  unfold canonical_step
  by_cases h1 : (!is_special c) = true
  · rw [if_pos h1]
    exact Written.normal c acc (by simpa using h1) hw
  rw [if_neg h1]
  have hsp : is_special c = true := by simpa using h1
  by_cases h2 : (c == 92) = true
  · rw [if_pos h2]
    have hc : c = 92 := by simpa using h2
    subst hc
    cases rest with
    | nil => exact Or.inr ⟨acc, rfl, hw⟩
    | cons d rest' => exact Written.escape d acc hw
  rw [if_neg h2]
  by_cases h3 : is_space c = true
  · rw [if_pos h3]
    cases acc with
    | nil => exact hw
    | cons l acc0 =>
      by_cases hl : is_space l = true
      · simp only [hl, if_true]; exact hw
      · simp only [hl, if_false]
        exact Written.space l acc0 (by simpa using hl) hw
  rw [if_neg h3]
  by_cases h4 : (c == 47 && is_next (c :: rest) [47, 42]) = true
  · rw [if_pos h4]
    have hc : c = 47 := by
      simp only [Bool.and_eq_true, beq_iff_eq] at h4; exact h4.1
    cases hd : rest.drop 1 with
    | nil => exact Or.inl hw
    | cons s tl =>
      simp only []
      by_cases h5 : (s != 33 && s != 77) = true
      · rw [if_pos h5]
        cases hsk : skip_block_comment (c :: rest) with
        | nil => exact Or.inl hw
        | cons x it => exact hw
      · rw [if_neg h5]
        exact Written.other c acc (Or.inl hc) hw
  rw [if_neg h4]
  by_cases h5 : ((c == 35 || c == 45) && (is_next (c :: rest) [35, 32]
      || is_next (c :: rest) [45, 45, 32])) = true
  · rw [if_pos h5]
    cases hsk : skip_line_comment (c :: rest) with
    | nil => exact Or.inl hw
    | cons x it => exact hw
  rw [if_neg h5]
  by_cases h6 : (is_digit c && not_in_word acc) = true
  · rw [if_pos h6]
    rcases hp : probe_number c rest with ⟨_ | _, second⟩
    · exact hw
    · simp only []
      by_cases hn : is_negation acc = true
      · rw [if_pos hn]
        cases acc with
        | nil => simp [is_negation] at hn
        | cons x acc0 =>
          have hx : x = 45 := by
            by_contra hne
            simp [is_negation, hne] at hn
          subst hx
          exact written_of_negation acc0 hw
      · rw [if_neg hn]
        exact Written.normal 63 acc (by decide) hw
  rw [if_neg h6]
  by_cases h7 : (c == 39 || c == 34) = true
  · rw [if_pos h7]
    cases hf : find_char rest c with
    | nil => exact Or.inl hw
    | cons x it => exact Written.normal 63 acc (by decide) hw
  rw [if_neg h7]
  by_cases h8 : (c == 96) = true
  · rw [if_pos h8]
    have hc : c = 96 := by simpa using h8
    subst hc
    cases hf : find_char rest 96 with
    | nil => exact Or.inl hw
    | cons q it =>
      obtain ⟨hq, body, hb, hcl⟩ := find_char_spec 96 rest.length rest (Nat.le_refl _) q it hf
      subst hq hb
      simp only []
      have hlen : (96 :: (body ++ 96 :: it)).length - (96 :: it).length = (96 :: body).length := by
        simp only [List.length_cons, List.length_append]; omega
      rw [hlen]
      have htake : (96 :: (body ++ 96 :: it)).take (96 :: body).length = 96 :: body := by
        rw [← List.cons_append]
        exact List.take_left _ _
      rw [htake]
      have : 96 :: (96 :: body).reverse ++ acc = 96 :: (body.reverse ++ 96 :: acc) := by simp
      rw [this]
      exact Written.quoted body acc hcl hw
  rw [if_neg h8]
  by_cases hd : is_digit c = true
  · cases acc with
    | nil => simp [hd, not_in_word] at h6
    | cons l acc0 =>
      simp only [hd, Bool.true_and, not_in_word] at h6
      have hl : (is_alnum l || l == 95) = true := by
        cases ha : is_alnum l <;> cases hb : (l == 95) <;> simp_all
      exact Written.digit c l acc0 hd hl hw
  · have hc : c = 47 ∨ c = 35 ∨ c = 45 := by
      simp only [is_special, Bool.or_eq_true, beq_iff_eq] at hsp
      simp only [Bool.or_eq_true, beq_iff_eq, not_or] at h7
      simp only [beq_iff_eq] at h8 h2
      rcases hsp with ((((((((h | h) | h) | h) | h) | h) | h) | h) | h)
      · exact absurd h hd
      · exact absurd h h3
      · exact absurd h h7.2
      · exact absurd h h7.1
      · exact absurd h h8
      · exact Or.inr (Or.inl h)
      · exact Or.inr (Or.inr h)
      · exact Or.inl h
      · exact absurd h h2
    exact Written.other c acc hc hw

theorem canonical_loop_written : ∀ (fuel : Nat) (it acc : List Nat), Written acc →
    WrittenOrCut (canonical_loop fuel it acc) := by
  intro fuel
  induction fuel with
  | zero => intro it acc hw; exact Or.inl hw
  | succ fuel ih =>
    intro it acc hw
    match it with
    | [] => exact Or.inl hw
    | c :: rest =>
      rw [canonical_loop]
      have := canonical_step_written c rest acc hw
      rcases hs : canonical_step c rest acc with ⟨_ | it', acc'⟩
      · rw [hs] at this; exact this
      · rw [hs] at this; exact ih it' acc' this

/-! ### Canonicalisation: replaying what was written -/

theorem is_next_starts : ∀ (l p : List Nat), is_next l p = true → p <+: l := by
  intro l
  induction l with
  | nil =>
    intro p h
    cases p with
    | nil => exact List.prefix_refl _
    | cons s str => simp [is_next] at h
  | cons x l ih =>
    intro p h
    cases p with
    | nil => exact List.nil_prefix
    | cons s str =>
      simp only [is_next, Bool.and_eq_true, beq_iff_eq] at h
      obtain ⟨rfl, h2⟩ := h
      exact (List.prefix_cons_inj x).mpr (ih str h2)

theorem canonical_step_normal (c : Nat) (t acc : List Nat) (h : is_special c = false) :
    canonical_step c t acc = (some t, c :: acc) := by
  simp [canonical_step, h]

theorem canonical_step_escape (c : Nat) (t acc : List Nat) :
    canonical_step 92 (c :: t) acc = (some t, c :: 92 :: acc) := by
  simp [canonical_step, is_special]

theorem canonical_step_space (l : Nat) (t acc : List Nat) (h : is_space l = false) :
    canonical_step 32 t (l :: acc) = (some t, 32 :: l :: acc) := by
  have e1 : is_special 32 = true := by decide
  have e2 : is_space 32 = true := by decide
  simp [canonical_step, e1, e2, h]

theorem canonical_step_digit (c l : Nat) (t acc : List Nat) (hd : is_digit c = true)
    (hl : (is_alnum l || l == 95) = true) :
    canonical_step c t (l :: acc) = (some t, c :: l :: acc) := by
  have hb : 48 ≤ c ∧ c ≤ 57 := by simpa [is_digit] using hd
  have e1 : (c == 92) = false := by simp; omega
  have e2 : is_space c = false := by simp [is_space]; omega
  have e3 : (c == 47) = false := by simp; omega
  have e4 : (c == 35) = false := by simp; omega
  have e5 : (c == 45) = false := by simp; omega
  have e6 : (c == 39) = false := by simp; omega
  have e7 : (c == 34) = false := by simp; omega
  have e8 : (c == 96) = false := by simp; omega
  have e9 : is_special c = true := by simp [is_special, hd]
  have e10 : not_in_word (l :: acc) = false := by
    simp only [not_in_word]
    cases ha : is_alnum l <;> cases hb : (l == 95) <;> simp_all
  simp [canonical_step, e1, e2, e3, e4, e5, e6, e7, e8, e9, e10, hd]

theorem canonical_step_quoted (body t acc : List Nat)
    (h : ∀ t, find_char (body ++ 96 :: t) 96 = 96 :: t) :
    canonical_step 96 (body ++ 96 :: t) acc = (some t, 96 :: (body.reverse ++ 96 :: acc)) := by
  have hlen : (96 :: (body ++ 96 :: t)).length - (96 :: t).length = (96 :: body).length := by
    simp only [List.length_cons, List.length_append]; omega
  have htake : (96 :: (body ++ 96 :: t)).take (96 :: body).length = 96 :: body := by
    rw [← List.cons_append]
    exact List.take_left _ _
  simp only [canonical_step, is_special, is_space, is_digit, h t, hlen, htake]
  simp

theorem written_trim (r : List Nat) (h : WrittenOrCut r) :
    (Written (r.dropWhile is_space) ∧ ∀ x ∈ (r.dropWhile is_space).head?, is_space x = false)
    ∨ ∃ acc, r.dropWhile is_space = 92 :: acc ∧ Written acc := by
  rcases h with hw | ⟨acc, rfl, hw⟩
  · cases hw with
    | nil => left; simp [Written.nil]
    | normal c acc hs hw =>
      have hc : is_space c = false := by
        cases h : is_space c
        · rfl
        · simp [is_special, h] at hs
      left
      simp only [List.dropWhile_cons, hc, Bool.false_eq_true, if_false]
      exact ⟨Written.normal c acc hs hw, by simp [hc]⟩
    | escape c acc hw =>
      cases hc : is_space c
      · left
        simp only [List.dropWhile_cons, hc, Bool.false_eq_true, if_false]
        exact ⟨Written.escape c acc hw, by simp [hc]⟩
      · right
        refine ⟨acc, ?_, hw⟩
        have h92 : is_space 92 = false := by decide
        simp only [List.dropWhile_cons, hc, h92, if_true, Bool.false_eq_true, if_false]
    | space l acc hl hw =>
      left
      simp only [List.dropWhile_cons, hl, Bool.false_eq_true, if_false]
      have : is_space 32 = true := by decide
      simp only [this, if_true]
      exact ⟨hw, by simp [hl]⟩
    | digit c l acc hd hl hw =>
      have hb : 48 ≤ c ∧ c ≤ 57 := by simpa [is_digit] using hd
      have hc : is_space c = false := by simp [is_space]; omega
      left
      simp only [List.dropWhile_cons, hc, Bool.false_eq_true, if_false]
      exact ⟨Written.digit c l acc hd hl hw, by simp [hc]⟩
    | other c acc hc hw =>
      have hsp : is_space c = false := by rcases hc with rfl | rfl | rfl <;> decide
      left
      simp only [List.dropWhile_cons, hsp, Bool.false_eq_true, if_false]
      exact ⟨Written.other c acc hc hw, by simp [hsp]⟩
    | quoted body acc hcl hw =>
      left
      have : is_space 96 = false := by decide
      simp only [List.dropWhile_cons, this, Bool.false_eq_true, if_false]
      exact ⟨Written.quoted body acc hcl hw, by simp [this]⟩
  · right
    refine ⟨acc, ?_, hw⟩
    have : is_space 92 = false := by decide
    simp [List.dropWhile_cons, this]

theorem dropWhile_eq_self_of_head (r : List Nat) (h : ∀ x ∈ r.head?, is_space x = false) :
    r.dropWhile is_space = r := by
  cases r with
  | nil => rfl
  | cons x r => simp [List.dropWhile_cons, h x (by simp)]

theorem get_canonical_com_query (sql : List Nat) :
    get_canonical (com_query sql) = get_canonical_sql sql := by
  simp [get_canonical, com_query, MYSQL_HEADER_LEN]

/-- C2 as stated does not hold: for the SQL text made of a minus sign, an empty block comment
and `- x`, the canonical form is `-- x`, whose canonical form is empty. -/
theorem get_canonical_not_idempotent :
    get_canonical (com_query (get_canonical (com_query (bytes "-/**/- x"))))
      ≠ get_canonical (com_query (bytes "-/**/- x")) := by
  decide

/-! ### Canonicalisation: the scenario of the specification -/

/-- C7 as stated does not hold: `get_canonical` does not return
``SELECT /*+hint*/ a, ?, ?, ? FROM `T` WHERE id=?`` for the statement of the scenario. -/
theorem get_canonical_scenario_as_stated_fails :
    get_canonical (com_query (bytes
        "SELECT /*+hint*/ a, 'x''y', 0x1a, -3.14 FROM `T` WHERE id=42 -- tail"))
      ≠ bytes "SELECT /*+hint*/ a, ?, ?, ? FROM `T` WHERE id=?" := by
  decide

/-- C7, amended. For the statement of the scenario `get_canonical` returns
``SELECT a, ??, ?, ? FROM `T` WHERE id=?``: the comment `/*+hint*/` starts neither with `/*!`
nor with `/*M` and is removed, and `'x''y'` is read as two strings. -/
theorem get_canonical_scenario :
    get_canonical (com_query (bytes
        "SELECT /*+hint*/ a, 'x''y', 0x1a, -3.14 FROM `T` WHERE id=42 -- tail"))
      = bytes "SELECT a, ??, ?, ? FROM `T` WHERE id=?" := by
  decide

/-! ### The propagator hands over updates in timestamp order -/

theorem consecutive_zero (e : Int) : consecutive e 0 = [] := rfl

theorem consecutive_succ (e : Int) (n : Nat) :
    consecutive e (n + 1) = e :: consecutive (e + 1) n := by
  simp only [consecutive, List.range_succ_eq_map, List.map_cons, List.map_map]
  simp only [Nat.cast_zero, add_zero, List.cons.injEq, true_and]
  apply List.map_congr_left
  intro k _
  simp only [Function.comp, Nat.cast_succ]
  omega

theorem consecutive_length (e : Int) (n : Nat) : (consecutive e n).length = n := by
  simp [consecutive]

theorem consecutive_add (e : Int) (n m : Nat) :
    consecutive e (n + m) = consecutive e n ++ consecutive (e + n) m := by
  induction n generalizing e with
  | zero => simp [consecutive_zero]
  | succ n ih =>
    have h : e + 1 + (n : Int) = e + ((n + 1 : Nat) : Int) := by push_cast; omega
    rw [Nat.add_right_comm, consecutive_succ, consecutive_succ, ih, List.cons_append, h]

theorem mem_consecutive (e t : Int) (n : Nat) : t ∈ consecutive e n ↔ e ≤ t ∧ t < e + n := by
  simp only [consecutive, List.mem_map, List.mem_range]
  constructor
  · rintro ⟨k, hk, rfl⟩
    omega
  · intro h
    refine ⟨(t - e).toNat, ?_, ?_⟩ <;> omega

theorem find_discontinuity_spec {U : Type} (queue : List (InternalUpdate U)) :
    ∀ (e : Int),
      (find_discontinuity e queue).1 = e + (find_discontinuity e queue).2
      ∧ (find_discontinuity e queue).2 ≤ queue.length
      ∧ (queue.take (find_discontinuity e queue).2).map (·.tstamp)
          = consecutive e (find_discontinuity e queue).2
      ∧ ∀ u ∈ (queue.drop (find_discontinuity e queue).2).head?,
          u.tstamp ≠ e + (find_discontinuity e queue).2 := by
  induction queue with
  | nil => intro e; simp [find_discontinuity, consecutive_zero]
  | cons u queue ih =>
    intro e
    by_cases h : e = u.tstamp
    · obtain ⟨h1, h2, h3, h4⟩ := ih (e + 1)
      simp only [find_discontinuity, h, if_true]
      rw [← h] 
      refine ⟨?_, ?_, ?_, ?_⟩
      · rw [h1]; push_cast; omega
      · simp only [List.length_cons]; omega
      · rw [List.take_succ_cons, List.map_cons, consecutive_succ, h3, h]
      · intro v hv
        rw [List.drop_succ_cons] at hv
        have := h4 v hv
        push_cast
        omega
    · simp only [find_discontinuity, h, if_false]
      refine ⟨by simp, by simp, by simp [consecutive_zero], ?_⟩
      intro v hv
      simp only [List.drop_zero, List.head?_cons, Option.mem_def, Option.some.injEq] at hv
      subst hv
      simpa using fun h' => h h'.symm

theorem GCUpdater.tick_ordered {U : Type} (g : GCUpdater U)
    (swap_queues : List (List (InternalUpdate U))) (hord : g.m_order_updates = true) :
    (g.tick swap_queues).1.m_order_updates = true
    ∧ (g.tick swap_queues).2 ≠ some []
    ∧ (((g.tick swap_queues).2.getD []).map (·.tstamp)
        = consecutive g.m_expected_tstamp ((g.tick swap_queues).2.getD []).length)
    ∧ (g.tick swap_queues).1.m_expected_tstamp
        = g.m_expected_tstamp + (((g.tick swap_queues).2.getD []).length : Nat)
    ∧ (((g.tick swap_queues).2.getD []) ++ (g.tick swap_queues).1.m_leftover_queue).Perm
        (g.m_leftover_queue ++ swap_queues.flatten)
    ∧ (g.tick swap_queues).1.m_leftover_queue.Sorted InternalUpdate.le
    ∧ ∀ u ∈ (g.tick swap_queues).1.m_leftover_queue.head?,
        u.tstamp ≠ (g.tick swap_queues).1.m_expected_tstamp := by
  by_cases hemp : (g.m_leftover_queue ++ swap_queues.flatten).isEmpty = true
  · have hnil : g.m_leftover_queue ++ swap_queues.flatten = [] := List.isEmpty_iff.mp hemp
    simp only [GCUpdater.tick, hord, if_true, hemp, List.nil_append]
    simp [hnil, consecutive_zero]
  · obtain ⟨h1, h2, h3, h4⟩ := find_discontinuity_spec
      ((g.m_leftover_queue ++ swap_queues.flatten).insertionSort InternalUpdate.le)
      g.m_expected_tstamp
    have hsorted := List.sorted_insertionSort InternalUpdate.le
      (g.m_leftover_queue ++ swap_queues.flatten)
    have hperm := List.perm_insertionSort InternalUpdate.le
      (g.m_leftover_queue ++ swap_queues.flatten)
    simp only [GCUpdater.tick, hord, if_true, hemp, List.nil_append, Bool.false_eq_true, if_false]
    generalize (g.m_leftover_queue ++ swap_queues.flatten).insertionSort InternalUpdate.le
      = sorted at h1 h2 h3 h4 hsorted hperm
    generalize find_discontinuity g.m_expected_tstamp sorted = found at h1 h2 h3 h4
    have hdrop : (sorted.drop found.2).Sorted InternalUpdate.le :=
      hsorted.sublist (List.drop_sublist _ _)
    by_cases htake : (sorted.take found.2).isEmpty = true
    · have hnil : sorted.take found.2 = [] := List.isEmpty_iff.mp htake
      have hz : found.2 = 0 := by
        have := congrArg List.length hnil
        simp only [List.length_take, List.length_nil] at this
        omega
      simp only [htake, if_true, Option.getD_none, List.length_nil, consecutive_zero,
        List.map_nil, List.nil_append]
      refine ⟨trivial, by simp, trivial, ?_, ?_, hdrop, ?_⟩
      · rw [h1, hz]
      · rw [hz, List.drop_zero]; exact hperm
      · intro u hu; rw [h1]; exact h4 u hu
    · simp only [htake, Bool.false_eq_true, if_false, Option.getD_some]
      refine ⟨trivial, ?_, ?_, ?_, ?_, hdrop, ?_⟩
      · intro h
        simp only [Option.some.injEq] at h
        rw [h] at htake
        exact htake rfl
      · rw [h3, List.length_take, Nat.min_eq_left h2]
      · rw [h1, List.length_take, Nat.min_eq_left h2]
      · rw [List.take_append_drop]; exact hperm
      · intro u hu; rw [h1]; exact h4 u hu

theorem GCUpdater.run_cons {U : Type} (g : GCUpdater U)
    (swap_queues : List (List (InternalUpdate U))) (ticks : List (List (List (InternalUpdate U)))) :
    (g.run (swap_queues :: ticks)).1 = ((g.tick swap_queues).1.run ticks).1
    ∧ (g.run (swap_queues :: ticks)).2
        = (g.tick swap_queues).2.toList ++ ((g.tick swap_queues).1.run ticks).2 := by
  rcases htick : g.tick swap_queues with ⟨g', _ | batch⟩ <;> simp [GCUpdater.run, htick]

theorem toList_flatten_eq_getD {α : Type} (o : Option (List α)) : o.toList.flatten = o.getD [] := by
  cases o <;> simp

theorem GCUpdater.run_ordered {U : Type} (ticks : List (List (List (InternalUpdate U)))) :
    ∀ (g : GCUpdater U), g.m_order_updates = true →
      (∀ i (h : i < (g.run ticks).2.length),
          (g.run ticks).2.get ⟨i, h⟩ ≠ []
          ∧ ((g.run ticks).2.get ⟨i, h⟩).map (·.tstamp)
              = consecutive
                  (g.m_expected_tstamp + (((g.run ticks).2.take i).flatten.length : Nat))
                  ((g.run ticks).2.get ⟨i, h⟩).length)
      ∧ (g.run ticks).2.flatten.map (·.tstamp)
          = consecutive g.m_expected_tstamp (g.run ticks).2.flatten.length
      ∧ (g.run ticks).1.m_expected_tstamp
          = g.m_expected_tstamp + ((g.run ticks).2.flatten.length : Nat)
      ∧ ((g.run ticks).2.flatten ++ (g.run ticks).1.m_leftover_queue).Perm
          (g.m_leftover_queue ++ ticks.flatten.flatten) := by
  induction ticks with
  | nil => intro g _; simp [GCUpdater.run, consecutive_zero]
  | cons swap_queues ticks ih =>
    intro g hord
    obtain ⟨t1, t2, t3, t4, t5, -, -⟩ := g.tick_ordered swap_queues hord
    obtain ⟨r1, r2⟩ := g.run_cons swap_queues ticks
    obtain ⟨i1, i2, i3, i4⟩ := ih (g.tick swap_queues).1 t1
    rw [r1]
    have hflat : (g.run (swap_queues :: ticks)).2.flatten
        = (g.tick swap_queues).2.getD [] ++ ((g.tick swap_queues).1.run ticks).2.flatten := by
      rw [r2, List.flatten_append, toList_flatten_eq_getD]
    refine ⟨?_, ?_, ?_, ?_⟩
    · rcases htick : (g.tick swap_queues).2 with _ | batch
      · have hrun : (g.run (swap_queues :: ticks)).2 = ((g.tick swap_queues).1.run ticks).2 := by
          rw [r2, htick]; rfl
        rw [htick] at t4
        simp only [Option.getD_none, List.length_nil, Nat.cast_zero, add_zero] at t4
        rw [hrun, ← t4]
        exact i1
      · have hrun : (g.run (swap_queues :: ticks)).2
            = batch :: ((g.tick swap_queues).1.run ticks).2 := by
          rw [r2, htick]; rfl
        rw [htick] at t2 t3 t4
        simp only [Option.getD_some] at t3 t4
        rw [hrun]
        intro i h
        cases i with
        | zero =>
          refine ⟨fun h0 => t2 (by rw [← h0]; rfl), ?_⟩
          simpa using t3
        | succ k =>
          have hk : k < ((g.tick swap_queues).1.run ticks).2.length := by
            simpa using h
          obtain ⟨j1, j2⟩ := i1 k hk
          refine ⟨by simpa using j1, ?_⟩
          have e : g.m_expected_tstamp
                + (((batch :: ((g.tick swap_queues).1.run ticks).2).take (k + 1)).flatten.length
                    : Nat)
              = (g.tick swap_queues).1.m_expected_tstamp
                + (((((g.tick swap_queues).1.run ticks).2).take k).flatten.length : Nat) := by
            rw [t4, List.take_succ_cons, List.flatten_cons, List.length_append]
            push_cast
            omega
          rw [e]
          simpa using j2
    · rw [hflat, List.map_append, List.length_append, consecutive_add, t3, i2, t4]
    · rw [hflat, i3, t4, List.length_append]
      push_cast
      omega
    · rw [hflat, List.flatten_cons, List.flatten_append, List.append_assoc]
      have p1 := List.Perm.append_left ((g.tick swap_queues).2.getD []) i4
      have p2 := List.Perm.append_right ticks.flatten.flatten t5
      rw [List.append_assoc] at p2
      rw [List.append_assoc] at p2
      exact p1.trans p2

theorem GCUpdater.tick_distinct {U : Type} (g : GCUpdater U)
    (swap_queues : List (List (InternalUpdate U))) (later : List (InternalUpdate U))
    (hord : g.m_order_updates = true)
    (hdistinct : ((g.m_leftover_queue ++ (swap_queues.flatten ++ later)).map (·.tstamp)).Nodup)
    (hexpected : ∀ u ∈ g.m_leftover_queue ++ (swap_queues.flatten ++ later),
      g.m_expected_tstamp ≤ u.tstamp) :
    (((g.tick swap_queues).1.m_leftover_queue ++ later).map (·.tstamp)).Nodup
    ∧ (∀ u ∈ (g.tick swap_queues).1.m_leftover_queue,
        (g.tick swap_queues).1.m_expected_tstamp < u.tstamp)
    ∧ ∀ u ∈ later, (g.tick swap_queues).1.m_expected_tstamp ≤ u.tstamp := by
  obtain ⟨-, -, t3, t4, t5, t6, t7⟩ := g.tick_ordered swap_queues hord
  generalize (g.tick swap_queues).2.getD [] = batch at t3 t4 t5
  generalize (g.tick swap_queues).1.m_leftover_queue = leftover at t5 t6 t7
  generalize (g.tick swap_queues).1.m_expected_tstamp = expected at t4 t7
  have hperm : ((batch ++ (leftover ++ later)).map (·.tstamp)).Perm
      ((g.m_leftover_queue ++ (swap_queues.flatten ++ later)).map (·.tstamp)) := by
    rw [← List.append_assoc, ← List.append_assoc]
    exact (List.Perm.append_right later t5).map _
  have hnodup := hperm.nodup_iff.mpr hdistinct
  rw [List.map_append, List.nodup_append] at hnodup
  obtain ⟨-, hn2, hdisj⟩ := hnodup
  have hge : ∀ u ∈ leftover ++ later, expected ≤ u.tstamp := by
    intro u hu
    have hmem : u ∈ g.m_leftover_queue ++ (swap_queues.flatten ++ later) := by
      have : u ∈ batch ++ leftover ++ later := by
        rw [List.append_assoc]; exact List.mem_append_right _ hu
      rw [← List.append_assoc]
      exact (List.Perm.append_right later t5).mem_iff.mp this
    have h1 := hexpected u hmem
    have h2 : u.tstamp ∉ batch.map (·.tstamp) := fun h =>
      hdisj h (List.mem_map_of_mem _ hu)
    rw [t3, mem_consecutive] at h2
    omega
  refine ⟨hn2, ?_, fun u hu => hge u (List.mem_append_right _ hu)⟩
  intro u hu
  cases leftover with
  | nil => cases hu
  | cons v rest =>
    have hv : expected < v.tstamp := by
      have h1 := hge v (List.mem_append_left _ (List.mem_cons_self _ _))
      have h2 := t7 v rfl
      omega
    rcases List.mem_cons.mp hu with rfl | hmem
    · exact hv
    · have h3 : v.tstamp ≤ u.tstamp := (List.sorted_cons.mp t6).1 u hmem
      omega

theorem GCUpdater.run_delivers_all {U : Type} (ticks : List (List (List (InternalUpdate U)))) :
    ∀ (g : GCUpdater U), g.m_order_updates = true → ticks ≠ [] →
      ((g.m_leftover_queue ++ ticks.flatten.flatten).map (·.tstamp)).Nodup →
      (∀ u ∈ g.m_leftover_queue ++ ticks.flatten.flatten, g.m_expected_tstamp ≤ u.tstamp) →
      ∀ u ∈ (g.run ticks).1.m_leftover_queue, (g.run ticks).1.m_expected_tstamp < u.tstamp := by
  induction ticks with
  | nil => intro g _ h; exact absurd rfl h
  | cons swap_queues ticks ih =>
    intro g hord _ hdistinct hexpected
    rw [List.flatten_cons, List.flatten_append] at hdistinct hexpected
    obtain ⟨d1, d2, d3⟩ := g.tick_distinct swap_queues ticks.flatten.flatten hord hdistinct hexpected
    rw [(g.run_cons swap_queues ticks).1]
    cases ticks with
    | nil => simpa [GCUpdater.run] using d2
    | cons next ticks =>
      refine ih (g.tick swap_queues).1 (g.tick_ordered swap_queues hord).1 (by simp) d1 ?_
      intro u hu
      rcases List.mem_append.mp hu with h | h
      · exact le_of_lt (d2 u h)
      · exact d3 u h

/-- Claim C3. In ordered mode (`m_order_updates`), over any sequence of iterations of the
updater loop, every queue handed to `make_updates` is non-empty and carries exactly the
consecutive timestamps that start at the timestamp expected when it is handed over; the
concatenation of the queues handed over carries `expected, expected + 1, ...` with no gap
and no reordering, and `m_expected_tstamp` advances by their number. No update is lost or
duplicated (what was handed over together with the leftover queue is a rearrangement of
everything drained), and when the drained timestamps are pairwise distinct and none is
below the expected one, whatever is still held back after an iteration lies strictly above
the expected timestamp, that is, it waits for a timestamp not yet drained. -/
theorem GCUpdater.run_timestamp_order {U : Type} (g : GCUpdater U)
    (ticks : List (List (List (InternalUpdate U))))
    (hord : g.m_order_updates = true)
    (hdistinct : ((g.m_leftover_queue ++ ticks.flatten.flatten).map (·.tstamp)).Nodup)
    (hexpected : ∀ u ∈ g.m_leftover_queue ++ ticks.flatten.flatten,
      g.m_expected_tstamp ≤ u.tstamp) :
    (∀ i (h : i < (g.run ticks).2.length),
        (g.run ticks).2.get ⟨i, h⟩ ≠ []
        ∧ ((g.run ticks).2.get ⟨i, h⟩).map (·.tstamp)
            = consecutive
                (g.m_expected_tstamp + (((g.run ticks).2.take i).flatten.length : Nat))
                ((g.run ticks).2.get ⟨i, h⟩).length)
    ∧ (g.run ticks).2.flatten.map (·.tstamp)
        = consecutive g.m_expected_tstamp (g.run ticks).2.flatten.length
    ∧ (g.run ticks).1.m_expected_tstamp
        = g.m_expected_tstamp + ((g.run ticks).2.flatten.length : Nat)
    ∧ ((g.run ticks).2.flatten ++ (g.run ticks).1.m_leftover_queue).Perm
        (g.m_leftover_queue ++ ticks.flatten.flatten)
    ∧ (ticks ≠ [] →
        ∀ u ∈ (g.run ticks).1.m_leftover_queue, (g.run ticks).1.m_expected_tstamp < u.tstamp) := by
  obtain ⟨h1, h2, h3, h4⟩ := GCUpdater.run_ordered ticks g hord
  exact ⟨h1, h2, h3, h4, fun hne => GCUpdater.run_delivers_all ticks g hord hne hdistinct hexpected⟩

/-- Claim C3, the scenario of the specification: with timestamp 10 expected, one producer
queue holding 10 and 12 and another holding 11 and 13 are drained in one iteration;
`make_updates` receives 10, 11, 12, 13 and nothing is held back. -/
theorem GCUpdater.run_timestamp_order_scenario :
    ((GCUpdater.mk true [] 10).run
        [[[⟨(), 10⟩, ⟨(), 12⟩], [⟨(), 11⟩, ⟨(), 13⟩]]]).2.flatten.map (·.tstamp)
      = [10, 11, 12, 13]
    ∧ ((GCUpdater.mk true [] 10).run
        [[[⟨(), 10⟩, ⟨(), 12⟩], [⟨(), 11⟩, ⟨(), 13⟩]]]).1.m_leftover_queue = [] := by
  have h := GCUpdater.run_timestamp_order (GCUpdater.mk true [] 10)
    [[[⟨(), 10⟩, ⟨(), 12⟩], [⟨(), 11⟩, ⟨(), 13⟩]]] rfl (by decide) (by decide)
  refine ⟨?_, by decide⟩
  rw [h.2.1]
  decide

/-! ### The thread counters -/

/-- Claim C4. The counters do not always satisfy `nDesired <= nRunning`. Three workers are
started and worker 2 gets a session; `adjust_threads(2)` leaves worker 2 draining
(`nDesired = 2`, `nRunning = 3`); `adjust_threads(4)` finds no thread to activate
(`nCreated - nRunning = 0`), creates worker 3 and sets all three counters to 4 while worker 2
is still draining; the session of worker 2 ends and its deactivation is processed, which
changes nothing as worker 2 is not the last running one; `adjust_threads(3)` stops worker 3,
and the processing of its deactivation lowers `nRunning` past the inactive worker 2 to 2,
below `nDesired = 3`. Every listener operation succeeds in this run. -/
theorem adjust_threads_desired_exceeds_running :
    (run_workers (start_workers 256 3)
      [.session_created 2, .adjust 2 (fun _ => true), .adjust 4 (fun _ => true),
       .session_closed 2, .execute, .adjust 3 (fun _ => true), .execute]).nCreated = 4
    ∧ (run_workers (start_workers 256 3)
      [.session_created 2, .adjust 2 (fun _ => true), .adjust 4 (fun _ => true),
       .session_closed 2, .execute, .adjust 3 (fun _ => true), .execute]).nRunning = 2
    ∧ (run_workers (start_workers 256 3)
      [.session_created 2, .adjust 2 (fun _ => true), .adjust 4 (fun _ => true),
       .session_closed 2, .execute, .adjust 3 (fun _ => true), .execute]).nDesired = 3 := by
  decide

/-- Claim C14. A worker below `nDesired` need not be listening: three workers are started,
worker 2 gets a session, `adjust_threads(2)` leaves it draining and `adjust_threads(4)`
creates worker 3 and sets `nDesired` to 4 without worker 2 listening again; `pick_worker`
at counter value 2 then returns worker 2, which is draining. -/
theorem pick_worker_returns_draining :
    (run_workers (start_workers 256 3)
      [.session_created 2, .adjust 2 (fun _ => true), .adjust 4 (fun _ => true)]).nDesired = 4
    ∧ pick_worker (run_workers (start_workers 256 3)
      [.session_created 2, .adjust 2 (fun _ => true), .adjust 4 (fun _ => true)]) 2 = 2
    ∧ (run_workers (start_workers 256 3)
      [.session_created 2, .adjust 2 (fun _ => true), .adjust 4 (fun _ => true)]).ppWorkers[2]?
        = some ⟨false, true, 1⟩ := by
  decide

theorem Reduced_execute (u : ThisUnit) (a0 a1 s2 s3 : Nat) (h : Reduced u a0 a1 s2 s3) :
    Reduced (main_execute u) a0 a1 s2 s3 := by
  obtain ⟨nMax, nCreated, nRunning, nDesired, ppWorkers, deactivated⟩ := u
  obtain ⟨hw, hc, hd, hq, hq2, hq3, hn4, hn⟩ := h
  simp only at hw hc hd hq hq2 hq3 hn4 hn
  subst hw hc hd
  rcases hq with rfl | rfl | rfl | rfl | rfl
  · exact ⟨rfl, rfl, rfl, Or.inl rfl, hq2, hq3, hn4, hn⟩
  · have h2 : s2 = 0 := hq2 (by simp)
    subst h2
    rcases Nat.eq_zero_or_pos s3 with h3 | h3
    · subst h3
      rcases (hn rfl (by simp)).2 rfl with rfl | ⟨-, rfl⟩ <;>
        simp [Reduced, main_execute, deactivate_on_main, remove_inactive,
          RoutingWorker.is_inactive]
    · have h4 := hn4 (Or.inl h3)
      subst h4
      simp [Reduced, main_execute, deactivate_on_main, RoutingWorker.is_inactive, h3]
      omega
  · have h3 : s3 = 0 := hq3 (by simp)
    subst h3
    have h4 := hn4 (Or.inr (by simp))
    subst h4
    rcases Nat.eq_zero_or_pos s2 with h2 | h2
    · subst h2
      simp [Reduced, main_execute, deactivate_on_main, remove_inactive,
        RoutingWorker.is_inactive]
    · simp [Reduced, main_execute, deactivate_on_main, remove_inactive,
        RoutingWorker.is_inactive, h2]
      omega
  · have h2 : s2 = 0 := hq2 (by simp)
    have h3 : s3 = 0 := hq3 (by simp)
    subst h2 h3
    have h4 := hn4 (Or.inr (by simp))
    subst h4
    simp [Reduced, main_execute, deactivate_on_main, remove_inactive,
      RoutingWorker.is_inactive]
  · have h2 : s2 = 0 := hq2 (by simp)
    have h3 : s3 = 0 := hq3 (by simp)
    subst h2 h3
    have h4 := hn4 (Or.inr (by simp))
    subst h4
    simp [Reduced, main_execute, deactivate_on_main, remove_inactive,
      RoutingWorker.is_inactive]

theorem Reduced_session_created (u : ThisUnit) (a0 a1 s2 s3 i : Nat)
    (h : Reduced u a0 a1 s2 s3) :
    ∃ b0 b1, Reduced (WorkerEvent.apply u (.session_created i)) b0 b1 s2 s3 := by
  obtain ⟨nMax, nCreated, nRunning, nDesired, ppWorkers, deactivated⟩ := u
  obtain ⟨hw, hc, hd, hq, hq2, hq3, hn4, hn⟩ := h
  simp only at hw hc hd hq hq2 hq3 hn4 hn
  subst hw hc hd
  rcases i with _ | _ | _ | _ | i
  · exact ⟨a0 + 1, a1, rfl, rfl, rfl, hq, hq2, hq3, hn4, hn⟩
  · exact ⟨a0, a1 + 1, rfl, rfl, rfl, hq, hq2, hq3, hn4, hn⟩
  · exact ⟨a0, a1, rfl, rfl, rfl, hq, hq2, hq3, hn4, hn⟩
  · exact ⟨a0, a1, rfl, rfl, rfl, hq, hq2, hq3, hn4, hn⟩
  · exact ⟨a0, a1, rfl, rfl, rfl, hq, hq2, hq3, hn4, hn⟩

theorem Reduced_close_last_two (nMax nRunning : Int) (a0 a1 s3 : Nat) (q : List Nat)
    (h : Reduced ⟨nMax, 4, nRunning, 2, [⟨true, true, a0⟩, ⟨true, true, a1⟩,
      ⟨false, true, 1⟩, ⟨false, decide (0 < s3), s3⟩], q⟩ a0 a1 1 s3) :
    Reduced ⟨nMax, 4, nRunning, 2, [⟨true, true, a0⟩, ⟨true, true, a1⟩,
      ⟨false, false, 0⟩, ⟨false, decide (0 < s3), s3⟩], q ++ [2]⟩ a0 a1 0 s3 := by
  obtain ⟨-, -, -, hq, hq2, hq3, hn4, hn⟩ := h
  simp only at hq hq2 hq3 hn4 hn
  rcases hq with rfl | rfl | rfl | rfl | rfl
  · simp [Reduced] at *
    omega
  · simp at hq2
  · simp [Reduced] at *
    omega
  · simp at hq2
  · simp at hq2

theorem Reduced_close_last_three (nMax nRunning : Int) (a0 a1 s2 : Nat) (q : List Nat)
    (h : Reduced ⟨nMax, 4, nRunning, 2, [⟨true, true, a0⟩, ⟨true, true, a1⟩,
      ⟨false, decide (0 < s2), s2⟩, ⟨false, true, 1⟩], q⟩ a0 a1 s2 1) :
    Reduced ⟨nMax, 4, nRunning, 2, [⟨true, true, a0⟩, ⟨true, true, a1⟩,
      ⟨false, decide (0 < s2), s2⟩, ⟨false, false, 0⟩], q ++ [3]⟩ a0 a1 s2 0 := by
  obtain ⟨-, -, -, hq, hq2, hq3, hn4, hn⟩ := h
  simp only at hq hq2 hq3 hn4 hn
  rcases hq with rfl | rfl | rfl | rfl | rfl
  · simp [Reduced] at *
    omega
  · simp [Reduced] at *
    omega
  · simp at hq3
  · simp at hq3
  · simp at hq3

theorem Reduced_session_closed (u : ThisUnit) (a0 a1 s2 s3 i : Nat)
    (h : Reduced u a0 a1 s2 s3) :
    ∃ b0 b1 t2 t3, Reduced (WorkerEvent.apply u (.session_closed i)) b0 b1 t2 t3 := by
  obtain ⟨nMax, nCreated, nRunning, nDesired, ppWorkers, deactivated⟩ := u
  have h0 := h
  obtain ⟨hw, hc, hd, hq, hq2, hq3, hn4, hn⟩ := h
  simp only at hw hc hd hq hq2 hq3 hn4 hn
  subst hw hc hd
  rcases i with _ | _ | _ | _ | i
  · rcases a0 with _ | a0
    · exact ⟨0, a1, s2, s3, rfl, rfl, rfl, hq, hq2, hq3, hn4, hn⟩
    · exact ⟨a0, a1, s2, s3, rfl, rfl, rfl, hq, hq2, hq3, hn4, hn⟩
  · rcases a1 with _ | a1
    · exact ⟨a0, 0, s2, s3, rfl, rfl, rfl, hq, hq2, hq3, hn4, hn⟩
    · exact ⟨a0, a1, s2, s3, rfl, rfl, rfl, hq, hq2, hq3, hn4, hn⟩
  · rcases s2 with _ | _ | s2
    · exact ⟨a0, a1, 0, s3, rfl, rfl, rfl, hq, hq2, hq3, hn4, hn⟩
    · exact ⟨a0, a1, 0, s3, Reduced_close_last_two nMax nRunning a0 a1 s3 deactivated h0⟩
    · refine ⟨a0, a1, s2 + 1, s3, ?_⟩
      show Reduced ⟨nMax, 4, nRunning, 2, [⟨true, true, a0⟩, ⟨true, true, a1⟩,
        ⟨false, true, s2 + 1⟩, ⟨false, decide (0 < s3), s3⟩], deactivated⟩ a0 a1 (s2 + 1) s3
      simp only [Reduced] at h0 ⊢
      simp at h0 ⊢
      exact h0
  · rcases s3 with _ | _ | s3
    · exact ⟨a0, a1, s2, 0, rfl, rfl, rfl, hq, hq2, hq3, hn4, hn⟩
    · exact ⟨a0, a1, s2, 0, Reduced_close_last_three nMax nRunning a0 a1 s2 deactivated h0⟩
    · refine ⟨a0, a1, s2, s3 + 1, ?_⟩
      show Reduced ⟨nMax, 4, nRunning, 2, [⟨true, true, a0⟩, ⟨true, true, a1⟩,
        ⟨false, decide (0 < s2), s2⟩, ⟨false, true, s3 + 1⟩], deactivated⟩ a0 a1 s2 (s3 + 1)
      simp only [Reduced] at h0 ⊢
      simp at h0 ⊢
      exact h0
  · exact ⟨a0, a1, s2, s3, rfl, rfl, rfl, hq, hq2, hq3, hn4, hn⟩

theorem Reduced_run (events : List WorkerEvent) :
    ∀ (u : ThisUnit) (a0 a1 s2 s3 : Nat), Reduced u a0 a1 s2 s3 →
      (∀ e ∈ events, e.is_adjust = false) →
      ∃ b0 b1 t2 t3, Reduced (run_workers u events) b0 b1 t2 t3 := by
  induction events with
  | nil => intro u a0 a1 s2 s3 h _; exact ⟨a0, a1, s2, s3, h⟩
  | cons e events ih =>
    intro u a0 a1 s2 s3 h hev
    have hrest : ∀ e' ∈ events, e'.is_adjust = false := fun e' he' =>
      hev e' (List.mem_cons_of_mem _ he')
    have he := hev e (List.mem_cons_self _ _)
    show ∃ b0 b1 t2 t3, Reduced (run_workers (WorkerEvent.apply u e) events) b0 b1 t2 t3
    cases e with
    | adjust nCount ok => simp [WorkerEvent.is_adjust] at he
    | session_created i =>
      obtain ⟨b0, b1, hb⟩ := Reduced_session_created u a0 a1 s2 s3 i h
      exact ih _ b0 b1 s2 s3 hb hrest
    | session_closed i =>
      obtain ⟨b0, b1, t2, t3, hb⟩ := Reduced_session_closed u a0 a1 s2 s3 i h
      exact ih _ b0 b1 t2 t3 hb hrest
    | execute => exact ih _ a0 a1 s2 s3 (Reduced_execute u a0 a1 s2 s3 h) hrest

theorem adjust_threads_four_to_two (nMax : Int) (hmax : 2 ≤ nMax) (s0 s1 s2 s3 : Nat) :
    (adjust_threads (fun _ => true)
(four_workers nMax s0 s1 s2 s3) 2).2 = true
    ∧ (adjust_threads (fun _ => true)
(four_workers nMax s0 s1 s2 s3) 2).1.nRunning = 4
    ∧ Reduced (adjust_threads (fun _ => true)
(four_workers nMax s0 s1 s2 s3) 2).1 s0 s1 s2 s3 := by
  have h1 : ¬ (2 : Int) > nMax := not_lt.mpr hmax
  simp only [four_workers, adjust_threads, h1, if_false]
  rcases s2 with _ | s2 <;> rcases s3 with _ | s3 <;>
    simp [decrease_threads, stop_workers, stop_worker, ThisUnit.update_worker, deactivate,
      RoutingWorker.set_listening, RoutingWorker.can_deactivate, RoutingWorker.clear_routing,
      Reduced]

theorem Reduced_counters (u : ThisUnit) (a0 a1 s2 s3 : Nat) (h : Reduced u a0 a1 s2 s3) :
    u.nDesired = 2 ∧ u.nCreated = 4
    ∧ ∃ w2 w3, u.ppWorkers[2]? = some w2 ∧ u.ppWorkers[3]? = some w3
      ∧ (0 < w3.m_sessions → u.nRunning = 4)
      ∧ (0 < w2.m_sessions → 3 ≤ u.nRunning ∧ u.nRunning ≤ 4)
      ∧ (0 < w2.m_sessions → w3.m_sessions = 0 → 3 ∉ u.deactivated → u.nRunning = 3)
      ∧ (w2.m_sessions = 0 → w3.m_sessions = 0 → u.deactivated = [] → u.nRunning = 2) := by
  obtain ⟨hw, hc, hd, hq, hq2, hq3, hn4, hn⟩ := h
  refine ⟨hd, hc, ⟨false, decide (0 < s2), s2⟩, ⟨false, decide (0 < s3), s3⟩, by rw [hw]; rfl,
    by rw [hw]; rfl, fun h3 => hn4 (Or.inl h3), ?_, ?_, ?_⟩
  · intro h2
    simp only at h2
    by_cases h3 : 0 < s3 ∨ 3 ∈ u.deactivated
    · rw [hn4 h3]; exact ⟨by decide, by decide⟩
    · rw [not_or] at h3
      rw [(hn (by omega) h3.2).1 h2]; exact ⟨by decide, by decide⟩
  · intro h2 h3 hq
    exact (hn h3 hq).1 h2
  · intro h2 h3 hq
    simp only at h2 h3
    rcases (hn h3 (by rw [hq]; simp)).2 h2 with h | ⟨hm, -⟩
    · exact h
    · rw [hq] at hm; simp at hm

theorem find_pool_mem (w : WorkerConns) (server : Nat) (pool : ConnectionPool)
    (h : w.find_pool server = some pool) : (server, pool) ∈ w.m_pool_group := by
  simp only [WorkerConns.find_pool, Option.map_eq_some'] at h
  obtain ⟨kv, hkv, rfl⟩ := h
  have h1 := List.find?_some hkv
  have h2 := List.mem_of_find?_eq_some hkv
  simp only [beq_iff_eq] at h1
  rw [← h1]
  exact h2

theorem find_pool_none (w : WorkerConns) (server : Nat) (h : w.find_pool server = none) :
    server ∉ w.m_pool_group.map (·.1) := by
  simp only [WorkerConns.find_pool, Option.map_eq_none', List.find?_eq_none] at h
  intro hm
  obtain ⟨kv, hkv, rfl⟩ := List.mem_map.mp hm
  exact h kv hkv (by simp)

theorem set_pool_keys (w : WorkerConns) (server : Nat) (pool : ConnectionPool) :
    (w.set_pool server pool).m_pool_group.map (·.1) = w.m_pool_group.map (·.1) := by
  simp only [WorkerConns.set_pool, List.map_map]
  apply List.map_congr_left
  intro kv _
  simp only [Function.comp]
  split <;> simp_all

theorem set_pool_mem (w : WorkerConns) (server : Nat) (pool : ConnectionPool)
    (kv : Nat × ConnectionPool) (h : kv ∈ (w.set_pool server pool).m_pool_group) :
    kv = (server, pool) ∨ (kv ∈ w.m_pool_group ∧ kv.1 ≠ server) := by
  simp only [WorkerConns.set_pool, List.mem_map] at h
  obtain ⟨kv0, hkv0, rfl⟩ := h
  by_cases hs : kv0.1 = server
  · left; simp [hs]
  · right; simp [hs, hkv0]

/-- Replacing the pool of a server by one that is in order, and the book-keeping by one
that gains only connections to that server, keeps the pools in order. -/
theorem PoolsOk_update (server_of : Nat → Nat) (w : WorkerConns) (server : Nat)
    (pool : ConnectionPool) (dcbs : List Nat)
    (h : PoolsOk server_of w.m_pool_group w.m_dcbs)
    (hpool : PoolOk server_of dcbs server pool)
    (hdcbs : ∀ d ∈ dcbs, d ∈ w.m_dcbs ∨ server_of d = server) :
    PoolsOk server_of (w.set_pool server pool).m_pool_group dcbs := by
  refine ⟨by rw [set_pool_keys]; exact h.1, fun kv hkv => ?_⟩
  rcases set_pool_mem w server pool kv hkv with rfl | ⟨hmem, hne⟩
  · exact hpool
  · obtain ⟨h1, h2⟩ := h.2 kv hmem
    refine ⟨h1, fun e he => ⟨(h2 e he).1, fun hd => ?_⟩⟩
    rcases hdcbs _ hd with h3 | h3
    · exact (h2 e he).2 h3
    · exact hne ((h2 e he).1.symm.trans h3)

theorem emplace_perm (entry : ConnPoolEntry) (contents : List ConnPoolEntry)
    (h : entry.m_pConn ∉ contents.map (·.m_pConn)) :
    (emplace entry contents).Perm (entry :: contents) := by
  rw [emplace, if_neg h]
  exact List.perm_middle.trans (List.Perm.cons _ (List.filter_append_perm _ _))

theorem PoolOk_of_perm (server_of : Nat → Nat) (dcbs dcbs1 removed : List Nat) (server : Nat)
    (pool pool1 : ConnectionPool) (h : PoolOk server_of dcbs server pool)
    (hperm : (removed ++ pool1.m_contents.map (·.m_pConn)).Perm
      (pool.m_contents.map (·.m_pConn)))
    (hdcbs : ∀ d ∈ dcbs1, d ∈ dcbs ∨ d ∈ removed) :
    PoolOk server_of dcbs1 server pool1 := by
  have hnodup := hperm.nodup_iff.mpr h.1
  rw [List.nodup_append] at hnodup
  refine ⟨hnodup.2.1, fun e he => ?_⟩
  have hmem : e.m_pConn ∈ pool.m_contents.map (·.m_pConn) :=
    hperm.subset (List.mem_append_right _ (List.mem_map_of_mem _ he))
  obtain ⟨e0, he0, heq⟩ := List.mem_map.mp hmem
  have h0 := h.2 e0 he0
  rw [heq] at h0
  refine ⟨h0.1, fun hd => ?_⟩
  rcases hdcbs _ hd with h1 | h1
  · exact h0.2 h1
  · exact hnodup.2.2 h1 (List.mem_map_of_mem _ he)

theorem eraseIdx_perm {α : Type} (l : List α) (pos : Nat) (e : α) (h : l[pos]? = some e) :
    (e :: l.eraseIdx pos).Perm l := by
  induction l generalizing pos with
  | nil => simp at h
  | cons x rest ih =>
    cases pos with
    | zero =>
      simp only [List.getElem?_cons_zero, Option.some.injEq] at h
      subst h
      simp
    | succ pos =>
      simp only [List.getElem?_cons_succ] at h
      simp only [List.eraseIdx_cons_succ]
      exact (List.Perm.swap _ _ _).trans (List.Perm.cons _ (ih pos h))

theorem get_connection_perm (pool : ConnectionPool) (can_reuse : Nat → Nat)
    (REUSE_NOT_POSSIBLE OPTIMAL_REUSE : Nat) :
    (((pool.get_connection can_reuse REUSE_NOT_POSSIBLE OPTIMAL_REUSE).2.1).toList
      ++ (pool.get_connection can_reuse REUSE_NOT_POSSIBLE OPTIMAL_REUSE).2.2.m_contents.map
        (·.m_pConn)).Perm (pool.m_contents.map (·.m_pConn)) := by
  unfold ConnectionPool.get_connection
  rcases get_connection_scan can_reuse OPTIMAL_REUSE pool.m_contents 0 REUSE_NOT_POSSIBLE none
    with ⟨best_reuse, _ | pos⟩
  · simp
  · simp only
    rcases hpos : pool.m_contents[pos]? with _ | e
    · have hlen : pool.m_contents.length ≤ pos := by
        by_contra hlt
        rw [List.getElem?_eq_getElem (by omega)] at hpos
        cases hpos
      simp [List.eraseIdx_of_length_le hlen]
    · simp only [Option.map_some', Option.toList_some, List.singleton_append]
      exact ((eraseIdx_perm pool.m_contents pos e hpos).map (·.m_pConn))

theorem pool_get_loop_perm (can_reuse : Nat → Nat) (reuse : Nat → Nat → Bool)
    (REUSE_NOT_POSSIBLE OPTIMAL_REUSE : Nat) (fuel : Nat) :
    ∀ (pool pool1 : ConnectionPool) (closed closed1 : List Nat) (found : Option Nat),
      pool_get_loop can_reuse reuse REUSE_NOT_POSSIBLE OPTIMAL_REUSE fuel pool closed
        = some (pool1, closed1, found) →
      ∃ removed, closed1 = closed ++ removed
        ∧ ((removed ++ found.toList) ++ pool1.m_contents.map (·.m_pConn)).Perm
          (pool.m_contents.map (·.m_pConn)) := by
  induction fuel with
  | zero => intro pool pool1 closed closed1 found h; simp [pool_get_loop] at h
  | succ fuel ih =>
    intro pool pool1 closed closed1 found h
    have hperm := get_connection_perm pool can_reuse REUSE_NOT_POSSIBLE OPTIMAL_REUSE
    rw [pool_get_loop] at h
    rcases hget : pool.get_connection can_reuse REUSE_NOT_POSSIBLE OPTIMAL_REUSE
      with ⟨q, _ | candidate, pool2⟩
    · rw [hget] at h hperm
      simp only [Option.some.injEq, Prod.mk.injEq] at h
      obtain ⟨rfl, rfl, rfl⟩ := h
      exact ⟨[], by simp, by simpa using hperm⟩
    · rw [hget] at h hperm
      simp only at h
      by_cases hr : reuse candidate q = true
      · rw [if_pos hr] at h
        simp only [Option.some.injEq, Prod.mk.injEq] at h
        obtain ⟨rfl, rfl, rfl⟩ := h
        exact ⟨[], by simp, by simpa using hperm⟩
      · rw [if_neg hr] at h
        obtain ⟨removed, h1, h2⟩ := ih pool2 pool1 (closed ++ [candidate]) closed1 found h
        refine ⟨candidate :: removed, by rw [h1]; simp, ?_⟩
        simp only [Option.toList_some, List.singleton_append] at hperm
        simp only [List.cons_append]
        exact (List.Perm.cons candidate h2).trans hperm

theorem get_connection_length (pool : ConnectionPool) (can_reuse : Nat → Nat)
    (REUSE_NOT_POSSIBLE OPTIMAL_REUSE : Nat) :
    ((pool.get_connection can_reuse REUSE_NOT_POSSIBLE OPTIMAL_REUSE).2.1).toList.length
      + (pool.get_connection can_reuse REUSE_NOT_POSSIBLE OPTIMAL_REUSE).2.2.m_contents.length
      = pool.m_contents.length := by
  have h := (get_connection_perm pool can_reuse REUSE_NOT_POSSIBLE OPTIMAL_REUSE).length_eq
  simpa using h

theorem pool_get_loop_isSome (can_reuse : Nat → Nat) (reuse : Nat → Nat → Bool)
    (REUSE_NOT_POSSIBLE OPTIMAL_REUSE : Nat) (fuel : Nat) :
    ∀ (pool : ConnectionPool) (closed : List Nat), pool.m_contents.length < fuel →
      (pool_get_loop can_reuse reuse REUSE_NOT_POSSIBLE OPTIMAL_REUSE fuel pool closed).isSome
        = true := by
  induction fuel with
  | zero => intro pool closed h; omega
  | succ fuel ih =>
    intro pool closed h
    have hlen := get_connection_length pool can_reuse REUSE_NOT_POSSIBLE OPTIMAL_REUSE
    rw [pool_get_loop]
    rcases hget : pool.get_connection can_reuse REUSE_NOT_POSSIBLE OPTIMAL_REUSE
      with ⟨q, _ | candidate, pool2⟩
    · rfl
    · rw [hget] at hlen
      simp only [Option.toList_some, List.length_singleton] at hlen
      simp only
      by_cases hr : reuse candidate q = true
      · rw [if_pos hr]; rfl
      · rw [if_neg hr]
        exact ih pool2 _ (by omega)

theorem pool_get_connection_isSome (w : WorkerConns) (server : Nat) (can_reuse : Nat → Nat)
    (reuse : Nat → Nat → Bool) (REUSE_NOT_POSSIBLE OPTIMAL_REUSE : Nat) :
    (pool_get_connection w server can_reuse reuse REUSE_NOT_POSSIBLE OPTIMAL_REUSE).isSome
      = true := by
  unfold pool_get_connection
  rcases w.find_pool server with _ | pool
  · rfl
  · simp only
    have h := pool_get_loop_isSome can_reuse reuse REUSE_NOT_POSSIBLE OPTIMAL_REUSE
      (pool.m_contents.length + 1) pool [] (by omega)
    rcases hloop : pool_get_loop can_reuse reuse REUSE_NOT_POSSIBLE OPTIMAL_REUSE
      (pool.m_contents.length + 1) pool [] with _ | ⟨pool1, closed, _ | conn⟩
    · rw [hloop] at h; cases h
    · rfl
    · rfl

theorem mem_dcbs_insert (d x : Nat) (dcbs : List Nat) :
    x ∈ dcbs_insert d dcbs ↔ x = d ∨ x ∈ dcbs := by
  unfold dcbs_insert
  split
  · constructor
    · exact fun h => Or.inr h
    · rintro (rfl | h)
      · assumption
      · exact h
  · simp

theorem PoolsOk_get (server_of : Nat → Nat) (w : WorkerConns) (server : Nat)
    (can_reuse : Nat → Nat) (reuse : Nat → Nat → Bool) (REUSE_NOT_POSSIBLE OPTIMAL_REUSE : Nat)
    (r : WorkerConns × Option Nat)
    (hr : pool_get_connection w server can_reuse reuse REUSE_NOT_POSSIBLE OPTIMAL_REUSE = some r)
    (h : PoolsOk server_of w.m_pool_group w.m_dcbs) :
    PoolsOk server_of r.1.m_pool_group r.1.m_dcbs := by
  unfold pool_get_connection at hr
  rcases hfind : w.find_pool server with _ | pool
  · rw [hfind] at hr
    simp only [Option.some.injEq] at hr
    subst hr
    exact h
  · rw [hfind] at hr
    simp only at hr
    have hpool := h.2 _ (find_pool_mem w server pool hfind)
    rcases hloop : pool_get_loop can_reuse reuse REUSE_NOT_POSSIBLE OPTIMAL_REUSE
      (pool.m_contents.length + 1) pool [] with _ | ⟨pool1, closed, found⟩
    · rw [hloop] at hr; cases hr
    · rw [hloop] at hr
      obtain ⟨removed, -, hperm⟩ := pool_get_loop_perm can_reuse reuse REUSE_NOT_POSSIBLE
        OPTIMAL_REUSE _ pool pool1 [] closed found hloop
      rcases found with _ | conn
      · simp only [Option.some.injEq] at hr
        subst hr
        exact PoolsOk_update server_of w server pool1 w.m_dcbs h
          (PoolOk_of_perm server_of w.m_dcbs w.m_dcbs _ server pool pool1 hpool hperm
            (fun d hd => Or.inl hd))
          (fun d hd => Or.inl hd)
      · simp only [Option.some.injEq] at hr
        subst hr
        have hconn : conn ∈ pool.m_contents.map (·.m_pConn) :=
          hperm.subset (by simp)
        obtain ⟨e0, he0, heq⟩ := List.mem_map.mp hconn
        have hsrv : server_of conn = server := by rw [← heq]; exact (hpool.2 e0 he0).1
        refine PoolsOk_update server_of w server pool1 (dcbs_insert conn w.m_dcbs) h
          (PoolOk_of_perm server_of w.m_dcbs _ _ server pool pool1 hpool hperm ?_) ?_
        · intro d hd
          rcases (mem_dcbs_insert conn d w.m_dcbs).mp hd with rfl | hd
          · right; simp
          · left; exact hd
        · intro d hd
          rcases (mem_dcbs_insert conn d w.m_dcbs).mp hd with rfl | hd
          · right; exact hsrv
          · left; exact hd

theorem PoolsOk_move (server_of : Nat → Nat) (w : WorkerConns) (pDcb : Nat) (dcb : DcbState)
    (persistpoolmax : Int) (is_running : Bool) (nCreated now : Int)
    (h : PoolsOk server_of w.m_pool_group w.m_dcbs) :
    PoolsOk server_of
      (move_to_conn_pool server_of w pDcb dcb persistpoolmax is_running nCreated now).1.m_pool_group
      (move_to_conn_pool server_of w pDcb dcb persistpoolmax is_running nCreated now).1.m_dcbs := by
  unfold move_to_conn_pool
  split
  · split
    · -- the pool of the server, created when it is not there yet
      have hw1 : ∀ w1 : WorkerConns, PoolsOk server_of w1.m_pool_group w1.m_dcbs →
          PoolsOk server_of
            (match w1.find_pool (server_of pDcb) with
              | some pool =>
                if pool.has_space then
                  ({ w1.set_pool (server_of pDcb) (pool.add_connection pDcb now) with
                      m_dcbs := dcbs_erase pDcb w1.m_dcbs }, true)
                else (w1, false)
              | none => (w1, false)).1.m_pool_group
            (match w1.find_pool (server_of pDcb) with
              | some pool =>
                if pool.has_space then
                  ({ w1.set_pool (server_of pDcb) (pool.add_connection pDcb now) with
                      m_dcbs := dcbs_erase pDcb w1.m_dcbs }, true)
                else (w1, false)
              | none => (w1, false)).1.m_dcbs := by
        intro w1 h1
        rcases hfind : w1.find_pool (server_of pDcb) with _ | pool
        · exact h1
        · simp only
          split
          · have hpool := h1.2 _ (find_pool_mem w1 _ pool hfind)
            refine PoolsOk_update server_of w1 (server_of pDcb) (pool.add_connection pDcb now)
              (dcbs_erase pDcb w1.m_dcbs) h1 ?_ ?_
            · by_cases hin : pDcb ∈ pool.m_contents.map (·.m_pConn)
              · have hsame : (pool.add_connection pDcb now).m_contents = pool.m_contents := by
                  simp [ConnectionPool.add_connection, emplace, hin]
                refine ⟨by rw [hsame]; exact hpool.1, fun e he => ?_⟩
                rw [hsame] at he
                refine ⟨(hpool.2 e he).1, fun hd => (hpool.2 e he).2 ?_⟩
                exact (List.mem_filter.mp hd).1
              · have hperm : ((pool.add_connection pDcb now).m_contents).Perm
                    (⟨pDcb, now⟩ :: pool.m_contents) := emplace_perm ⟨pDcb, now⟩ _ hin
                refine ⟨(hperm.map (·.m_pConn)).nodup_iff.mpr ?_, fun e he => ?_⟩
                · simp only [List.map_cons]
                  exact List.nodup_cons.mpr ⟨hin, hpool.1⟩
                · rcases List.mem_cons.mp (hperm.subset he) with rfl | he
                  · refine ⟨rfl, fun hd => ?_⟩
                    simp [dcbs_erase] at hd
                  · refine ⟨(hpool.2 e he).1, fun hd => (hpool.2 e he).2 ?_⟩
                    exact (List.mem_filter.mp hd).1
            · intro d hd
              exact Or.inl (List.mem_filter.mp hd).1
          · exact h1
      rcases hfind : w.find_pool (server_of pDcb) with _ | pool
      · refine hw1 _ ⟨?_, ?_⟩
        · simp only [List.map_append, List.map_cons, List.map_nil]
          refine List.Nodup.append h.1 (List.nodup_singleton _) ?_
          intro x hx hx1
          rw [List.mem_singleton] at hx1
          subst hx1
          exact find_pool_none w _ hfind hx
        · intro kv hkv
          rcases List.mem_append.mp hkv with hkv | hkv
          · exact h.2 kv hkv
          · rw [List.mem_singleton] at hkv
            subst hkv
            exact ⟨by simp [ConnectionPool.create, ConnectionPool.set_capacity],
              by simp [ConnectionPool.create, ConnectionPool.set_capacity]⟩
      · exact hw1 w h
    · exact h
  · exact h

theorem PoolsOk_evict (server_of : Nat → Nat) (w : WorkerConns) (pDcb : Nat)
    (h : PoolsOk server_of w.m_pool_group w.m_dcbs) :
    PoolsOk server_of (evict_dcb server_of w pDcb).m_pool_group
      (evict_dcb server_of w pDcb).m_dcbs := by
  unfold evict_dcb
  rcases hfind : w.find_pool (server_of pDcb) with _ | pool
  · exact h
  · have hpool := h.2 _ (find_pool_mem w _ pool hfind)
    show PoolsOk server_of (w.set_pool (server_of pDcb) _).m_pool_group
      (dcbs_insert pDcb w.m_dcbs)
    refine PoolsOk_update server_of w (server_of pDcb) _ _ h ⟨?_, fun e he => ?_⟩ ?_
    · exact (hpool.1.sublist ((List.filter_sublist _).map _))
    · have he1 := List.mem_filter.mp he
      refine ⟨(hpool.2 e he1.1).1, fun hd => ?_⟩
      rcases (mem_dcbs_insert pDcb _ w.m_dcbs).mp hd with heq | hd
      · simpa [heq] using he1.2
      · exact (hpool.2 e he1.1).2 hd
    · intro d hd
      rcases (mem_dcbs_insert pDcb d w.m_dcbs).mp hd with rfl | hd
      · exact Or.inr rfl
      · exact Or.inl hd

theorem close_expired_perm (pool : ConnectionPool) (hanged_up : Nat → Bool) (max_age now : Int) :
    ((pool.close_expired hanged_up max_age now).2
      ++ (pool.close_expired hanged_up max_age now).1.m_contents.map (·.m_pConn)).Perm
      (pool.m_contents.map (·.m_pConn)) := by
  unfold ConnectionPool.close_expired
  simp only
  split
  · rw [← List.map_append, List.append_assoc, List.take_append_drop]
    exact (List.filter_append_perm _ _).map _
  · rw [← List.map_append]
    exact (List.filter_append_perm _ _).map _

theorem close_all_perm (pool : ConnectionPool) :
    (pool.close_all.2 ++ pool.close_all.1.m_contents.map (·.m_pConn)).Perm
      (pool.m_contents.map (·.m_pConn)) := by
  simp [ConnectionPool.close_all]

theorem foldl_close_pooled_dcb (server_of : Nat → Nat) (conns : List Nat) :
    ∀ w : WorkerConns,
      (conns.foldl (close_pooled_dcb server_of) w).m_pool_group = w.m_pool_group
      ∧ ∀ x, x ∈ (conns.foldl (close_pooled_dcb server_of) w).m_dcbs ↔ x ∈ w.m_dcbs ∨ x ∈ conns := by
  induction conns with
  | nil => intro w; simp
  | cons c conns ih =>
    intro w
    obtain ⟨h1, h2⟩ := ih (close_pooled_dcb server_of w c)
    refine ⟨h1, fun x => ?_⟩
    rw [List.foldl_cons, h2]
    show x ∈ dcbs_insert c w.m_dcbs ∨ x ∈ conns ↔ _
    rw [mem_dcbs_insert, List.mem_cons]
    tauto

theorem PoolsOk_close_expired_one (server_of : Nat → Nat) (is_down hanged_up : Nat → Bool)
    (persistmaxtime : Nat → Int) (now : Int) (w : WorkerConns) (server : Nat)
    (h : PoolsOk server_of w.m_pool_group w.m_dcbs) :
    PoolsOk server_of
      (pool_close_expired_one server_of is_down hanged_up persistmaxtime now w server).m_pool_group
      (pool_close_expired_one server_of is_down hanged_up persistmaxtime now w server).m_dcbs := by
  unfold pool_close_expired_one
  rcases hfind : w.find_pool server with _ | pool
  · exact h
  · have hpool := h.2 _ (find_pool_mem w _ pool hfind)
    simp only
    have hperm : ((if is_down server = true then pool.close_all
          else pool.close_expired hanged_up (persistmaxtime server) now).2
        ++ (if is_down server = true then pool.close_all
          else pool.close_expired hanged_up (persistmaxtime server) now).1.m_contents.map
            (·.m_pConn)).Perm (pool.m_contents.map (·.m_pConn)) := by
      split
      · exact close_all_perm pool
      · exact close_expired_perm pool hanged_up _ now
    generalize (if is_down server = true then pool.close_all
      else pool.close_expired hanged_up (persistmaxtime server) now) = r at hperm
    obtain ⟨h1, h2⟩ := foldl_close_pooled_dcb server_of r.2 (w.set_pool server r.1)
    rw [h1]
    refine PoolsOk_update server_of w server r.1 _ h
      (PoolOk_of_perm server_of w.m_dcbs _ r.2 server pool r.1 hpool hperm ?_) ?_
    · intro d hd
      exact (h2 d).mp hd
    · intro d hd
      rcases (h2 d).mp hd with hd | hd
      · exact Or.inl hd
      · right
        have hmem : d ∈ pool.m_contents.map (·.m_pConn) :=
          hperm.subset (List.mem_append_left _ hd)
        obtain ⟨e0, he0, rfl⟩ := List.mem_map.mp hmem
        exact (hpool.2 e0 he0).1

theorem PoolsOk_close_expired (server_of : Nat → Nat) (is_down hanged_up : Nat → Bool)
    (persistmaxtime : Nat → Int) (now : Int) (w : WorkerConns)
    (h : PoolsOk server_of w.m_pool_group w.m_dcbs) :
    PoolsOk server_of
      (pool_close_expired server_of is_down hanged_up persistmaxtime now w).m_pool_group
      (pool_close_expired server_of is_down hanged_up persistmaxtime now w).m_dcbs := by
  unfold pool_close_expired
  generalize w.m_pool_group.map (·.1) = servers
  induction servers generalizing w with
  | nil => exact h
  | cons server servers ih =>
    exact ih _ (PoolsOk_close_expired_one server_of is_down hanged_up persistmaxtime now w
      server h)

theorem mem_pooled (w : WorkerConns) (d : Nat) :
    d ∈ w.pooled ↔ ∃ kv ∈ w.m_pool_group, ∃ e ∈ kv.2.m_contents, e.m_pConn = d := by
  simp only [WorkerConns.pooled, List.mem_flatten, List.mem_map]
  constructor
  · rintro ⟨l, ⟨kv, hkv, rfl⟩, hd⟩
    obtain ⟨e, he, rfl⟩ := List.mem_map.mp hd
    exact ⟨kv, hkv, e, he, rfl⟩
  · rintro ⟨kv, hkv, e, he, rfl⟩
    exact ⟨_, ⟨kv, hkv, rfl⟩, List.mem_map_of_mem _ he⟩

theorem PoolsOk_apply (server_of : Nat → Nat) (w : WorkerConns) (event : PoolEvent)
    (h : PoolsOk server_of w.m_pool_group w.m_dcbs) :
    PoolsOk server_of (event.apply server_of w).m_pool_group (event.apply server_of w).m_dcbs := by
  cases event with
  | move pDcb dcb persistpoolmax is_running nCreated now =>
    exact PoolsOk_move server_of w pDcb dcb persistpoolmax is_running nCreated now h
  | get server can_reuse reuse REUSE_NOT_POSSIBLE OPTIMAL_REUSE =>
    simp only [PoolEvent.apply]
    rcases hr : pool_get_connection w server can_reuse reuse REUSE_NOT_POSSIBLE OPTIMAL_REUSE
      with _ | r
    · exact h
    · exact PoolsOk_get server_of w server can_reuse reuse REUSE_NOT_POSSIBLE OPTIMAL_REUSE r hr h
  | evict pDcb => exact PoolsOk_evict server_of w pDcb h
  | close_pooled pDcb =>
    simp only [PoolEvent.apply]
    split
    · exact h
    · rename_i hnot
      refine ⟨h.1, fun kv hkv => ⟨(h.2 kv hkv).1, fun e he => ⟨((h.2 kv hkv).2 e he).1, ?_⟩⟩⟩
      intro hd
      rcases (mem_dcbs_insert pDcb _ w.m_dcbs).mp hd with heq | hd
      · exact hnot ((mem_pooled w pDcb).mpr ⟨kv, hkv, e, he, heq⟩)
      · exact ((h.2 kv hkv).2 e he).2 hd
  | close_expired is_down hanged_up persistmaxtime now =>
    exact PoolsOk_close_expired server_of is_down hanged_up persistmaxtime now w h
  | add pDcb =>
    simp only [PoolEvent.apply]
    split
    · exact h
    · rename_i hnot
      refine ⟨h.1, fun kv hkv => ⟨(h.2 kv hkv).1, fun e he => ⟨((h.2 kv hkv).2 e he).1, ?_⟩⟩⟩
      intro hd
      rcases (mem_dcbs_insert pDcb _ w.m_dcbs).mp hd with heq | hd
      · exact hnot ((mem_pooled w pDcb).mpr ⟨kv, hkv, e, he, heq⟩)
      · exact ((h.2 kv hkv).2 e he).2 hd
  | remove pDcb =>
    refine ⟨h.1, fun kv hkv => ⟨(h.2 kv hkv).1, fun e he => ⟨((h.2 kv hkv).2 e he).1, ?_⟩⟩⟩
    intro hd
    exact ((h.2 kv hkv).2 e he).2 (List.mem_filter.mp hd).1

theorem PoolsOk_run (server_of : Nat → Nat) (events : List PoolEvent) :
    ∀ w : WorkerConns, PoolsOk server_of w.m_pool_group w.m_dcbs →
      PoolsOk server_of (run_pools server_of w events).m_pool_group
        (run_pools server_of w events).m_dcbs := by
  induction events with
  | nil => intro w h; exact h
  | cons event events ih => intro w h; exact ih _ (PoolsOk_apply server_of w event h)

/-- Claim C5. From every state of a worker in which the pools are in order (in particular
from one without pools, whatever `m_dcbs` holds), every sequence of calls of
`move_to_conn_pool`, `pool_get_connection`, `evict_dcb`, `close_pooled_dcb`,
`pool_close_expired` (`close_expired` or `close_all` on every pool), `add` and `remove`
leads to a state in which no pooled connection is in `m_dcbs`, no connection is in two
pools and none is twice in one pool. -/
theorem pooled_connection_in_one_place (server_of : Nat → Nat) (w : WorkerConns)
    (events : List PoolEvent) (hstart : PoolsOk server_of w.m_pool_group w.m_dcbs) :
    (∀ d ∈ (run_pools server_of w events).pooled, d ∉ (run_pools server_of w events).m_dcbs)
    ∧ (∀ kv ∈ (run_pools server_of w events).m_pool_group,
        ∀ kv1 ∈ (run_pools server_of w events).m_pool_group,
        ∀ e ∈ kv.2.m_contents, ∀ e1 ∈ kv1.2.m_contents, e.m_pConn = e1.m_pConn → kv = kv1)
    ∧ (∀ kv ∈ (run_pools server_of w events).m_pool_group,
        (kv.2.m_contents.map (·.m_pConn)).Nodup) := by
  have h := PoolsOk_run server_of events w hstart
  refine ⟨fun d hd => ?_, fun kv hkv kv1 hkv1 e he e1 he1 heq => ?_, fun kv hkv => (h.2 kv hkv).1⟩
  · obtain ⟨kv, hkv, e, he, rfl⟩ := (mem_pooled _ d).mp hd
    exact ((h.2 kv hkv).2 e he).2
  · have h1 := ((h.2 kv hkv).2 e he).1
    have h2 := ((h.2 kv1 hkv1).2 e1 he1).1
    rw [heq] at h1
    exact List.inj_on_of_nodup_map h.1 hkv hkv1 (h1.symm.trans h2)

/-- Claim C5, an instance: of the connections 7, 8, 9 and 11 of a worker, 7 and 9 (to
server 1) and 8 (to server 0) are pooled; a lookup for server 1 closes 7, whose reuse
fails, and returns 9. Afterwards 8 is the one pooled connection, and it is not in `m_dcbs`,
which holds 9 and 11. -/
theorem pooled_connection_in_one_place_example :
    (run_pools (fun d => d % 2) ⟨[7, 8, 9, 11], [], [], fun _ => ⟨4, 0⟩⟩
        [.move 7 ⟨true, false, true, true⟩ 4 true 2 100,
         .move 9 ⟨true, false, true, true⟩ 4 true 2 101,
         .move 8 ⟨true, false, true, true⟩ 4 true 2 102,
         .get 1 (fun _ => 1) (fun c _ => c == 9) 0 2]).pooled = [8]
    ∧ (run_pools (fun d => d % 2) ⟨[7, 8, 9, 11], [], [], fun _ => ⟨4, 0⟩⟩
        [.move 7 ⟨true, false, true, true⟩ 4 true 2 100,
         .move 9 ⟨true, false, true, true⟩ 4 true 2 101,
         .move 8 ⟨true, false, true, true⟩ 4 true 2 102,
         .get 1 (fun _ => 1) (fun c _ => c == 9) 0 2]).m_dcbs = [9, 11]
    ∧ ∀ d ∈ (run_pools (fun d => d % 2) ⟨[7, 8, 9, 11], [], [], fun _ => ⟨4, 0⟩⟩
        [.move 7 ⟨true, false, true, true⟩ 4 true 2 100,
         .move 9 ⟨true, false, true, true⟩ 4 true 2 101,
         .move 8 ⟨true, false, true, true⟩ 4 true 2 102,
         .get 1 (fun _ => 1) (fun c _ => c == 9) 0 2]).pooled,
      d ∉ (run_pools (fun d => d % 2) ⟨[7, 8, 9, 11], [], [], fun _ => ⟨4, 0⟩⟩
        [.move 7 ⟨true, false, true, true⟩ 4 true 2 100,
         .move 9 ⟨true, false, true, true⟩ 4 true 2 101,
         .move 8 ⟨true, false, true, true⟩ 4 true 2 102,
         .get 1 (fun _ => 1) (fun c _ => c == 9) 0 2]).m_dcbs :=
  ⟨by decide, by decide,
    (pooled_connection_in_one_place (fun d => d % 2) ⟨[7, 8, 9, 11], [], [], fun _ => ⟨4, 0⟩⟩ _
      ⟨List.nodup_nil, fun kv hkv => absurd hkv (List.not_mem_nil _)⟩).1⟩

theorem pool_lookup_stats (w w1 : WorkerConns) (server : Nat) (srv : ServerState)
    (can_reuse : Nat → Nat) (reuse : Nat → Nat → Bool) (REUSE_NOT_POSSIBLE OPTIMAL_REUSE : Nat)
    (found : Option Nat)
    (h : pool_lookup w server srv can_reuse reuse REUSE_NOT_POSSIBLE OPTIMAL_REUSE
      = some (w1, found)) :
    (w1.stats server).n_conn_intents = (w.stats server).n_conn_intents
    ∧ ∃ closed, w1.m_zombies = w.m_zombies ++ closed
      ∧ (w1.stats server).n_current_conns
        = (w.stats server).n_current_conns - (closed.length : Nat) := by
  unfold pool_lookup at h
  split at h
  · unfold pool_get_connection at h
    rcases hfind : w.find_pool server with _ | pool
    · rw [hfind] at h
      simp only [Option.some.injEq, Prod.mk.injEq] at h
      obtain ⟨rfl, -⟩ := h
      exact ⟨rfl, [], by simp, by simp⟩
    · rw [hfind] at h
      simp only at h
      rcases hloop : pool_get_loop can_reuse reuse REUSE_NOT_POSSIBLE OPTIMAL_REUSE
        (pool.m_contents.length + 1) pool [] with _ | ⟨pool1, closed, _ | conn⟩
      · rw [hloop] at h; cases h
      · rw [hloop] at h
        simp only [Option.some.injEq, Prod.mk.injEq] at h
        obtain ⟨rfl, -⟩ := h
        exact ⟨by simp [WorkerConns.remove_connections, WorkerConns.set_pool], closed, rfl,
          by simp [WorkerConns.remove_connections, WorkerConns.set_pool]⟩
      · rw [hloop] at h
        simp only [Option.some.injEq, Prod.mk.injEq] at h
        obtain ⟨rfl, -⟩ := h
        exact ⟨by simp [WorkerConns.remove_connections, WorkerConns.set_pool], closed, rfl,
          by simp [WorkerConns.remove_connections, WorkerConns.set_pool]⟩
  · simp only [Option.some.injEq, Prod.mk.injEq] at h
    obtain ⟨rfl, -⟩ := h
    exact ⟨rfl, [], by simp, by simp⟩

/-- Claim C12 as stated fails: with `max_routing_connections = 1`, one pooled connection
(so `n_current_conns + n_conn_intents = 1` before the call) whose reuse fails, the pool
gives no connection, the candidate is closed, and a new connection is created with
`conn_limit_reached = false`. -/
theorem get_backend_connection_after_failed_reuse :
    (get_backend_connection
        ⟨[], [(1, ⟨[⟨7, 100⟩], 1, ⟨1, 0, 0⟩⟩)], [], fun _ => ⟨1, 0⟩⟩ 1 ⟨true, true, 1⟩
        (fun _ => 1) (fun _ _ => false) 0 2 (some 20) true).map (fun r => r.2)
      = some (⟨false, some 20⟩, 1)
    ∧ (pool_lookup ⟨[], [(1, ⟨[⟨7, 100⟩], 1, ⟨1, 0, 0⟩⟩)], [], fun _ => ⟨1, 0⟩⟩ 1
        ⟨true, true, 1⟩ (fun _ => 1) (fun _ _ => false) 0 2).map (fun r => r.2) = some none := by
  decide

/-- Claim C12, with the counters read when the pool lookup has returned. For a server with
`max_routing_connections = M > 0` and a call of `get_backend_connection` to which the pool
gives no connection: the call returns; the lookup leaves `n_conn_intents` as it is and
lowers `n_current_conns` by one for every candidate it closes because its reuse failed; if
then `n_current_conns + n_conn_intents >= M`, no connection is created,
`conn_limit_reached` is true and the counters stay; otherwise `conn_limit_reached` is
false, `create_backend_connection` is called once, `n_current_conns` goes up by one exactly
when it gave a connection, and is at most `M` afterwards when `n_conn_intents` is not
negative. In every case `n_conn_intents` is afterwards what it was before the call. -/
theorem get_backend_connection_limit (w w1 : WorkerConns) (server : Nat) (srv : ServerState)
    (can_reuse : Nat → Nat) (reuse : Nat → Nat → Bool) (REUSE_NOT_POSSIBLE OPTIMAL_REUSE : Nat)
    (create : Option Nat) (returns_new : Bool)
    (hmax : 0 < srv.max_routing_connections)
    (hmiss : pool_lookup w server srv can_reuse reuse REUSE_NOT_POSSIBLE OPTIMAL_REUSE
      = some (w1, none)) :
    ∃ w2 result n_created,
      get_backend_connection w server srv can_reuse reuse REUSE_NOT_POSSIBLE OPTIMAL_REUSE
        create returns_new = some (w2, result, n_created)
      ∧ (w2.stats server).n_conn_intents = (w.stats server).n_conn_intents
      ∧ (∃ closed, w1.m_zombies = w.m_zombies ++ closed
          ∧ (w1.stats server).n_current_conns
            = (w.stats server).n_current_conns - (closed.length : Nat))
      ∧ ((w1.stats server).n_current_conns + (w1.stats server).n_conn_intents
            ≥ srv.max_routing_connections →
          result = ⟨true, none⟩ ∧ n_created = 0
          ∧ (w2.stats server).n_current_conns = (w1.stats server).n_current_conns)
      ∧ ((w1.stats server).n_current_conns + (w1.stats server).n_conn_intents
            < srv.max_routing_connections →
          result = ⟨false, create⟩ ∧ n_created = 1
          ∧ (w2.stats server).n_current_conns
            = (w1.stats server).n_current_conns + (if create.isSome then 1 else 0)
          ∧ (0 ≤ (w.stats server).n_conn_intents →
              (w2.stats server).n_current_conns ≤ srv.max_routing_connections)) := by
  obtain ⟨hint, hclosed⟩ := pool_lookup_stats w w1 server srv can_reuse reuse
    REUSE_NOT_POSSIBLE OPTIMAL_REUSE none hmiss
  refine ⟨_, _, _, by rw [get_backend_connection, hmiss], ?_, hclosed, ?_, ?_⟩
  · simp only [Function.update_same, connect_new, hmax, if_true]
    rw [← hint]
    split
    · rfl
    · cases returns_new <;> cases create <;>
        simp [add_conn_intent, remove_conn_intent, add_connection] <;>
        split <;> simp
  · intro hge
    simp only [Function.update_same, connect_new, hmax, if_true, if_pos hge, and_self]
  · intro hlt
    have hnot : ¬ ((w1.stats server).n_current_conns + (w1.stats server).n_conn_intents
        ≥ srv.max_routing_connections) := not_le.mpr hlt
    simp only [Function.update_same, connect_new, hmax, if_true, if_neg hnot]
    rw [hint] at hlt
    cases returns_new <;> cases create <;>
      simp [add_conn_intent, remove_conn_intent, add_connection]
    all_goals rw [if_pos (by omega)]
    all_goals simp
    all_goals intros
    all_goals omega

/-- Claim C12, an instance: one connection to the server is open, none is pooled and
`max_routing_connections` is 1; the limit is reported and nothing is created. -/
theorem get_backend_connection_limit_example :
    (get_backend_connection ⟨[5], [], [], fun _ => ⟨1, 0⟩⟩ 1 ⟨true, true, 1⟩
        (fun _ => 1) (fun _ _ => true) 0 2 (some 20) true).map (fun r => r.2)
      = some (⟨true, none⟩, 0) := by
  obtain ⟨w2, result, n_created, hget, -, -, hge, -⟩ :=
    get_backend_connection_limit ⟨[5], [], [], fun _ => ⟨1, 0⟩⟩ ⟨[5], [], [], fun _ => ⟨1, 0⟩⟩
      1 ⟨true, true, 1⟩ (fun _ => 1) (fun _ _ => true) 0 2 (some 20) true (by decide) rfl
  obtain ⟨h1, h2, -⟩ := hge (by decide)
  rw [hget, h1, h2]
  rfl

theorem find_pool_append_new (w : WorkerConns) (server : Nat) (pool : ConnectionPool)
    (h : w.find_pool server = none) :
    WorkerConns.find_pool { w with m_pool_group := w.m_pool_group ++ [(server, pool)] } server
      = some pool := by
  simp only [WorkerConns.find_pool, Option.map_eq_none'] at h
  simp [WorkerConns.find_pool, List.find?_append, h]

theorem set_pool_append_new (w : WorkerConns) (server : Nat) (pool pool1 : ConnectionPool)
    (h : w.find_pool server = none) :
    (WorkerConns.set_pool { w with m_pool_group := w.m_pool_group ++ [(server, pool)] } server
      pool1).m_pool_group = w.m_pool_group ++ [(server, pool1)] := by
  have hnot := find_pool_none w server h
  simp only [WorkerConns.set_pool, List.map_append, List.map_cons, List.map_nil, if_true]
  congr 1
  conv_rhs => rw [← List.map_id w.m_pool_group]
  apply List.map_congr_left
  intro kv hkv
  have hne : kv.1 ≠ server := fun heq => hnot (heq ▸ List.mem_map_of_mem _ hkv)
  simp [hne]

theorem move_to_conn_pool_first (server_of : Nat → Nat) (w : WorkerConns) (pDcb : Nat)
    (persistpoolmax nCreated now : Int)
    (hcreated : 1 ≤ nCreated) (hcap : nCreated ≤ persistpoolmax) (hint : persistpoolmax < 2 ^ 31)
    (hnew : w.find_pool (server_of pDcb) = none) :
    move_to_conn_pool server_of w pDcb ⟨true, false, true, true⟩ persistpoolmax true nCreated now
      = ({ w with
            m_pool_group := w.m_pool_group
              ++ [(server_of pDcb, ⟨[⟨pDcb, now⟩], Int.tdiv persistpoolmax nCreated, ⟨1, 0, 0⟩⟩)]
            m_dcbs := dcbs_erase pDcb w.m_dcbs }, true) := by
  have hpos : 0 < persistpoolmax := by omega
  have hto : to_int persistpoolmax = persistpoolmax := to_int_of_range _ (by omega) hint
  have hdiv : (0 : Int) < Int.tdiv persistpoolmax nCreated := by
    rw [Int.tdiv_eq_ediv (by omega) (by omega)]
    exact Int.le_ediv_of_mul_le (by omega) (by omega)
  unfold move_to_conn_pool
  rw [if_pos hpos, hto]
  simp only [Bool.not_false, Bool.and_self, if_true, hnew]
  rw [find_pool_append_new w _ _ hnew]
  have hspace : (ConnectionPool.create persistpoolmax nCreated).has_space = true := by
    simp [ConnectionPool.has_space, ConnectionPool.create, ConnectionPool.set_capacity, hdiv]
  simp only [hspace, if_true, Prod.mk.injEq, and_true]
  have hset := set_pool_append_new w (server_of pDcb)
    (ConnectionPool.create persistpoolmax nCreated)
    ((ConnectionPool.create persistpoolmax nCreated).add_connection pDcb now) hnew
  simp only [WorkerConns.set_pool] at hset ⊢
  rw [hset]
  simp [ConnectionPool.add_connection, ConnectionPool.create, ConnectionPool.set_capacity, emplace]

theorem get_connection_single (conn : Nat) (created capacity : Int) (stats : ConnectionPoolStats)
    (can_reuse : Nat → Nat) (REUSE_NOT_POSSIBLE OPTIMAL_REUSE : Nat)
    (hq : can_reuse conn > REUSE_NOT_POSSIBLE) :
    ConnectionPool.get_connection ⟨[⟨conn, created⟩], capacity, stats⟩ can_reuse
        REUSE_NOT_POSSIBLE OPTIMAL_REUSE
      = (can_reuse conn, some conn,
          ⟨[], capacity, { stats with times_found := stats.times_found + 1 }⟩) := by
  have hscan : get_connection_scan can_reuse OPTIMAL_REUSE [⟨conn, created⟩] 0
      REUSE_NOT_POSSIBLE none = (can_reuse conn, some 0) := by
    simp only [get_connection_scan, hq, if_true]
    split <;> rfl
  simp only [ConnectionPool.get_connection, hscan]
  rfl

theorem move_then_get (server_of : Nat → Nat) (w : WorkerConns) (pDcb : Nat)
    (capacity now : Int) (srv : ServerState)
    (can_reuse : Nat → Nat) (reuse : Nat → Nat → Bool) (REUSE_NOT_POSSIBLE OPTIMAL_REUSE : Nat)
    (create : Option Nat) (returns_new : Bool)
    (hnew : w.find_pool (server_of pDcb) = none)
    (henabled : srv.persistent_conns_enabled = true) (hrunning : srv.is_running = true)
    (hq : can_reuse pDcb > REUSE_NOT_POSSIBLE) (hreuse : reuse pDcb (can_reuse pDcb) = true) :
    get_backend_connection
        { w with
          m_pool_group := w.m_pool_group
            ++ [(server_of pDcb, ⟨[⟨pDcb, now⟩], capacity, ⟨1, 0, 0⟩⟩)]
          m_dcbs := dcbs_erase pDcb w.m_dcbs }
        (server_of pDcb) srv can_reuse reuse REUSE_NOT_POSSIBLE OPTIMAL_REUSE create returns_new
      = some ({ w with
          m_pool_group := w.m_pool_group ++ [(server_of pDcb, ⟨[], capacity, ⟨1, 1, 0⟩⟩)]
          m_dcbs := dcbs_insert pDcb (dcbs_erase pDcb w.m_dcbs)
          m_zombies := w.m_zombies ++ []
          stats := Function.update w.stats (server_of pDcb)
            ⟨(w.stats (server_of pDcb)).n_current_conns - (0 : Nat),
              (w.stats (server_of pDcb)).n_conn_intents⟩ },
        ⟨false, some pDcb⟩, 0) := by
  have hfind := find_pool_append_new { w with m_dcbs := dcbs_erase pDcb w.m_dcbs }
    (server_of pDcb) ⟨[⟨pDcb, now⟩], capacity, ⟨1, 0, 0⟩⟩ hnew
  have hset := set_pool_append_new { w with m_dcbs := dcbs_erase pDcb w.m_dcbs }
    (server_of pDcb) ⟨[⟨pDcb, now⟩], capacity, ⟨1, 0, 0⟩⟩ ⟨[], capacity, ⟨1, 1, 0⟩⟩ hnew
  simp only [get_backend_connection, pool_lookup, henabled, hrunning, Bool.and_self, if_true,
    pool_get_connection, hfind, List.length_singleton, pool_get_loop,
    get_connection_single pDcb now capacity ⟨1, 0, 0⟩ can_reuse REUSE_NOT_POSSIBLE OPTIMAL_REUSE hq,
    hreuse]
  simp only [WorkerConns.set_pool] at hset
  simp only [WorkerConns.remove_connections, WorkerConns.set_pool, hset, List.length_nil]

theorem fail_front_spec (now : Int) (ep_deq : List ServerEndpoint) :
    (fail_front now ep_deq).1 ++ (fail_front now ep_deq).2 = ep_deq
    ∧ (∀ ep ∈ (fail_front now ep_deq).1, ep.timed_out now = true)
    ∧ (∀ ep ∈ (fail_front now ep_deq).2.head?, ep.timed_out now = false) := by
  induction ep_deq with
  | nil => simp [fail_front]
  | cons ep rest ih =>
    by_cases h : ep.timed_out now = true
    · simp only [fail_front, h, if_true, List.cons_append, ih.1, List.mem_cons, true_and]
      refine ⟨?_, ih.2.2⟩
      rintro x (rfl | hx)
      · exact h
      · exact ih.2.1 x hx
    · simp [fail_front, h]

/-- Deadlines that do not decrease along the queue: who is behind an endpoint that has not
timed out has not timed out either. -/
theorem not_timed_out_of_sorted (now : Int) (ep_deq : List ServerEndpoint)
    (hsorted : (ep_deq.map (fun ep => ep.conn_wait_start + ep.multiplex_timeout)).Sorted (· ≤ ·))
    (hhead : ∀ ep ∈ ep_deq.head?, ep.timed_out now = false) :
    ∀ ep ∈ ep_deq, ep.timed_out now = false := by
  cases ep_deq with
  | nil => intro ep hep; cases hep
  | cons first rest =>
    intro ep hep
    have h1 := hhead first rfl
    simp only [ServerEndpoint.timed_out, decide_eq_false_iff_not, not_lt] at h1 ⊢
    rcases List.mem_cons.mp hep with rfl | hmem
    · exact h1
    · simp only [List.map_cons, List.sorted_cons, List.mem_map, forall_exists_index,
        and_imp, forall_apply_eq_imp_iff₂] at hsorted
      have := hsorted.1 ep hmem
      omega

theorem fail_timed_out_endpoints_spec (now : Int) (eps : List (Nat × List ServerEndpoint)) :
    (∀ ep ∈ (fail_timed_out_endpoints now eps).2, ep.timed_out now = true)
    ∧ ((fail_timed_out_endpoints now eps).2
        ++ ((fail_timed_out_endpoints now eps).1.map (·.2)).flatten).Perm
        (eps.map (·.2)).flatten
    ∧ (∀ kv ∈ (fail_timed_out_endpoints now eps).1,
        kv.2 ≠ [] ∧ (∀ ep ∈ kv.2.head?, ep.timed_out now = false)
        ∧ ∃ kv0 ∈ eps, kv0.1 = kv.1 ∧ List.IsSuffix kv.2 kv0.2) := by
  induction eps with
  | nil => simp [fail_timed_out_endpoints]
  | cons kv0 eps ih =>
    obtain ⟨server, ep_deq⟩ := kv0
    obtain ⟨f1, f2, f3⟩ := fail_front_spec now ep_deq
    obtain ⟨i1, i2, i3⟩ := ih
    have hsuffix : List.IsSuffix (fail_front now ep_deq).2 ep_deq := ⟨_, f1⟩
    refine ⟨?_, ?_, ?_⟩
    · intro ep hep
      simp only [fail_timed_out_endpoints, List.mem_append] at hep
      rcases hep with hep | hep
      · exact f2 ep hep
      · exact i1 ep hep
    · have hrest : (((if (fail_front now ep_deq).2.isEmpty = true
            then (fail_timed_out_endpoints now eps).1
            else (server, (fail_front now ep_deq).2) :: (fail_timed_out_endpoints now eps).1).map
            (·.2)).flatten)
          = (fail_front now ep_deq).2
            ++ ((fail_timed_out_endpoints now eps).1.map (·.2)).flatten := by
        split
        · rename_i hemp
          rw [List.isEmpty_iff.mp hemp, List.nil_append]
        · simp
      simp only [fail_timed_out_endpoints, List.map_cons, List.flatten_cons]
      rw [hrest]
      have e : (fail_front now ep_deq).1 ++ (fail_timed_out_endpoints now eps).2
            ++ ((fail_front now ep_deq).2
              ++ ((fail_timed_out_endpoints now eps).1.map (·.2)).flatten)
          = (fail_front now ep_deq).1 ++ ((fail_timed_out_endpoints now eps).2
              ++ (fail_front now ep_deq).2)
            ++ ((fail_timed_out_endpoints now eps).1.map (·.2)).flatten := by
        simp only [List.append_assoc]
      rw [e]
      have p1 : ((fail_front now ep_deq).1 ++ ((fail_timed_out_endpoints now eps).2
              ++ (fail_front now ep_deq).2)).Perm
          (ep_deq ++ (fail_timed_out_endpoints now eps).2) := by
        have p0 : ((fail_front now ep_deq).1 ++ ((fail_timed_out_endpoints now eps).2
              ++ (fail_front now ep_deq).2)).Perm
            ((fail_front now ep_deq).1 ++ ((fail_front now ep_deq).2
              ++ (fail_timed_out_endpoints now eps).2)) :=
          List.Perm.append_left _ List.perm_append_comm
        have e2 : (fail_front now ep_deq).1 ++ ((fail_front now ep_deq).2
              ++ (fail_timed_out_endpoints now eps).2)
            = ep_deq ++ (fail_timed_out_endpoints now eps).2 := by
          rw [← List.append_assoc, f1]
        rw [e2] at p0
        exact p0
      have p2 := (List.Perm.append_right
        ((fail_timed_out_endpoints now eps).1.map (·.2)).flatten p1)
      rw [List.append_assoc ep_deq] at p2
      exact p2.trans (List.Perm.append_left _ i2)
    · intro kv hkv
      simp only [fail_timed_out_endpoints] at hkv
      have hold : kv ∈ (fail_timed_out_endpoints now eps).1 →
          kv.2 ≠ [] ∧ (∀ ep ∈ kv.2.head?, ep.timed_out now = false)
          ∧ ∃ kv0 ∈ (server, ep_deq) :: eps, kv0.1 = kv.1 ∧ List.IsSuffix kv.2 kv0.2 := by
        intro h
        obtain ⟨a, b, kv0, hkv0, c, d⟩ := i3 kv h
        exact ⟨a, b, kv0, List.mem_cons_of_mem _ hkv0, c, d⟩
      split at hkv
      · exact hold hkv
      · rename_i hemp
        rcases List.mem_cons.mp hkv with rfl | hkv
        · refine ⟨fun h => hemp (List.isEmpty_iff.mpr h), f3, (server, ep_deq),
            List.mem_cons_self _ _, rfl, hsuffix⟩
        · exact hold hkv

/-- Claim C15 as stated fails when the sessions in one queue have different timeouts: at
time 50 the endpoint at the front (waiting since 0, timeout 100) has not timed out, so the
loop stops, and the endpoint behind it (waiting since 5, timeout 10) stays in the queue
although it has exceeded its timeout; `handle_timed_out_continue` is called for nobody. -/
theorem fail_timed_out_endpoints_leaves_expired :
    fail_timed_out_endpoints 50 [(1, [⟨1, 0, 100⟩, ⟨2, 5, 10⟩])]
      = ([(1, [⟨1, 0, 100⟩, ⟨2, 5, 10⟩])], [])
    ∧ ServerEndpoint.timed_out 50 ⟨2, 5, 10⟩ = true := by
  decide

/-- Claim C15, as the code has it. After `fail_timed_out_endpoints` at time `now`: every
endpoint for which `handle_timed_out_continue` was called had exceeded its own timeout; the
endpoints failed and the endpoints left are together the endpoints that waited, each as
often as before (so a failed endpoint is gone from the queues and was notified once); every
queue left is a non-empty end piece of the queue of its server whose first endpoint has not
exceeded its timeout; and in a queue whose deadlines `conn_wait_start + multiplex_timeout`
do not decrease from front to back (as with one timeout for all its sessions) no endpoint
left has exceeded its timeout. -/
theorem fail_timed_out_endpoints_fails_front (now : Int)
    (eps : List (Nat × List ServerEndpoint)) :
    (∀ ep ∈ (fail_timed_out_endpoints now eps).2, now - ep.conn_wait_start > ep.multiplex_timeout)
    ∧ ((fail_timed_out_endpoints now eps).2
        ++ ((fail_timed_out_endpoints now eps).1.map (·.2)).flatten).Perm
        (eps.map (·.2)).flatten
    ∧ (∀ kv ∈ (fail_timed_out_endpoints now eps).1,
        kv.2 ≠ []
        ∧ (∀ ep ∈ kv.2.head?, now - ep.conn_wait_start ≤ ep.multiplex_timeout)
        ∧ ∃ kv0 ∈ eps, kv0.1 = kv.1 ∧ List.IsSuffix kv.2 kv0.2
          ∧ ((kv0.2.map (fun ep => ep.conn_wait_start + ep.multiplex_timeout)).Sorted (· ≤ ·) →
              ∀ ep ∈ kv.2, now - ep.conn_wait_start ≤ ep.multiplex_timeout)) := by
  obtain ⟨h1, h2, h3⟩ := fail_timed_out_endpoints_spec now eps
  refine ⟨fun ep hep => ?_, h2, fun kv hkv => ?_⟩
  · simpa [ServerEndpoint.timed_out] using h1 ep hep
  · obtain ⟨a, b, kv0, hkv0, c, d⟩ := h3 kv hkv
    refine ⟨a, fun ep hep => ?_, kv0, hkv0, c, d, fun hsorted ep hep => ?_⟩
    · simpa [ServerEndpoint.timed_out] using b ep hep
    · have hs : (kv.2.map (fun ep => ep.conn_wait_start + ep.multiplex_timeout)).Sorted (· ≤ ·) :=
        hsorted.sublist (d.sublist.map _)
      simpa [ServerEndpoint.timed_out] using not_timed_out_of_sorted now kv.2 hs b ep hep

/-- Claim C15, an instance: at time 50 the endpoints 1 and 2 of server 1 and the endpoint 4
of server 2 have waited longer than their timeouts and are failed, endpoint 3 stays, and
the emptied queue of server 2 is erased. -/
theorem fail_timed_out_endpoints_fails_front_example :
    fail_timed_out_endpoints 50
        [(1, [⟨1, 0, 10⟩, ⟨2, 5, 10⟩, ⟨3, 45, 10⟩]), (2, [⟨4, 0, 20⟩])]
      = ([(1, [⟨3, 45, 10⟩])], [⟨1, 0, 10⟩, ⟨2, 5, 10⟩, ⟨4, 0, 20⟩])
    ∧ ∀ ep ∈ (fail_timed_out_endpoints 50
        [(1, [⟨1, 0, 10⟩, ⟨2, 5, 10⟩, ⟨3, 45, 10⟩]), (2, [⟨4, 0, 20⟩])]).2,
      50 - ep.conn_wait_start > ep.multiplex_timeout :=
  ⟨by decide, (fail_timed_out_endpoints_fails_front 50
    [(1, [⟨1, 0, 10⟩, ⟨2, 5, 10⟩, ⟨3, 45, 10⟩]), (2, [⟨4, 0, 20⟩])]).1⟩

/-! ### Clearing the worker-local storage -/

theorem clear_slots_spec (data : List (Option Nat)) :
    ∀ (deleters : List (Option Nat)) (sizers : List (Option (Nat → Nat))) (key rv : Nat)
      (calls : List (Nat × Nat × Nat)),
      data.length = deleters.length → data.length = sizers.length → rv < 2 ^ 64 →
      ∃ new, clear_slots key data deleters sizers rv calls
          = ((rv + (List.zipWith slot_size data sizers).sum) % 2 ^ 64, calls ++ new)
        ∧ (new.map (·.1)).Sorted (· < ·)
        ∧ ∀ k d p, (k, d, p) ∈ new ↔
            key ≤ k ∧ data[k - key]? = some (some p) ∧ deleters[k - key]? = some (some d) := by
  induction data with
  | nil =>
    intro deleters sizers key rv calls _ _ hrv
    refine ⟨[], ?_, by simp, by simp⟩
    rw [clear_slots]
    · simp only [List.zipWith_nil_left, List.sum_nil, Nat.add_zero, List.append_nil,
        Nat.mod_eq_of_lt hrv]
    · intro _ _ _ _ _ _ h; cases h
  | cons pData data ih =>
    intro deleters sizers key rv calls hd hs hrv
    rcases deleters with _ | ⟨deleter, deleters⟩
    · simp at hd
    rcases sizers with _ | ⟨sizer, sizers⟩
    · simp at hs
    simp only [List.length_cons, Nat.add_right_cancel_iff] at hd hs
    have hrv1 : add_size rv pData sizer = (rv + slot_size pData sizer) % 2 ^ 64 := by
      rcases pData with _ | p <;> rcases sizer with _ | size <;>
        simp only [add_size, slot_size, Nat.add_zero, Nat.mod_eq_of_lt hrv]
    obtain ⟨new, h1, h2, h3⟩ := ih deleters sizers (key + 1)
      ((rv + slot_size pData sizer) % 2 ^ 64)
      (call_deleter calls key pData deleter) hd hs (Nat.mod_lt _ (by norm_num))
    have hkeys : ∀ k ∈ new.map (·.1), key < k := by
      intro k hk
      obtain ⟨⟨k1, d, p⟩, hmem, rfl⟩ := List.mem_map.mp hk
      have := ((h3 k1 d p).mp hmem).1
      omega
    have hstep : ∀ k d p, (k, d, p) ∈ new ↔
        key < k ∧ (pData :: data)[k - key]? = some (some p)
          ∧ (deleter :: deleters)[k - key]? = some (some d) := by
      intro k d p
      rw [h3]
      constructor
      · rintro ⟨a, b, c⟩
        have e : k - key = (k - (key + 1)) + 1 := by omega
        rw [e]
        exact ⟨by omega, by simpa using b, by simpa using c⟩
      · rintro ⟨a, b, c⟩
        have e : k - key = (k - (key + 1)) + 1 := by omega
        rw [e] at b c
        exact ⟨by omega, by simpa using b, by simpa using c⟩
    rw [clear_slots, hrv1, h1]
    have hsum : ((rv + slot_size pData sizer) % 2 ^ 64 + (List.zipWith slot_size data sizers).sum)
          % 2 ^ 64
        = (rv + (List.zipWith slot_size (pData :: data) (sizer :: sizers)).sum) % 2 ^ 64 := by
      simp only [List.zipWith_cons_cons, List.sum_cons]
      omega
    rw [hsum]
    rcases pData with _ | p
    · refine ⟨new, by simp [call_deleter], h2, fun k d q => ?_⟩
      rw [hstep]
      constructor
      · rintro ⟨a, b, c⟩; exact ⟨by omega, b, c⟩
      · rintro ⟨a, b, c⟩
        refine ⟨?_, b, c⟩
        rcases Nat.lt_or_ge key k with h | h
        · exact h
        · have e : k - key = 0 := by omega
          rw [e] at b
          simp at b
    · rcases deleter with _ | d0
      · refine ⟨new, by simp [call_deleter], h2, fun k d q => ?_⟩
        rw [hstep]
        constructor
        · rintro ⟨a, b, c⟩; exact ⟨by omega, b, c⟩
        · rintro ⟨a, b, c⟩
          refine ⟨?_, b, c⟩
          rcases Nat.lt_or_ge key k with h | h
          · exact h
          · have e : k - key = 0 := by omega
            rw [e] at c
            simp at c
      · refine ⟨(key, d0, p) :: new, by simp [call_deleter], ?_, fun k d q => ?_⟩
        · simp only [List.map_cons, List.sorted_cons]
          exact ⟨hkeys, h2⟩
        · rw [List.mem_cons, hstep]
          constructor
          · rintro (h | ⟨a, b, c⟩)
            · simp only [Prod.mk.injEq] at h
              obtain ⟨rfl, rfl, rfl⟩ := h
              simp
            · exact ⟨by omega, b, c⟩
          · rintro ⟨a, b, c⟩
            rcases Nat.lt_or_ge key k with h | h
            · exact Or.inr ⟨h, b, c⟩
            · have e : k = key := by omega
              subst e
              simp only [Nat.sub_self, List.getElem?_cons_zero, Option.some.injEq] at b c
              subst b c
              exact Or.inl rfl

/-- Claim C16. For every storage whose three vectors have the same size, `clear()` calls
deleters in increasing key order, hence at most once per key; it calls the deleter of a key
on the pointer stored there exactly when the key holds a pointer and a deleter; it returns
the sum (as a `size_t`, modulo 2^64) of the sizes that the sizers report for the keys that
hold a pointer and a sizer; and it leaves the three vectors empty, so that a second
`clear()` calls nothing and returns 0. -/
theorem IndexedStorage.clear_deletes_once (s : IndexedStorage)
    (hdeleters : s.m_local_data.length = s.m_data_deleters.length)
    (hsizers : s.m_local_data.length = s.m_data_sizers.length) :
    (s.clear.2.2.map (·.1)).Sorted (· < ·)
    ∧ (∀ key deleter pData, (key, deleter, pData) ∈ s.clear.2.2 ↔
        s.m_local_data[key]? = some (some pData)
        ∧ s.m_data_deleters[key]? = some (some deleter))
    ∧ s.clear.2.1 = (List.zipWith slot_size s.m_local_data s.m_data_sizers).sum % 2 ^ 64
    ∧ s.clear.1.m_local_data = [] ∧ s.clear.1.m_data_deleters = []
    ∧ s.clear.1.m_data_sizers = []
    ∧ s.clear.1.clear.2 = (0, []) := by
  obtain ⟨new, h1, h2, h3⟩ := clear_slots_spec s.m_local_data s.m_data_deleters s.m_data_sizers
    0 0 [] hdeleters hsizers (by norm_num)
  have hc : s.clear.2
      = ((List.zipWith slot_size s.m_local_data s.m_data_sizers).sum % 2 ^ 64, new) := by
    simpa [IndexedStorage.clear] using h1
  refine ⟨by rw [hc]; exact h2, fun key deleter pData => ?_, by rw [hc], rfl, rfl, rfl, ?_⟩
  · rw [hc, h3]
    simp
  · simp [IndexedStorage.clear, clear_slots]

/-- Claim C16, an instance: of four keys, key 0 holds a pointer with deleter and sizer
(size 16), key 1 is empty, key 2 holds a pointer with a deleter only and key 3 a pointer
with a sizer only (size 4); `clear()` calls the deleters of keys 0 and 2, in that order,
and returns 20. -/
theorem IndexedStorage.clear_deletes_once_example :
    (IndexedStorage.clear
        ⟨[some 100, none, some 300, some 400], [some 11, none, some 13, none],
          [some (fun _ => 16), none, none, some (fun _ => 4)]⟩).2
      = (20, [(0, 11, 100), (2, 13, 300)])
    ∧ ((IndexedStorage.clear
        ⟨[some 100, none, some 300, some 400], [some 11, none, some 13, none],
          [some (fun _ => 16), none, none, some (fun _ => 4)]⟩).2.2.map (·.1)).Sorted (· < ·) :=
  ⟨by decide, (IndexedStorage.clear_deletes_once
    ⟨[some 100, none, some 300, some 400], [some 11, none, some 13, none],
      [some (fun _ => 16), none, none, some (fun _ => 4)]⟩ rfl rfl).1⟩

/-! ### Canonicalisation of texts without statements -/

theorem skip_block_comment_body (t : List Nat) : ∀ body : List Nat, ¬ [42, 47] <:+: body →
    skip_block_comment (body ++ 42 :: 47 :: t) = 47 :: t := by
  intro body
  induction body with
  | nil => intro _; simp [skip_block_comment, is_next]
  | cons x body ih =>
    intro h
    have hbody : ¬ [42, 47] <:+: body := fun hin => h (hin.trans (List.suffix_cons x body).isInfix)
    have hnext : is_next (x :: (body ++ 42 :: 47 :: t)) [42, 47] = false := by
      cases body with
      | nil =>
        simp [is_next]
      | cons y body =>
        by_contra hn
        simp only [List.cons_append, is_next, Bool.and_true, Bool.not_eq_false,
          Bool.and_eq_true, beq_iff_eq] at hn
        obtain ⟨rfl, rfl⟩ := hn
        exact h (List.IsPrefix.isInfix ⟨body, rfl⟩)
    rw [List.cons_append, skip_block_comment, hnext]
    simpa using ih hbody

theorem skip_line_comment_body (rest : List Nat) (hrest : rest = [] ∨ ∃ t, rest = 10 :: t) :
    ∀ body : List Nat, 10 ∉ body → 13 ∉ body →
      skip_line_comment (body ++ rest) = rest := by
  intro body
  induction body with
  | nil =>
    intro _ _
    rcases hrest with rfl | ⟨t, rfl⟩ <;> simp [skip_line_comment]
  | cons x body ih =>
    intro h10 h13
    simp only [List.mem_cons, not_or] at h10 h13
    have hx10 : (x == 10) = false := by simpa using fun h => h10.1 h.symm
    have hx13 : (x == 13) = false := by simpa using fun h => h13.1 h.symm
    simp only [List.cons_append, skip_line_comment, hx10, hx13]
    simpa using ih h10.2 h13.2

theorem skip_line_comment_crlf (t : List Nat) :
    ∀ body : List Nat, 10 ∉ body → 13 ∉ body →
      skip_line_comment (body ++ 13 :: 10 :: t) = 10 :: t := by
  intro body
  induction body with
  | nil => intro _ _; simp [skip_line_comment, is_next]
  | cons x body ih =>
    intro h10 h13
    simp only [List.mem_cons, not_or] at h10 h13
    have hx10 : (x == 10) = false := by simpa using fun h => h10.1 h.symm
    have hx13 : (x == 13) = false := by simpa using fun h => h13.1 h.symm
    simp only [List.cons_append, skip_line_comment, hx10, hx13]
    simpa using ih h10.2 h13.2

theorem is_space_cases (c : Nat) (h : is_space c = true) :
    c = 32 ∨ c = 9 ∨ c = 10 ∨ c = 11 ∨ c = 12 ∨ c = 13 := by
  simp only [is_space, Bool.or_eq_true, beq_iff_eq, Bool.and_eq_true, decide_eq_true_eq] at h
  omega

theorem canonical_step_space_first (c : Nat) (t : List Nat) (h : is_space c = true) :
    canonical_step c t [] = (some t, []) := by
  rcases is_space_cases c h with rfl | rfl | rfl | rfl | rfl | rfl <;> rfl

theorem canonical_step_block (body t : List Nat)
    (hhead : ∀ s ∈ body.head?, s ≠ 33 ∧ s ≠ 77 ∧ s ≠ 47) (hbody : ¬ [42, 47] <:+: body) :
    canonical_step 47 (42 :: (body ++ 42 :: 47 :: t)) [] = (some t, []) := by
  have hskip : skip_block_comment (47 :: 42 :: (body ++ 42 :: 47 :: t)) = 47 :: t := by
    have h1 : is_next (47 :: 42 :: (body ++ 42 :: 47 :: t)) [42, 47] = false := by
      simp [is_next]
    have h2 : is_next (42 :: (body ++ 42 :: 47 :: t)) [42, 47] = false := by
      cases body with
      | nil => simp [is_next]
      | cons y body =>
        have := (hhead y rfl).2.2
        simp [is_next, this]
    rw [skip_block_comment, h1, skip_block_comment, h2]
    simpa using skip_block_comment_body t body hbody
  have hspecial : is_special 47 = true := by decide
  have hspace : is_space 47 = false := by decide
  have hnext : is_next (47 :: 42 :: (body ++ 42 :: 47 :: t)) [47, 42] = true := by
    simp [is_next]
  cases body with
  | nil =>
    simp only [List.nil_append] at hskip hnext ⊢
    simp [canonical_step, hspecial, hspace, hnext, hskip]
  | cons y body =>
    have hy := hhead y rfl
    simp only [List.cons_append] at hskip hnext ⊢
    simp [canonical_step, hspecial, hspace, hnext, hskip, hy.1, hy.2.1]

theorem canonical_step_line (opener body eol t : List Nat)
    (hopener : opener = [35, 32] ∨ opener = [45, 45, 32])
    (h10 : 10 ∉ body) (h13 : 13 ∉ body)
    (heol : eol = [10] ∨ eol = [13, 10] ∨ (eol = [] ∧ t = [])) :
    ∃ c rest, opener ++ (body ++ (eol ++ t)) = c :: rest
      ∧ (canonical_step c rest [] = (some t, []) ∨ canonical_step c rest [] = (none, [])) := by
  have hskip : ∀ pre : List Nat, 10 ∉ pre → 13 ∉ pre →
      skip_line_comment (pre ++ (body ++ (eol ++ t))) = 10 :: t
      ∨ skip_line_comment (pre ++ (body ++ (eol ++ t))) = [] := by
    intro pre hp10 hp13
    have hb10 : 10 ∉ pre ++ body := by simp [hp10, h10]
    have hb13 : 13 ∉ pre ++ body := by simp [hp13, h13]
    rw [← List.append_assoc]
    rcases heol with rfl | rfl | ⟨rfl, rfl⟩
    · left
      exact skip_line_comment_body (10 :: t) (Or.inr ⟨t, rfl⟩) _ hb10 hb13
    · left
      exact skip_line_comment_crlf t _ hb10 hb13
    · right
      simpa using skip_line_comment_body [] (Or.inl rfl) _ hb10 hb13
  rcases hopener with rfl | rfl
  · refine ⟨35, 32 :: (body ++ (eol ++ t)), rfl, ?_⟩
    have hs := hskip [35, 32] (by decide) (by decide)
    simp only [List.cons_append, List.nil_append] at hs
    have hspecial : is_special 35 = true := by decide
    have hspace : is_space 35 = false := by decide
    have hnext : is_next (35 :: 32 :: (body ++ (eol ++ t))) [35, 32] = true := by
      simp [is_next]
    rcases hs with hs | hs
    · left; simp [canonical_step, hspecial, hspace, hnext, hs]
    · right; simp [canonical_step, hspecial, hspace, hnext, hs]
  · refine ⟨45, 45 :: 32 :: (body ++ (eol ++ t)), rfl, ?_⟩
    have hs := hskip [45, 45, 32] (by decide) (by decide)
    simp only [List.cons_append, List.nil_append] at hs
    have hspecial : is_special 45 = true := by decide
    have hspace : is_space 45 = false := by decide
    have hnext : is_next (45 :: 45 :: 32 :: (body ++ (eol ++ t))) [45, 45, 32] = true := by
      simp [is_next]
    rcases hs with hs | hs
    · left; simp [canonical_step, hspecial, hspace, hnext, hs]
    · right; simp [canonical_step, hspecial, hspace, hnext, hs]

theorem canonical_run_only_comments (sql : List Nat) (h : OnlyComments sql) :
    canonical_run sql [] = [] := by
  induction h with
  | nil => exact canonical_run_nil []
  | space c t hc _ ih => rw [canonical_run_cons, canonical_step_space_first c t hc]; exact ih
  | block body t hhead hbody _ ih =>
    rw [canonical_run_cons, canonical_step_block body t hhead hbody]; exact ih
  | line opener body eol t hopener h10 h13 heol _ ih =>
    obtain ⟨c, rest, heq, hstep⟩ := canonical_step_line opener body eol t hopener h10 h13 heol
    rw [heq, canonical_run_cons]
    rcases hstep with hstep | hstep
    · rw [hstep]; exact ih
    · rw [hstep]

/-- Claim C17 as stated fails for a comment that begins at `#` without a blank after it:
the text `#x` is returned unchanged. The same happens to the block comment whose body
begins with a slash: of `/*/ x */` the canonical form is `x */`. -/
theorem get_canonical_hash_without_blank :
    get_canonical (com_query (bytes "#x")) = bytes "#x"
    ∧ get_canonical (com_query (bytes "/*/ x */")) = bytes "x */" := by
  decide

/-- Claim C17, for the comments the code takes for comments. For every SQL text that
consists only of whitespace bytes, block comments whose body contains no star followed by a
slash and does not begin with `!`, `M` or a slash, and end-of-line comments that begin with
hash and blank or with two minus signs and a blank and end at a line feed, at a carriage
return with a line feed, or with the text, `get_canonical` returns the empty string. -/
theorem get_canonical_only_comments (sql : List Nat) (h : OnlyComments sql) :
    get_canonical (com_query sql) = [] := by
  rw [get_canonical_com_query, get_canonical_sql_eq_run, canonical_run_only_comments sql h]
  rfl

/-- Claim C17, an instance: blanks, a block comment, a hash comment that ends at a line
feed and a minus comment that ends with the text. -/
theorem get_canonical_only_comments_example :
    OnlyComments (bytes "  /* a */ # b\n-- c")
    ∧ get_canonical (com_query (bytes "  /* a */ # b\n-- c")) = [] := by
  have h : OnlyComments (bytes "  /* a */ # b\n-- c") :=
    OnlyComments.space 32 _ (by decide) <|
    OnlyComments.space 32 _ (by decide) <|
    OnlyComments.block [32, 97, 32] _ (by decide) (by decide) <|
    OnlyComments.space 32 _ (by decide) <|
    OnlyComments.line [35, 32] [98] [10] _ (Or.inl rfl) (by decide) (by decide) (Or.inl rfl) <|
    OnlyComments.line [45, 45, 32] [99] [] [] (Or.inr rfl) (by decide) (by decide)
      (Or.inr (Or.inr ⟨rfl, rfl⟩)) OnlyComments.nil
  exact ⟨h, get_canonical_only_comments _ h⟩

/-! ### The housekeeping tasks -/

theorem find_task_of_mem (tasks : List Task) (t : Task)
    (hnodup : (tasks.map (·.name)).Nodup) (hmem : t ∈ tasks) :
    tasks.find? (fun u => u.name == t.name) = some t := by
  induction tasks with
  | nil => cases hmem
  | cons u tasks ih =>
    simp only [List.map_cons, List.nodup_cons] at hnodup
    rcases List.mem_cons.mp hmem with rfl | hmem
    · simp
    · have hne : u.name ≠ t.name := fun h => hnodup.1 (h ▸ List.mem_map_of_mem _ hmem)
      have hb : (u.name == t.name) = false := by simpa using hne
      simp only [List.find?_cons, hb]
      exact ih hnodup.2 hmem

theorem find_task_none_iff (tasks : List Task) (name : String) :
    tasks.find? (fun u => u.name == name) = none ↔ name ∉ tasks.map (·.name) := by
  simp only [List.find?_eq_none, beq_iff_eq, List.mem_map, not_exists, not_and]

theorem map_keeps_names (tasks : List Task) (f : Task → Task) (hf : ∀ t, (f t).name = t.name) :
    (tasks.map f).map (·.name) = tasks.map (·.name) := by
  simp only [List.map_map]
  apply List.map_congr_left
  intro t _
  exact hf t

theorem add_task_nodup (m : MainWorker) (name : String) (frequency nextdue : Int) (id : Nat)
    (h : (m.m_tasks_by_name.map (·.name)).Nodup) :
    ((m.add_task name frequency nextdue id).m_tasks_by_name.map (·.name)).Nodup := by
  simp only [MainWorker.add_task]
  rw [map_keeps_names _ _ (fun t => by split <;> rfl)]
  split
  · rename_i hnone
    have hnot := (find_task_none_iff m.m_tasks_by_name name).mp hnone
    simp only [List.map_append, List.map_cons, List.map_nil]
    refine List.Nodup.append h (List.nodup_singleton _) ?_
    intro x hx hx1
    rw [List.mem_singleton] at hx1
    exact hnot (hx1 ▸ hx)
  · exact h

theorem remove_task_nodup (m : MainWorker) (name : String)
    (h : (m.m_tasks_by_name.map (·.name)).Nodup) :
    ((m.remove_task name).m_tasks_by_name.map (·.name)).Nodup :=
  h.sublist ((List.filter_sublist _).map _)

theorem call_task_nodup (m : MainWorker) (execute : Bool) (name : String) (call_again : Bool)
    (now : Int) (h : (m.m_tasks_by_name.map (·.name)).Nodup) :
    (((m.call_task execute name call_again now).1).m_tasks_by_name.map (·.name)).Nodup := by
  simp only [MainWorker.call_task]
  split
  · split
    · simp only
      rw [map_keeps_names _ _ (fun t => by split <;> rfl)]
      exact h
    · exact remove_task_nodup m name h
  · exact h

theorem run_tasks_nodup (events : List TaskEvent) :
    ∀ m : MainWorker, (m.m_tasks_by_name.map (·.name)).Nodup →
      ((run_tasks m events).m_tasks_by_name.map (·.name)).Nodup := by
  induction events with
  | nil => intro m h; exact h
  | cons e events ih =>
    intro m h
    refine ih _ ?_
    cases e with
    | add name frequency nextdue id => exact add_task_nodup m name frequency nextdue id h
    | remove name => exact remove_task_nodup m name h
    | call execute name call_again now => exact call_task_nodup m execute name call_again now h

/-- Claim C18. In every registry reached from an empty one through `add_task`,
`remove_task` and `call_task`, no two tasks have the same name, and for every registered
task and every time `now`: when its function returns false, `call_task` returns false and
the name is no longer registered, the other tasks staying as they are; when its function
returns true, `call_task` returns true and the name is registered with the same task, its
`nextdue` set to `now + frequency`, the names in the registry being the same as before. -/
theorem call_task_registry (dc : Nat) (force : Bool) (last : Int) (events : List TaskEvent) :
    ((run_tasks ⟨[], dc, force, last⟩ events).m_tasks_by_name.map (·.name)).Nodup
    ∧ ∀ t ∈ (run_tasks ⟨[], dc, force, last⟩ events).m_tasks_by_name, ∀ now : Int,
      (((run_tasks ⟨[], dc, force, last⟩ events).call_task true t.name false now).2 = false
        ∧ (((run_tasks ⟨[], dc, force, last⟩ events).call_task true t.name false now).1).find_task
            t.name = none
        ∧ ∀ u ∈ (run_tasks ⟨[], dc, force, last⟩ events).m_tasks_by_name, u.name ≠ t.name →
            u ∈ (((run_tasks ⟨[], dc, force, last⟩ events).call_task true t.name false
              now).1).m_tasks_by_name)
      ∧ (((run_tasks ⟨[], dc, force, last⟩ events).call_task true t.name true now).2 = true
        ∧ (((run_tasks ⟨[], dc, force, last⟩ events).call_task true t.name true now).1).find_task
            t.name = some { t with nextdue := now + t.frequency }
        ∧ (((run_tasks ⟨[], dc, force, last⟩ events).call_task true t.name true
              now).1).m_tasks_by_name.map (·.name)
            = (run_tasks ⟨[], dc, force, last⟩ events).m_tasks_by_name.map (·.name)) := by
  have hnodup := run_tasks_nodup events ⟨[], dc, force, last⟩ List.nodup_nil
  generalize run_tasks ⟨[], dc, force, last⟩ events = m at hnodup
  refine ⟨hnodup, fun t ht now => ⟨⟨rfl, ?_, ?_⟩, rfl, ?_, ?_⟩⟩
  · simp only [MainWorker.call_task, if_true, MainWorker.find_task, MainWorker.remove_task]
    rw [find_task_none_iff]
    intro hm
    obtain ⟨u, hu, hname⟩ := List.mem_map.mp hm
    have := (List.mem_filter.mp hu).2
    simp [hname] at this
  · intro u hu hne
    simp only [MainWorker.call_task, if_true, MainWorker.remove_task]
    exact List.mem_filter.mpr ⟨hu, by simpa using hne⟩
  · simp only [MainWorker.call_task, if_true, MainWorker.find_task]
    have hmem : ({ t with nextdue := now + t.frequency } : Task)
        ∈ m.m_tasks_by_name.map
          (fun u => if u.name = t.name then { u with nextdue := now + u.frequency } else u) :=
      List.mem_map.mpr ⟨t, ht, by simp⟩
    have hn : ((m.m_tasks_by_name.map
        (fun u => if u.name = t.name then { u with nextdue := now + u.frequency } else u)).map
          (·.name)).Nodup := by
      rw [map_keeps_names _ _ (fun u => by split <;> rfl)]
      exact hnodup
    exact find_task_of_mem _ _ hn hmem
  · simp only [MainWorker.call_task, if_true]
    exact map_keeps_names _ _ (fun u => by split <;> rfl)

/-- Claim C18, an instance: with the tasks `a` (every 5 seconds) and `b` registered, the
execution of `a` at time 100 with its function returning true leaves `a` registered with
`nextdue = 105`. -/
theorem call_task_registry_example :
    ((run_tasks ⟨[], 0, false, 0⟩ [.add "a" 5 5 1, .add "b" 7 7 2]).call_task true "a" true
        100).1.find_task "a" = some ⟨"a", 5, 105, 1⟩ :=
  ((call_task_registry 0 false 0 [.add "a" 5 5 1, .add "b" 7 7 2]).2 ⟨"a", 5, 5, 1⟩
    (by decide) 100).2.2.1

/-- Claim C19. Executions of `MainWorker::balance_workers` one second apart with a
`rebalance_period` of three seconds: `m_last_rebalancing` is set at every execution, so the
time elapsed is one second at each of them and `RoutingWorker::balance_workers` is invoked
at none of ten executions, although ten seconds have passed since it was last invoked. -/
theorem balance_workers_never_invoked :
    (balance_every 3000 1000 10 ⟨[], 1, false, 0⟩ 0).2 = List.replicate 10 false
    ∧ (balance_every 3000 1000 10 ⟨[], 1, false, 0⟩ 0).1.m_last_rebalancing = 10000 := by
  decide

/-- With a gap between executions that is shorter than the period, only the first
execution can invoke `RoutingWorker::balance_workers`, however many follow. -/
theorem balance_every_not_invoked (period gap : Int) (hpos : 0 < gap) (hgap : gap < period)
    (n : Nat) :
    ∀ (m : MainWorker) (start : Int), m.m_force_rebalancing = false →
      m.m_last_rebalancing = start →
      (balance_every period gap n m start).2 = List.replicate n false := by
  induction n with
  | zero => intro m start _ _; rfl
  | succ n ih =>
    intro m start hforce hlast
    have hp : period ≠ 0 := by omega
    have hnot : ¬ (start + gap - m.m_last_rebalancing ≥ period) := by rw [hlast]; omega
    have hstep : m.balance_workers period (start + gap) false
        = ({ m with m_last_rebalancing := start + gap }, true, false) := by
      simp [MainWorker.balance_workers, hp, hforce, hnot]
    rw [balance_every, hstep, List.replicate_succ]
    simp only [List.cons.injEq, true_and]
    exact ih _ _ hforce rfl

/-! ### Back-pressure in the mirror session -/

theorem write_backends_spec (packet : Nat) (expecting_response : Bool) (write_ok : Nat → Bool)
    (m_main : Nat) (backends : List MyBackend) :
    ∀ i : Nat,
      (write_backends packet expecting_response write_ok m_main i backends).1.map (·.in_use)
        = backends.map (·.in_use)
      ∧ ((write_backends packet expecting_response write_ok m_main i backends).2.2.2.map
          (·.2)).Sublist (List.replicate backends.length packet)
      ∧ (write_ok m_main = true → i ≤ m_main →
          (backends.map (·.in_use))[m_main - i]? = some true →
          (write_backends packet expecting_response write_ok m_main i backends).2.1 = true) := by
  induction backends with
  | nil => intro i; simp [write_backends]
  | cons a rest ih =>
    intro i
    obtain ⟨h1, h2, h3⟩ := ih (i + 1)
    rw [write_backends]
    split
    · rename_i hw
      refine ⟨?_, ?_, fun hok hle hmain => ?_⟩
      · simp only [List.map_cons, h1, List.cons.injEq, and_true]
        split <;> rfl
      · simp only [List.map_cons, List.length_cons, List.replicate_succ]
        exact h2.cons₂ _
      · simp only [Bool.or_eq_true, decide_eq_true_eq]
        rcases Nat.eq_or_lt_of_le hle with heq | hlt
        · exact Or.inl heq
        · right
          refine h3 hok hlt ?_
          have e : m_main - i = (m_main - (i + 1)) + 1 := by omega
          rw [e] at hmain
          simpa using hmain
    · rename_i hw
      refine ⟨?_, ?_, fun hok hle hmain => ?_⟩
      · simp only [List.map_cons, h1]
      · simp only [List.length_cons, List.replicate_succ]
        exact h2.cons _
      · rcases Nat.eq_or_lt_of_le hle with heq | hlt
        · exfalso
          subst heq
          simp only [Nat.sub_self, List.map_cons, List.getElem?_cons_zero,
            Option.some.injEq] at hmain
          simp [hmain, hok] at hw
        · refine h3 hok hlt ?_
          have e : m_main - i = (m_main - (i + 1)) + 1 := by omega
          rw [e] at hmain
          simpa using hmain

theorem routeQuery_queued (s : MirrorSession) (will_respond : Nat → Bool)
    (write_ok : Nat → Nat → Bool) (packet : Nat) (h : s.m_responses ≠ 0) :
    s.routeQuery will_respond write_ok packet
      = ({ s with m_queue := s.m_queue ++ [packet] }, true) := by
  simp [MirrorSession.routeQuery, h]

theorem routeQuery_routed (s : MirrorSession) (will_respond : Nat → Bool)
    (write_ok : Nat → Nat → Bool) (packet : Nat) (h : s.m_responses = 0) :
    (s.routeQuery will_respond write_ok packet).1.m_queue = s.m_queue
    ∧ (s.routeQuery will_respond write_ok packet).1.routed = s.routed ++ [packet]
    ∧ (s.routeQuery will_respond write_ok packet).1.to_client = s.to_client
    ∧ (s.routeQuery will_respond write_ok packet).1.m_last_chunk = s.m_last_chunk
    ∧ (s.routeQuery will_respond write_ok packet).1.m_main = s.m_main
    ∧ (s.routeQuery will_respond write_ok packet).1.m_backends.map (·.in_use)
        = s.m_backends.map (·.in_use)
    ∧ (WrittenInOrder s → WrittenInOrder (s.routeQuery will_respond write_ok packet).1)
    ∧ (write_ok packet s.m_main = true → MainInUse s →
        (s.routeQuery will_respond write_ok packet).2 = true) := by
  obtain ⟨h1, h2, h3⟩ := write_backends_spec packet (will_respond packet) (write_ok packet)
    s.m_main s.m_backends 0
  have hq : s.routeQuery will_respond write_ok packet
      = ({ s with
            m_backends := (write_backends packet (will_respond packet) (write_ok packet)
              s.m_main 0 s.m_backends).1
            m_responses := s.m_responses + (write_backends packet (will_respond packet)
              (write_ok packet) s.m_main 0 s.m_backends).2.2.1
            routed := s.routed ++ [packet]
            written := s.written ++ (write_backends packet (will_respond packet)
              (write_ok packet) s.m_main 0 s.m_backends).2.2.2 },
          (write_backends packet (will_respond packet) (write_ok packet)
              s.m_main 0 s.m_backends).2.1) := by
    simp [MirrorSession.routeQuery, h]
  rw [hq]
  have hlen : (write_backends packet (will_respond packet) (write_ok packet)
      s.m_main 0 s.m_backends).1.length = s.m_backends.length := by
    simpa using congrArg List.length h1
  refine ⟨rfl, rfl, rfl, rfl, rfl, h1, fun hw => ?_, fun hok hmain => h3 hok (Nat.zero_le _) hmain⟩
  simp only [WrittenInOrder, List.map_append, List.map_cons, List.map_nil, List.flatten_append,
    List.flatten_cons, List.flatten_nil, List.append_nil, hlen]
  exact hw.append h2

theorem route_queued_loop_spec (will_respond : Nat → Bool) (write_ok : Nat → Nat → Bool)
    (fuel : Nat) :
    ∀ s : MirrorSession, s.m_queue.length ≤ fuel →
      ∃ s1, route_queued_loop will_respond write_ok fuel s = some s1
        ∧ s1.routed ++ s1.m_queue = s.routed ++ s.m_queue
        ∧ s1.to_client = s.to_client
        ∧ s1.m_last_chunk = s.m_last_chunk
        ∧ s1.m_main = s.m_main
        ∧ s1.m_backends.map (·.in_use) = s.m_backends.map (·.in_use)
        ∧ (WrittenInOrder s → WrittenInOrder s1)
        ∧ ((∀ p, write_ok p s.m_main = true) → MainInUse s →
            s1.m_queue = [] ∨ s1.m_responses ≠ 0) := by
  induction fuel with
  | zero =>
    intro s hlen
    have hq : s.m_queue = [] := List.length_eq_zero.mp (Nat.le_zero.mp hlen)
    refine ⟨s, ?_, rfl, rfl, rfl, rfl, rfl, id, fun _ _ => Or.inl hq⟩
    rw [route_queued_loop, hq]
  | succ fuel ih =>
    intro s hlen
    rw [route_queued_loop]
    rcases hq : s.m_queue with _ | ⟨query, rest⟩
    · exact ⟨s, rfl, by rw [hq], rfl, rfl, rfl, rfl, id, fun _ _ => Or.inl hq⟩
    · simp only
      by_cases hr : s.m_responses = 0
      · rw [if_pos hr]
        obtain ⟨r1, r2, r3, r4, r5, r6, r7, r8⟩ :=
          routeQuery_routed { s with m_queue := rest } will_respond write_ok query hr
        have hstep : ({ s with m_queue := rest }.routeQuery will_respond write_ok query).1.routed
            ++ ({ s with m_queue := rest }.routeQuery will_respond write_ok query).1.m_queue
            = s.routed ++ query :: rest := by
          rw [r1, r2]; simp
        split
        · have hlen1 : ({ s with m_queue := rest }.routeQuery will_respond write_ok
              query).1.m_queue.length ≤ fuel := by
            rw [r1]
            rw [hq] at hlen
            simp only [List.length_cons] at hlen
            exact Nat.le_of_succ_le_succ hlen
          obtain ⟨s1, h1, h2, h3, h4, h5, h6, h7, h8⟩ := ih _ hlen1
          refine ⟨s1, h1, h2.trans hstep, h3.trans r3, h4.trans r4, h5.trans r5, h6.trans r6,
            fun hw => h7 (r7 hw), fun hok hmain => h8 (fun p => ?_) ?_⟩
          · rw [r5]; exact hok p
          · simp only [MainInUse, r5, r6]; exact hmain
        · rename_i hrc
          refine ⟨_, rfl, hstep, r3, r4, r5, r6, fun hw => r7 hw, fun hok hmain => ?_⟩
          exact absurd (r8 (hok query) hmain) hrc
      · rw [if_neg hr]
        exact ⟨s, rfl, by rw [hq], rfl, rfl, rfl, rfl, id, fun _ _ => Or.inr hr⟩

theorem finalize_reply_spec (s : MirrorSession) (will_respond : Nat → Bool)
    (write_ok : Nat → Nat → Bool) :
    ∃ s1, s.finalize_reply will_respond write_ok = some s1
      ∧ s1.routed ++ s1.m_queue = s.routed ++ s.m_queue
      ∧ s1.to_client = s.to_client ++ [s.m_last_chunk]
      ∧ s1.m_main = s.m_main
      ∧ s1.m_backends.map (·.in_use) = s.m_backends.map (·.in_use)
      ∧ (WrittenInOrder s → WrittenInOrder s1)
      ∧ ((∀ p, write_ok p s.m_main = true) → MainInUse s →
          s1.m_queue = [] ∨ s1.m_responses ≠ 0) := by
  obtain ⟨s1, h1, h2, h3, -, h5, h6, h7, h8⟩ := route_queued_loop_spec will_respond write_ok
    s.m_queue.length
    { s with to_client := s.to_client ++ [s.m_last_chunk], m_last_chunk := none } (le_refl _)
  exact ⟨s1, h1, h2, h3, h5, h6, h7, h8⟩

theorem ack_write_in_use (backends : List MyBackend) (i : Nat) :
    (ack_write backends i).map (·.in_use) = backends.map (·.in_use) := by
  unfold ack_write
  rcases h : backends[i]? with _ | a
  · rfl
  · simp only
    apply List.ext_getElem?
    intro j
    simp only [List.getElem?_map, List.getElem?_set]
    by_cases hj : i = j
    · subst hj
      have hlt : i < backends.length := by
        by_contra hn
        rw [List.getElem?_eq_none (by omega)] at h
        cases h
      simp [hlt, h]
    · simp [hj]

theorem arrived_cons (e : MirrorEvent) (events : List MirrorEvent) :
    arrived (e :: events) = arrived [e] ++ arrived events := by
  cases e <;> rfl

theorem close_in_use (backends : List MyBackend) (backend main : Nat) (hne : backend ≠ main) :
    ((backends.set backend ⟨false, 0⟩).map (·.in_use))[main]?
      = (backends.map (·.in_use))[main]? := by
  simp [List.getElem?_map, List.getElem?_set, hne]

theorem MirrorEvent.apply_inv (will_respond : Nat → Bool) (write_ok : Nat → Nat → Bool)
    (s : MirrorSession) (m_main : Nat) (arrivals : List Nat) (e : MirrorEvent)
    (hok : ∀ p, write_ok p m_main = true) (hinv : MirrorInv s m_main arrivals)
    (he : e ≠ .error m_main) :
    ∃ s1, e.apply will_respond write_ok s = some s1
      ∧ MirrorInv s1 m_main (arrivals ++ arrived [e]) := by
  obtain ⟨i1, i2, i3, i4, i5⟩ := hinv
  have hok1 : ∀ p, write_ok p s.m_main = true := by rw [i3]; exact hok
  cases e with
  | query packet =>
    refine ⟨_, rfl, ?_⟩
    by_cases hr : s.m_responses = 0
    · obtain ⟨r1, r2, r3, r4, r5, r6, r7, r8⟩ := routeQuery_routed s will_respond write_ok packet hr
      have hq : s.m_queue = [] := by
        by_contra hne
        exact i2 hne hr
      refine ⟨?_, ?_, r5.trans i3, ?_, r7 i5⟩
      · rw [r1, r2, ← i1, hq]; simp [arrived]
      · intro hne; rw [r1] at hne; exact absurd hq hne
      · simp only [MainInUse, r5, r6]; exact i4
    · rw [routeQuery_queued s will_respond write_ok packet hr]
      refine ⟨?_, fun _ => hr, i3, i4, i5⟩
      simp only [arrived, ← i1, List.append_assoc]
  | reply packet backend complete =>
    simp only [MirrorEvent.apply, MirrorSession.clientReply, arrived, List.append_nil]
    cases complete with
    | false =>
      simp only [Bool.false_eq_true, if_false]
      split
      · exact ⟨_, rfl, i1, i2, i3, i4, i5⟩
      · exact ⟨_, rfl, i1, i2, i3, i4, i5⟩
    | true =>
      simp only [if_true]
      have hmain1 : MainInUse
          { s with
            m_backends := ack_write s.m_backends backend
            m_responses := s.m_responses - 1
            m_last_chunk := if backend = s.m_main then some packet else s.m_last_chunk } := by
        simp only [MainInUse, ack_write_in_use]; exact i4
      have hw1 : WrittenInOrder
          { s with
            m_backends := ack_write s.m_backends backend
            m_responses := s.m_responses - 1
            m_last_chunk := if backend = s.m_main then some packet else s.m_last_chunk } := by
        have hlen : (ack_write s.m_backends backend).length = s.m_backends.length := by
          simpa using congrArg List.length (ack_write_in_use s.m_backends backend)
        simp only [WrittenInOrder, hlen]; exact i5
      split
      · obtain ⟨s1, f1, f2, f3, f4, f5, f6, f7⟩ := finalize_reply_spec
          { s with
            m_backends := ack_write s.m_backends backend
            m_responses := s.m_responses - 1
            m_last_chunk := if backend = s.m_main then some packet else s.m_last_chunk }
          will_respond write_ok
        refine ⟨s1, f1, f2.trans i1, ?_, f4.trans i3, ?_, f6 hw1⟩
        · intro hne
          rcases f7 hok1 hmain1 with h | h
          · exact absurd h hne
          · exact h
        · simp only [MainInUse, f4, f5]; exact hmain1
      · rename_i hr
        exact ⟨_, rfl, i1, fun _ => hr, i3, hmain1, hw1⟩
  | error backend =>
    have hne : backend ≠ s.m_main := by
      intro h
      apply he
      rw [h, i3]
    simp only [MirrorEvent.apply, MirrorSession.handleError, arrived, List.append_nil]
    rcases hb : s.m_backends[backend]? with _ | a
    · exact ⟨s, rfl, i1, i2, i3, i4, i5⟩
    · simp only
      have hclose : ∀ t : MirrorSession, t.m_main = s.m_main →
          MainInUse t → WrittenInOrder t →
          MainInUse { t with m_backends := t.m_backends.set backend ⟨false, 0⟩ }
          ∧ WrittenInOrder { t with m_backends := t.m_backends.set backend ⟨false, 0⟩ } := by
        intro t hm hmu hwo
        refine ⟨?_, ?_⟩
        · simp only [MainInUse]
          rw [close_in_use t.m_backends backend t.m_main (by rw [hm]; exact hne)]
          exact hmu
        · simp only [WrittenInOrder, List.length_set]; exact hwo
      split
      · split
        · rename_i hz
          obtain ⟨s1, f1, f2, f3, f4, f5, f6, f7⟩ := finalize_reply_spec
            { s with m_responses := s.m_responses - 1 } will_respond write_ok
          rw [f1]
          simp only [Option.map_some', Option.some.injEq, exists_eq_left']
          have hmu1 : MainInUse s1 := by simp only [MainInUse, f4, f5]; exact i4
          obtain ⟨c1, c2⟩ := hclose s1 f4 hmu1 (f6 i5)
          refine ⟨f2.trans i1, ?_, f4.trans i3, c1, c2⟩
          intro hq
          rcases f7 hok1 i4 with h | h
          · exact absurd h hq
          · exact h
        · rename_i hz
          have hr : s.m_responses - 1 ≠ 0 := fun h => hz ⟨h, hne⟩
          simp only [Option.some.injEq, exists_eq_left']
          obtain ⟨c1, c2⟩ := hclose { s with m_responses := s.m_responses - 1 } rfl i4 i5
          exact ⟨i1, fun _ => hr, i3, c1, c2⟩
      · simp only [Option.some.injEq, exists_eq_left']
        obtain ⟨c1, c2⟩ := hclose s rfl i4 i5
        exact ⟨i1, i2, i3, c1, c2⟩

theorem run_mirror_inv (will_respond : Nat → Bool) (write_ok : Nat → Nat → Bool)
    (m_main : Nat) (hok : ∀ p, write_ok p m_main = true) (events : List MirrorEvent) :
    ∀ (s : MirrorSession) (arrivals : List Nat), MirrorInv s m_main arrivals →
      (∀ e ∈ events, e ≠ .error m_main) →
      ∃ s1, run_mirror will_respond write_ok s events = some s1
        ∧ MirrorInv s1 m_main (arrivals ++ arrived events) := by
  induction events with
  | nil => intro s arrivals h _; exact ⟨s, rfl, by simpa [arrived] using h⟩
  | cons e events ih =>
    intro s arrivals h hev
    obtain ⟨s1, h1, h2⟩ := MirrorEvent.apply_inv will_respond write_ok s m_main arrivals e hok h
      (hev e (List.mem_cons_self _ _))
    obtain ⟨s2, h3, h4⟩ := ih s1 _ h2 (fun e1 he1 => hev e1 (List.mem_cons_of_mem _ he1))
    refine ⟨s2, ?_, ?_⟩
    · rw [run_mirror, h1]; exact h3
    · rw [arrived_cons, ← List.append_assoc]; exact h4

theorem MirrorInv_create (n_backends m_main : Nat) (h : m_main < n_backends) :
    MirrorInv (MirrorSession.create n_backends m_main) m_main [] := by
  refine ⟨rfl, fun hq => absurd rfl hq, rfl, ?_, ?_⟩
  · simp [MainInUse, MirrorSession.create, h]
  · simp [WrittenInOrder, MirrorSession.create]

/-- Claim C20. Take a mirror session whose main backend is one of its backends, accepts
every write and does not fail, and any sequence of client queries, reply packets and
backend errors. Every call comes to its end, and in the state reached: the queries routed
followed by the queries queued are the queries that arrived, in the order of arrival; the
queue is empty unless responses are awaited; the writes to the backends follow the order of
routing. From that state, while `m_responses` is not 0, `routeQuery` writes nothing and
only appends the query to `m_queue`; a packet that completes the reply of the main backend
while other responses are still awaited is stored in `m_last_chunk` and not passed to the
client, and nothing is routed; and the reply that brings `m_responses` to 0 passes the
stored packet to the client and then routes queued queries from the front of the queue,
until it is empty or responses are awaited again. -/
theorem mirror_session_backpressure (will_respond : Nat → Bool) (write_ok : Nat → Nat → Bool)
    (n_backends m_main : Nat) (events : List MirrorEvent)
    (hmain : m_main < n_backends) (hok : ∀ p, write_ok p m_main = true)
    (hevents : ∀ e ∈ events, e ≠ .error m_main) :
    ∃ s, run_mirror will_respond write_ok (MirrorSession.create n_backends m_main) events = some s
      ∧ s.routed ++ s.m_queue = arrived events
      ∧ (s.m_queue ≠ [] → s.m_responses ≠ 0)
      ∧ WrittenInOrder s
      ∧ (∀ packet, s.m_responses ≠ 0 →
          s.routeQuery will_respond write_ok packet
            = ({ s with m_queue := s.m_queue ++ [packet] }, true))
      ∧ (∀ packet, s.m_responses - 1 ≠ 0 →
          s.clientReply will_respond write_ok packet s.m_main true
            = some { s with
                m_backends := ack_write s.m_backends s.m_main
                m_responses := s.m_responses - 1
                m_last_chunk := some packet })
      ∧ (∀ packet backend, s.m_responses - 1 = 0 →
          ∃ s1, s.clientReply will_respond write_ok packet backend true = some s1
            ∧ s1.to_client
              = s.to_client ++ [if backend = s.m_main then some packet else s.m_last_chunk]
            ∧ s1.routed ++ s1.m_queue = s.routed ++ s.m_queue
            ∧ (s1.m_queue = [] ∨ s1.m_responses ≠ 0)) := by
  obtain ⟨s, hrun, i1, i2, i3, i4, i5⟩ := run_mirror_inv will_respond write_ok m_main hok events
    (MirrorSession.create n_backends m_main) [] (MirrorInv_create n_backends m_main hmain) hevents
  have hok1 : ∀ p, write_ok p s.m_main = true := by rw [i3]; exact hok
  refine ⟨s, hrun, by simpa using i1, i2, i5,
    fun packet hr => routeQuery_queued s will_respond write_ok packet hr,
    fun packet hr => ?_, fun packet backend hr => ?_⟩
  · simp [MirrorSession.clientReply, hr]
  · have hmain1 : MainInUse
        { s with
          m_backends := ack_write s.m_backends backend
          m_responses := s.m_responses - 1
          m_last_chunk := if backend = s.m_main then some packet else s.m_last_chunk } := by
      simp only [MainInUse, ack_write_in_use]; exact i4
    obtain ⟨s1, f1, f2, f3, f4, f5, f6, f7⟩ := finalize_reply_spec
      { s with
        m_backends := ack_write s.m_backends backend
        m_responses := s.m_responses - 1
        m_last_chunk := if backend = s.m_main then some packet else s.m_last_chunk }
      will_respond write_ok
    refine ⟨s1, ?_, f3, f2, f7 hok1 hmain1⟩
    simp only [MirrorSession.clientReply, if_true]
    rw [if_pos hr]
    exact f1

/-- Claim C20, an instance with two backends of which backend 0 is the main one: the
second query arrives while the first is being answered; it is routed when backend 1 has
completed its reply, after the last packet of the main backend has gone to the client. -/
theorem mirror_session_backpressure_example :
    (run_mirror (fun _ => true) (fun _ _ => true) (MirrorSession.create 2 0)
        [.query 1, .query 2, .reply 10 0 false, .reply 11 0 true, .reply 20 1 true]).map
      (fun s => (s.routed, s.m_queue, s.to_client, s.written))
      = some ([1, 2], [], [some 10, some 11], [(0, 1), (1, 1), (0, 2), (1, 2)])
    ∧ ∃ s, run_mirror (fun _ => true) (fun _ _ => true) (MirrorSession.create 2 0)
        [.query 1, .query 2, .reply 10 0 false, .reply 11 0 true, .reply 20 1 true] = some s
      ∧ s.routed ++ s.m_queue = [1, 2] := by
  refine ⟨by decide, ?_⟩
  obtain ⟨s, h1, h2, -⟩ := mirror_session_backpressure (fun _ => true) (fun _ _ => true) 2 0
    [.query 1, .query 2, .reply 10 0 false, .reply 11 0 true, .reply 20 1 true]
    (by decide) (fun _ => rfl) (by decide)
  exact ⟨s, h1, h2⟩

/-! ### The choice of a pooled connection -/

theorem get_connection_scan_spec (can_reuse : Nat → Nat) (OPTIMAL_REUSE : Nat)
    (contents : List ConnPoolEntry) :
    ∀ (pos best_reuse : Nat) (best : Option Nat),
      ((∀ e ∈ contents, can_reuse e.m_pConn ≤ best_reuse)
        ∧ get_connection_scan can_reuse OPTIMAL_REUSE contents pos best_reuse best
          = (best_reuse, best))
      ∨ ∃ k e, contents[k]? = some e
        ∧ get_connection_scan can_reuse OPTIMAL_REUSE contents pos best_reuse best
          = (can_reuse e.m_pConn, some (pos + k))
        ∧ best_reuse < can_reuse e.m_pConn
        ∧ (∀ j e1, j < k → contents[j]? = some e1 → can_reuse e1.m_pConn < can_reuse e.m_pConn)
        ∧ (can_reuse e.m_pConn = OPTIMAL_REUSE
          ∨ ∀ e1 ∈ contents, can_reuse e1.m_pConn ≤ can_reuse e.m_pConn) := by
  induction contents with
  | nil => intro pos best_reuse best; left; simp [get_connection_scan]
  | cons x rest ih =>
    intro pos best_reuse best
    by_cases hx : can_reuse x.m_pConn > best_reuse
    · by_cases hopt : can_reuse x.m_pConn = OPTIMAL_REUSE
      · right
        refine ⟨0, x, by simp, ?_, hx, fun j e1 hj _ => absurd hj (Nat.not_lt_zero j),
          Or.inl hopt⟩
        rw [get_connection_scan, if_pos hx, if_pos hopt]
        rfl
      · have hstep : get_connection_scan can_reuse OPTIMAL_REUSE (x :: rest) pos best_reuse best
            = get_connection_scan can_reuse OPTIMAL_REUSE rest (pos + 1) (can_reuse x.m_pConn)
              (some pos) := by
          rw [get_connection_scan, if_pos hx, if_neg hopt]
        right
        rcases ih (pos + 1) (can_reuse x.m_pConn) (some pos) with ⟨h1, h2⟩ | ⟨k, e, h1, h2, h3, h4, h5⟩
        · refine ⟨0, x, by simp, by rw [hstep, h2]; rfl, hx,
            fun j e1 hj _ => absurd hj (Nat.not_lt_zero j), Or.inr fun e1 he1 => ?_⟩
          rcases List.mem_cons.mp he1 with rfl | he1
          · exact le_refl _
          · exact h1 e1 he1
        · refine ⟨k + 1, e, by simpa using h1, ?_, by omega, fun j e1 hj hj1 => ?_, ?_⟩
          · rw [hstep, h2]
            simp only [Prod.mk.injEq, Option.some.injEq, true_and]
            omega
          · cases j with
            | zero =>
              simp only [List.getElem?_cons_zero, Option.some.injEq] at hj1
              subst hj1
              exact h3
            | succ j =>
              exact h4 j e1 (by omega) (by simpa using hj1)
          · rcases h5 with h5 | h5
            · exact Or.inl h5
            · right
              intro e1 he1
              rcases List.mem_cons.mp he1 with rfl | he1
              · exact le_of_lt h3
              · exact h5 e1 he1
    · have hstep : get_connection_scan can_reuse OPTIMAL_REUSE (x :: rest) pos best_reuse best
          = get_connection_scan can_reuse OPTIMAL_REUSE rest (pos + 1) best_reuse best := by
        rw [get_connection_scan, if_neg hx]
      rcases ih (pos + 1) best_reuse best with ⟨h1, h2⟩ | ⟨k, e, h1, h2, h3, h4, h5⟩
      · left
        refine ⟨fun e1 he1 => ?_, by rw [hstep, h2]⟩
        rcases List.mem_cons.mp he1 with rfl | he1
        · exact not_lt.mp hx
        · exact h1 e1 he1
      · right
        refine ⟨k + 1, e, by simpa using h1, ?_, h3, fun j e1 hj hj1 => ?_, ?_⟩
        · rw [hstep, h2]
          simp only [Prod.mk.injEq, Option.some.injEq, true_and]
          omega
        · cases j with
          | zero =>
            simp only [List.getElem?_cons_zero, Option.some.injEq] at hj1
            subst hj1
            omega
          | succ j =>
            exact h4 j e1 (by omega) (by simpa using hj1)
        · rcases h5 with h5 | h5
          · exact Or.inl h5
          · right
            intro e1 he1
            rcases List.mem_cons.mp he1 with rfl | he1
            · omega
            · exact h5 e1 he1

/-- Claim C25. Let no entry report a reuse quality above `OPTIMAL_REUSE`. When no entry of
the pool reports a quality above `REUSE_NOT_POSSIBLE`, `get_connection` returns
`REUSE_NOT_POSSIBLE` and no connection, leaves the contents as they are and adds one to
`times_empty`. Otherwise it returns an entry whose quality is the greatest in the pool and
lies above that of every entry before it (so it is the first entry with the greatest
quality, and the first `OPTIMAL_REUSE` entry if there is one), together with that quality;
it removes exactly that entry and adds one to `times_found`. -/
theorem ConnectionPool.get_connection_first_best (pool : ConnectionPool) (can_reuse : Nat → Nat)
    (REUSE_NOT_POSSIBLE OPTIMAL_REUSE : Nat)
    (htop : ∀ e ∈ pool.m_contents, can_reuse e.m_pConn ≤ OPTIMAL_REUSE) :
    ((∀ e ∈ pool.m_contents, can_reuse e.m_pConn ≤ REUSE_NOT_POSSIBLE) →
      pool.get_connection can_reuse REUSE_NOT_POSSIBLE OPTIMAL_REUSE
        = (REUSE_NOT_POSSIBLE, none,
            { pool with
              m_stats := { pool.m_stats with times_empty := pool.m_stats.times_empty + 1 } }))
    ∧ ((∃ e ∈ pool.m_contents, REUSE_NOT_POSSIBLE < can_reuse e.m_pConn) →
      ∃ i e, pool.m_contents[i]? = some e
        ∧ REUSE_NOT_POSSIBLE < can_reuse e.m_pConn
        ∧ (∀ j e1, j < i → pool.m_contents[j]? = some e1 →
            can_reuse e1.m_pConn < can_reuse e.m_pConn)
        ∧ (∀ e1 ∈ pool.m_contents, can_reuse e1.m_pConn ≤ can_reuse e.m_pConn)
        ∧ ((∃ e1 ∈ pool.m_contents, can_reuse e1.m_pConn = OPTIMAL_REUSE) →
            can_reuse e.m_pConn = OPTIMAL_REUSE)
        ∧ pool.get_connection can_reuse REUSE_NOT_POSSIBLE OPTIMAL_REUSE
          = (can_reuse e.m_pConn, some e.m_pConn,
              { pool with
                m_contents := pool.m_contents.eraseIdx i
                m_stats := { pool.m_stats with
                  times_found := pool.m_stats.times_found + 1 } })) := by
  rcases get_connection_scan_spec can_reuse OPTIMAL_REUSE pool.m_contents 0 REUSE_NOT_POSSIBLE
    none with ⟨h1, h2⟩ | ⟨k, e, h1, h2, h3, h4, h5⟩
  · refine ⟨fun _ => ?_, fun ⟨e, he, hq⟩ => absurd (h1 e he) (not_le.mpr hq)⟩
    simp only [ConnectionPool.get_connection, h2]
  · have hmax : ∀ e1 ∈ pool.m_contents, can_reuse e1.m_pConn ≤ can_reuse e.m_pConn := by
      rcases h5 with h5 | h5
      · intro e1 he1; rw [h5]; exact htop e1 he1
      · exact h5
    have hmem : e ∈ pool.m_contents := List.mem_iff_getElem?.mpr ⟨k, h1⟩
    refine ⟨fun hall => absurd (hall e hmem) (not_le.mpr h3), fun _ => ?_⟩
    refine ⟨k, e, h1, h3, h4, hmax, ?_, ?_⟩
    · rintro ⟨e1, he1, hopt⟩
      have := hmax e1 he1
      have := htop e hmem
      omega
    · simp only [ConnectionPool.get_connection, h2, Nat.zero_add, h1, Option.map_some']

/-- Claim C25, an instance with qualities 0 (not possible), 1 and 2 (optimal): of the
entries 5, 6, 7, 8 with qualities 1, 0, 2, 2 the third is returned and removed; a pool
whose two entries both have quality 0 is left as it is and `times_empty` becomes 1. -/
theorem ConnectionPool.get_connection_first_best_example :
    ConnectionPool.get_connection ⟨[⟨5, 0⟩, ⟨6, 0⟩, ⟨7, 0⟩, ⟨8, 0⟩], 4, ⟨4, 0, 0⟩⟩
        (fun c => if c = 5 then 1 else if c = 6 then 0 else 2) 0 2
      = (2, some 7, ⟨[⟨5, 0⟩, ⟨6, 0⟩, ⟨8, 0⟩], 4, ⟨4, 1, 0⟩⟩)
    ∧ ConnectionPool.get_connection ⟨[⟨6, 0⟩, ⟨6, 1⟩], 4, ⟨4, 0, 0⟩⟩
        (fun c => if c = 5 then 1 else if c = 6 then 0 else 2) 0 2
      = (0, none, ⟨[⟨6, 0⟩, ⟨6, 1⟩], 4, ⟨4, 0, 1⟩⟩) :=
  ⟨by decide, (ConnectionPool.get_connection_first_best ⟨[⟨6, 0⟩, ⟨6, 1⟩], 4, ⟨4, 0, 0⟩⟩
    (fun c => if c = 5 then 1 else if c = 6 then 0 else 2) 0 2 (by decide)).1 (by decide)⟩

/-- Claim C26. For every pool whose capacity is not negative, after `close_expired` at
time `now`: no entry left is hung up or older than `max_age` (the `persistmaxtime` of the
server); at most `m_capacity` entries are left; the entries left are entries of the pool,
in their order; the connections handed to `close_pooled_dcb`, each once, together with the
connections left are the connections that were in the pool; and when the entries that are
neither hung up nor too old are not more than the capacity, exactly they are left. -/
theorem ConnectionPool.close_expired_sweeps (pool : ConnectionPool) (hanged_up : Nat → Bool)
    (max_age now : Int) (hcapacity : 0 ≤ pool.m_capacity) :
    (∀ e ∈ (pool.close_expired hanged_up max_age now).1.m_contents,
        hanged_up e.m_pConn = false ∧ now - e.m_created ≤ max_age)
    ∧ ((pool.close_expired hanged_up max_age now).1.m_contents.length : Int) ≤ pool.m_capacity
    ∧ (pool.close_expired hanged_up max_age now).1.m_contents.Sublist pool.m_contents
    ∧ ((pool.close_expired hanged_up max_age now).2
        ++ (pool.close_expired hanged_up max_age now).1.m_contents.map (·.m_pConn)).Perm
        (pool.m_contents.map (·.m_pConn))
    ∧ (((pool.m_contents.filter
          (fun e => !(hanged_up e.m_pConn || decide (now - e.m_created > max_age)))).length : Int)
          ≤ pool.m_capacity →
        (pool.close_expired hanged_up max_age now).1.m_contents
          = pool.m_contents.filter
            (fun e => !(hanged_up e.m_pConn || decide (now - e.m_created > max_age)))
        ∧ (pool.close_expired hanged_up max_age now).2
          = (pool.m_contents.filter
            (fun e => hanged_up e.m_pConn || decide (now - e.m_created > max_age))).map
              (·.m_pConn))
    ∧ (pool.close_expired hanged_up max_age now).1.m_capacity = pool.m_capacity := by
  have hperm := close_expired_perm pool hanged_up max_age now
  have hkept : ∀ e ∈ pool.m_contents.filter
      (fun e => !(hanged_up e.m_pConn || decide (now - e.m_created > max_age))),
      hanged_up e.m_pConn = false ∧ now - e.m_created ≤ max_age := by
    intro e he
    have := (List.mem_filter.mp he).2
    simp only [Bool.not_eq_true', Bool.or_eq_false_iff, decide_eq_false_iff_not, not_lt] at this
    exact this
  refine ⟨?_, ?_, ?_, hperm, ?_, ?_⟩
  · intro e he
    apply hkept
    unfold ConnectionPool.close_expired at he
    simp only at he
    split at he
    · exact List.mem_of_mem_drop he
    · exact he
  · unfold ConnectionPool.close_expired
    dsimp only
    split
    · simp only [List.length_drop]
      omega
    · dsimp only
      omega
  · unfold ConnectionPool.close_expired
    simp only
    split
    · exact (List.drop_sublist _ _).trans (List.filter_sublist _)
    · exact List.filter_sublist _
  · intro hle
    unfold ConnectionPool.close_expired
    dsimp only
    rw [if_neg (by omega)]
    exact ⟨rfl, rfl⟩
  · unfold ConnectionPool.close_expired
    simp only
    split <;> rfl

/-- Claim C26, an instance at time 100 with `max_age` 10 and capacity 1: of the entries 5
(created at 95), 6 (created at 80), 7 (hung up) and 8 (created at 99), the connections 6
and 7 are closed as too old and hung up, then 5 because the pool is over its capacity; 8
is left. -/
theorem ConnectionPool.close_expired_sweeps_example :
    ConnectionPool.close_expired ⟨[⟨5, 95⟩, ⟨6, 80⟩, ⟨7, 98⟩, ⟨8, 99⟩], 1, ⟨4, 0, 0⟩⟩
        (fun c => c == 7) 10 100
      = (⟨[⟨8, 99⟩], 1, ⟨4, 0, 0⟩⟩, [6, 7, 5])
    ∧ ((ConnectionPool.close_expired ⟨[⟨5, 95⟩, ⟨6, 80⟩, ⟨7, 98⟩, ⟨8, 99⟩], 1, ⟨4, 0, 0⟩⟩
        (fun c => c == 7) 10 100).1.m_contents.length : Int) ≤ 1 :=
  ⟨by decide, (ConnectionPool.close_expired_sweeps
    ⟨[⟨5, 95⟩, ⟨6, 80⟩, ⟨7, 98⟩, ⟨8, 99⟩], 1, ⟨4, 0, 0⟩⟩ (fun c => c == 7) 10 100
    (by decide)).2.1⟩

/-- Claim C28. One iteration of the updater loop in ordered mode, when the timestamps of
the leftover and of the updates drained in the iteration are distinct and none is below
`m_expected_tstamp`: the queue passed to `make_updates` (nothing, when the iteration ends
in `continue`) followed by the new leftover is a permutation of the old leftover followed
by the drained updates; `m_expected_tstamp` grows by the length of the queue passed on;
every timestamp in the new leftover is above the new `m_expected_tstamp`; and
`make_updates` is never called with an empty queue. -/
theorem GCUpdater.tick_split {U : Type} (g : GCUpdater U)
    (swap_queues : List (List (InternalUpdate U)))
    (hord : g.m_order_updates = true)
    (hdistinct : ((g.m_leftover_queue ++ swap_queues.flatten).map (·.tstamp)).Nodup)
    (hexpected : ∀ u ∈ g.m_leftover_queue ++ swap_queues.flatten,
      g.m_expected_tstamp ≤ u.tstamp) :
    (((g.tick swap_queues).2.getD []) ++ (g.tick swap_queues).1.m_leftover_queue).Perm
        (g.m_leftover_queue ++ swap_queues.flatten)
    ∧ (g.tick swap_queues).1.m_expected_tstamp
        = g.m_expected_tstamp + (((g.tick swap_queues).2.getD []).length : Nat)
    ∧ (∀ u ∈ (g.tick swap_queues).1.m_leftover_queue,
        (g.tick swap_queues).1.m_expected_tstamp < u.tstamp)
    ∧ (g.tick swap_queues).2 ≠ some []
    ∧ (((g.tick swap_queues).2.getD []).map (·.tstamp)
        = consecutive g.m_expected_tstamp ((g.tick swap_queues).2.getD []).length) := by
  obtain ⟨-, t2, t3, t4, t5, -, -⟩ := g.tick_ordered swap_queues hord
  obtain ⟨-, d2, -⟩ := g.tick_distinct swap_queues [] hord
    (by simpa using hdistinct) (by simpa using hexpected)
  exact ⟨t5, t4, d2, t2, t3⟩

/-- Claim C28, an instance: with 10 expected, the leftover 13 and the drained 11, 10 and
15, the updates 10 and 11 are passed on, 13 and 15 are kept and 12 is expected next; when
only 12 and 14 remain to be had and 11 is expected, nothing is passed on. -/
theorem GCUpdater.tick_split_example :
    ((GCUpdater.tick ⟨true, [⟨3, 13⟩], 10⟩ [[⟨1, 11⟩, ⟨0, 10⟩], [⟨5, 15⟩]]).2
        = some [(⟨0, 10⟩ : InternalUpdate Nat), ⟨1, 11⟩]
      ∧ (GCUpdater.tick ⟨true, [⟨3, 13⟩], 10⟩ [[⟨1, 11⟩, ⟨0, 10⟩], [⟨5, 15⟩]]).1.m_leftover_queue
        = [(⟨3, 13⟩ : InternalUpdate Nat), ⟨5, 15⟩]
      ∧ (GCUpdater.tick ⟨true, [⟨3, 13⟩], 10⟩
          [[⟨1, 11⟩, (⟨0, 10⟩ : InternalUpdate Nat)], [⟨5, 15⟩]]).1.m_expected_tstamp = 12)
    ∧ (GCUpdater.tick ⟨true, [⟨2, 12⟩], 11⟩ [[(⟨4, 14⟩ : InternalUpdate Nat)]]).2 ≠ some [] :=
  ⟨by decide, (GCUpdater.tick_split ⟨true, [⟨2, 12⟩], 11⟩ [[(⟨4, 14⟩ : InternalUpdate Nat)]] rfl
    (by decide) (by decide)).2.2.2.1⟩

/-! ### Signal packets: what is counted -/

theorem gwbuf_copy_data_payload (pre p rest : List Nat) (hwf : WellFormedPacket p)
    (h5 : 5 ≤ p.length) :
    gwbuf_copy_data [pre ++ (p ++ rest)] (pre.length + 4 + 1) (gw_mysql_get_byte3 p - 1)
      = p.drop 5 := by
  simp only [gwbuf_copy_data, List.flatten_cons, List.flatten_nil, List.append_nil]
  rw [show pre.length + 4 + 1 = pre.length + 5 by omega, ← List.drop_drop, List.drop_left,
    List.drop_append_of_le_length h5]
  apply List.take_left'
  have := hwf.2.2
  simp only [List.length_drop]
  omega

/-- One pass of the loop at a packet of ordinary size that is neither a continuation nor an
ERR packet: the EOF count grows by one exactly for an EOF packet, `SKIP_NEXT` stays clear,
and `only_ok` survives only an OK packet met at an even count. -/
theorem count_signal_loop_packet (leint_bytes : List Nat → Nat) (n_found : Int)
    (state : Option modutil_state) (b pre p rest : List Nat) (hb : b.length < 2 ^ 32)
    (hbe : b = pre ++ (p ++ rest)) (hp : SignalPacket p)
    (fuel : Nat) (eof : Int) (more only_ok : Bool) (num ist : Nat)
    (hskip : ist &&& SKIP_NEXT = 0) (hfuel : 1 ≤ fuel) :
    ∃ more' only_ok' ist',
      count_signal_loop leint_bytes n_found state fuel
          ⟨[b], b.length, pre.length, eof, more, only_ok, num, ist⟩
        = count_signal_loop leint_bytes n_found state (fuel - 1)
          ⟨[b], b.length, pre.length + p.length, eof + (if IsEofPacket p then 1 else 0),
            more', only_ok', num + 1, ist'⟩
      ∧ ist' &&& SKIP_NEXT = 0
      ∧ (IsEofPacket p → only_ok' = false)
      ∧ (¬ IsEofPacket p → ¬ IsOkPacket p → more' = more ∧ only_ok' = false ∧ ist' = ist)
      ∧ (IsOkPacket p → (eof + n_found) % 2 = 0 →
          more' = decide (ok_status leint_bytes p &&& SERVER_MORE_RESULTS_EXIST ≠ 0)
          ∧ only_ok' = only_ok ∧ ist' = ist)
      ∧ (IsOkPacket p → (eof + n_found) % 2 ≠ 0 →
          more' = more ∧ only_ok' = false ∧ ist' = ist) := by
  obtain ⟨fuel, rfl⟩ : ∃ f, fuel = f + 1 := ⟨fuel - 1, by omega⟩
  obtain ⟨hwf, h5, hnmax, hnerr⟩ := hp
  have hblen : b.length = pre.length + (p.length + rest.length) := by
    rw [hbe]; simp only [List.length_append]
  have hpl : (gw_mysql_get_byte3 p + 4) % 2 ^ 32 = p.length := by
    rw [← hwf.2.2]; exact Nat.mod_eq_of_lt (by omega)
  have hhdr : gw_mysql_get_byte3 (gwbuf_copy_data [b] pre.length 5)
      = gw_mysql_get_byte3 p := by
    rw [hbe]
    simp only [gwbuf_copy_data, List.flatten_cons, List.flatten_nil, List.append_nil,
      List.drop_left]
    exact gw_mysql_get_byte3_take_append p _ _ (by decide) (by omega)
  have hcmd : (gwbuf_copy_data [b] pre.length 5).getD 4 0 = p.getD 4 0 := by
    rw [hbe]
    simp only [gwbuf_copy_data, List.flatten_cons, List.flatten_nil, List.append_nil,
      List.drop_left]
    exact getD_take_append_four p _ h5
  have hdata : gwbuf_copy_data [b] (pre.length + 4 + 1) (gw_mysql_get_byte3 p - 1)
      = p.drop 5 := by
    rw [hbe]; exact gwbuf_copy_data_payload pre p rest hwf h5
  have hlt : pre.length < b.length := by omega
  by_cases heof : IsEofPacket p
  · have hplain : PlainPacket p :=
      ⟨hwf, h5, hnmax, hnerr, fun h => by
        have h1 := heof.1
        rw [h.1] at h1
        exact absurd h1 (by decide)⟩
    obtain ⟨more', ist', h1, h2, -, -, -⟩ := count_signal_loop_eof leint_bytes n_found state
      b pre p rest hb hbe hplain heof (fuel + 1) eof more only_ok num ist hskip (by omega)
    refine ⟨more', false, ist', ?_, h2, fun _ => rfl, fun h => absurd heof h, ?_, ?_⟩
    · rw [h1, if_pos heof]
    · intro hok
      have h1 := heof.1
      rw [hok.1] at h1
      exact absurd h1 (by decide)
    · intro hok
      have h1 := heof.1
      rw [hok.1] at h1
      exact absurd h1 (by decide)
  · rw [count_signal_loop]
    simp only [hlt, if_true]
    unfold count_signal_step
    simp only [MYSQL_HEADER_LEN]
    simp only [hhdr, hcmd, hpl, hdata, count_signal_advance_single, hnmax, if_false, hskip,
      not_true_eq_false, hnerr, Ne]
    have h1 : ¬ (p.getD 4 0 = MYSQL_REPLY_EOF ∧ p.length = MYSQL_EOF_PACKET_LEN) := heof
    rw [if_neg h1, if_neg heof]
    simp only [Nat.add_sub_cancel, Int.add_zero]
    by_cases hok : IsOkPacket p
    · by_cases hev : (eof + n_found) % 2 = 0
      · have h2 : p.getD 4 0 = MYSQL_REPLY_OK ∧ p.length ≥ MYSQL_OK_PACKET_MIN_LEN
            ∧ (eof + n_found) % 2 = 0 := ⟨hok.1, hok.2, hev⟩
        rw [if_pos h2]
        exact ⟨_, _, _, rfl, hskip, fun h => absurd h heof, fun _ h => absurd hok h,
          fun _ _ => ⟨rfl, rfl, rfl⟩, fun _ h => absurd hev h⟩
      · have h2 : ¬ (p.getD 4 0 = MYSQL_REPLY_OK ∧ p.length ≥ MYSQL_OK_PACKET_MIN_LEN
            ∧ (eof + n_found) % 2 = 0) := fun h => hev h.2.2
        rw [if_neg h2]
        exact ⟨_, _, _, rfl, hskip, fun h => absurd h heof, fun _ h => absurd hok h,
          fun _ h => absurd h hev, fun _ _ => ⟨rfl, rfl, rfl⟩⟩
    · have h2 : ¬ (p.getD 4 0 = MYSQL_REPLY_OK ∧ p.length ≥ MYSQL_OK_PACKET_MIN_LEN
          ∧ (eof + n_found) % 2 = 0) := fun h => hok ⟨h.1, h.2.1⟩
      rw [if_neg h2]
      exact ⟨_, _, _, rfl, hskip, fun h => absurd h heof, fun _ _ => ⟨rfl, rfl, rfl⟩,
        fun h => absurd h hok, fun h => absurd h hok⟩

/-- The loop over packets of ordinary size, none of them an ERR packet, up to the end of the
stream: the EOF count grows by the number of EOF packets, and `only_ok` is still set at the
end only when none of them was an EOF packet. -/
theorem count_signal_loop_count (leint_bytes : List Nat → Nat) (n_found : Int)
    (state : Option modutil_state) (b : List Nat) (hb : b.length < 2 ^ 32)
    (P : List (List Nat)) :
    ∀ (pre : List Nat) (fuel : Nat) (eof : Int) (more only_ok : Bool) (num ist : Nat),
      b = pre ++ P.flatten →
      (∀ p ∈ P, SignalPacket p) →
      ist &&& SKIP_NEXT = 0 →
      P.length ≤ fuel →
      ∃ more' only_ok' ist',
        count_signal_loop leint_bytes n_found state fuel
          ⟨[b], b.length, pre.length, eof, more, only_ok, num, ist⟩
        = some (count_signal_finish n_found state
            ⟨[b], b.length, b.length,
              eof + ((P.filter (fun p => decide (IsEofPacket p))).length : Nat),
              more', only_ok', num + P.length, ist'⟩)
        ∧ (only_ok' = true →
            only_ok = true ∧ (P.filter (fun p => decide (IsEofPacket p))).length = 0) := by
  induction P with
  | nil =>
    intro pre fuel eof more only_ok num ist hbe _ _ _
    have hl : pre.length = b.length := by rw [hbe]; simp
    refine ⟨more, only_ok, ist, ?_, fun h => ⟨h, rfl⟩⟩
    rw [hl]
    simp only [List.filter_nil, List.length_nil, Nat.cast_zero, Int.add_zero, Nat.add_zero]
    exact count_signal_loop_done _ _ _ _ _ (by simp)
  | cons p ps ih =>
    intro pre fuel eof more only_ok num ist hbe hP hskip hfuel
    simp only [List.length_cons] at hfuel
    simp only [List.flatten_cons] at hbe
    obtain ⟨more1, ok1, ist1, h1, hs1, he1, hn1, ho1, hd1⟩ := count_signal_loop_packet
      leint_bytes n_found state b pre p ps.flatten hb hbe (hP p (by simp)) fuel eof more
      only_ok num ist hskip (by omega)
    have hkeep : ok1 = true → only_ok = true := by
      intro hk
      by_cases heof : IsEofPacket p
      · rw [he1 heof] at hk; exact absurd hk (by decide)
      · by_cases hok : IsOkPacket p
        · by_cases hev : (eof + n_found) % 2 = 0
          · rw [← (ho1 hok hev).2.1]; exact hk
          · rw [(hd1 hok hev).2.1] at hk; exact absurd hk (by decide)
        · rw [(hn1 heof hok).2.1] at hk; exact absurd hk (by decide)
    obtain ⟨more2, ok2, ist2, h2, hk2⟩ := ih (pre ++ p) (fuel - 1)
      (eof + (if IsEofPacket p then 1 else 0)) more1 ok1 (num + 1) ist1
      (by rw [hbe]; simp only [List.append_assoc]) (fun q hq => hP q (by simp [hq])) hs1
      (by omega)
    simp only [List.length_append] at h2
    by_cases heof : IsEofPacket p
    · have hf : (List.filter (fun p => decide (IsEofPacket p)) (p :: ps))
          = p :: List.filter (fun p => decide (IsEofPacket p)) ps := by
        simp [List.filter_cons, heof]
      have hok1 : ok1 = false := he1 heof
      refine ⟨more2, ok2, ist2, ?_, ?_⟩
      · rw [h1, h2, hf, if_pos heof]
        simp only [List.length_cons, Nat.cast_add, Nat.cast_one]
        congr 3
        · omega
        · omega
      · intro hok2
        have := (hk2 hok2).1
        rw [hok1] at this
        exact absurd this (by decide)
    · have hf : (List.filter (fun p => decide (IsEofPacket p)) (p :: ps))
          = List.filter (fun p => decide (IsEofPacket p)) ps := by
        simp [List.filter_cons, heof]
      refine ⟨more2, ok2, ist2, ?_, ?_⟩
      · rw [h1, h2, hf, if_neg heof]
        simp only [List.length_cons, Int.add_zero]
        congr 3
        omega
      · intro hok2
        rw [hf]
        exact ⟨hkeep (hk2 hok2).1, (hk2 hok2).2⟩

/-- Claim C22 as stated does not hold: a packet of 9 bytes with first payload byte `0xFE`,
whose length is not less than 9, is counted, and packets of 5 and of 8 bytes with that
first byte, whose length is less than 9, are not. -/
theorem modutil_count_signal_packets_eof_length :
    modutil_count_signal_packets (fun _ => 1) [[5, 0, 0, 1, 0xfe, 0, 0, 0, 0]] 0 none
      = some ⟨1, false, none⟩
    ∧ modutil_count_signal_packets (fun _ => 1) [[1, 0, 0, 1, 0xfe]] 0 none
      = some ⟨0, false, none⟩
    ∧ modutil_count_signal_packets (fun _ => 1) [[4, 0, 0, 1, 0xfe, 0, 0, 0]] 0 none
      = some ⟨0, false, none⟩ := by
  decide

/-- Claim C22, amended. For a stream of complete packets of ordinary size, none of them an
ERR packet, met with `SKIP_NEXT` clear, where `n_found` and the count stay in the range of
`int` and the OK branch is well defined for the packets it may be taken for:
`modutil_count_signal_packets` returns `n_found` plus the number of packets with first
payload byte `0xFE` and a length of exactly 9 bytes, or else 2 when the stream had no such
packet and at least two packets (the stream of OK packets only). A packet with first payload
byte `0x00` and fewer than 11 bytes is not read as an OK packet: alone in the stream it
leaves `more_out` false whatever its bytes. -/
theorem modutil_count_signal_packets_counts_eof (leint_bytes : List Nat → Nat)
    (P : List (List Nat)) (n_found : Int) (state : Option modutil_state)
    (hP : ∀ p ∈ P, SignalPacket p) (hlen : P.flatten.length < 2 ^ 32)
    (hskip : incoming_state state &&& SKIP_NEXT = 0)
    (hread : ∀ p ∈ P, IsOkPacket p → OkReadable leint_bytes p)
    (hlo : -2 ^ 31 ≤ n_found)
    (hhi : n_found + ((P.filter (fun p => decide (IsEofPacket p))).length : Nat) < 2 ^ 31) :
    (∃ r, modutil_count_signal_packets leint_bytes [P.flatten] n_found state = some r
      ∧ (r.ret = n_found + ((P.filter (fun p => decide (IsEofPacket p))).length : Nat)
        ∨ (r.ret = 2 ∧ (P.filter (fun p => decide (IsEofPacket p))).length = 0
            ∧ 2 ≤ P.length)))
    ∧ ∀ p ∈ P, p.getD 4 0 = MYSQL_REPLY_OK → p.length < MYSQL_OK_PACKET_MIN_LEN →
        modutil_count_signal_packets leint_bytes [p] n_found state
          = some ⟨n_found, false, state.map (fun _ => ⟨incoming_state state⟩)⟩ := by
  constructor
  · obtain ⟨more', ok', ist', h1, h2⟩ := count_signal_loop_count leint_bytes n_found state
      P.flatten hlen P [] P.flatten.length 0 false true 0 (incoming_state state) (by simp) hP
      hskip (by have := length_le_flatten_of_wf P (fun p hp => (hP p hp).1); omega)
    rw [modutil_count_signal_packets_single _ _ _ _ hlen]
    simp only [List.length_nil] at h1
    rw [h1]
    refine ⟨_, rfl, ?_⟩
    simp only [count_signal_finish, Nat.zero_add, Int.zero_add]
    rw [to_int_of_range _ (by omega) (by omega)]
    split_ifs with hc
    · right
      exact ⟨rfl, (h2 hc.1).2, hc.2.2⟩
    · left
      omega
  · intro p hp h0 h11
    have hsp := hP p hp
    have hle : p.length < 2 ^ 32 := by
      simp only [MYSQL_OK_PACKET_MIN_LEN] at h11
      omega
    have hneof : ¬ IsEofPacket p := by
      intro h
      have h1 := h.1
      rw [h0] at h1
      exact absurd h1 (by decide)
    have hnok : ¬ IsOkPacket p := fun h => by
      have := h.2
      omega
    obtain ⟨more', ok', ist', h1, -, -, h3, -, -⟩ := count_signal_loop_packet leint_bytes
      n_found state p [] p [] hle (by simp) hsp p.length 0 false true 0 (incoming_state state)
      hskip (by have := hsp.2.1; omega)
    obtain ⟨e1, e2, e3⟩ := h3 hneof hnok
    rw [modutil_count_signal_packets_single _ _ _ _ hle]
    simp only [List.length_nil] at h1
    rw [h1, if_neg hneof, e1, e2, e3]
    rw [count_signal_loop_done _ _ _ _ _ (by simp)]
    simp only [count_signal_finish, Int.zero_add, Int.add_zero]
    rw [to_int_of_range _ hlo (by omega)]
    simp

/-- Claim C22, an instance: of a row packet, an EOF packet of 9 bytes, a packet of 5 bytes
and one of 8 bytes with first payload byte `0xFE`, and a short packet with first payload
byte `0x00`, one is counted. -/
theorem modutil_count_signal_packets_counts_eof_example :
    ∃ r, modutil_count_signal_packets (fun _ => 1)
        [[[2, 0, 0, 1, 7, 7], [5, 0, 0, 2, 0xfe, 0, 0, 0, 0], [1, 0, 0, 3, 0xfe],
          [4, 0, 0, 4, 0xfe, 0, 0, 0], [3, 0, 0, 5, 0, 8, 8]].flatten] 4 none = some r
      ∧ (r.ret = 4 + ((([[2, 0, 0, 1, 7, 7], [5, 0, 0, 2, 0xfe, 0, 0, 0, 0], [1, 0, 0, 3, 0xfe],
          [4, 0, 0, 4, 0xfe, 0, 0, 0], [3, 0, 0, 5, 0, 8, 8]] : List (List Nat)).filter
            (fun p => decide (IsEofPacket p))).length : Nat)
        ∨ (r.ret = 2 ∧ (([[2, 0, 0, 1, 7, 7], [5, 0, 0, 2, 0xfe, 0, 0, 0, 0],
          [1, 0, 0, 3, 0xfe], [4, 0, 0, 4, 0xfe, 0, 0, 0], [3, 0, 0, 5, 0, 8, 8]]
            : List (List Nat)).filter (fun p => decide (IsEofPacket p))).length = 0
          ∧ 2 ≤ ([[2, 0, 0, 1, 7, 7], [5, 0, 0, 2, 0xfe, 0, 0, 0, 0], [1, 0, 0, 3, 0xfe],
          [4, 0, 0, 4, 0xfe, 0, 0, 0], [3, 0, 0, 5, 0, 8, 8]] : List (List Nat)).length)) :=
  (modutil_count_signal_packets_counts_eof (fun _ => 1)
    [[2, 0, 0, 1, 7, 7], [5, 0, 0, 2, 0xfe, 0, 0, 0, 0], [1, 0, 0, 3, 0xfe],
      [4, 0, 0, 4, 0xfe, 0, 0, 0], [3, 0, 0, 5, 0, 8, 8]] 4 none
    (by decide) (by decide) (by decide) (by decide) (by decide) (by decide)).1

/-! ### Signal packets: continuations of large packets -/

/-- One pass of the loop at a packet with payload length `0xFFFFFF`: nothing is classified,
`only_ok` is cleared and `SKIP_NEXT` is set. -/
theorem count_signal_loop_max (leint_bytes : List Nat → Nat) (n_found : Int)
    (state : Option modutil_state) (b pre m rest : List Nat) (hb : b.length < 2 ^ 32)
    (hbe : b = pre ++ (m ++ rest)) (hm : MaxPacket m)
    (fuel : Nat) (eof : Int) (more only_ok : Bool) (num ist : Nat) (hfuel : 1 ≤ fuel) :
    count_signal_loop leint_bytes n_found state fuel
        ⟨[b], b.length, pre.length, eof, more, only_ok, num, ist⟩
      = count_signal_loop leint_bytes n_found state (fuel - 1)
        ⟨[b], b.length, pre.length + m.length, eof, more, false, num + 1,
          ist ||| SKIP_NEXT⟩ := by
  obtain ⟨fuel, rfl⟩ : ∃ f, fuel = f + 1 := ⟨fuel - 1, by omega⟩
  obtain ⟨hwf, hmax⟩ := hm
  have hblen : b.length = pre.length + (m.length + rest.length) := by
    rw [hbe]; simp only [List.length_append]
  have hpl : (gw_mysql_get_byte3 m + 4) % 2 ^ 32 = m.length := by
    rw [← hwf.2.2]; exact Nat.mod_eq_of_lt (by omega)
  have hhdr : gw_mysql_get_byte3 (gwbuf_copy_data [b] pre.length 5)
      = gw_mysql_get_byte3 m := by
    rw [hbe]
    simp only [gwbuf_copy_data, List.flatten_cons, List.flatten_nil, List.append_nil,
      List.drop_left]
    exact gw_mysql_get_byte3_take_append m _ _ (by decide) (by have := hwf.2.1; omega)
  have hlt : pre.length < b.length := by have := hwf.2.1; omega
  rw [count_signal_loop]
  simp only [hlt, if_true]
  unfold count_signal_step
  simp only [MYSQL_HEADER_LEN]
  simp only [hhdr, hpl, count_signal_advance_single]
  rw [if_pos hmax]
  simp only [Nat.add_sub_cancel]

/-- One pass of the loop at a packet of ordinary length met with `SKIP_NEXT` set: whatever
its bytes, and also when it has no payload, nothing is classified; `only_ok` and
`SKIP_NEXT` are cleared. -/
theorem count_signal_loop_continuation (leint_bytes : List Nat → Nat) (n_found : Int)
    (state : Option modutil_state) (b pre c rest : List Nat) (hb : b.length < 2 ^ 32)
    (hbe : b = pre ++ (c ++ rest)) (hc : WellFormedPacket c)
    (hnmax : gw_mysql_get_byte3 c ≠ GW_MYSQL_MAX_PACKET_LEN)
    (fuel : Nat) (eof : Int) (more only_ok : Bool) (num ist : Nat)
    (hskip : ist &&& SKIP_NEXT ≠ 0) (hfuel : 1 ≤ fuel) :
    count_signal_loop leint_bytes n_found state fuel
        ⟨[b], b.length, pre.length, eof, more, only_ok, num, ist⟩
      = count_signal_loop leint_bytes n_found state (fuel - 1)
        ⟨[b], b.length, pre.length + c.length, eof, more, false, num + 1,
          ist &&& (0xff - SKIP_NEXT)⟩ := by
  obtain ⟨fuel, rfl⟩ : ∃ f, fuel = f + 1 := ⟨fuel - 1, by omega⟩
  have hblen : b.length = pre.length + (c.length + rest.length) := by
    rw [hbe]; simp only [List.length_append]
  have hpl : (gw_mysql_get_byte3 c + 4) % 2 ^ 32 = c.length := by
    rw [← hc.2.2]; exact Nat.mod_eq_of_lt (by omega)
  have hhdr : gw_mysql_get_byte3 (gwbuf_copy_data [b] pre.length 5)
      = gw_mysql_get_byte3 c := by
    rw [hbe]
    simp only [gwbuf_copy_data, List.flatten_cons, List.flatten_nil, List.append_nil,
      List.drop_left]
    exact gw_mysql_get_byte3_take_append c _ _ (by decide) (by have := hc.2.1; omega)
  have hlt : pre.length < b.length := by have := hc.2.1; omega
  rw [count_signal_loop]
  simp only [hlt, if_true]
  unfold count_signal_step
  simp only [MYSQL_HEADER_LEN]
  simp only [hhdr, hpl, count_signal_advance_single]
  rw [if_neg hnmax, if_pos hskip]
  simp only [Nat.add_sub_cancel]

theorem or_skip_idem (ist : Nat) : (ist ||| SKIP_NEXT) ||| SKIP_NEXT = ist ||| SKIP_NEXT := by
  rw [Nat.or_assoc, Nat.or_self]

theorem skip_cleared (ist : Nat) : (ist &&& (0xff - SKIP_NEXT)) &&& SKIP_NEXT = 0 := by
  have h : (0xff - SKIP_NEXT) &&& SKIP_NEXT = 0 := by decide
  rw [Nat.and_assoc, h, Nat.and_zero]

/-- The loop over one or more packets with payload length `0xFFFFFF` in a row: the
continuation stays pending. -/
theorem count_signal_loop_maxes (leint_bytes : List Nat → Nat) (n_found : Int)
    (state : Option modutil_state) (b rest : List Nat) (hb : b.length < 2 ^ 32)
    (M : List (List Nat)) :
    ∀ (pre : List Nat) (fuel : Nat) (eof : Int) (more only_ok : Bool) (num ist : Nat),
      b = pre ++ (M.flatten ++ rest) →
      (∀ m ∈ M, MaxPacket m) →
      M ≠ [] →
      M.length ≤ fuel →
      count_signal_loop leint_bytes n_found state fuel
          ⟨[b], b.length, pre.length, eof, more, only_ok, num, ist⟩
        = count_signal_loop leint_bytes n_found state (fuel - M.length)
          ⟨[b], b.length, pre.length + M.flatten.length, eof, more, false, num + M.length,
            ist ||| SKIP_NEXT⟩ := by
  induction M with
  | nil => intro _ _ _ _ _ _ _ _ _ h; exact absurd rfl h
  | cons m ms ih =>
    intro pre fuel eof more only_ok num ist hbe hM _ hfuel
    simp only [List.length_cons] at hfuel
    simp only [List.flatten_cons, List.append_assoc] at hbe
    rw [count_signal_loop_max leint_bytes n_found state b pre m (ms.flatten ++ rest) hb hbe
      (hM m (by simp)) fuel eof more only_ok num ist (by omega)]
    by_cases hms : ms = []
    · subst hms
      simp
    · have h := ih (pre ++ m) (fuel - 1) eof more false (num + 1) (ist ||| SKIP_NEXT)
        (by rw [hbe]; simp only [List.append_assoc]) (fun q hq => hM q (by simp [hq]))
        hms (by omega)
      simp only [List.length_append] at h
      rw [h, or_skip_idem]
      simp only [List.length_cons, List.flatten_cons, List.length_append]
      have e1 : fuel - 1 - ms.length = fuel - (ms.length + 1) := by omega
      have e2 : pre.length + m.length + ms.flatten.length
          = pre.length + (m.length + ms.flatten.length) := by omega
      have e3 : num + 1 + ms.length = num + (ms.length + 1) := by omega
      rw [e1, e2, e3]

theorem MaxPacket.length_le_flatten (M : List (List Nat)) (hM : ∀ m ∈ M, MaxPacket m) :
    M.length ≤ M.flatten.length := by
  have := length_le_flatten_of_wf M (fun m hm => (hM m hm).1)
  omega

/-- The loop from the start of a large packet, sent as the packets `M` with payload length
`0xFFFFFF` and the shorter last part `c`, up to the byte after `c`. -/
theorem count_signal_loop_large (leint_bytes : List Nat → Nat) (n_found : Int)
    (state : Option modutil_state) (b pre c rest : List Nat) (M : List (List Nat))
    (hb : b.length < 2 ^ 32) (hbe : b = pre ++ (M.flatten ++ (c ++ rest)))
    (hM : ∀ m ∈ M, MaxPacket m) (hne : M ≠ [])
    (hc : WellFormedPacket c) (hnmax : gw_mysql_get_byte3 c ≠ GW_MYSQL_MAX_PACKET_LEN)
    (fuel : Nat) (eof : Int) (more only_ok : Bool) (num ist : Nat)
    (hfuel : M.length + 1 ≤ fuel) :
    count_signal_loop leint_bytes n_found state fuel
        ⟨[b], b.length, pre.length, eof, more, only_ok, num, ist⟩
      = count_signal_loop leint_bytes n_found state (fuel - M.length - 1)
        ⟨[b], b.length, pre.length + M.flatten.length + c.length, eof, more, false,
          num + M.length + 1, (ist ||| SKIP_NEXT) &&& (0xff - SKIP_NEXT)⟩ := by
  rw [count_signal_loop_maxes leint_bytes n_found state b (c ++ rest) hb M pre fuel eof more
    only_ok num ist hbe hM hne (by omega)]
  have h := count_signal_loop_continuation leint_bytes n_found state b (pre ++ M.flatten) c
    rest hb (by rw [hbe]; simp only [List.append_assoc]) hc hnmax (fuel - M.length) eof more
    false (num + M.length) (ist ||| SKIP_NEXT) (or_and_self_ne_zero ist SKIP_NEXT (by decide))
    (by omega)
  simp only [List.length_append] at h
  rw [h]

/-- Claim C23. Let a large packet be sent as one or more packets `M` with payload length
`0xFFFFFF` followed by a shorter last part `c`, and let `q` be a packet of ordinary size that
is not an ERR packet. Whatever the bytes of `c`, also when its payload is empty: the stream
`M, c` leaves the count at `n_found` and `more_out` false, and the state it stores has
`SKIP_NEXT` clear; in the stream `M, c, q` the packet `q` is classified again (it is counted
exactly when it is an EOF packet). The same holds across calls: the call that ends with `M`
stores `SKIP_NEXT`, and a call that starts with `c` in a state with `SKIP_NEXT` set does
not classify `c`, clears the flag and classifies `q`. Here `n_found` and the count are in the
range of `int`, and the OK branch is well defined for `q` if `q` is an OK packet. -/
theorem modutil_count_signal_packets_continuation (leint_bytes : List Nat → Nat)
    (M : List (List Nat)) (c q : List Nat) (n_found : Int) (s0 : modutil_state)
    (hM : ∀ m ∈ M, MaxPacket m) (hne : M ≠ [])
    (hc : WellFormedPacket c) (hnmax : gw_mysql_get_byte3 c ≠ GW_MYSQL_MAX_PACKET_LEN)
    (hq : SignalPacket q)
    (hlen : (M.flatten ++ (c ++ q)).length < 2 ^ 32)
    (hread : IsOkPacket q → OkReadable leint_bytes q)
    (hlo : -2 ^ 31 ≤ n_found)
    (hhi : n_found + (if IsEofPacket q then 1 else 0) < 2 ^ 31) :
    modutil_count_signal_packets leint_bytes [M.flatten ++ c] n_found (some s0)
      = some ⟨n_found, false,
          some ⟨(incoming_state (some s0) ||| SKIP_NEXT) &&& (0xff - SKIP_NEXT)⟩⟩
    ∧ ((incoming_state (some s0) ||| SKIP_NEXT) &&& (0xff - SKIP_NEXT)) &&& SKIP_NEXT = 0
    ∧ (∃ r, modutil_count_signal_packets leint_bytes [M.flatten ++ (c ++ q)] n_found (some s0)
          = some r
        ∧ r.ret = n_found + (if IsEofPacket q then 1 else 0))
    ∧ modutil_count_signal_packets leint_bytes [M.flatten] n_found (some s0)
      = some ⟨n_found, false, some ⟨incoming_state (some s0) ||| SKIP_NEXT⟩⟩
    ∧ (incoming_state (some s0) ||| SKIP_NEXT) &&& SKIP_NEXT ≠ 0
    ∧ ∀ s1 : modutil_state, s1.state &&& SKIP_NEXT ≠ 0 →
        modutil_count_signal_packets leint_bytes [c] n_found (some s1)
          = some ⟨n_found, false, some ⟨incoming_state (some s1) &&& (0xff - SKIP_NEXT)⟩⟩
        ∧ ∃ r, modutil_count_signal_packets leint_bytes [c ++ q] n_found (some s1) = some r
          ∧ r.ret = n_found + (if IsEofPacket q then 1 else 0) := by
  have hMl := MaxPacket.length_le_flatten M hM
  have hc4 := hc.2.1
  have hq5 := hq.2.1
  simp only [List.length_append] at hlen
  have hto : to_int n_found = n_found :=
    to_int_of_range _ hlo (by split_ifs at hhi <;> omega)
  have hto1 : IsEofPacket q → to_int (n_found + 1) = n_found + 1 := fun heof =>
    to_int_of_range _ (by omega) (by rw [if_pos heof] at hhi; omega)
  refine ⟨?_, skip_cleared _, ?_, ?_, or_and_self_ne_zero _ SKIP_NEXT (by decide), ?_⟩
  · have hb : (M.flatten ++ c).length < 2 ^ 32 := by
      simp only [List.length_append]; omega
    rw [modutil_count_signal_packets_single _ _ _ _ hb]
    have h := count_signal_loop_large leint_bytes n_found (some s0) (M.flatten ++ c) [] c []
      M hb (by simp) hM hne hc hnmax (M.flatten ++ c).length 0 false true 0
      (incoming_state (some s0)) (by simp only [List.length_append]; omega)
    simp only [List.length_nil, Nat.zero_add] at h
    rw [h, count_signal_loop_done _ _ _ _ _ (by simp)]
    simp [count_signal_finish, hto]
  · have hb : (M.flatten ++ (c ++ q)).length < 2 ^ 32 := by
      simp only [List.length_append]; omega
    rw [modutil_count_signal_packets_single _ _ _ _ hb]
    have h := count_signal_loop_large leint_bytes n_found (some s0) (M.flatten ++ (c ++ q)) []
      c q M hb (by simp) hM hne hc hnmax (M.flatten ++ (c ++ q)).length 0 false true 0
      (incoming_state (some s0)) (by simp only [List.length_append]; omega)
    simp only [List.length_nil, Nat.zero_add] at h
    rw [h]
    obtain ⟨more', ok', ist', h2, hk⟩ := count_signal_loop_count leint_bytes n_found (some s0)
      (M.flatten ++ (c ++ q)) hb [q] (M.flatten ++ c)
      ((M.flatten ++ (c ++ q)).length - M.length - 1) 0 false false (M.length + 1)
      ((incoming_state (some s0) ||| SKIP_NEXT) &&& (0xff - SKIP_NEXT))
      (by simp) (fun p hp => by rw [List.mem_singleton.mp hp]; exact hq) (skip_cleared _)
      (by simp only [List.length_append, List.length_singleton]; omega)
    simp only [List.length_append] at h2 ⊢
    rw [h2]
    refine ⟨_, rfl, ?_⟩
    have hok : ok' = false := by
      cases ok'
      · rfl
      · exact absurd (hk rfl).1 (by decide)
    subst hok
    by_cases heof : IsEofPacket q
    · simp [count_signal_finish, heof, hto1 heof, Int.add_comm]
    · simp [count_signal_finish, heof, hto]
  · have hb : M.flatten.length < 2 ^ 32 := by omega
    rw [modutil_count_signal_packets_single _ _ _ _ hb]
    have h := count_signal_loop_maxes leint_bytes n_found (some s0) M.flatten [] hb M []
      M.flatten.length 0 false true 0 (incoming_state (some s0)) (by simp) hM hne hMl
    simp only [List.length_nil, Nat.zero_add] at h
    rw [h, count_signal_loop_done _ _ _ _ _ (by simp)]
    simp [count_signal_finish, hto]
  · intro s1 hs1
    have hskip : incoming_state (some s1) &&& SKIP_NEXT ≠ 0 := by
      simp only [incoming_state]
      rw [mod_256_and_skip]
      exact hs1
    constructor
    · have hb : c.length < 2 ^ 32 := by omega
      rw [modutil_count_signal_packets_single _ _ _ _ hb]
      have h := count_signal_loop_continuation leint_bytes n_found (some s1) c [] c [] hb
        (by simp) hc hnmax c.length 0 false true 0 (incoming_state (some s1)) hskip
        (by omega)
      simp only [List.length_nil, Nat.zero_add] at h
      rw [h, count_signal_loop_done _ _ _ _ _ (by simp)]
      simp [count_signal_finish, hto]
    · have hb : (c ++ q).length < 2 ^ 32 := by
        simp only [List.length_append]; omega
      rw [modutil_count_signal_packets_single _ _ _ _ hb]
      have h := count_signal_loop_continuation leint_bytes n_found (some s1) (c ++ q) [] c q
        hb (by simp) hc hnmax (c ++ q).length 0 false true 0 (incoming_state (some s1)) hskip
        (by simp only [List.length_append]; omega)
      simp only [List.length_nil, Nat.zero_add] at h
      rw [h]
      obtain ⟨more', ok', ist', h2, hk⟩ := count_signal_loop_count leint_bytes n_found
        (some s1) (c ++ q) hb [q] c ((c ++ q).length - 1) 0 false false 1
        (incoming_state (some s1) &&& (0xff - SKIP_NEXT))
        (by simp) (fun p hp => by rw [List.mem_singleton.mp hp]; exact hq) (skip_cleared _)
        (by simp only [List.length_append, List.length_singleton]; omega)
      rw [h2]
      refine ⟨_, rfl, ?_⟩
      have hok : ok' = false := by
        cases ok'
        · rfl
        · exact absurd (hk rfl).1 (by decide)
      subst hok
      by_cases heof : IsEofPacket q
      · simp [count_signal_finish, heof, hto1 heof, Int.add_comm]
      · simp [count_signal_finish, heof, hto]

/-- A packet of `0xFFFFFF` equal payload bytes is a complete packet with payload length
`0xFFFFFF`. -/
theorem MaxPacket.of_replicate (n x k : Nat) (hn : n = 16777215) (hx : x < 256)
    (hk : k < 256) : MaxPacket (255 :: 255 :: 255 :: k :: List.replicate n x) := by
  refine ⟨⟨?_, ?_, ?_⟩, ?_⟩
  · intro y hy
    simp only [List.mem_cons, List.mem_replicate] at hy
    omega
  · simp only [List.length_cons, List.length_replicate]
    omega
  · simp only [List.length_cons, List.length_replicate, gw_mysql_get_byte3,
      List.getD_cons_zero, List.getD_cons_succ]
    omega
  · simp only [gw_mysql_get_byte3, List.getD_cons_zero, List.getD_cons_succ,
      GW_MYSQL_MAX_PACKET_LEN]

theorem length_large_packet (n x k : Nat) (c : List Nat) (hn : n = 16777215) :
    ([255 :: 255 :: 255 :: k :: List.replicate n x].flatten ++ c).length
      = 16777219 + c.length := by
  simp only [List.flatten_cons, List.flatten_nil, List.append_nil, List.length_append,
    List.length_cons, List.length_replicate]
  omega

/-- Claim C23, an instance: a large packet sent as one packet with payload length `0xFFFFFF`
and a last part of one byte `0xFF`, which is not taken for an ERR packet; and that last part
alone in a call whose state has `SKIP_NEXT` set, against the same bytes met with the flag
clear, which are an ERR packet. -/
theorem modutil_count_signal_packets_continuation_example :
    modutil_count_signal_packets (fun _ => 1)
        [[255 :: 255 :: 255 :: 0 :: List.replicate 16777215 7].flatten ++ [1, 0, 0, 1, 0xff]]
        4 (some ⟨0⟩)
      = some ⟨4, false,
          some ⟨(incoming_state (some ⟨0⟩) ||| SKIP_NEXT) &&& (0xff - SKIP_NEXT)⟩⟩
    ∧ modutil_count_signal_packets (fun _ => 1) [[1, 0, 0, 1, 0xff]] 4 (some ⟨1⟩)
      = some ⟨4, false, some ⟨0⟩⟩
    ∧ modutil_count_signal_packets (fun _ => 1) [[1, 0, 0, 1, 0xff]] 4 (some ⟨0⟩)
      = some ⟨2, false, some ⟨0⟩⟩ :=
  ⟨(modutil_count_signal_packets_continuation (fun _ => 1)
      [255 :: 255 :: 255 :: 0 :: List.replicate 16777215 7] [1, 0, 0, 1, 0xff]
      [5, 0, 0, 2, 0xfe, 0, 0, 0, 0] 4 ⟨0⟩
      (fun m hm => (List.mem_singleton.mp hm) ▸
        MaxPacket.of_replicate 16777215 7 0 rfl (by decide) (by decide))
      (List.cons_ne_nil _ _) (by decide) (by decide) (by decide)
      (by rw [length_large_packet 16777215 7 0 _ rfl]; decide)
      (by decide) (by decide) (by decide)).1,
    by decide, by decide⟩

/-! ### Signal packets: replies of OK packets only -/

theorem IsOkPacket.not_eof {p : List Nat} (h : IsOkPacket p) : ¬ IsEofPacket p := by
  intro he
  have h1 := he.1
  rw [h.1] at h1
  exact absurd h1 (by decide)

/-- The loop over OK packets met at an even count with `SKIP_NEXT` clear: only `more` changes,
to what the status of the last packet says. -/
theorem count_signal_loop_oks (leint_bytes : List Nat → Nat) (n_found : Int)
    (state : Option modutil_state) (b rest : List Nat) (hb : b.length < 2 ^ 32)
    (O : List (List Nat)) (eof : Int) (heven : (eof + n_found) % 2 = 0) :
    ∀ (pre : List Nat) (fuel : Nat) (more only_ok : Bool) (num ist : Nat),
      b = pre ++ (O.flatten ++ rest) →
      (∀ p ∈ O, SignalPacket p ∧ IsOkPacket p) →
      ist &&& SKIP_NEXT = 0 →
      O.length ≤ fuel →
      count_signal_loop leint_bytes n_found state fuel
          ⟨[b], b.length, pre.length, eof, more, only_ok, num, ist⟩
        = count_signal_loop leint_bytes n_found state (fuel - O.length)
          ⟨[b], b.length, pre.length + O.flatten.length, eof,
            O.foldl (fun _ p =>
              decide (ok_status leint_bytes p &&& SERVER_MORE_RESULTS_EXIST ≠ 0)) more,
            only_ok, num + O.length, ist⟩ := by
  induction O with
  | nil => intro pre fuel more only_ok num ist _ _ _ _; simp
  | cons p ps ih =>
    intro pre fuel more only_ok num ist hbe hO hskip hfuel
    simp only [List.length_cons] at hfuel
    simp only [List.flatten_cons, List.append_assoc] at hbe
    obtain ⟨hsp, hok⟩ := hO p (by simp)
    obtain ⟨more1, ok1, ist1, h1, -, -, -, h4, -⟩ := count_signal_loop_packet leint_bytes
      n_found state b pre p (ps.flatten ++ rest) hb hbe hsp fuel eof more only_ok num ist
      hskip (by omega)
    obtain ⟨e1, e2, e3⟩ := h4 hok heven
    rw [if_neg hok.not_eof, Int.add_zero, e1, e2, e3] at h1
    have h := ih (pre ++ p) (fuel - 1)
      (decide (ok_status leint_bytes p &&& SERVER_MORE_RESULTS_EXIST ≠ 0)) only_ok (num + 1)
      ist (by rw [hbe]; simp only [List.append_assoc]) (fun q hq => hO q (by simp [hq]))
      hskip (by omega)
    simp only [List.length_append] at h
    rw [h1, h]
    simp only [List.length_cons, List.flatten_cons, List.length_append, List.foldl_cons]
    have e1 : fuel - 1 - ps.length = fuel - (ps.length + 1) := by omega
    have e2 : pre.length + p.length + ps.flatten.length
        = pre.length + (p.length + ps.flatten.length) := by omega
    have e3 : num + 1 + ps.length = num + (ps.length + 1) := by omega
    rw [e1, e2, e3]

/-- Claim C24 as stated does not hold when the state says that a continuation is pending:
of two OK packets the first is then passed as the rest of a large packet, `only_ok` is
cleared, and the result is `n_found` (4) and not 2. -/
theorem modutil_count_signal_packets_only_ok_pending :
    modutil_count_signal_packets (fun _ => 1)
        [[7, 0, 0, 1, 0, 0, 0, 0, 0, 0, 0] ++ [7, 0, 0, 2, 0, 0, 0, 0, 0, 0, 0]]
        4 (some ⟨1⟩) = some ⟨4, false, some ⟨0⟩⟩ := by
  decide

/-- Claim C24, amended. For every even `n_found` in the range of `int` and a reply of OK
packets of ordinary size (first payload byte `0x00`, at least 11 bytes) for which the OK
branch is well defined, met with `SKIP_NEXT` clear: when the reply holds two or more packets
and the status of the last lacks `SERVER_MORE_RESULTS_EXIST`, the result is 2 with
`more_out` false; when the status of the last carries the flag, the result is `n_found` with
`more_out` true; and a reply of one OK packet gives `n_found`, with `more_out` as its status
says. -/
theorem modutil_count_signal_packets_only_ok (leint_bytes : List Nat → Nat)
    (O : List (List Nat)) (last : List Nat) (n_found : Int) (state : Option modutil_state)
    (heven : n_found % 2 = 0)
    (hlo : -2 ^ 31 ≤ n_found) (hhi : n_found < 2 ^ 31)
    (hO : ∀ p ∈ O ++ [last], SignalPacket p ∧ IsOkPacket p ∧ OkReadable leint_bytes p)
    (hlen : (O ++ [last]).flatten.length < 2 ^ 32)
    (hskip : incoming_state state &&& SKIP_NEXT = 0) :
    (O ≠ [] → ok_status leint_bytes last &&& SERVER_MORE_RESULTS_EXIST = 0 →
      modutil_count_signal_packets leint_bytes [(O ++ [last]).flatten] n_found state
        = some ⟨2, false, state.map (fun _ => ⟨incoming_state state⟩)⟩)
    ∧ (O ≠ [] → ok_status leint_bytes last &&& SERVER_MORE_RESULTS_EXIST ≠ 0 →
      modutil_count_signal_packets leint_bytes [(O ++ [last]).flatten] n_found state
        = some ⟨n_found, true, state.map (fun _ => ⟨incoming_state state⟩)⟩)
    ∧ modutil_count_signal_packets leint_bytes [last] n_found state
        = some ⟨n_found, decide (ok_status leint_bytes last &&& SERVER_MORE_RESULTS_EXIST ≠ 0),
            state.map (fun _ => ⟨incoming_state state⟩)⟩ := by
  have hto : to_int n_found = n_found := to_int_of_range _ hlo hhi
  have hO' : ∀ p ∈ O ++ [last], SignalPacket p ∧ IsOkPacket p :=
    fun p hp => ⟨(hO p hp).1, (hO p hp).2.1⟩
  have hl := length_le_flatten_of_wf (O ++ [last]) (fun p hp => (hO p hp).1.1)
  have hrun : modutil_count_signal_packets leint_bytes [(O ++ [last]).flatten] n_found state
      = some (count_signal_finish n_found state
          ⟨[(O ++ [last]).flatten], (O ++ [last]).flatten.length, (O ++ [last]).flatten.length,
            0, decide (ok_status leint_bytes last &&& SERVER_MORE_RESULTS_EXIST ≠ 0), true,
            O.length + 1, incoming_state state⟩) := by
    rw [modutil_count_signal_packets_single _ _ _ _ hlen]
    have h := count_signal_loop_oks leint_bytes n_found state (O ++ [last]).flatten [] hlen
      (O ++ [last]) 0 (by simpa using heven) [] (O ++ [last]).flatten.length false true 0
      (incoming_state state) (by simp) hO' hskip (by omega)
    simp only [List.length_nil, Nat.zero_add] at h
    rw [h, count_signal_loop_done _ _ _ _ _ (by simp)]
    simp only [List.foldl_append, List.foldl_cons, List.foldl_nil, List.length_append,
      List.length_singleton]
  have hlast : modutil_count_signal_packets leint_bytes [last] n_found state
      = some ⟨n_found, decide (ok_status leint_bytes last &&& SERVER_MORE_RESULTS_EXIST ≠ 0),
          state.map (fun _ => ⟨incoming_state state⟩)⟩ := by
    have hsp := hO' last (by simp)
    have hle : last.length < 2 ^ 32 := by
      simp only [List.flatten_append, List.length_append, List.flatten_cons, List.flatten_nil,
        List.append_nil] at hlen
      omega
    rw [modutil_count_signal_packets_single _ _ _ _ hle]
    have h := count_signal_loop_oks leint_bytes n_found state last [] hle [last] 0
      (by simpa using heven) [] last.length false true 0 (incoming_state state) (by simp)
      (fun p hp => by rw [List.mem_singleton.mp hp]; exact hsp) hskip
      (by have := hsp.1.2.1; simp only [List.length_singleton]; omega)
    simp only [List.length_nil, Nat.zero_add] at h
    rw [h, count_signal_loop_done _ _ _ _ _ (by simp)]
    simp [count_signal_finish, hto]
  refine ⟨fun hne hst => ?_, fun hne hst => ?_, hlast⟩
  · have hpos : 0 < O.length := List.length_pos.mpr hne
    rw [hrun]
    simp only [count_signal_finish, hst, ne_eq, not_true_eq_false, decide_False]
    rw [if_pos ⟨trivial, by simp, by omega⟩]
  · rw [hrun]
    simp [count_signal_finish, hst, hto]

/-- Claim C24, an instance: two OK packets of 11 bytes with status 0 give 2 where `n_found`
is 4, and one of them alone gives 4. -/
theorem modutil_count_signal_packets_only_ok_example :
    modutil_count_signal_packets (fun _ => 1)
        [([[7, 0, 0, 1, 0, 0, 0, 0, 0, 0, 0]] ++ [[7, 0, 0, 2, 0, 0, 0, 0, 0, 0, 0]]).flatten]
        4 none = some ⟨2, false, none⟩
    ∧ modutil_count_signal_packets (fun _ => 1) [[7, 0, 0, 2, 0, 0, 0, 0, 0, 0, 0]] 4 none
        = some ⟨4, false, none⟩ :=
  ⟨(modutil_count_signal_packets_only_ok (fun _ => 1) [[7, 0, 0, 1, 0, 0, 0, 0, 0, 0, 0]]
      [7, 0, 0, 2, 0, 0, 0, 0, 0, 0, 0] 4 none (by decide) (by decide) (by decide) (by decide)
      (by decide) (by decide)).1 (by decide) (by decide),
    by decide⟩

/-! ### Signal packets: the flag of OUT parameters -/

theorem ps_of_skip_or (ist : Nat) : (ist ||| SKIP_NEXT) &&& PS_OUT_PARAM = ist &&& PS_OUT_PARAM := by
  rw [Nat.and_distrib_right]
  have h : SKIP_NEXT &&& PS_OUT_PARAM = 0 := by decide
  rw [h, Nat.or_zero]

theorem ps_of_skip_clear (ist : Nat) :
    (ist &&& (0xff - SKIP_NEXT)) &&& PS_OUT_PARAM = ist &&& PS_OUT_PARAM := by
  have h : (0xff - SKIP_NEXT) &&& PS_OUT_PARAM = PS_OUT_PARAM := by decide
  rw [Nat.and_assoc, h]

theorem passes_wf (leint_bytes : List Nat → Nat) (ok_allowed even : Bool) (D : List (List Nat)) :
    ∀ (skip x : Bool), passes leint_bytes ok_allowed even skip D = some x →
      ∀ p ∈ D, WellFormedPacket p := by
  induction D with
  | nil => intro _ _ _ p hp; simp at hp
  | cons q D ih =>
    intro skip x h p hp
    simp only [passes] at h
    rcases List.mem_cons.mp hp with rfl | hp
    · split_ifs at h with h1 h2 h3 h4
      · exact h1.1
      · exact h3
      · exact h4.1.1
    · split_ifs at h with h1 h2 h3 h4
      · exact ih _ _ h p hp
      · exact ih _ _ h p hp
      · exact ih _ _ h p hp

theorem passes_length (leint_bytes : List Nat → Nat) (ok_allowed even : Bool)
    (D : List (List Nat)) (skip x : Bool) (h : passes leint_bytes ok_allowed even skip D = some x) :
    D.length ≤ D.flatten.length := by
  have := length_le_flatten_of_wf D (passes_wf leint_bytes ok_allowed even D skip x h)
  omega

/-- The loop over packets that are passed: the EOF count and the `PS_OUT_PARAM` bit stay as
they are, `SKIP_NEXT` is set behind them exactly when a continuation is pending, and `more`
stays as it is unless an OK packet may be read. -/
theorem count_signal_loop_passes (leint_bytes : List Nat → Nat) (n_found : Int)
    (state : Option modutil_state) (b rest : List Nat) (hb : b.length < 2 ^ 32)
    (ok_allowed even : Bool) (eof : Int) (hev : decide ((eof + n_found) % 2 = 0) = even)
    (D : List (List Nat)) :
    ∀ (pre : List Nat) (fuel : Nat) (more only_ok : Bool) (num ist : Nat) (skip x : Bool),
      b = pre ++ (D.flatten ++ rest) →
      passes leint_bytes ok_allowed even skip D = some x →
      (skip = true ↔ ist &&& SKIP_NEXT ≠ 0) →
      D.length ≤ fuel →
      ∃ more' only_ok' num' ist',
        count_signal_loop leint_bytes n_found state fuel
          ⟨[b], b.length, pre.length, eof, more, only_ok, num, ist⟩
        = count_signal_loop leint_bytes n_found state (fuel - D.length)
          ⟨[b], b.length, pre.length + D.flatten.length, eof, more', only_ok', num', ist'⟩
        ∧ (x = true ↔ ist' &&& SKIP_NEXT ≠ 0)
        ∧ ist' &&& PS_OUT_PARAM = ist &&& PS_OUT_PARAM
        ∧ (ok_allowed = false → more' = more) := by
  induction D with
  | nil =>
    intro pre fuel more only_ok num ist skip x _ hp hsk _
    simp only [passes, Option.some.injEq] at hp
    subst hp
    exact ⟨more, only_ok, num, ist, by simp, hsk, rfl, fun _ => rfl⟩
  | cons p D ih =>
    intro pre fuel more only_ok num ist skip x hbe hp hsk hfuel
    simp only [List.length_cons] at hfuel
    simp only [List.flatten_cons, List.append_assoc] at hbe
    have hbe' : b = (pre ++ p) ++ (D.flatten ++ rest) := by
      rw [hbe]; simp only [List.append_assoc]
    have e1 : fuel - 1 - D.length = fuel - (D.length + 1) := by omega
    have e2 : pre.length + p.length + D.flatten.length
        = pre.length + (p.length + D.flatten.length) := by omega
    simp only [passes] at hp
    by_cases hmax : MaxPacket p
    · rw [if_pos hmax] at hp
      obtain ⟨more', ok', num', ist', h, hx, hps, hm⟩ := ih (pre ++ p) (fuel - 1) more false
        (num + 1) (ist ||| SKIP_NEXT) true x hbe' hp
        (by simp only [true_iff]; exact or_and_self_ne_zero ist SKIP_NEXT (by decide))
        (by omega)
      refine ⟨more', ok', num', ist', ?_, hx, ?_, hm⟩
      · rw [count_signal_loop_max leint_bytes n_found state b pre p (D.flatten ++ rest) hb hbe
          hmax fuel eof more only_ok num ist (by omega)]
        simp only [List.length_append] at h
        rw [h]
        simp only [List.length_cons, List.flatten_cons, List.length_append, e1, e2]
      · rw [hps, ps_of_skip_or]
    · rw [if_neg hmax] at hp
      by_cases hskip : skip = true
      · rw [if_pos hskip] at hp
        by_cases hwf : WellFormedPacket p
        · rw [if_pos hwf] at hp
          have hnm : gw_mysql_get_byte3 p ≠ GW_MYSQL_MAX_PACKET_LEN := fun h => hmax ⟨hwf, h⟩
          obtain ⟨more', ok', num', ist', h, hx, hps, hm⟩ := ih (pre ++ p) (fuel - 1) more false
            (num + 1) (ist &&& (0xff - SKIP_NEXT)) false x hbe' hp
            (by simp only [Bool.false_eq_true, false_iff, not_not]; exact skip_cleared ist)
            (by omega)
          refine ⟨more', ok', num', ist', ?_, hx, ?_, hm⟩
          · rw [count_signal_loop_continuation leint_bytes n_found state b pre p
              (D.flatten ++ rest) hb hbe hwf hnm fuel eof more only_ok num ist (hsk.mp hskip)
              (by omega)]
            simp only [List.length_append] at h
            rw [h]
            simp only [List.length_cons, List.flatten_cons, List.length_append, e1, e2]
          · rw [hps, ps_of_skip_clear]
        · rw [if_neg hwf] at hp
          exact absurd hp (by simp)
      · rw [if_neg hskip] at hp
        have hskip0 : ist &&& SKIP_NEXT = 0 := by
          by_contra hne
          exact hskip (hsk.mpr hne)
        by_cases hpp : PassedPacket leint_bytes ok_allowed even p
        · rw [if_pos hpp] at hp
          obtain ⟨hsp, hneof, hokc⟩ := hpp
          obtain ⟨more1, ok1, ist1, h1, hs1, -, hn1, ho1, hd1⟩ := count_signal_loop_packet
            leint_bytes n_found state b pre p (D.flatten ++ rest) hb hbe hsp fuel eof more
            only_ok num ist hskip0 (by omega)
          rw [if_neg hneof, Int.add_zero] at h1
          have hkeep : ist1 = ist ∧ (ok_allowed = false → more1 = more) := by
            by_cases hok : IsOkPacket p
            · by_cases he : (eof + n_found) % 2 = 0
              · have heven : even = true := by rw [← hev]; simpa using he
                have hoa := (hokc hok heven).1
                exact ⟨(ho1 hok he).2.2, fun h => by rw [hoa] at h; exact absurd h (by decide)⟩
              · exact ⟨(hd1 hok he).2.2, fun _ => (hd1 hok he).1⟩
            · exact ⟨(hn1 hneof hok).2.2, fun _ => (hn1 hneof hok).1⟩
          obtain ⟨more', ok', num', ist', h, hx, hps, hm⟩ := ih (pre ++ p) (fuel - 1) more1 ok1
            (num + 1) ist1 false x hbe' hp
            (by simp only [Bool.false_eq_true, false_iff, not_not]; exact hs1)
            (by omega)
          refine ⟨more', ok', num', ist', ?_, hx, ?_, ?_⟩
          · rw [h1]
            simp only [List.length_append] at h
            rw [h]
            simp only [List.length_cons, List.flatten_cons, List.length_append, e1, e2]
          · rw [hps, hkeep.1]
          · intro hoa
            rw [hm hoa, hkeep.2 hoa]
        · rw [if_neg hpp] at hp
          exact absurd hp (by simp)

theorem SignalPacket.plain_of_eof {p : List Nat} (h : SignalPacket p) (heof : IsEofPacket p) :
    PlainPacket p :=
  ⟨h.1, h.2.1, h.2.2.1, h.2.2.2, fun hok => by
    have h1 := heof.1
    rw [hok.1] at h1
    exact absurd h1 (by decide)⟩

/-- The loop over packets that are passed and the EOF packet behind them, which is inspected:
the EOF count grows by one, a status with `SERVER_PS_OUT_PARAMS` sets the `PS_OUT_PARAM` bit,
a status without it clears the bit and reports `more` when the bit was set. -/
theorem count_signal_loop_to_eof (leint_bytes : List Nat → Nat) (n_found : Int)
    (state : Option modutil_state) (b pre rest : List Nat) (hb : b.length < 2 ^ 32)
    (even : Bool) (eof : Int) (hev : decide ((eof + n_found) % 2 = 0) = even)
    (D : List (List Nat)) (E : List Nat) (hE : SignalPacket E ∧ IsEofPacket E)
    (hbe : b = pre ++ (D.flatten ++ (E ++ rest))) (skip : Bool)
    (hD : passes leint_bytes true even skip D = some false)
    (fuel : Nat) (more only_ok : Bool) (num ist : Nat)
    (hsk : skip = true ↔ ist &&& SKIP_NEXT ≠ 0) (hfuel : D.length + 1 ≤ fuel) :
    ∃ more' only_ok' num' ist',
      count_signal_loop leint_bytes n_found state fuel
          ⟨[b], b.length, pre.length, eof, more, only_ok, num, ist⟩
        = count_signal_loop leint_bytes n_found state (fuel - D.length - 1)
          ⟨[b], b.length, pre.length + D.flatten.length + E.length, eof + 1, more', only_ok',
            num', ist'⟩
      ∧ ist' &&& SKIP_NEXT = 0
      ∧ (eof_status E &&& SERVER_PS_OUT_PARAMS ≠ 0 → ist' &&& PS_OUT_PARAM ≠ 0)
      ∧ (eof_status E &&& SERVER_PS_OUT_PARAMS = 0 → ist' &&& PS_OUT_PARAM = 0)
      ∧ (eof_status E &&& SERVER_PS_OUT_PARAMS = 0 → ist &&& PS_OUT_PARAM ≠ 0 → more' = true)
      ∧ (eof_status E &&& SERVER_PS_OUT_PARAMS = 0 → ist &&& PS_OUT_PARAM = 0 →
          more' = decide (eof_status E &&& SERVER_MORE_RESULTS_EXIST ≠ 0)) := by
  obtain ⟨more1, ok1, num1, ist1, h1, hx1, hps1, -⟩ := count_signal_loop_passes leint_bytes
    n_found state b (E ++ rest) hb true even eof hev D pre fuel more only_ok num ist skip false
    hbe hD hsk (by omega)
  have hs1 : ist1 &&& SKIP_NEXT = 0 := by
    by_contra hne
    exact absurd (hx1.mpr hne) (by decide)
  obtain ⟨more2, ist2, h2, hs2, hset, hcons, hplain⟩ := count_signal_loop_eof leint_bytes n_found
    state b (pre ++ D.flatten) E rest hb (by rw [hbe]; simp only [List.append_assoc])
    (hE.1.plain_of_eof hE.2) hE.2 (fuel - D.length) eof more1 ok1 num1 ist1 hs1 (by omega)
  simp only [List.length_append] at h2
  refine ⟨more2, false, num1 + 1, ist2, by rw [h1, h2], hs2, hset, ?_, ?_, ?_⟩
  · intro hst
    by_cases hist : ist1 &&& PS_OUT_PARAM = 0
    · rw [(hplain hst hist).2]; exact hist
    · exact (hcons hst hist).2
  · intro hst hist
    exact (hcons hst (by rw [hps1]; exact hist)).1
  · intro hst hist
    exact (hplain hst (by rw [hps1]; exact hist)).1

theorem skip_flag_of_state (s : modutil_state) :
    (decide (s.state &&& SKIP_NEXT ≠ 0) = true ↔ incoming_state (some s) &&& SKIP_NEXT ≠ 0) := by
  simp only [incoming_state, mod_256_and_skip, decide_eq_true_eq]

/-- One call whose stream holds one inspected EOF packet among packets that are passed. -/
theorem count_signal_call_eof (leint_bytes : List Nat → Nat) (n_found : Int) (s : modutil_state)
    (D D' : List (List Nat)) (E : List Nat) (ok_allowed x : Bool)
    (hlen : (D.flatten ++ (E ++ D'.flatten)).length < 2 ^ 32)
    (hE : SignalPacket E ∧ IsEofPacket E)
    (hD : passes leint_bytes true (decide (n_found % 2 = 0))
      (decide (s.state &&& SKIP_NEXT ≠ 0)) D = some false)
    (hD' : passes leint_bytes ok_allowed (decide ((n_found + 1) % 2 = 0)) false D' = some x) :
    ∃ r ist',
      modutil_count_signal_packets leint_bytes [D.flatten ++ (E ++ D'.flatten)] n_found (some s)
        = some r
      ∧ r.state = some ⟨ist'⟩
      ∧ (x = true ↔ ist' &&& SKIP_NEXT ≠ 0)
      ∧ (eof_status E &&& SERVER_PS_OUT_PARAMS ≠ 0 → ist' &&& PS_OUT_PARAM ≠ 0)
      ∧ (eof_status E &&& SERVER_PS_OUT_PARAMS = 0 → ist' &&& PS_OUT_PARAM = 0)
      ∧ (ok_allowed = false → eof_status E &&& SERVER_PS_OUT_PARAMS = 0 →
          s.state &&& PS_OUT_PARAM ≠ 0 → r.more_out = true)
      ∧ (ok_allowed = false → eof_status E &&& SERVER_PS_OUT_PARAMS = 0 →
          s.state &&& PS_OUT_PARAM = 0 →
          r.more_out = decide (eof_status E &&& SERVER_MORE_RESULTS_EXIST ≠ 0)) := by
  have l1 := passes_length _ _ _ D _ _ hD
  have l2 := passes_length _ _ _ D' _ _ hD'
  have e9 : E.length = 9 := hE.2.2
  have hlen' := hlen
  simp only [List.length_append] at hlen'
  obtain ⟨more1, ok1, num1, ist1, h1, hs1, hset1, hclr1, hm1, hm1'⟩ := count_signal_loop_to_eof
    leint_bytes n_found (some s) (D.flatten ++ (E ++ D'.flatten)) [] D'.flatten hlen
    (decide (n_found % 2 = 0)) 0 (by simp) D E hE rfl (decide (s.state &&& SKIP_NEXT ≠ 0)) hD
    (D.flatten ++ (E ++ D'.flatten)).length false true 0 (incoming_state (some s))
    (skip_flag_of_state s) (by simp only [List.length_append]; omega)
  obtain ⟨more2, ok2, num2, ist2, h2, hx2, hps2, hm2⟩ := count_signal_loop_passes leint_bytes
    n_found (some s) (D.flatten ++ (E ++ D'.flatten)) [] hlen ok_allowed
    (decide ((n_found + 1) % 2 = 0)) (0 + 1)
    (decide_eq_decide.mpr (by constructor <;> intro h <;> omega)) D' (D.flatten ++ E)
    ((D.flatten ++ (E ++ D'.flatten)).length - D.length - 1) more1 ok1 num1 ist1 false x
    (by simp only [List.append_assoc, List.append_nil]) hD'
    (by simp only [Bool.false_eq_true, false_iff, not_not]; exact hs1)
    (by simp only [List.length_append]; omega)
  simp only [List.length_nil, Nat.zero_add, List.length_append] at h1 h2
  have hps : incoming_state (some s) &&& PS_OUT_PARAM = s.state &&& PS_OUT_PARAM := by
    simp only [incoming_state, mod_256_and_ps]
  have hs := modutil_count_signal_packets_single leint_bytes
    (D.flatten ++ (E ++ D'.flatten)) n_found (some s) hlen
  simp only [List.length_append] at hs
  have hcall := hs.trans (h1.trans (h2.trans
    (count_signal_loop_done _ _ _ _ _ (by simp only []; omega))))
  refine ⟨_, ist2, hcall, ?_, hx2, ?_, ?_, ?_, ?_⟩
  · simp [count_signal_finish]
  · intro hst; rw [hps2]; exact hset1 hst
  · intro hst; rw [hps2]; exact hclr1 hst
  · intro hoa hst hist
    simp only [count_signal_finish]
    rw [hm2 hoa]
    exact hm1 hst (by rw [hps]; exact hist)
  · intro hoa hst hist
    simp only [count_signal_finish]
    rw [hm2 hoa]
    exact hm1' hst (by rw [hps]; exact hist)

/-- One call whose stream holds two inspected EOF packets among packets that are passed, the
first with `SERVER_PS_OUT_PARAMS` and the second without. -/
theorem count_signal_call_two_eof (leint_bytes : List Nat → Nat) (n_found : Int)
    (s : modutil_state) (D1 D23 D4 : List (List Nat)) (E1 E2 : List Nat) (x : Bool)
    (hlen : (D1.flatten ++ (E1 ++ (D23.flatten ++ (E2 ++ D4.flatten)))).length < 2 ^ 32)
    (hE1 : SignalPacket E1 ∧ IsEofPacket E1) (hE2 : SignalPacket E2 ∧ IsEofPacket E2)
    (h1 : eof_status E1 &&& SERVER_PS_OUT_PARAMS ≠ 0)
    (h2 : eof_status E2 &&& SERVER_PS_OUT_PARAMS = 0)
    (hD1 : passes leint_bytes true (decide (n_found % 2 = 0))
      (decide (s.state &&& SKIP_NEXT ≠ 0)) D1 = some false)
    (hD23 : passes leint_bytes true (decide ((n_found + 1) % 2 = 0)) false D23 = some false)
    (hD4 : passes leint_bytes false (decide (n_found % 2 = 0)) false D4 = some x) :
    ∃ r ist',
      modutil_count_signal_packets leint_bytes
          [D1.flatten ++ (E1 ++ (D23.flatten ++ (E2 ++ D4.flatten)))] n_found (some s)
        = some r
      ∧ r.state = some ⟨ist'⟩
      ∧ (x = true ↔ ist' &&& SKIP_NEXT ≠ 0)
      ∧ ist' &&& PS_OUT_PARAM = 0
      ∧ r.more_out = true := by
  have l1 := passes_length _ _ _ D1 _ _ hD1
  have l2 := passes_length _ _ _ D23 _ _ hD23
  have l4 := passes_length _ _ _ D4 _ _ hD4
  have e1 : E1.length = 9 := hE1.2.2
  have e2 : E2.length = 9 := hE2.2.2
  have hlen' := hlen
  simp only [List.length_append] at hlen'
  obtain ⟨more1, ok1, num1, ist1, g1, hs1, hset1, -, -, -⟩ := count_signal_loop_to_eof
    leint_bytes n_found (some s) (D1.flatten ++ (E1 ++ (D23.flatten ++ (E2 ++ D4.flatten)))) []
    (D23.flatten ++ (E2 ++ D4.flatten)) hlen
    (decide (n_found % 2 = 0)) 0 (by simp) D1 E1 hE1 rfl (decide (s.state &&& SKIP_NEXT ≠ 0)) hD1
    (D1.flatten ++ (E1 ++ (D23.flatten ++ (E2 ++ D4.flatten)))).length false true 0
    (incoming_state (some s)) (skip_flag_of_state s) (by simp only [List.length_append]; omega)
  obtain ⟨more2, ok2, num2, ist2, g2, hs2, -, hclr2, hm2, -⟩ := count_signal_loop_to_eof
    leint_bytes n_found (some s) (D1.flatten ++ (E1 ++ (D23.flatten ++ (E2 ++ D4.flatten))))
    (D1.flatten ++ E1) D4.flatten hlen
    (decide ((n_found + 1) % 2 = 0)) (0 + 1)
    (decide_eq_decide.mpr (by constructor <;> intro h <;> omega)) D23 E2 hE2
    (by simp only [List.append_assoc]) false hD23
    ((D1.flatten ++ (E1 ++ (D23.flatten ++ (E2 ++ D4.flatten)))).length - D1.length - 1)
    more1 ok1 num1 ist1
    (by simp only [Bool.false_eq_true, false_iff, not_not]; exact hs1)
    (by simp only [List.length_append]; omega)
  obtain ⟨more3, ok3, num3, ist3, g3, hx3, hps3, hm3⟩ := count_signal_loop_passes leint_bytes
    n_found (some s) (D1.flatten ++ (E1 ++ (D23.flatten ++ (E2 ++ D4.flatten)))) [] hlen false
    (decide (n_found % 2 = 0)) (0 + 1 + 1)
    (decide_eq_decide.mpr (by constructor <;> intro h <;> omega)) D4
    (D1.flatten ++ E1 ++ D23.flatten ++ E2)
    ((D1.flatten ++ (E1 ++ (D23.flatten ++ (E2 ++ D4.flatten)))).length - D1.length - 1
      - D23.length - 1) more2 ok2 num2 ist2 false x
    (by simp only [List.append_assoc, List.append_nil]) hD4
    (by simp only [Bool.false_eq_true, false_iff, not_not]; exact hs2)
    (by simp only [List.length_append]; omega)
  simp only [List.length_nil, Nat.zero_add, List.length_append] at g1 g2 g3
  have hs := modutil_count_signal_packets_single leint_bytes
    (D1.flatten ++ (E1 ++ (D23.flatten ++ (E2 ++ D4.flatten)))) n_found (some s) hlen
  simp only [List.length_append] at hs
  have hcall := hs.trans (g1.trans (g2.trans (g3.trans
    (count_signal_loop_done _ _ _ _ _ (by simp only []; omega)))))
  refine ⟨_, ist3, hcall, ?_, hx3, ?_, ?_⟩
  · simp [count_signal_finish]
  · rw [hps3]; exact hclr2 h2
  · simp only [count_signal_finish]
    rw [hm3 rfl]
    exact hm2 h2 (hset1 h1)

theorem skip_c_comment_suffix : ∀ (l : List Nat), skip_c_comment l <:+ l := by
  intro l
  induction l with
  | nil => simp [skip_c_comment]
  | cons c rest ih =>
    rcases rest with _ | ⟨d, rest'⟩
    · simp only [skip_c_comment]
      split <;> simp
    · simp only [skip_c_comment]
      split
      · split
        · exact (List.suffix_cons d rest').trans (List.suffix_cons c _)
        · exact ih.trans (List.suffix_cons c _)
      · exact ih.trans (List.suffix_cons c _)

theorem skip_to_newline_suffix : ∀ (l : List Nat), skip_to_newline l <:+ l := by
  intro l
  induction l with
  | nil => simp [skip_to_newline]
  | cons c rest ih =>
    simp only [skip_to_newline]
    split
    · exact List.suffix_cons c rest
    · exact ih.trans (List.suffix_cons c rest)

theorem bypass_whitespace_step_next (c : Nat) (rest i : List Nat)
    (h : bypass_whitespace_step c rest = .next i) : i <:+ rest := by
  unfold bypass_whitespace_step at h
  split at h
  · injection h with h; subst h; exact List.suffix_refl _
  · split at h
    · split at h
      · injection h with h; subst h
        exact (skip_c_comment_suffix _).trans (List.suffix_cons _ _)
      · exact absurd h (by simp)
    · split at h
      · split at h
        · split at h
          · injection h with h; subst h
            exact (skip_to_newline_suffix _).trans
              ((List.suffix_cons _ _).trans (List.suffix_cons _ _))
          · exact absurd h (by simp)
        · exact absurd h (by simp)
      · split at h <;> exact absurd h (by simp)

theorem bypass_whitespace_step_stop (c : Nat) (rest i : List Nat)
    (h : bypass_whitespace_step c rest = .stop i) :
    (i = c :: rest ∧ is_space c = false ∧ begins_comment (c :: rest) = false)
    ∨ (c = 35 ∧ i = skip_to_newline rest) := by
  unfold bypass_whitespace_step at h
  split at h
  · exact absurd h (by simp)
  · rename_i hsp
    have hsp' : is_space c = false := by simpa using hsp
    split at h
    · rename_i h47
      have hc : c = 47 := by simpa using h47
      subst hc
      split at h
      · exact absurd h (by simp)
      · rename_i hne
        injection h with h; subst h
        left
        refine ⟨rfl, hsp', ?_⟩
        rcases rest with _ | ⟨d, r⟩
        · rfl
        · by_cases hd : d = 42
          · subst hd; exact absurd rfl (hne r)
          · simp [begins_comment, hd]
    · rename_i h47
      have hc47 : c ≠ 47 := by simpa using h47
      split at h
      · rename_i h45
        have hc : c = 45 := by simpa using h45
        subst hc
        split at h
        · split at h
          · exact absurd h (by simp)
          · rename_i hs
            injection h with h; subst h
            left
            refine ⟨rfl, hsp', ?_⟩
            simpa [begins_comment] using hs
        · rename_i hne
          injection h with h; subst h
          left
          refine ⟨rfl, hsp', ?_⟩
          rcases rest with _ | ⟨d, _ | ⟨s, r⟩⟩
          · rfl
          · by_cases hd : d = 45
            · subst hd; rfl
            · simp [begins_comment, hd]
          · by_cases hd : d = 45
            · subst hd; exact absurd rfl (hne s r)
            · simp [begins_comment, hd]
      · rename_i h45
        have hc45 : c ≠ 45 := by simpa using h45
        split at h
        · rename_i h35
          have hc : c = 35 := by simpa using h35
          injection h with h
          exact Or.inr ⟨hc, h.symm⟩
        · rename_i h35
          have hc35 : c ≠ 35 := by simpa using h35
          injection h with h; subst h
          left
          refine ⟨rfl, hsp', ?_⟩
          unfold begins_comment
          split
          · rename_i heq; injection heq with h1 _; exact absurd h1 hc47
          · rename_i heq; injection heq with h1 _; exact absurd h1 hc45
          · rename_i heq; injection heq with h1 _; exact absurd h1 hc35
          · rfl

/-- The outer loop returns, at the end of the text, or at a byte that is neither whitespace
nor the start of a comment, or right after the line of a hash sign. -/
theorem bypass_whitespace_loop_spec : ∀ (fuel : Nat) (l : List Nat), l.length ≤ fuel →
    ∃ i, bypass_whitespace_loop fuel l = some i ∧ i <:+ l
      ∧ (i = []
        ∨ (∃ c, i.head? = some c ∧ is_space c = false ∧ begins_comment i = false)
        ∨ (∃ pre t, l = pre ++ 35 :: t ∧ i = skip_to_newline t)) := by
  intro fuel
  induction fuel with
  | zero =>
    intro l hl
    have : l = [] := List.length_eq_zero.mp (by omega)
    subst this
    exact ⟨[], by simp [bypass_whitespace_loop], List.suffix_refl _, Or.inl rfl⟩
  | succ fuel ih =>
    intro l hl
    rcases l with _ | ⟨c, rest⟩
    · exact ⟨[], by simp [bypass_whitespace_loop], List.suffix_refl _, Or.inl rfl⟩
    · simp only [bypass_whitespace_loop]
      rcases hstep : bypass_whitespace_step c rest with i | i
      · have hsuf := bypass_whitespace_step_next c rest i hstep
        have hlen := hsuf.length_le
        obtain ⟨j, hj, hjs, hj3⟩ := ih i (by simp at hl; omega)
        refine ⟨j, hj, hjs.trans (hsuf.trans (List.suffix_cons c rest)), ?_⟩
        rcases hj3 with h | h | ⟨pre, t, hpre, ht⟩
        · exact Or.inl h
        · exact Or.inr (Or.inl h)
        · obtain ⟨p, hp⟩ := hsuf.trans (List.suffix_cons c rest)
          refine Or.inr (Or.inr ⟨p ++ pre, t, ?_, ht⟩)
          rw [← hp, hpre, List.append_assoc]
      · refine ⟨i, rfl, ?_, ?_⟩
        · rcases bypass_whitespace_step_stop c rest i hstep with ⟨h, -, -⟩ | ⟨-, h⟩
          · rw [h]
          · rw [h]; exact (skip_to_newline_suffix _).trans (List.suffix_cons c rest)
        · rcases bypass_whitespace_step_stop c rest i hstep with ⟨h, h1, h2⟩ | ⟨hc, h⟩
          · subst h
            exact Or.inr (Or.inl ⟨c, rfl, h1, h2⟩)
          · subst hc
            exact Or.inr (Or.inr ⟨[], rest, rfl, h⟩)

/-- Claim C21. `modutil_MySQL_bypass_whitespace` returns a pointer inside the buffer or at its
end, and that pointer is at the end, or at a byte that is neither whitespace nor the start
of a comment, or right behind the line of a hash sign: after a hash comment the loop is
left, so whitespace and comments that follow it are not passed. For the text made of a hash
comment, a blank and `SELECT 1` the pointer is at the blank, and for a hash comment and a
blank it is not at the end. Two minus signs followed by a line feed take the next line for
the comment. -/
theorem modutil_MySQL_bypass_whitespace_stops (sql : List Nat) :
    (∃ k, modutil_MySQL_bypass_whitespace sql = some k ∧ k ≤ sql.length
      ∧ (k = sql.length
        ∨ (∃ c, (sql.drop k).head? = some c ∧ is_space c = false
            ∧ begins_comment (sql.drop k) = false)
        ∨ (∃ pre t, sql = pre ++ 35 :: t ∧ sql.drop k = skip_to_newline t)))
    ∧ modutil_MySQL_bypass_whitespace (bytes "# c\n SELECT 1") = some 4
    ∧ (bytes "# c\n SELECT 1").drop 4 = bytes " SELECT 1"
    ∧ modutil_MySQL_bypass_whitespace (bytes "# c\n ") = some 4
    ∧ (bytes "# c\n ").length = 5
    ∧ modutil_MySQL_bypass_whitespace (bytes "--\nSELECT 1") = some 11
    ∧ (bytes "--\nSELECT 1").length = 11
    ∧ modutil_MySQL_bypass_whitespace (bytes " /* c */ -- d\n SELECT 1") = some 15
    ∧ (bytes " /* c */ -- d\n SELECT 1").drop 15 = bytes "SELECT 1" := by
  refine ⟨?_, by decide, by decide, by decide, by decide, by decide, by decide, by decide,
    by decide⟩
  obtain ⟨i, hi, ⟨p, hp⟩, h3⟩ := bypass_whitespace_loop_spec sql.length sql (le_refl _)
  have hlen : sql.length = p.length + i.length := by rw [← hp]; simp
  have hk : sql.length - i.length = p.length := by omega
  have hdrop : sql.drop p.length = i := by rw [← hp]; simp
  refine ⟨p.length, ?_, by omega, ?_⟩
  · simp only [modutil_MySQL_bypass_whitespace, hi, Option.map_some', hk]
  · rw [hdrop]
    rcases h3 with h | h | h
    · left; rw [h] at hlen; simpa using hlen.symm
    · exact Or.inr (Or.inl h)
    · exact Or.inr (Or.inr h)

/-! ### The text of an ERR packet -/

theorem gw_mysql_get_byte3_set_byte3 (v : Nat) (rest : List Nat) (hv : v < 2 ^ 24) :
    gw_mysql_get_byte3 (gw_mysql_set_byte3 v ++ rest) = v := by
  simp only [gw_mysql_set_byte3, gw_mysql_get_byte3, List.cons_append, List.nil_append,
    List.getD_cons_zero, List.getD_cons_succ]
  omega

theorem uint16_message_length (n : Nat) :
    ((((4 : Int) + ((9 + n : Nat) : Int) - 4 - 1 - 2) % 2 ^ 16 - 6) % 2 ^ 16).toNat
      = n % 65536 := by
  omega

/-- The text `extract_error` returns for an ERR packet with the marker `#` whose header gives
the payload length `9 + |m|`: the marker, the five bytes after it, a colon and a blank, and
the first `|m| mod 65536` bytes of the message `m`. -/
theorem extract_error_marked (h0 h1 h2 seq e1 e2 s0 s1 s2 s3 s4 : Nat) (m : List Nat)
    (hg : gw_mysql_get_byte3 [h0, h1, h2] = 9 + m.length) :
    extract_error [[h0, h1, h2, seq, 0xff, e1, e2, 0x23, s0, s1, s2, s3, s4] ++ m]
      = [0x23, s0, s1, s2, s3, s4, 58, 32] ++ m.take (m.length % 65536) := by
  have hg' : gw_mysql_get_byte3 ([h0, h1, h2, seq, 0xff, e1, e2, 0x23, s0, s1, s2, s3, s4] ++ m)
      = 9 + m.length := by
    rw [← hg]; simp [gw_mysql_get_byte3]
  have hcopy : gwbuf_copy_data [[h0, h1, h2, seq, 0xff, e1, e2, 0x23, s0, s1, s2, s3, s4] ++ m]
      0 (9 + m.length + MYSQL_HEADER_LEN)
      = [h0, h1, h2, seq, 0xff, e1, e2, 0x23, s0, s1, s2, s3, s4] ++ m := by
    simp only [gwbuf_copy_data, List.flatten_cons, List.flatten_nil, List.append_nil,
      List.drop_zero]
    apply List.take_of_length_le
    simp only [List.length_append, List.length_cons, List.length_nil, MYSQL_HEADER_LEN]
    omega
  have hst : extract_error_state
      ([h0, h1, h2, seq, 0xff, e1, e2, 0x23, s0, s1, s2, s3, s4] ++ m) = (7, 6) := by
    simp [extract_error_state, MYSQL_HEADER_LEN]
  have hms : extract_error_message
      ([h0, h1, h2, seq, 0xff, e1, e2, 0x23, s0, s1, s2, s3, s4] ++ m)
      = (13, m.length % 65536) := by
    unfold extract_error_message
    rw [hg']
    simp only [MYSQL_HEADER_LEN]
    have h7 : ([h0, h1, h2, seq, 0xff, e1, e2, 0x23, s0, s1, s2, s3, s4] ++ m).getD (4 + 1 + 2) 0
        = 0x23 := by simp
    rw [h7]
    simp only [beq_self_eq_true, if_true]
    have := uint16_message_length m.length
    simp only [Nat.cast_ofNat] at this ⊢
    rw [this]
  unfold extract_error
  simp only [GWBUF_DATA, hg', hcopy, hst, hms]
  simp [MYSQL_IS_ERROR_PACKET, MYSQL_REPLY_ERR]

/-- What `extract_error` makes of the packet built by `modutil_create_mysql_err_msg`: the
marker, the state, a colon and a blank, and the first `|m| mod 65536` bytes of the
message. -/
theorem extract_error_of_created (packet_number affected_rows merrno : Int)
    (s m : List Nat) (hs : s.length = 5) (hm : 9 + m.length ≤ 0xFFFFFF) :
    ∃ buf, modutil_create_mysql_err_msg packet_number affected_rows merrno (some s) (some m)
        = some buf
      ∧ extract_error [buf] = 0x23 :: s ++ [58, 32] ++ m.take (m.length % 65536) := by
  have htake : (s ++ [0, 0, 0, 0, 0]).take 5 = s := by
    rw [List.take_append_of_le_length (by omega), List.take_of_length_le (by omega)]
  have hmod : (1 + 2 + 6 + m.length) % 2 ^ 32 = 9 + m.length := by
    rw [Nat.mod_eq_of_lt (by omega)]
  refine ⟨_, rfl, ?_⟩
  simp only [hmod, htake]
  obtain ⟨s0, s1, s2, s3, s4, rfl⟩ : ∃ a b c d e, s = [a, b, c, d, e] := by
    rcases s with _ | ⟨a, _ | ⟨b, _ | ⟨c, _ | ⟨d, _ | ⟨e, _ | ⟨f, l⟩⟩⟩⟩⟩⟩ <;> simp at hs
    exact ⟨a, b, c, d, e, rfl⟩
  have h := extract_error_marked ((9 + m.length) % 256) ((9 + m.length) / 256 % 256)
    ((9 + m.length) / 65536 % 256) (packet_number % 256).toNat
    ((merrno % 2 ^ 32).toNat % 256) ((merrno % 2 ^ 32).toNat / 256 % 256) s0 s1 s2 s3 s4 m
    (by simp only [gw_mysql_get_byte3, List.getD_cons_zero, List.getD_cons_succ]; omega)
  simp only [gw_mysql_set_byte3, gw_mysql_set_byte2, List.cons_append, List.nil_append,
    List.append_assoc] at h ⊢
  exact h

/-- The text `extract_error` returns for an ERR packet without the marker `#`: the bytes
after the error number, as many as the 16 bits of `nMessage` hold. -/
theorem extract_error_unmarked (p : List Nat) (hlen : p.length = gw_mysql_get_byte3 p + 4)
    (h8 : 8 ≤ p.length) (herr : p.getD 4 0 = 0xff) (hmark : p.getD 7 0 ≠ 0x23) :
    extract_error [p] = (p.drop 7).take ((p.length - 7) % 65536) := by
  have hcopy : gwbuf_copy_data [p] 0 (gw_mysql_get_byte3 p + MYSQL_HEADER_LEN) = p := by
    simp only [gwbuf_copy_data, List.flatten_cons, List.flatten_nil, List.append_nil,
      List.drop_zero]
    apply List.take_of_length_le
    simp only [MYSQL_HEADER_LEN]
    omega
  have hb : (p.getD 7 0 == 0x23) = false := beq_eq_false_iff_ne.mpr hmark
  have h7 : p.getD (4 + 1 + 2) 0 = p.getD 7 0 := rfl
  have hst : extract_error_state p = (7, 0) := by
    simp only [extract_error_state, MYSQL_HEADER_LEN, h7, hb, Bool.false_eq_true, if_false]
  have hms : extract_error_message p = (7, (p.length - 7) % 65536) := by
    simp only [extract_error_message, MYSQL_HEADER_LEN, h7, hb, Bool.false_eq_true, if_false,
      Prod.mk.injEq, true_and]
    omega
  have hie : MYSQL_IS_ERROR_PACKET p = true := by
    simp only [MYSQL_IS_ERROR_PACKET, MYSQL_REPLY_ERR, herr, beq_self_eq_true]
  unfold extract_error
  simp only [GWBUF_DATA, hcopy, hst, hms, hie, if_true, List.take_zero, List.isEmpty_nil]

theorem extract_error_not_error (q : List Nat) (h : q.getD 4 0 ≠ 0xff) :
    extract_error [q] = [] := by
  have hb : MYSQL_IS_ERROR_PACKET q = false := by
    simp only [MYSQL_IS_ERROR_PACKET, MYSQL_REPLY_ERR]
    exact beq_eq_false_iff_ne.mpr h
  unfold extract_error
  simp only [GWBUF_DATA, hb, Bool.false_eq_true, if_false]

/-- A message of 65536 bytes is lost: of the packet built for it `extract_error` returns
the marker, the state, the colon and the blank only. -/
theorem extract_error_of_long_message (packet_number affected_rows merrno : Int)
    (s : List Nat) (hs : s.length = 5) (n c : Nat) (hn : n = 65536) :
    ∃ buf, modutil_create_mysql_err_msg packet_number affected_rows merrno (some s)
          (some (List.replicate n c)) = some buf
      ∧ extract_error [buf] = 0x23 :: s ++ [58, 32]
      ∧ extract_error [buf] ≠ 0x23 :: s ++ [58, 32] ++ List.replicate n c := by
  obtain ⟨buf, h1, h2⟩ := extract_error_of_created packet_number affected_rows merrno s
    (List.replicate n c) hs (by rw [List.length_replicate]; omega)
  have h0 : (List.replicate n c).length % 65536 = 0 := by
    rw [List.length_replicate, hn]
  rw [h0, List.take_zero, List.append_nil] at h2
  refine ⟨buf, h1, h2, ?_⟩
  rw [h2]
  intro h
  have := congrArg List.length h
  simp only [List.length_cons, List.length_append, List.length_replicate, List.length_nil] at this
  omega

/-- Claim C27 does not hold of the code: a message of 65536 bytes fits in one packet, and for
the packet that `modutil_create_mysql_err_msg` builds from it `extract_error` returns the
marker and the state without the message. `extract_error_message` is documented to leave the
length of the message in `*pnMessage`, which is a `uint16_t` and holds that length modulo
`2 ^ 16` only. -/
theorem extract_error_loses_long_message :
    ∃ buf, modutil_create_mysql_err_msg 1 0 1927 (some (bytes "08S01"))
          (some (List.replicate 65536 97)) = some buf
      ∧ extract_error [buf] = 0x23 :: bytes "08S01" ++ [58, 32]
      ∧ extract_error [buf] ≠ 0x23 :: bytes "08S01" ++ [58, 32] ++ List.replicate 65536 97 :=
  extract_error_of_long_message 1 0 1927 (bytes "08S01") (by decide) 65536 97 rfl

/-- Messages of fewer than 65536 bytes are returned in full. For every error number,
five-byte SQLSTATE `s` and message `m` of fewer than 65536 bytes, `extract_error` applied to
the packet built by `modutil_create_mysql_err_msg` returns `#`, `s`, a colon, a blank and `m`. Applied to a
complete ERR packet without the marker `#` after the error number and with fewer than 65536
bytes after it, it returns those bytes; applied to a packet whose first payload byte is not
`0xFF` it returns the empty string. -/
theorem extract_error_text (packet_number affected_rows merrno : Int) (s m : List Nat)
    (hs : s.length = 5) (hm : m.length < 65536) :
    (∃ buf, modutil_create_mysql_err_msg packet_number affected_rows merrno (some s) (some m)
        = some buf
      ∧ extract_error [buf] = 0x23 :: s ++ [58, 32] ++ m)
    ∧ (∀ p : List Nat, p.length = gw_mysql_get_byte3 p + 4 → 8 ≤ p.length →
        p.getD 4 0 = 0xff → p.getD 7 0 ≠ 0x23 → p.length - 7 < 65536 →
        extract_error [p] = p.drop 7)
    ∧ ∀ q : List Nat, q.getD 4 0 ≠ 0xff → extract_error [q] = [] := by
  refine ⟨?_, ?_, extract_error_not_error⟩
  · obtain ⟨buf, h1, h2⟩ := extract_error_of_created packet_number affected_rows merrno s m hs
      (by omega)
    rw [Nat.mod_eq_of_lt hm, List.take_length] at h2
    exact ⟨buf, h1, h2⟩
  · intro p hlen h8 herr hmark hshort
    rw [extract_error_unmarked p hlen h8 herr hmark, Nat.mod_eq_of_lt hshort]
    apply List.take_of_length_le
    simp only [List.length_drop]
    omega

/-- An instance of `extract_error_text`: error 1927 with SQLSTATE `08S01` and the message
`Lost`; the same packet without marker and state; and an OK packet. -/
theorem extract_error_text_example :
    extract_error [(modutil_create_mysql_err_msg 1 0 1927 (some (bytes "08S01"))
        (some (bytes "Lost"))).getD []] = bytes "#08S01: Lost"
    ∧ extract_error [[7, 0, 0, 1, 0xff, 0x87, 0x07, 0x4c, 0x6f, 0x73, 0x74]] = bytes "Lost"
    ∧ extract_error [[7, 0, 0, 1, 0, 0, 0, 2, 0, 0, 0]] = [] := by
  obtain ⟨⟨buf, h1, h2⟩, h3, h4⟩ := extract_error_text 1 0 1927 (bytes "08S01") (bytes "Lost")
    (by decide) (by decide)
  refine ⟨?_, ?_, h4 _ (by decide)⟩
  · rw [h1, Option.getD_some, h2]
    decide
  · rw [h3 _ (by decide) (by decide) (by decide) (by decide) (by decide)]
    decide

/-! ### Canonicalisation: the output fits the input -/

/-- An iteration of the loop writes at most as many bytes as it consumes. -/
theorem canonical_step_writes (c : Nat) (rest acc it acc' : List Nat)
    (h : canonical_step c rest acc = (some it, acc')) :
    acc'.length + it.length ≤ acc.length + rest.length + 1 := by
  have hl1 := skip_block_comment_length (c :: rest)
  have hl2 := skip_line_comment_length (c :: rest)
  have hl3 := find_char_length_le rest c
  have hl4 := find_char_length_le rest 96
  unfold canonical_step at h
  repeat' split at h
  all_goals first
    | (simp only [Prod.mk.injEq, reduceCtorEq, false_and] at h; done)
    | (simp only [Prod.mk.injEq, Option.some.injEq] at h
       obtain ⟨rfl, rfl⟩ := h
       simp_all
       try omega)

/-- An iteration that leaves the loop by `break` writes at most one byte. -/
theorem canonical_step_writes_break (c : Nat) (rest acc acc' : List Nat)
    (h : canonical_step c rest acc = (none, acc')) :
    acc'.length ≤ acc.length + 1 := by
  unfold canonical_step at h
  repeat' split at h
  all_goals first
    | (simp only [Prod.mk.injEq, reduceCtorEq, false_and] at h; done)
    | (simp only [Prod.mk.injEq, true_and] at h
       subst h
       simp)

/-- The write index never passes the read position: what the loop leaves in `rval` is no
longer than what was written before plus the bytes still to be read. -/
theorem canonical_loop_writes : ∀ (fuel : Nat) (it acc : List Nat),
    (canonical_loop fuel it acc).length ≤ acc.length + it.length := by
  intro fuel
  induction fuel with
  | zero => intro it acc; simp [canonical_loop]
  | succ fuel ih =>
    intro it acc
    rcases it with _ | ⟨c, rest⟩
    · simp [canonical_loop]
    · rw [canonical_loop]
      rcases hs : canonical_step c rest acc with ⟨_ | it', acc'⟩
      · have := canonical_step_writes_break c rest acc acc' hs
        simp only [List.length_cons]
        omega
      · have h1 := canonical_step_writes c rest acc it' acc' hs
        have h2 := ih it' acc'
        simp only [List.length_cons]
        omega

theorem dropWhile_head_not {α : Type} (p : α → Bool) (l : List α) :
    ∀ x ∈ (l.dropWhile p).head?, p x = false := by
  induction l with
  | nil => simp
  | cons a l ih =>
    by_cases ha : p a = true
    · simpa [List.dropWhile_cons, ha] using ih
    · intro x hx
      simp only [List.dropWhile_cons, ha, Bool.false_eq_true, if_false, List.head?_cons,
        Option.mem_def, Option.some.injEq] at hx
      subst hx
      simpa using ha

/-- Claim C29. The canonical form is no longer than the SQL text of the buffer, and it does
not end in whitespace. In the loop the write index stays at or below the number of bytes
read: an iteration at the byte `c` that goes on writes no more bytes than it passes, one that
leaves the loop writes at most one byte, and so from every state the written part at the end
of the loop is no longer than the part written so far and the bytes still unread together. -/
theorem get_canonical_fits (querybuf : List Nat) :
    (get_canonical querybuf).length ≤ (querybuf.drop (MYSQL_HEADER_LEN + 1)).length
    ∧ (∀ x ∈ (get_canonical querybuf).getLast?, is_space x = false)
    ∧ (∀ (c : Nat) (rest acc it acc' : List Nat),
        canonical_step c rest acc = (some it, acc') →
        acc'.length + it.length ≤ acc.length + (c :: rest).length)
    ∧ (∀ (c : Nat) (rest acc acc' : List Nat),
        canonical_step c rest acc = (none, acc') →
        acc'.length ≤ acc.length + 1)
    ∧ ∀ (fuel : Nat) (it acc : List Nat),
        (canonical_loop fuel it acc).length ≤ acc.length + it.length := by
  refine ⟨?_, ?_, ?_, canonical_step_writes_break, canonical_loop_writes⟩
  · unfold get_canonical get_canonical_sql
    rw [List.length_reverse]
    have h1 := (List.dropWhile_sublist is_space
      (l := canonical_loop (querybuf.drop (MYSQL_HEADER_LEN + 1)).length
        (querybuf.drop (MYSQL_HEADER_LEN + 1)) [])).length_le
    have h2 := canonical_loop_writes (querybuf.drop (MYSQL_HEADER_LEN + 1)).length
      (querybuf.drop (MYSQL_HEADER_LEN + 1)) []
    simp only [List.length_nil, Nat.zero_add] at h2
    omega
  · unfold get_canonical get_canonical_sql
    rw [List.getLast?_reverse]
    exact dropWhile_head_not is_space _
  · intro c rest acc it acc' h
    have := canonical_step_writes c rest acc it acc' h
    simp only [List.length_cons]
    omega

/-! ### Canonicalisation: the assertion of `probe_number` -/

theorem getLast?_cons_cons_of_some (c n : Nat) (rest : List Nat) (x : Nat)
    (h : rest.getLast? = some x) : (c :: n :: rest).getLast? = some x := by
  rcases rest with _ | ⟨r, rs⟩
  · simp at h
  · rw [List.getLast?_cons_cons, List.getLast?_cons_cons]
    exact h

/-- The checked loop of `probe_number` gives what the loop gives, unless it reads the byte
after a period that ends the input. -/
theorem probe_number_loop_checked_spec : ∀ (k : Nat) (l : List Nat) (is_hex allow_hex : Bool)
    (pos second : Nat), l.length ≤ k →
    probe_number_loop_checked l is_hex allow_hex pos second
        = .ok (probe_number_loop l is_hex allow_hex pos second)
    ∨ (probe_number_loop_checked l is_hex allow_hex pos second = .fault .out_of_bounds
        ∧ l.getLast? = some 46) := by
  intro k
  induction k with
  | zero =>
    intro l is_hex allow_hex pos second hl
    have : l = [] := List.length_eq_zero.mp (by omega)
    subst this
    left
    simp [probe_number_loop_checked, probe_number_loop]
  | succ k ih =>
    intro l is_hex allow_hex pos second hl
    rcases l with _ | ⟨c, _ | ⟨n, rest⟩⟩
    · left
      simp [probe_number_loop_checked, probe_number_loop]
    · simp only [probe_number_loop_checked, probe_number_loop]
      split_ifs with h1 h2 h3 h4
      · left; rfl
      · left; rfl
      · left; rfl
      · right
        exact ⟨rfl, by simpa using h4⟩
      · left; rfl
    · have hl1 : (n :: rest).length ≤ k := by simp only [List.length_cons] at hl ⊢; omega
      have hl2 : rest.length ≤ k := by simp only [List.length_cons] at hl; omega
      simp only [probe_number_loop_checked, probe_number_loop]
      split_ifs with h1 h2 h3 h4 h5 h6 h7 h8
      all_goals first
        | (left; rfl)
        | (rcases ih (n :: rest) is_hex allow_hex (pos + 1) pos hl1 with h | ⟨h, hlast⟩
           · exact Or.inl h
           · exact Or.inr ⟨h, by rw [List.getLast?_cons_cons]; exact hlast⟩)
        | (rcases ih (n :: rest) false true (pos + 1) pos hl1 with h | ⟨h, hlast⟩
           · exact Or.inl h
           · exact Or.inr ⟨h, by rw [List.getLast?_cons_cons]; exact hlast⟩)
        | (rcases ih rest is_hex allow_hex (pos + 2) (pos + 1) hl2 with h | ⟨h, hlast⟩
           · exact Or.inl h
           · exact Or.inr ⟨h, getLast?_cons_cons_of_some c n rest 46 hlast⟩)
        | (exfalso; simp_all)

/-- After one or more digits a period that ends the input makes the checked loop read the
byte behind the input. -/
theorem probe_number_loop_checked_period : ∀ (ds : List Nat) (is_hex : Bool) (pos second : Nat),
    (∀ d ∈ ds, is_digit d = true) →
    probe_number_loop_checked (ds ++ [46]) is_hex false pos second = .fault .out_of_bounds := by
  intro ds
  induction ds with
  | nil =>
    intro is_hex pos second _
    cases is_hex <;> simp [probe_number_loop_checked, is_digit]
  | cons d ds ih =>
    intro is_hex pos second hds
    have hd : is_digit d = true := hds d (by simp)
    have hrest := ih is_hex (pos + 1) pos (fun x hx => hds x (by simp [hx]))
    rcases hds' : ds ++ [46] with _ | ⟨n, rest⟩
    · simp at hds'
    · rw [hds'] at hrest
      simp only [List.cons_append, hds', probe_number_loop_checked, hd, Bool.true_or, if_true]
      exact hrest

theorem canonical_loop_checked_spec : ∀ (fuel : Nat) (it acc : List Nat),
    canonical_loop_checked fuel it acc = .ok (canonical_loop fuel it acc)
    ∨ canonical_loop_checked fuel it acc = .fault .out_of_bounds := by
  intro fuel
  induction fuel with
  | zero => intro it acc; left; simp [canonical_loop_checked, canonical_loop]
  | succ fuel ih =>
    intro it acc
    rcases it with _ | ⟨c, rest⟩
    · left; simp [canonical_loop_checked, canonical_loop]
    · have hstep : canonical_step_checked c rest acc = .ok (canonical_step c rest acc)
          ∨ canonical_step_checked c rest acc = .fault .out_of_bounds := by
        unfold canonical_step_checked
        split
        · rename_i hd
          have hdig : is_digit c = true := by
            simp only [Bool.and_eq_true] at hd
            exact hd.1
          unfold probe_number_checked
          rw [if_pos hdig]
          rcases probe_number_loop_checked_spec rest.length rest (c == 48) false 1 0 (le_refl _)
            with h | ⟨h, -⟩
          · rw [h]; exact Or.inl rfl
          · rw [h]; exact Or.inr rfl
        · exact Or.inl rfl
      rw [canonical_loop_checked, canonical_loop]
      rcases hstep with h | h
      · rw [h]
        rcases hs : canonical_step c rest acc with ⟨_ | it', acc'⟩
        · exact Or.inl rfl
        · exact ih it' acc'
      · rw [h]
        exact Or.inr rfl

/-- Claim C30. With the reads and the assertion of `probe_number` checked, a number followed
by a period that ends the input makes `probe_number` read the byte behind the input: after
the test `next_it != end && !is_digit(*next_it)`, which does not read when `next_it` is
`end`, `mxb_assert(is_digit(*next_it))` reads `*next_it`. So `get_canonical` on the text
`SELECT 1.` reads outside the input, and its assertion holds only if the byte found there
is a digit. A text that ends in `1e` is read inside the input. Whenever the checked
execution gives a result it is the canonical form, and no assertion of `probe_number` fails
on a byte of the input. -/
theorem get_canonical_checked_trailing_period :
    (∀ (c : Nat) (ds : List Nat), is_digit c = true → (∀ d ∈ ds, is_digit d = true) →
      probe_number_checked c (ds ++ [46]) = .fault .out_of_bounds)
    ∧ get_canonical_checked (com_query (bytes "SELECT 1.")) = .fault .out_of_bounds
    ∧ get_canonical_checked (com_query (bytes "SELECT 1e")) = .ok (bytes "SELECT e")
    ∧ get_canonical_checked (com_query (bytes "SELECT 1.5e-3, 'a'"))
        = .ok (bytes "SELECT ?, ?")
    ∧ ∀ querybuf : List Nat,
        get_canonical_checked querybuf = .ok (get_canonical querybuf)
        ∨ get_canonical_checked querybuf = .fault .out_of_bounds := by
  refine ⟨?_, by decide, by decide, by decide, ?_⟩
  · intro c ds hc hds
    unfold probe_number_checked
    rw [if_pos hc]
    exact probe_number_loop_checked_period ds (c == 48) 1 0 hds
  · intro querybuf
    unfold get_canonical_checked get_canonical get_canonical_sql
    rcases canonical_loop_checked_spec (querybuf.drop (MYSQL_HEADER_LEN + 1)).length
      (querybuf.drop (MYSQL_HEADER_LEN + 1)) [] with h | h
    · rw [h]; exact Or.inl rfl
    · rw [h]; exact Or.inr rfl

/-! ### Canonicalisation: when a second pass changes nothing -/

theorem comment_met_fuel_succ : ∀ (fuel : Nat) (it acc : List Nat), it.length ≤ fuel →
    comment_met (fuel + 1) it acc = comment_met fuel it acc := by
  intro fuel
  induction fuel with
  | zero =>
    intro it acc h
    have : it = [] := List.length_eq_zero.mp (by omega)
    subst this; simp [comment_met]
  | succ fuel ih =>
    intro it acc h
    match it with
    | [] => simp [comment_met]
    | c :: rest =>
      rw [comment_met, comment_met]
      rcases hs : canonical_step c rest acc with ⟨_ | it', acc'⟩
      · rfl
      · have := canonical_step_length c rest acc it' acc' hs
        simp only [List.length_cons] at h
        simp only []
        rw [ih it' acc' (by omega)]

theorem comment_met_fuel (it acc : List Nat) : ∀ (fuel : Nat), it.length ≤ fuel →
    comment_met fuel it acc = comment_run it acc := by
  intro fuel h
  obtain ⟨k, rfl⟩ : ∃ k, fuel = it.length + k := ⟨fuel - it.length, by omega⟩
  induction k with
  | zero => rfl
  | succ k ih =>
    rw [← Nat.add_assoc, comment_met_fuel_succ _ _ _ (by omega)]
    exact ih (by omega)

theorem comment_run_cons (c : Nat) (rest acc : List Nat) :
    comment_run (c :: rest) acc =
      if comment_start c rest then true
      else
        match canonical_step c rest acc with
        | (none, _) => false
        | (some it, acc') => comment_run it acc' := by
  rw [comment_run, List.length_cons, comment_met]
  rcases hs : canonical_step c rest acc with ⟨_ | it', acc'⟩
  · rfl
  · simp only []
    rw [comment_met_fuel it' acc' rest.length (canonical_step_length c rest acc it' acc' hs)]

/-- A run that takes no comment branch takes none at its first byte, and none from the state
its first iteration moves to. -/
theorem comment_run_step (c : Nat) (rest acc it acc' : List Nat)
    (h : comment_run (c :: rest) acc = false)
    (hs : canonical_step c rest acc = (some it, acc')) :
    comment_start c rest = false ∧ comment_run it acc' = false := by
  rw [comment_run_cons, hs] at h
  cases hc : comment_start c rest with
  | true => simp [hc] at h
  | false => simpa [hc] using h

theorem comment_start_of_not_opener (c : Nat) (t : List Nat)
    (h47 : c ≠ 47) (h35 : c ≠ 35) (h45 : c ≠ 45) : comment_start c t = false := by
  simp [comment_start, h47, h35, h45]

/-- One of the bytes `/`, `#`, `-` at which no comment branch is taken is written: by the
branch of an executable comment or by the last branch of the loop. -/
theorem canonical_step_opener (c : Nat) (t acc : List Nat) (hc : c = 47 ∨ c = 35 ∨ c = 45)
    (h : comment_start c t = false) :
    canonical_step c t acc = (some t, c :: acc) := by
  rcases hc with rfl | rfl | rfl
  · cases hn : is_next (47 :: t) [47, 42] with
    | false => simp [canonical_step, is_special, is_space, is_digit, hn]
    | true =>
      rcases hd : t.drop 1 with _ | ⟨s, u⟩
      · simp [comment_start, hn, hd] at h
      · have hs : (s != 33 && s != 77) = false := by
          simpa [comment_start, hn, hd] using h
        simp only [canonical_step, is_special, is_space, is_digit, hn, hd, hs]
        simp
  · have h2 : (is_next (35 :: t) [35, 32] || is_next (35 :: t) [45, 45, 32]) = false := by
      simpa [comment_start] using h
    simp only [canonical_step, is_special, is_space, is_digit, h2]
    simp
  · have h2 : (is_next (45 :: t) [35, 32] || is_next (45 :: t) [45, 45, 32]) = false := by
      simpa [comment_start] using h
    simp only [canonical_step, is_special, is_space, is_digit, h2]
    simp

/-- Reading back what was written: when a run over the written bytes and what follows them
takes no comment branch, it reaches the state in which the bytes were written, and takes no
comment branch from there on. -/
theorem canonical_run_replay (acc : List Nat) (hw : Written acc) :
    ∀ t, comment_run (acc.reverse ++ t) [] = false →
      canonical_run (acc.reverse ++ t) [] = canonical_run t acc ∧ comment_run t acc = false := by
  induction hw with
  | nil => intro t h; exact ⟨rfl, h⟩
  | normal c acc hs _ ih =>
    intro t hno
    simp only [List.reverse_cons, List.append_assoc, List.singleton_append] at hno ⊢
    obtain ⟨h1, h2⟩ := ih (c :: t) hno
    have hstep := canonical_step_normal c t acc hs
    refine ⟨?_, (comment_run_step _ _ _ _ _ h2 hstep).2⟩
    rw [h1, canonical_run_cons, hstep]
  | escape c acc _ ih =>
    intro t hno
    have e : (c :: 92 :: acc).reverse ++ t = acc.reverse ++ (92 :: c :: t) := by simp
    rw [e] at hno ⊢
    obtain ⟨h1, h2⟩ := ih (92 :: c :: t) hno
    have hstep := canonical_step_escape c t acc
    refine ⟨?_, (comment_run_step _ _ _ _ _ h2 hstep).2⟩
    rw [h1, canonical_run_cons, hstep]
  | space l acc hl _ ih =>
    intro t hno
    rw [List.reverse_cons, List.append_assoc, List.singleton_append] at hno ⊢
    obtain ⟨h1, h2⟩ := ih (32 :: t) hno
    have hstep := canonical_step_space l t acc hl
    refine ⟨?_, (comment_run_step _ _ _ _ _ h2 hstep).2⟩
    rw [h1, canonical_run_cons, hstep]
  | digit c l acc hd hl _ ih =>
    intro t hno
    rw [List.reverse_cons, List.append_assoc, List.singleton_append] at hno ⊢
    obtain ⟨h1, h2⟩ := ih (c :: t) hno
    have hstep := canonical_step_digit c l t acc hd hl
    refine ⟨?_, (comment_run_step _ _ _ _ _ h2 hstep).2⟩
    rw [h1, canonical_run_cons, hstep]
  | other c acc hc _ ih =>
    intro t hno
    simp only [List.reverse_cons, List.append_assoc, List.singleton_append] at hno ⊢
    obtain ⟨h1, h2⟩ := ih (c :: t) hno
    have hcs : comment_start c t = false := by
      rw [comment_run_cons] at h2
      cases hc : comment_start c t with
      | true => simp [hc] at h2
      | false => rfl
    have hstep := canonical_step_opener c t acc hc hcs
    refine ⟨?_, (comment_run_step _ _ _ _ _ h2 hstep).2⟩
    rw [h1, canonical_run_cons, hstep]
  | quoted body acc hcl _ ih =>
    intro t hno
    have e : (96 :: (body.reverse ++ 96 :: acc)).reverse ++ t
        = acc.reverse ++ (96 :: (body ++ 96 :: t)) := by simp
    rw [e] at hno ⊢
    obtain ⟨h1, h2⟩ := ih _ hno
    have hstep := canonical_step_quoted body t acc hcl
    refine ⟨?_, (comment_run_step _ _ _ _ _ h2 hstep).2⟩
    rw [h1, canonical_run_cons, hstep]

/-- A canonical text over which a pass removes no comment is a fixed point of the SQL-text
part of `get_canonical`. -/
theorem get_canonical_sql_fixed (sql : List Nat)
    (hno : removes_comment (get_canonical_sql sql) = false) :
    get_canonical_sql (get_canonical_sql sql) = get_canonical_sql sql := by
  have hfin : WrittenOrCut (canonical_run sql []) :=
    canonical_loop_written sql.length sql [] Written.nil
  unfold removes_comment at hno
  rw [get_canonical_sql_eq_run sql] at hno ⊢
  rcases written_trim _ hfin with ⟨hw, hhead⟩ | ⟨acc, hacc, hw⟩
  · have h1 := (canonical_run_replay _ hw [] (by simpa using hno)).1
    rw [List.append_nil, canonical_run_nil] at h1
    rw [get_canonical_sql_eq_run, h1, dropWhile_eq_self_of_head _ hhead]
  · rw [hacc] at hno ⊢
    have h1 := (canonical_run_replay acc hw [92] (by simpa using hno)).1
    rw [canonical_run_cons] at h1
    have hstep : canonical_step 92 [] acc = (none, 92 :: acc) := by
      simp [canonical_step, is_special]
    rw [hstep] at h1
    simp only [] at h1
    have e : (92 :: acc).reverse = acc.reverse ++ [92] := by simp
    rw [get_canonical_sql_eq_run, e, h1]
    have : is_space 92 = false := by decide
    simp [List.dropWhile_cons, this]

/-- An iteration that takes a comment branch writes nothing. -/
theorem canonical_step_comment (c : Nat) (rest acc : List Nat)
    (h : comment_start c rest = true) : (canonical_step c rest acc).2 = acc := by
  have hc : c = 47 ∨ c = 35 ∨ c = 45 := by
    by_contra hne
    push_neg at hne
    rw [comment_start_of_not_opener c rest hne.1 hne.2.1 hne.2.2] at h
    exact Bool.false_ne_true h
  rcases hc with rfl | rfl | rfl
  · have hn : is_next (47 :: rest) [47, 42] = true := by
      cases hn : is_next (47 :: rest) [47, 42] with
      | true => rfl
      | false => simp [comment_start, hn] at h
    rcases hd : rest.drop 1 with _ | ⟨s, u⟩
    · simp only [canonical_step, is_special, is_space, is_digit, hn, hd]
      simp
    · have hs : (s != 33 && s != 77) = true := by
        simpa [comment_start, hn, hd] using h
      simp only [canonical_step, is_special, is_space, is_digit, hn, hd, hs]
      rcases skip_block_comment (47 :: rest) with _ | ⟨y, it⟩ <;> simp
  · have h2 : (is_next (35 :: rest) [35, 32] || is_next (35 :: rest) [45, 45, 32]) = true := by
      simpa [comment_start] using h
    simp only [canonical_step, is_special, is_space, is_digit, h2]
    rcases skip_line_comment (35 :: rest) with _ | ⟨y, it⟩ <;> simp
  · have h2 : (is_next (45 :: rest) [35, 32] || is_next (45 :: rest) [45, 45, 32]) = true := by
      simpa [comment_start] using h
    simp only [canonical_step, is_special, is_space, is_digit, h2]
    rcases skip_line_comment (45 :: rest) with _ | ⟨y, it⟩ <;> simp

/-- A run that takes a comment branch writes fewer bytes than it reads. -/
theorem comment_met_shortens : ∀ (fuel : Nat) (it acc : List Nat),
    comment_met fuel it acc = true →
    (canonical_loop fuel it acc).length < acc.length + it.length := by
  intro fuel
  induction fuel with
  | zero => intro it acc h; simp [comment_met] at h
  | succ fuel ih =>
    intro it acc h
    rcases it with _ | ⟨c, rest⟩
    · simp [comment_met] at h
    · rw [comment_met] at h
      rw [canonical_loop]
      cases hcs : comment_start c rest with
      | true =>
        have hacc := canonical_step_comment c rest acc hcs
        rcases hs : canonical_step c rest acc with ⟨_ | it', acc'⟩
        · rw [hs] at hacc
          simp only [] at hacc
          subst hacc
          simp only [List.length_cons]
          omega
        · rw [hs] at hacc
          simp only [] at hacc
          subst hacc
          have h1 := canonical_step_length c rest acc' it' acc' hs
          have h2 := canonical_loop_writes fuel it' acc'
          simp only [List.length_cons]
          omega
      | false =>
        rw [hcs] at h
        rcases hs : canonical_step c rest acc with ⟨_ | it', acc'⟩
        · rw [hs] at h
          simp at h
        · rw [hs] at h
          have h1 := canonical_step_writes c rest acc it' acc' hs
          have h2 := ih it' acc' (by simpa using h)
          simp only [List.length_cons]
          omega

/-- A pass that removes a comment returns less than it was given. -/
theorem get_canonical_sql_shortens (w : List Nat) (h : removes_comment w = true) :
    (get_canonical_sql w).length < w.length := by
  have h1 := comment_met_shortens w.length w [] h
  have h2 : ((canonical_loop w.length w []).dropWhile is_space).length
      ≤ (canonical_loop w.length w []).length :=
    (List.dropWhile_sublist _).length_le
  simp only [get_canonical_sql, List.length_reverse]
  simp only [List.length_nil, Nat.zero_add] at h1
  omega

/-- Claim C2, amended. Canonicalising a canonical form again returns it unchanged exactly when
the second pass removes no comment from it: `get_canonical` is idempotent on the SQL text `s`
if and only if, on the canonical form of `s`, no iteration of its loop takes the branch of a
block comment that is not executable (`/*` not followed by `!` or `M`) or that of an
end-of-line comment (a hash sign or two minus signs, followed by a blank). Comment openers
inside backtick-quoted identifiers and executable comments are read without taking these
branches. -/
theorem get_canonical_idempotent (s : List Nat) :
    get_canonical (com_query (get_canonical (com_query s))) = get_canonical (com_query s)
      ↔ removes_comment (get_canonical (com_query s)) = false := by
  rw [get_canonical_com_query, get_canonical_com_query]
  constructor
  · intro h
    cases hr : removes_comment (get_canonical_sql s) with
    | false => rfl
    | true =>
      have := get_canonical_sql_shortens _ hr
      rw [h] at this
      exact absurd this (Nat.lt_irrefl _)
  · exact get_canonical_sql_fixed s

/-- A second pass changes nothing on the canonical form of a statement with strings, numbers,
a subtraction, a block comment and a quoted identifier. -/
theorem get_canonical_twice_example :
    get_canonical (com_query (get_canonical (com_query (bytes
        "SELECT  a - 1, 'x' FROM `t` /* c */ WHERE b = 0x1f"))))
      = get_canonical (com_query (bytes
        "SELECT  a - 1, 'x' FROM `t` /* c */ WHERE b = 0x1f")) := by
  decide

/-- Idempotence on a statement whose canonical form keeps an executable comment and a quoted
identifier with comment openers in it: the second pass reads `/*!` and the identifier without
removing anything. -/
theorem get_canonical_idempotent_example :
    get_canonical (com_query (bytes "SELECT /*!40101 a */ FROM `x /* y -- z`  WHERE b = 1"))
      = bytes "SELECT /*!? a */ FROM `x /* y -- z` WHERE b = ?"
    ∧ get_canonical (com_query (get_canonical (com_query (bytes
        "SELECT /*!40101 a */ FROM `x /* y -- z`  WHERE b = 1"))))
      = get_canonical (com_query (bytes
        "SELECT /*!40101 a */ FROM `x /* y -- z`  WHERE b = 1")) :=
  ⟨by decide, (get_canonical_idempotent _).mpr (by decide)⟩

end MaxScale
